import Mathlib

/-!
# BGSL block graphs: position codec and adjacency stores

A shallow embedding of `src/src/BlockGraphCRTP.h`:

* `BlockGraphBaseCRTP::compute_diagonal_position` and `BlockGraphBaseCRTP::pos_to_ij`
  (the position codec),
* `BlockGraphCRTP` (matrix-backed store) and `BlockGraphAdjCRTP` (vector-backed store)
  with their constructors, `set_graph`, `set_empty_graph`, `add_link`, `remove_link`,
  the link query `operator()`, `find_neighbours` and `compute_nlinks_nblocks`.

Machine integers are natural numbers; `unsigned int` results are reduced modulo `2^32`
and `std::size_t` results modulo `2^64` at the places where the C++ expression can wrap.
A `throw std::runtime_error(..)` is the error `Err.runtime_error`; an unchecked read or
write past the end of a `std::vector` is the error `Err.undefined_behaviour`.
-/

namespace BGSL

/-- Outcomes other than a normal return. -/
inductive Err where
  | runtime_error
  | undefined_behaviour
  deriving DecidableEq, Repr

deriving instance DecidableEq for Except

/-- Reduction of a value to `unsigned int` (32 bits). -/
def u32 (x : Nat) : Nat := x % 4294967296

/-- Reduction of a value to `std::size_t` (64 bits). -/
def u64 (x : Nat) : Nat := x % 18446744073709551616

/-- Modelled from the spec: the `Groups` class (`Groups.h` is not among the sources).
The fields are the observations the block graphs make of it: `get_n_groups()`,
`get_n_elements()`, `get_n_singleton()`, `get_pos_singleton()`, `get_group(i)` and the
lookup `map_of_indeces.find(i)`. -/
structure Groups where
  n_groups : Nat
  n_elements : Nat
  n_singleton : Nat
  pos_singleton : List Nat
  get_group : Nat → List Nat
  map_of_indeces : Nat → Option Nat

/-- Modelled from the spec: `Groups::get_group_size(i)`, the number of nodes of group `i`. -/
def Groups.get_group_size (g : Groups) (i : Nat) : Nat := (g.get_group i).length

/-- The singleton bookkeeping of a partition is coherent: the number of groups is an
`unsigned int`, `get_pos_singleton()` is strictly increasing, lists group indices only,
and `get_n_singleton()` is its length. -/
def Groups.SingletonsOK (g : Groups) : Prop :=
  g.n_groups ≤ 4294967295 ∧
  g.pos_singleton.Pairwise (· < ·) ∧
  (∀ s ∈ g.pos_singleton, s < g.n_groups) ∧
  g.n_singleton = g.pos_singleton.length

instance (g : Groups) : Decidable g.SingletonsOK := by
  unfold Groups.SingletonsOK; infer_instance

/-- A valid partition of the nodes `0 .. n_elements-1` into `n_groups` groups: coherent
singleton bookkeeping, the singleton positions are exactly the groups of size one, every
group is a strictly increasing list of nodes, and `map_of_indeces` sends each node to the
one group that holds it. -/
def Groups.Valid (g : Groups) : Prop :=
  g.SingletonsOK ∧
  g.n_elements ≤ 4294967295 ∧
  (∀ i, i < g.n_groups → (i ∈ g.pos_singleton ↔ (g.get_group i).length = 1)) ∧
  (∀ i, i < g.n_groups → (g.get_group i).Pairwise (· < ·)) ∧
  (∀ i, i < g.n_groups → g.get_group i ≠ []) ∧
  (∀ i, i < g.n_groups → ∀ n ∈ g.get_group i, n < g.n_elements ∧ g.map_of_indeces n = some i) ∧
  (∀ n, n < g.n_elements →
    ∃ i, i < g.n_groups ∧ g.map_of_indeces n = some i ∧ n ∈ g.get_group i)

instance (g : Groups) : Decidable g.Valid := by
  unfold Groups.Valid; infer_instance

/-- Number of cells of the compressed store, `M(M-1)/2 + M - S`. -/
def n_stored (g : Groups) : Nat :=
  g.n_groups * (g.n_groups - 1) / 2 + g.n_groups - g.n_singleton

/-- The cells of the compressed store: the strict upper triangle and the diagonal cells of
the groups that are not singletons. -/
def StoredCell (g : Groups) (r c : Nat) : Prop :=
  (r < c ∧ c < g.n_groups) ∨ (r = c ∧ c < g.n_groups ∧ r ∉ g.pos_singleton)

instance (g : Groups) (r c : Nat) : Decidable (StoredCell g r c) := by
  unfold StoredCell; infer_instance

/-- `BlockGraphBaseCRTP::compute_diagonal_position`.  The accumulator is a `std::size_t`;
`get_n_groups() - k` is evaluated in `std::size_t` as well. -/
def compute_diagonal_position (g : Groups) (i : Nat) : Nat :=
  if i = 0 then 0
  else
    let res := (List.range i).foldl
      (fun res k => u64 (res + u64 (g.n_groups + 18446744073709551616 - k))) 0
    if g.n_singleton ≠ 0 then
      u64 (res + 18446744073709551616 - g.pos_singleton.countP (fun pos_s => pos_s ≤ i))
    else res

/-- `get_possible_block_links()` of both graph classes.  The source evaluates
`0.5*M*(M-1) + M - S` in double precision and returns it as `unsigned int`.  The value is
the exact one as long as it fits in 32 bits.  From `2^32` on the conversion of the double
is not defined by the language; the model takes what the usual implementations return,
the value modulo `2^32`. -/
def get_possible_block_links (g : Groups) : Nat :=
  u32 (g.n_groups * (g.n_groups - 1) / 2 + g.n_groups - g.n_singleton)

/-- `get_size()`: the number of groups. -/
def get_size (g : Groups) : Nat := g.n_groups

/-- The `for(h = 0; h < last; ++h)` loop of `pos_to_ij`; `fuel` is `last - h`.  `none`
means the loop ran to its end without returning. -/
def pos_to_ij_loop (g : Groups) (pos extra last : Nat) :
    Nat → Nat → Nat → Option (Nat × Nat)
  | 0, _, _ => none
  | fuel + 1, h, cde_old =>
    let cde_new := compute_diagonal_position g (h + 1)
    if pos = cde_old then some (u32 h, u32 h)
    else if pos = cde_new then
      if (h + 1) ∉ g.pos_singleton then some (u32 (h + 1), u32 (h + 1))
      else some (u32 h, u32 last)
    else if cde_old < pos ∧ pos < cde_new then
      if h = 0 then some (u32 h, u32 (pos - cde_old + h + extra))
      else some (u32 h, u32 (pos - cde_old + h))
    else pos_to_ij_loop g pos extra last fuel (h + 1) cde_new

/-- `BlockGraphBaseCRTP::pos_to_ij`. -/
def pos_to_ij (g : Groups) (pos : Nat) : Except Err (Nat × Nat) :=
  if pos > get_possible_block_links g then .error .runtime_error
  else if pos = 0 then
    if 0 ∉ g.pos_singleton then .ok (0, 0) else .ok (0, 1)
  else
    let extra := if 0 ∉ g.pos_singleton then 0 else 1
    let last := u32 (get_size g + 4294967295)
    match pos_to_ij_loop g pos extra last last 0 0 with
    | some rc => .ok rc
    | none => .ok (u32 last, u32 last)


/-- The expression `M*(M-1)/2 + M - this->n_singleton` of the constructors and of
`set_graph`, evaluated in `unsigned int` arithmetic as in the source. -/
def coherent_size (g : Groups) : Nat :=
  u32 (u32 (u32 (g.n_groups * u32 (g.n_groups + 4294967295)) / 2 + g.n_groups)
    + 4294967296 - g.n_singleton)

/-- `Adj = std::vector<T>` with `T = unsigned int`: unchecked read `A[k]`. -/
def Adj.read (A : List Nat) (k : Nat) : Except Err Nat :=
  match A[k]? with
  | some v => .ok v
  | none => .error .undefined_behaviour

/-- Unchecked write `A[k] = v` on a `std::vector`. -/
def Adj.write (A : List Nat) (k v : Nat) : Except Err (List Nat) :=
  if k < A.length then .ok (A.set k v) else .error .undefined_behaviour

/-- `InnerData` of the matrix-backed graph: a dense `Eigen` matrix of `T`. -/
structure InnerData where
  rows : Nat
  cols : Nat
  coeff : Nat → Nat → Nat

/-- `InnerData::Zero(r, c)`. -/
def InnerData.Zero (r c : Nat) : InnerData := ⟨r, c, fun _ _ => 0⟩

/-- Coefficient read `data(i,j)`; outside the matrix the access is invalid. -/
def InnerData.read (m : InnerData) (i j : Nat) : Except Err Nat :=
  if i < m.rows ∧ j < m.cols then .ok (m.coeff i j) else .error .undefined_behaviour

/-- Coefficient write `data(i,j) = v`; outside the matrix the access is invalid. -/
def InnerData.write (m : InnerData) (i j v : Nat) : Except Err InnerData :=
  if i < m.rows ∧ j < m.cols then
    .ok { m with coeff := fun a b => if a = i ∧ b = j then v else m.coeff a b }
  else .error .undefined_behaviour

/-- `Neighbourhood = std::map<unsigned int, std::vector<unsigned int>>`, as the list of
its entries in increasing key order. -/
abbrev Neighbourhood := List (Nat × List Nat)

/-- `std::map::insert`: an entry whose key is already present is left as it is. -/
def Neighbourhood.insert : Neighbourhood → Nat → List Nat → Neighbourhood
  | [], k, v => [(k, v)]
  | (k', v') :: t, k, v =>
    if k = k' then (k', v') :: t
    else if k < k' then (k, v) :: (k', v') :: t
    else (k', v') :: Neighbourhood.insert t k v

/-- Lookup of a key of the map. -/
def Neighbourhood.find (m : Neighbourhood) (k : Nat) : Option (List Nat) :=
  (List.lookup k m)

/-- Insertion in a `std::set<unsigned int>`, kept as a strictly increasing list. -/
def set_insert : List Nat → Nat → List Nat
  | [], x => [x]
  | y :: t, x =>
    if x = y then y :: t
    else if x < y then x :: y :: t
    else y :: set_insert t x

/-- `find_group_idx(i)`: `map_of_indeces.find(i)->second`; dereferencing `end()` is
invalid. -/
def find_group_idx (g : Groups) (i : Nat) : Except Err Nat :=
  match g.map_of_indeces i with
  | some k => .ok k
  | none => .error .undefined_behaviour

/-- The body shared by the two `find_neighbours`: given the link query of the graph,
the sorted neighbour list of node `i`. -/
def nbd_of_node (g : Groups) (link : Nat → Nat → Except Err Nat) (i : Nat) :
    Except Err (List Nat) := do
  let idx_i ← find_group_idx g i
  (List.range (get_size g)).foldlM
    (fun temp j => do
      let l ← link idx_i j
      if l = 1 then
        if idx_i = j then
          pure (((g.get_group j).filter (fun idx => !(idx == i))).foldl set_insert temp)
        else
          pure ((g.get_group j).foldl set_insert temp)
      else pure temp)
    []

/-- The loop of the two `find_neighbours` over the nodes `0 .. n_elements-1`, inserting
into the map `nb`. -/
def find_neighbours_loop (g : Groups) (link : Nat → Nat → Except Err Nat)
    (nb : Neighbourhood) : Except Err Neighbourhood :=
  (List.range g.n_elements).foldlM
    (fun nb i => do
      let my_nbds ← nbd_of_node g link i
      pure (Neighbourhood.insert nb i my_nbds))
    nb

/-- The double loop shared by the two `compute_nlinks_nblocks`; returns
`(n_links, n_blocks)`, both `unsigned int`.  On the diagonal the source adds
`0.5*size*(size - 1)` in double precision (`size - 1` is an `unsigned int`) and converts
the sum back to `unsigned int`; the stored value is the exact one as long as it fits in
32 bits. -/
def nlinks_nblocks_loop (g : Groups) (link : Nat → Nat → Except Err Nat) :
    Except Err (Nat × Nat) := do
  let (nl, nb) ← (List.range (get_size g)).foldlM
    (fun acc i =>
      (List.range' i (get_size g - i)).foldlM
        (fun (acc : Nat × Nat) j => do
          let l ← link i j
          if l = 1 then
            let n_blocks := u32 (acc.2 + 1)
            if i = j then
              pure (u32 (acc.1 + g.get_group_size i * u32 (g.get_group_size i + 4294967295) / 2),
                n_blocks)
            else
              pure (u32 (acc.1 + u32 (g.get_group_size i * g.get_group_size j)), n_blocks)
          else pure acc)
        acc)
    (0, 0)
  pure (nl, u32 (nb + 4294967296 - g.n_singleton))

/-- State of a `BlockGraphCRTP<unsigned int>`.  The member `n_singleton` of the base
class is a copy of `ptr_groups->get_n_singleton()` and is read from `ptr_groups`. -/
structure BlockGraphCRTP where
  ptr_groups : Groups
  n_links : Nat
  n_blocks : Nat
  data : InnerData
  neighbours : Neighbourhood

namespace BlockGraphCRTP

/-- `BlockGraphCRTP::operator()(i,j) const`. -/
def link (G : BlockGraphCRTP) (i j : Nat) : Except Err Nat :=
  if i < j then G.data.read i j else G.data.read j i

/-- `BlockGraphCRTP::find_neighbours`. -/
def find_neighbours (G : BlockGraphCRTP) : Except Err BlockGraphCRTP := do
  let nb ← find_neighbours_loop G.ptr_groups G.link G.neighbours
  pure { G with neighbours := nb }

/-- `BlockGraphCRTP::compute_nlinks_nblocks`. -/
def compute_nlinks_nblocks (G : BlockGraphCRTP) : Except Err BlockGraphCRTP := do
  let (nl, nb) ← nlinks_nblocks_loop G.ptr_groups G.link
  pure { G with n_links := nl, n_blocks := nb }

/-- `BlockGraphCRTP::fillFromAdj(Adj const &)`. -/
def fillFromAdj (G : BlockGraphCRTP) (A : List Nat) : Except Err BlockGraphCRTP := do
  let M := G.ptr_groups.n_groups
  let data ← (List.range M).foldlM
    (fun data i =>
      (List.range' i (M - i)).foldlM
        (fun (data : InnerData) j =>
          if i = j then
            if i ∉ G.ptr_groups.pos_singleton then do
              let v ← Adj.read A (compute_diagonal_position G.ptr_groups i)
              data.write i j v
            else data.write i j 1
          else do
            let v ← Adj.read A (u64 (compute_diagonal_position G.ptr_groups i + (j - i)))
            data.write i j v)
        data)
    (InnerData.Zero M M)
  pure { G with data := data }

/-- The state before the body of a constructor runs: `data` is the empty matrix, the map
is empty; `n_links` and `n_blocks` are not initialised and are taken as `0`. -/
def init (Gr : Groups) : BlockGraphCRTP :=
  { ptr_groups := Gr, n_links := 0, n_blocks := 0, data := InnerData.Zero 0 0, neighbours := [] }

/-- `BlockGraphCRTP(Adj const & _A, GroupsPtr const & _Gr)`. -/
def mk_from_adj (A : List Nat) (Gr : Groups) : Except Err BlockGraphCRTP :=
  if coherent_size Gr ≠ A.length then .error .runtime_error
  else do
    let G ← fillFromAdj (init Gr) A
    let G ← G.find_neighbours
    G.compute_nlinks_nblocks

/-- `BlockGraphCRTP(InnerData const & _Mat, GroupsPtr const & _Gr)`. -/
def mk_from_matrix (Mat : InnerData) (Gr : Groups) : Except Err BlockGraphCRTP :=
  if Mat.rows ≠ Mat.cols then .error .runtime_error
  else if Gr.n_groups ≠ Mat.rows then .error .runtime_error
  else do
    let data ← Gr.pos_singleton.foldlM (fun (d : InnerData) pos => d.write pos pos 1) Mat
    let G ← ({ init Gr with data := data }).find_neighbours
    G.compute_nlinks_nblocks

/-- `BlockGraphCRTP::get_adj_list`. -/
def get_adj_list (G : BlockGraphCRTP) : Except Err (List Nat) :=
  let M := G.ptr_groups.n_groups
  (List.range M).foldlM
    (fun adj_list i =>
      (List.range' i (M - i)).foldlM
        (fun (adj_list : List Nat) j =>
          if i = j then
            if i ∉ G.ptr_groups.pos_singleton then do
              let v ← G.data.read i i
              pure (adj_list ++ [v])
            else pure adj_list
          else do
            let v ← G.data.read i j
            pure (adj_list ++ [v]))
        adj_list)
    []

/-- `BlockGraphCRTP::set_graph(Adj const &)`. -/
def set_graph (G : BlockGraphCRTP) (A : List Nat) : Except Err BlockGraphCRTP :=
  if coherent_size G.ptr_groups ≠ A.length then .error .runtime_error
  else do
    let G ← fillFromAdj G A
    let G ← ({ G with neighbours := [] }).find_neighbours
    G.compute_nlinks_nblocks

/-- `BlockGraphCRTP::set_empty_graph`. -/
def set_empty_graph (G : BlockGraphCRTP) : Except Err BlockGraphCRTP := do
  let data ← G.ptr_groups.pos_singleton.foldlM (fun (d : InnerData) pos => d.write pos pos 1)
    (InnerData.Zero (get_size G.ptr_groups) (get_size G.ptr_groups))
  let G ← ({ G with data := data, neighbours := [] }).find_neighbours
  G.compute_nlinks_nblocks

/-- `BlockGraphCRTP::add_link(i,j)`: `data(i,j) = true`. -/
def add_link (G : BlockGraphCRTP) (i j : Nat) : Except Err BlockGraphCRTP := do
  let data ← G.data.write i j 1
  pure { G with data := data }

/-- `BlockGraphCRTP::remove_link(i,j)`: `data(i,j) = false`. -/
def remove_link (G : BlockGraphCRTP) (i j : Nat) : Except Err BlockGraphCRTP := do
  let data ← G.data.write i j 0
  pure { G with data := data }

end BlockGraphCRTP

/-- State of a `BlockGraphAdjCRTP<unsigned int>`.  The member `n_singleton` of the base
class is a copy of `ptr_groups->get_n_singleton()` and is read from `ptr_groups`. -/
structure BlockGraphAdjCRTP where
  ptr_groups : Groups
  n_links : Nat
  n_blocks : Nat
  data : List Nat
  neighbours : Neighbourhood

namespace BlockGraphAdjCRTP

/-- `BlockGraphAdjCRTP::operator()(i,j) const`. -/
def link (G : BlockGraphAdjCRTP) (i j : Nat) : Except Err Nat :=
  if i > get_size G.ptr_groups ∨ j > get_size G.ptr_groups then .error .runtime_error
  else if i = j then
    if i ∉ G.ptr_groups.pos_singleton then
      Adj.read G.data (compute_diagonal_position G.ptr_groups i)
    else .ok 1
  else if i < j then
    Adj.read G.data (u64 (compute_diagonal_position G.ptr_groups i + (j - i)))
  else
    Adj.read G.data (u64 (compute_diagonal_position G.ptr_groups j + (i - j)))

/-- `BlockGraphAdjCRTP::find_neighbours`. -/
def find_neighbours (G : BlockGraphAdjCRTP) : Except Err BlockGraphAdjCRTP := do
  let nb ← find_neighbours_loop G.ptr_groups G.link G.neighbours
  pure { G with neighbours := nb }

/-- `BlockGraphAdjCRTP::compute_nlinks_nblocks`. -/
def compute_nlinks_nblocks (G : BlockGraphAdjCRTP) : Except Err BlockGraphAdjCRTP := do
  let (nl, nb) ← nlinks_nblocks_loop G.ptr_groups G.link
  pure { G with n_links := nl, n_blocks := nb }

/-- `BlockGraphAdjCRTP(Adj const & _A, GroupsPtr const & _Gr)`; `n_links` and `n_blocks`
are not initialised before `compute_nlinks_nblocks` and are taken as `0`. -/
def mk_from_adj (A : List Nat) (Gr : Groups) : Except Err BlockGraphAdjCRTP :=
  if coherent_size Gr ≠ A.length then .error .runtime_error
  else do
    let G ← ({ ptr_groups := Gr, n_links := 0, n_blocks := 0, data := A,
               neighbours := [] } : BlockGraphAdjCRTP).find_neighbours
    G.compute_nlinks_nblocks

/-- `BlockGraphAdjCRTP::set_graph(Adj const &)`. -/
def set_graph (G : BlockGraphAdjCRTP) (A : List Nat) : Except Err BlockGraphAdjCRTP :=
  if coherent_size G.ptr_groups ≠ A.length then .error .runtime_error
  else do
    let G ← ({ G with data := A, neighbours := [] }).find_neighbours
    G.compute_nlinks_nblocks

/-- `BlockGraphAdjCRTP::set_empty_graph`; the length of the vector is the double
expression `0.5*M*(M-1) + M - S` converted to `std::size_t`. -/
def set_empty_graph (G : BlockGraphAdjCRTP) : Except Err BlockGraphAdjCRTP :=
  set_graph G (List.replicate (n_stored G.ptr_groups) 0)

/-- `BlockGraphAdjCRTP::add_link(i,j)`. -/
def add_link (G : BlockGraphAdjCRTP) (i j : Nat) : Except Err BlockGraphAdjCRTP :=
  if i = j then
    if i ∉ G.ptr_groups.pos_singleton then do
      let data ← Adj.write G.data (compute_diagonal_position G.ptr_groups i) 1
      pure { G with data := data }
    else pure G
  else if i < j then do
    let data ← Adj.write G.data (u64 (compute_diagonal_position G.ptr_groups i + (j - i))) 1
    pure { G with data := data }
  else do
    let data ← Adj.write G.data (u64 (compute_diagonal_position G.ptr_groups j + (i - j))) 1
    pure { G with data := data }

/-- `BlockGraphAdjCRTP::remove_link(i,j)`. -/
def remove_link (G : BlockGraphAdjCRTP) (i j : Nat) : Except Err BlockGraphAdjCRTP :=
  if i = j then
    if i ∉ G.ptr_groups.pos_singleton then do
      let data ← Adj.write G.data (compute_diagonal_position G.ptr_groups i) 0
      pure { G with data := data }
    else pure G
  else if i < j then do
    let data ← Adj.write G.data (u64 (compute_diagonal_position G.ptr_groups i + (j - i))) 0
    pure { G with data := data }
  else do
    let data ← Adj.write G.data (u64 (compute_diagonal_position G.ptr_groups j + (i - j))) 0
    pure { G with data := data }

end BlockGraphAdjCRTP

namespace BlockGraphCRTP

/-- `BlockGraphCRTP::get_neighbours`. -/
def get_neighbours (G : BlockGraphCRTP) : Neighbourhood := G.neighbours

/-- `BlockGraphCRTP::get_n_links`. -/
def get_n_links (G : BlockGraphCRTP) : Nat := G.n_links

/-- `BlockGraphCRTP::get_n_block_links`. -/
def get_n_block_links (G : BlockGraphCRTP) : Nat := G.n_blocks

/-- `BlockGraphCRTP::get_possible_links`: `0.5*n*(n-1)` in double precision with
`n - 1` an `unsigned int`, converted to `unsigned int`; the value is the exact one as long
as it fits in 32 bits. -/
def get_possible_links (G : BlockGraphCRTP) : Nat :=
  G.ptr_groups.n_elements * u32 (G.ptr_groups.n_elements + 4294967295) / 2

end BlockGraphCRTP

namespace BlockGraphAdjCRTP

/-- `BlockGraphAdjCRTP::get_neighbours`. -/
def get_neighbours (G : BlockGraphAdjCRTP) : Neighbourhood := G.neighbours

/-- `BlockGraphAdjCRTP::get_n_links`. -/
def get_n_links (G : BlockGraphAdjCRTP) : Nat := G.n_links

/-- `BlockGraphAdjCRTP::get_n_block_links`. -/
def get_n_block_links (G : BlockGraphAdjCRTP) : Nat := G.n_blocks

/-- `BlockGraphAdjCRTP::get_possible_links`: `0.5*n*(n-1)` in double precision with
`n - 1` an `unsigned int`, converted to `unsigned int`; the value is the exact one as long
as it fits in 32 bits. -/
def get_possible_links (G : BlockGraphAdjCRTP) : Nat :=
  G.ptr_groups.n_elements * u32 (G.ptr_groups.n_elements + 4294967295) / 2

end BlockGraphAdjCRTP

/-- `get_nbd(i)` of the two complete views on the map `nb`: a runtime error when `i` is
not below the size of the map, else `operator[]` on a copy of the map, which gives the
empty vector for a key that is absent. -/
def nbd_at (nb : Neighbourhood) (i : Nat) : Except Err (List Nat) :=
  if i ≥ nb.length then .error .runtime_error
  else .ok ((Neighbourhood.find nb i).getD [])

/-- `CompleteViewCRTP<unsigned int>`: a view that holds a reference to a
`BlockGraphCRTP`. -/
structure CompleteViewCRTP where
  G : BlockGraphCRTP

namespace CompleteViewCRTP

/-- `CompleteViewCRTP::operator()(i,j)`. -/
def link (V : CompleteViewCRTP) (i j : Nat) : Except Err Nat :=
  if i = j then .ok 1
  else do
    let gi ← find_group_idx V.G.ptr_groups i
    let gj ← find_group_idx V.G.ptr_groups j
    V.G.link gi gj

/-- `CompleteViewCRTP::get_size`. -/
def get_size (V : CompleteViewCRTP) : Nat := V.G.ptr_groups.n_elements

/-- `CompleteViewCRTP::get_nbd()`. -/
def get_nbd (V : CompleteViewCRTP) : Neighbourhood := V.G.get_neighbours

/-- `CompleteViewCRTP::get_nbd(i)`. -/
def get_nbd_at (V : CompleteViewCRTP) (i : Nat) : Except Err (List Nat) :=
  nbd_at V.G.get_neighbours i

/-- `CompleteViewCRTP::get_n_links`. -/
def get_n_links (V : CompleteViewCRTP) : Nat := V.G.get_n_links

/-- `CompleteViewCRTP::get_possible_links`. -/
def get_possible_links (V : CompleteViewCRTP) : Nat := V.G.get_possible_links

/-- `CompleteViewCRTP::get_n_block_links`. -/
def get_n_block_links (V : CompleteViewCRTP) : Nat := V.G.get_n_block_links

end CompleteViewCRTP

/-- `BlockGraphCRTP::completeview`. -/
def BlockGraphCRTP.completeview (G : BlockGraphCRTP) : CompleteViewCRTP := ⟨G⟩

/-- `CompleteViewAdjCRTP<unsigned int>`: a view that holds a reference to a
`BlockGraphAdjCRTP`. -/
structure CompleteViewAdjCRTP where
  G : BlockGraphAdjCRTP

namespace CompleteViewAdjCRTP

/-- `CompleteViewAdjCRTP::operator()(i,j)`. -/
def link (V : CompleteViewAdjCRTP) (i j : Nat) : Except Err Nat :=
  if i = j then .ok 1
  else do
    let gi ← find_group_idx V.G.ptr_groups i
    let gj ← find_group_idx V.G.ptr_groups j
    V.G.link gi gj

/-- `CompleteViewAdjCRTP::get_size`. -/
def get_size (V : CompleteViewAdjCRTP) : Nat := V.G.ptr_groups.n_elements

/-- `CompleteViewAdjCRTP::get_nbd()`. -/
def get_nbd (V : CompleteViewAdjCRTP) : Neighbourhood := V.G.get_neighbours

/-- `CompleteViewAdjCRTP::get_nbd(i)`. -/
def get_nbd_at (V : CompleteViewAdjCRTP) (i : Nat) : Except Err (List Nat) :=
  nbd_at V.G.get_neighbours i

/-- `CompleteViewAdjCRTP::get_n_links`. -/
def get_n_links (V : CompleteViewAdjCRTP) : Nat := V.G.get_n_links

/-- `CompleteViewAdjCRTP::get_possible_links`. -/
def get_possible_links (V : CompleteViewAdjCRTP) : Nat := V.G.get_possible_links

/-- `CompleteViewAdjCRTP::get_n_block_links`. -/
def get_n_block_links (V : CompleteViewAdjCRTP) : Nat := V.G.get_n_block_links

end CompleteViewAdjCRTP

/-- `BlockGraphAdjCRTP::completeview`. -/
def BlockGraphAdjCRTP.completeview (G : BlockGraphAdjCRTP) : CompleteViewAdjCRTP := ⟨G⟩

/-- The caches of a matrix-backed graph are the values recomputed from its link function:
`neighbours` is what `find_neighbours` builds from an empty map, and `n_links`,
`n_blocks` are what `compute_nlinks_nblocks` stores. -/
def BlockGraphCRTP.CachesFresh (G : BlockGraphCRTP) : Prop :=
  find_neighbours_loop G.ptr_groups G.link [] = .ok G.neighbours ∧
  nlinks_nblocks_loop G.ptr_groups G.link = .ok (G.n_links, G.n_blocks)

/-- The caches of a vector-backed graph are the values recomputed from its link function:
`neighbours` is what `find_neighbours` builds from an empty map, and `n_links`,
`n_blocks` are what `compute_nlinks_nblocks` stores. -/
def BlockGraphAdjCRTP.CachesFresh (G : BlockGraphAdjCRTP) : Prop :=
  find_neighbours_loop G.ptr_groups G.link [] = .ok G.neighbours ∧
  nlinks_nblocks_loop G.ptr_groups G.link = .ok (G.n_links, G.n_blocks)

/-- Dense `Eigen` matrix of scalars `R` (`MatRow`, `MatCol`, `Eigen::MatrixXd`). -/
structure MatD (R : Type) where
  rows : Nat
  cols : Nat
  coeff : Nat → Nat → R

/-- The members of a graph in complete form that `rgwish_core` and
`log_normalizing_constat` call: `get_size()`, `get_n_links()`, `get_possible_links()`,
`get_nbd()` and `get_nbd(i)`. -/
structure GraphView where
  get_size : Nat
  get_n_links : Nat
  get_possible_links : Nat
  get_nbd : Neighbourhood
  get_nbd_at : Nat → Except Err (List Nat)

/-- A `CompleteViewCRTP` passed as the template argument `GraphStructure<T>`. -/
def CompleteViewCRTP.view (V : CompleteViewCRTP) : GraphView :=
  { get_size := V.get_size
    get_n_links := V.get_n_links
    get_possible_links := V.get_possible_links
    get_nbd := V.get_nbd
    get_nbd_at := V.get_nbd_at }

/-- A `CompleteViewAdjCRTP` passed as the template argument `GraphStructure<T>`. -/
def CompleteViewAdjCRTP.view (V : CompleteViewAdjCRTP) : GraphView :=
  { get_size := V.get_size
    get_n_links := V.get_n_links
    get_possible_links := V.get_possible_links
    get_nbd := V.get_nbd
    get_nbd_at := V.get_nbd_at }

namespace utils

/-- `utils::ScaleForm`. -/
inductive ScaleForm where
  | Scale
  | InvScale
  | CholUpper_InvScale
  | CholLower_InvScale
  deriving DecidableEq, Repr

/-- `sample::isChol`, the template argument of `sample::rwish`. -/
inductive isChol where
  | False
  | Upper
  | Lower
  deriving DecidableEq, Repr

/-- The numerical operations that `rgwish_core` takes from `Eigen`, from the `GSL`
wrappers and from its template argument `NormType`, over scalars `R` and random engine
states `E`.  `rwish c engine b D` is `sample::rwish<MatCol, c>()(engine, b, D)` with the
state of the engine after the draw; `llt_solve_identity M N` is
`M.llt().solve(Identity(N,N))`; `node_update N i nbd_i Sigma Omega` is the body of the loop
over the nodes (steps 3 to 5 and the write into row and column `i` of `Omega`);
`norm Omega` is `NormType::norm` of the upper triangle against the transposed lower one;
`copy_upper_to_lower` is the assignment of the transposed upper triangle to the lower one;
`lt` is `<` on `double`; `selfadjoint_llt_solve_identity Omega N` is
`Omega.selfadjointView<Upper>().llt().solve(Identity(N,N))`. -/
structure RgwishKernel (R E : Type) where
  rwish : isChol → E → R → MatD R → MatD R × E
  llt_solve_identity : MatD R → Nat → MatD R
  node_update : Nat → Nat → List Nat → MatD R → MatD R → Except Err (MatD R)
  norm : MatD R → R
  copy_upper_to_lower : MatD R → MatD R
  lt : R → R → Bool
  selfadjoint_llt_solve_identity : MatD R → Nat → MatD R

/-- Step 1 of `rgwish_core`: the draw of `K` for the form of `D` chosen at compile time. -/
def rgwish_core_draw {R E : Type} (K : RgwishKernel R E) (form : ScaleForm) (N : Nat)
    (engine : E) (b : R) (D : MatD R) : MatD R × E :=
  match form with
  | .Scale => K.rwish .False engine b D
  | .InvScale => K.rwish .False engine b (K.llt_solve_identity D N)
  | .CholUpper_InvScale => K.rwish .Upper engine b D
  | .CholLower_InvScale => K.rwish .Lower engine b D

/-- One sweep of `rgwish_core`: the loop `for(i = 0; i < N; ++i)`; `nbd.find(i)->second` is
invalid when the key is absent. -/
def rgwish_sweep {R E : Type} (K : RgwishKernel R E) (N : Nat) (nbd : Neighbourhood)
    (Sigma Omega : MatD R) : Except Err (MatD R) :=
  (List.range N).foldlM
    (fun Omega i =>
      match Neighbourhood.find nbd i with
      | some nbd_i => K.node_update N i nbd_i Sigma Omega
      | none => .error .undefined_behaviour)
    Omega

/-- The loop `while(!converged && it < max_iter)` of `rgwish_core` on the state
`(Omega, converged, it)`; the first argument is `max_iter - it`. -/
def rgwish_loop {R E : Type} (K : RgwishKernel R E) (N : Nat) (nbd : Neighbourhood)
    (Sigma : MatD R) (threshold : R) :
    Nat → MatD R × Bool × Nat → Except Err (MatD R × Bool × Nat)
  | 0, st => .ok st
  | fuel + 1, (Omega, converged, it) =>
    if converged then .ok (Omega, converged, it)
    else
      match rgwish_sweep K N nbd Sigma Omega with
      | .error e => .error e
      | .ok Omega1 =>
        let norm_res := K.norm Omega1
        let Omega2 := K.copy_upper_to_lower Omega1
        rgwish_loop K N nbd Sigma threshold fuel (Omega2, K.lt norm_res threshold, it + 1)

/-- `utils::rgwish_core`; the result comes with the state of the random engine. -/
def rgwish_core {R E : Type} (K : RgwishKernel R E) (form : ScaleForm) (G : GraphView)
    (b : R) (D : MatD R) (threshold : R) (engine : E) (max_iter : Nat) :
    Except Err (MatD R × Bool × Nat) × E :=
  if D.rows ≠ D.cols then (.error .runtime_error, engine)
  else if G.get_size ≠ D.rows then (.error .runtime_error, engine)
  else
    let N := G.get_size
    let n_links := G.get_n_links
    let draw := rgwish_core_draw K form N engine b D
    if n_links = G.get_possible_links then (.ok (draw.1, true, 0), draw.2)
    else
      let Sigma := K.llt_solve_identity draw.1 N
      let nbd := G.get_nbd
      match rgwish_loop K N nbd Sigma threshold max_iter (Sigma, false, 0) with
      | .error e => (.error e, draw.2)
      | .ok (Omega, converged, it) =>
        (.ok (K.selfadjoint_llt_solve_identity Omega N, converged, it), draw.2)

/-- The scalar operations of `log_normalizing_constat`: the arithmetic and the comparisons
of `double`, `std::log`, `std::lgamma` and the constants `utils::log_pi`, `utils::log_2`;
`half` is the literal `0.5`. -/
structure ScalarOps (R : Type) where
  zero : R
  one : R
  half : R
  ofNat : Nat → R
  add : R → R → R
  sub : R → R → R
  mul : R → R → R
  le : R → R → Bool
  ne : R → R → Bool
  log : R → R
  lgamma : R → R
  log_pi : R
  log_2 : R

/-- The operations that `log_normalizing_constat` takes from `Eigen` and the Monte Carlo
branch for a graph that is neither complete nor empty, over scalars `R` and random engine
states `E`.  `llt_success D` is `cholD.info() == Eigen::Success`; `determinant` is
`D.determinant()`; `monte_carlo G b D MCiteration nu engine` is the last branch with the
state of the engine after its draws. -/
structure LogConstKernel (R E : Type) extends ScalarOps R where
  llt_success : MatD R → Bool
  determinant : MatD R → R
  monte_carlo : GraphView → R → MatD R → Nat → List Nat → E → Except Err R × E

/-- The test `D != D.transpose()`: the coefficient-wise comparison of `Eigen` requires the
two operands to have the same dimensions. -/
def ne_transpose {R : Type} (ne : R → R → Bool) (D : MatD R) : Except Err Bool :=
  if D.rows = D.cols then
    .ok ((List.range D.rows).any (fun i =>
      (List.range D.cols).any (fun j => ne (D.coeff i j) (D.coeff j i))))
  else .error .undefined_behaviour

/-- The vector `nu` of `log_normalizing_constat`: `nu[i]` is the number of entries of
`G.get_nbd(i)` that are larger than `i`. -/
def compute_nu (G : GraphView) (N : Nat) : Except Err (List Nat) :=
  (List.range N).mapM (fun i => do
    let nbd_i ← G.get_nbd_at i
    pure (nbd_i.countP (fun idx => idx > i)))

/-- The value returned by `log_normalizing_constat` for a complete graph. -/
def log_constant_complete {R E : Type} (K : LogConstKernel R E) (N : Nat) (b : R)
    (D : MatD R) (nu : List Nat) : R :=
  let res_gamma := nu.foldl
    (fun res_gamma nu_i => K.add res_gamma (K.lgamma (K.mul K.half (K.add b (K.ofNat nu_i)))))
    K.zero
  K.sub
    (K.add
      (K.add (K.mul (K.ofNat (N / 2)) K.log_pi)
        (K.mul (K.mul (K.mul K.half (K.ofNat N)) (K.sub (K.add b (K.ofNat N)) K.one))
          K.log_2))
      res_gamma)
    (K.mul (K.mul K.half (K.sub (K.add b (K.ofNat N)) K.one)) (K.log (K.determinant D)))

/-- The value returned by `log_normalizing_constat` for an empty graph; reading `D(i,i)`
outside the matrix is invalid. -/
def log_constant_empty {R E : Type} (K : LogConstKernel R E) (N : Nat) (b : R)
    (D : MatD R) : Except Err R := do
  let sum_log_diag ← (List.range N).foldlM
    (fun sum_log_diag i =>
      if i < D.rows ∧ i < D.cols then .ok (K.add sum_log_diag (K.log (D.coeff i i)))
      else .error .undefined_behaviour)
    K.zero
  pure (K.sub
    (K.add (K.mul (K.mul (K.mul K.half (K.ofNat N)) b) K.log_2)
      (K.mul (K.ofNat N) (K.lgamma (K.mul K.half b))))
    (K.mul (K.mul K.half b) sum_log_diag))

/-- `utils::log_normalizing_constat`; the result comes with the state of the random
engine.  `max_n_links` is `0.5*N*(N-1)` in double precision with `N - 1` an
`unsigned int`. -/
def log_normalizing_constat {R E : Type} (K : LogConstKernel R E) (G : GraphView) (b : R)
    (D : MatD R) (MCiteration : Nat) (engine : E) : Except Err R × E :=
  if K.le b (K.ofNat 2) then (.error .runtime_error, engine)
  else
    match ne_transpose K.ne D with
    | .error e => (.error e, engine)
    | .ok true => (.error .runtime_error, engine)
    | .ok false =>
      if ¬ K.llt_success D then (.error .runtime_error, engine)
      else
        let n_links := G.get_n_links
        let N := G.get_size
        let max_n_links := N * u32 (N + 4294967295) / 2
        match compute_nu G N with
        | .error e => (.error e, engine)
        | .ok nu =>
          if n_links = max_n_links then (.ok (log_constant_complete K N b D nu), engine)
          else if n_links = 0 then (log_constant_empty K N b D, engine)
          else K.monte_carlo G b D MCiteration nu engine

end utils

/-- The effect of a member function on the object it is called on.  `returned s`: the
call returned and left the object `s`.  `thrown s e`: the call ended with `e` at a
statement that had written nothing since the object was `s`.  `interrupted e`: the call
ended with `e` inside a member function that was writing to the object; the object is not
tracked further. -/
inductive Effect (σ : Type) where
  | returned (s : σ)
  | thrown (s : σ) (e : Err)
  | interrupted (e : Err)

/-- The outcome of a call for a caller that does not look at the object after an
exception. -/
def Effect.toExcept {σ : Type} : Effect σ → Except Err σ
  | .returned s => .ok s
  | .thrown _ e => .error e
  | .interrupted e => .error e

/-- The statements of a member function that come after its argument checks, given by
their value-passing model. -/
def Effect.ofBody {σ : Type} (r : Except Err σ) : Effect σ :=
  match r with
  | .ok s => .returned s
  | .error e => .interrupted e

/-- `BlockGraphCRTP::set_graph(Adj const &)` and `set_graph(Adj&&)` as an effect on the
object: the length test is the first statement of both, before `fillFromAdj`. -/
def BlockGraphCRTP.set_graph_effect (G : BlockGraphCRTP) (A : List Nat) :
    Effect BlockGraphCRTP :=
  if coherent_size G.ptr_groups ≠ A.length then .thrown G .runtime_error
  else Effect.ofBody (do
    let G ← BlockGraphCRTP.fillFromAdj G A
    let G ← ({ G with neighbours := [] }).find_neighbours
    G.compute_nlinks_nblocks)

/-- `BlockGraphAdjCRTP::set_graph(Adj const &)` and `set_graph(Adj&&)` as an effect on
the object: the length test is the first statement of both, before `data = A`. -/
def BlockGraphAdjCRTP.set_graph_effect (G : BlockGraphAdjCRTP) (A : List Nat) :
    Effect BlockGraphAdjCRTP :=
  if coherent_size G.ptr_groups ≠ A.length then .thrown G .runtime_error
  else Effect.ofBody (do
    let G ← ({ G with data := A, neighbours := [] }).find_neighbours
    G.compute_nlinks_nblocks)

/-! ## Dense matrices: the `Eigen` operations used by `utils.h`

A column vector (`VecCol`, `Eigen::VectorXd`) is a `MatD` with one column.  An `Eigen`
operation whose precondition on indices or dimensions fails is the error
`Err.undefined_behaviour`. -/

/-- `MatRow::Zero(r, c)`; `VecCol::Zero(n)` is `MatD.zero n 1`. -/
def MatD.zero {R : Type} [Zero R] (r c : Nat) : MatD R := ⟨r, c, fun _ _ => 0⟩

/-- Coefficient read `A(i,j)`; outside the matrix the access is invalid. -/
def MatD.read {R : Type} (A : MatD R) (i j : Nat) : Except Err R :=
  if i < A.rows ∧ j < A.cols then .ok (A.coeff i j) else .error .undefined_behaviour

/-- Coefficient write `A(i,j) = v`; outside the matrix the access is invalid. -/
def MatD.write {R : Type} (A : MatD R) (i j : Nat) (v : R) : Except Err (MatD R) :=
  if i < A.rows ∧ j < A.cols then
    .ok ⟨A.rows, A.cols, fun r c => if r = i ∧ c = j then v else A.coeff r c⟩
  else .error .undefined_behaviour

/-- The block `A.block(i, j, p, q)` read as a `p × q` matrix. -/
def MatD.block {R : Type} (A : MatD R) (i j p q : Nat) : Except Err (MatD R) :=
  if i + p ≤ A.rows ∧ j + q ≤ A.cols then
    .ok ⟨p, q, fun r c => A.coeff (i + r) (j + c)⟩
  else .error .undefined_behaviour

/-- The assignment `A.block(i, j, p, q) = B`; `B` has to be `p × q`. -/
def MatD.assignBlock {R : Type} (A : MatD R) (i j p q : Nat) (B : MatD R) :
    Except Err (MatD R) :=
  if i + p ≤ A.rows ∧ j + q ≤ A.cols ∧ B.rows = p ∧ B.cols = q then
    .ok ⟨A.rows, A.cols, fun r c =>
      if i ≤ r ∧ r < i + p ∧ j ≤ c ∧ c < j + q then B.coeff (r - i) (c - j)
      else A.coeff r c⟩
  else .error .undefined_behaviour

/-- `A.topLeftCorner(p, q)`. -/
def MatD.topLeftCorner {R : Type} (A : MatD R) (p q : Nat) : Except Err (MatD R) :=
  A.block 0 0 p q

/-- `A.bottomRightCorner(p, q)`. -/
def MatD.bottomRightCorner {R : Type} (A : MatD R) (p q : Nat) : Except Err (MatD R) :=
  if p ≤ A.rows ∧ q ≤ A.cols then A.block (A.rows - p) (A.cols - q) p q
  else .error .undefined_behaviour

/-- `v.head(n)` of a column vector. -/
def MatD.head {R : Type} (v : MatD R) (n : Nat) : Except Err (MatD R) :=
  v.block 0 0 n 1

/-- `v.tail(n)` of a column vector. -/
def MatD.tail {R : Type} (v : MatD R) (n : Nat) : Except Err (MatD R) :=
  if n ≤ v.rows then v.block (v.rows - n) 0 n 1 else .error .undefined_behaviour

/-- `v.tail(n)` of a row vector. -/
def MatD.rowTail {R : Type} (v : MatD R) (n : Nat) : Except Err (MatD R) :=
  if n ≤ v.cols then v.block 0 (v.cols - n) 1 n else .error .undefined_behaviour

/-- The assignment `v.head(n) = w` on a column vector. -/
def MatD.assignHead {R : Type} (v : MatD R) (n : Nat) (w : MatD R) : Except Err (MatD R) :=
  v.assignBlock 0 0 n 1 w

/-- The assignment `v.segment(start, n) = w` on a column vector. -/
def MatD.assignSegment {R : Type} (v : MatD R) (start n : Nat) (w : MatD R) :
    Except Err (MatD R) :=
  v.assignBlock start 0 n 1 w

/-- The assignment `v.tail(n) = w` on a column vector. -/
def MatD.assignTail {R : Type} (v : MatD R) (n : Nat) (w : MatD R) : Except Err (MatD R) :=
  if n ≤ v.rows then v.assignBlock (v.rows - n) 0 n 1 w else .error .undefined_behaviour

/-- `A.transpose()`. -/
def MatD.transpose {R : Type} (A : MatD R) : MatD R :=
  ⟨A.cols, A.rows, fun r c => A.coeff c r⟩

/-- The product `A * s` of a matrix and a scalar. -/
def MatD.scale {R : Type} [Mul R] (A : MatD R) (s : R) : MatD R :=
  ⟨A.rows, A.cols, fun r c => A.coeff r c * s⟩

/-- The matrix product `A * B`; the inner dimensions have to agree. -/
def MatD.mul {R : Type} [Semiring R] (A B : MatD R) : Except Err (MatD R) :=
  if A.cols = B.rows then
    .ok ⟨A.rows, B.cols, fun r c =>
      (Finset.range A.cols).sum (fun k => A.coeff r k * B.coeff k c)⟩
  else .error .undefined_behaviour

/-- The sum `A + B`, as in `x += y`; the dimensions have to agree. -/
def MatD.add {R : Type} [Add R] (A B : MatD R) : Except Err (MatD R) :=
  if A.rows = B.rows ∧ A.cols = B.cols then
    .ok ⟨A.rows, A.cols, fun r c => A.coeff r c + B.coeff r c⟩
  else .error .undefined_behaviour

/-- The difference `A - B`; the dimensions have to agree. -/
def MatD.sub {R : Type} [Sub R] (A B : MatD R) : Except Err (MatD R) :=
  if A.rows = B.rows ∧ A.cols = B.cols then
    .ok ⟨A.rows, A.cols, fun r c => A.coeff r c - B.coeff r c⟩
  else .error .undefined_behaviour

/-- `A.selfadjointView<Eigen::Upper>()` of a real matrix as a dense matrix: the upper
triangle of `A` mirrored onto the lower one. -/
def MatD.selfadjointViewUpper {R : Type} (A : MatD R) : MatD R :=
  ⟨A.rows, A.cols, fun r c => if r ≤ c then A.coeff r c else A.coeff c r⟩

/-- `A.triangularView<Eigen::Upper>()` converted to a dense matrix. -/
def MatD.triangularViewUpper {R : Type} [Zero R] (A : MatD R) : MatD R :=
  ⟨A.rows, A.cols, fun r c => if r ≤ c then A.coeff r c else 0⟩

/-- `A.triangularView<Eigen::Lower>()` converted to a dense matrix. -/
def MatD.triangularViewLower {R : Type} [Zero R] (A : MatD R) : MatD R :=
  ⟨A.rows, A.cols, fun r c => if c ≤ r then A.coeff r c else 0⟩

/-- The assignment
`A.triangularView<Eigen::Lower>() = A.triangularView<Eigen::Upper>().transpose()`. -/
def MatD.copyUpperToLower {R : Type} (A : MatD R) : MatD R :=
  ⟨A.rows, A.cols, fun r c => if c ≤ r then A.coeff c r else A.coeff r c⟩

/-- `a - b` in `Eigen::Index`, used as a size: a negative size is invalid. -/
def idxSub (a b : Nat) : Except Err Nat :=
  if b ≤ a then .ok (a - b) else .error .undefined_behaviour

namespace utils

/-- `utils::SubMatrix<Symmetric::True>(nbd, M)`: the rows and columns `nbd` of `M`, made
symmetric from the upper triangle.  `*nbd.crbegin()` on an empty vector is invalid, and so
is an index of `nbd` outside `M` that the test on the last one does not catch. -/
def SubMatrix_sym {R : Type} (nbd : List Nat) (M : MatD R) : Except Err (MatD R) :=
  if M.rows ≠ M.cols then .error .runtime_error
  else
    match nbd.getLast? with
    | none => .error .undefined_behaviour
    | some l =>
      if l ≥ M.rows then .error .runtime_error
      else if ∀ n ∈ nbd, n < M.rows then
        .ok (MatD.selfadjointViewUpper
          ⟨nbd.length, nbd.length, fun r c => M.coeff (nbd.getD r 0) (nbd.getD c 0)⟩)
      else .error .undefined_behaviour

/-- `utils::SubMatrix(nbd_rows, idx, M)`: the rows `nbd_rows` of the column `idx` of
`M`. -/
def SubMatrix_col {R : Type} (nbd_rows : List Nat) (idx : Nat) (M : MatD R) :
    Except Err (MatD R) :=
  match nbd_rows.getLast? with
  | none => .error .undefined_behaviour
  | some l =>
    if l ≥ M.rows ∨ idx ≥ M.cols then .error .runtime_error
    else if ∀ n ∈ nbd_rows, n < M.rows then
      .ok ⟨nbd_rows.length, 1, fun r _ => M.coeff (nbd_rows.getD r 0) idx⟩
    else .error .undefined_behaviour

/-- `utils::View_ExcMult<MatType, Symmetric::True>(x, A, b)`.  `p = b.size()` is the
number of rows of the column vector `b`; `p - x` is evaluated in `unsigned int`. -/
def View_ExcMult {R : Type} [Semiring R] (x : Nat) (A b : MatD R) : Except Err (MatD R) :=
  let p := b.rows
  if x = 0 then do
    let C ← A.bottomRightCorner p p
    C.selfadjointViewUpper.mul b
  else if x = p then do
    let C ← A.topLeftCorner p p
    C.selfadjointViewUpper.mul b
  else do
    let q := u32 (p + 4294967296 - x)
    let res : MatD R := MatD.zero p 1
    let TL ← A.topLeftCorner x x
    let bh ← b.head x
    let t1 ← TL.selfadjointViewUpper.mul bh
    let res ← res.assignHead x t1
    let B ← A.block 0 (x + 1) x q
    let bt ← b.tail q
    let t2 ← B.mul bt
    let rh ← res.head x
    let s1 ← rh.add t2
    let res ← res.assignHead x s1
    let BR ← A.bottomRightCorner q q
    let t3 ← BR.selfadjointViewUpper.mul bt
    let res ← res.assignTail q t3
    let t4 ← B.transpose.mul bh
    let rt ← res.tail q
    let s2 ← rt.add t4
    res.assignTail q s2

/-- The branch `nbd_i.size() == 1` of the node update of `rgwish_core`: the vector
`beta_i` for the single neighbour `k` of node `i`.  Inside the loop over the nodes
`N >= 1`, so `N - 1` does not wrap. -/
def beta_single {R : Type} [Field R] (N i k : Nat) (Sigma Omega : MatD R) :
    Except Err (MatD R) := do
  let beta_i : MatD R := MatD.zero (N - 1) 1
  let s ← Sigma.read k i
  let o ← Omega.read k k
  let beta_star_i := s / o
  if i = 0 then do
    let b1 ← Omega.block 1 k k 1
    let beta_i ← beta_i.assignHead k (b1.scale beta_star_i)
    let m ← idxSub beta_i.rows k
    let b2 ← Omega.block k (k + 1) 1 m
    beta_i.assignTail m (b2.transpose.scale beta_star_i)
  else if i = N - 1 then do
    let b1 ← Omega.block 0 k k 1
    let beta_i ← beta_i.assignHead k (b1.scale beta_star_i)
    let m ← idxSub beta_i.rows k
    let b2 ← Omega.block k k 1 m
    beta_i.assignTail m (b2.transpose.scale beta_star_i)
  else if i < k then do
    let b1 ← Omega.block 0 k i 1
    let beta_i ← beta_i.assignHead i (b1.scale beta_star_i)
    let b2 ← Omega.block (i + 1) k (k - i) 1
    let beta_i ← beta_i.assignSegment i (k - i) (b2.scale beta_star_i)
    let m ← idxSub beta_i.rows k
    let b3 ← Omega.block k (k + 1) 1 m
    beta_i.assignTail m (b3.transpose.scale beta_star_i)
  else do
    let b1 ← Omega.block 0 k k 1
    let beta_i ← beta_i.assignHead k (b1.scale beta_star_i)
    let b2 ← Omega.block k k 1 (i - k)
    let beta_i ← beta_i.assignSegment k (i - k) (b2.transpose.scale beta_star_i)
    let m ← idxSub beta_i.rows i
    let b3 ← Omega.block k (i + 1) 1 m
    beta_i.assignTail m (b3.transpose.scale beta_star_i)

/-- Step 4 of the node update: the vector `beta_hat_i` of size `N - 1` that holds
`beta_star_i` at the places of the neighbours of `i`. -/
def beta_hat {R : Type} [Zero R] (N i : Nat) (nbd_i : List Nat) (beta_star_i : MatD R) :
    Except Err (MatD R) :=
  nbd_i.enum.foldlM
    (fun (beta_hat_i : MatD R) (e : Nat × Nat) =>
      if e.2 < i then do
        let v ← beta_star_i.read e.1 0
        beta_hat_i.write e.2 0 v
      else if e.2 > i then do
        let v ← beta_star_i.read e.1 0
        beta_hat_i.write (e.2 - 1) 0 v
      else pure beta_hat_i)
    (MatD.zero (N - 1) 1)

/-- Steps 3 to 5 of the node update of `rgwish_core` (the branch for two neighbours or
more): the vector `beta_i`.  `llt_solve A b` is `A.llt().solve(b)`. -/
def beta_general {R : Type} [Semiring R] (llt_solve : MatD R → MatD R → MatD R)
    (N i : Nat) (nbd_i : List Nat) (Sigma Omega : MatD R) : Except Err (MatD R) := do
  let Omega_Ni_Ni ← SubMatrix_sym nbd_i Omega
  let Sigma_Ni_i ← SubMatrix_col nbd_i i Sigma
  let beta_star_i := llt_solve Omega_Ni_Ni Sigma_Ni_i
  let beta_hat_i ← beta_hat N i nbd_i beta_star_i
  View_ExcMult i Omega beta_hat_i

/-- The end of the node update: `beta_i` is plugged into row and column `i` of
`Omega`. -/
def plug_beta {R : Type} (N i : Nat) (beta_i Omega : MatD R) : Except Err (MatD R) :=
  if i = 0 then Omega.assignBlock 0 1 1 (N - 1) beta_i.transpose
  else if i = N - 1 then Omega.assignBlock 0 (N - 1) (N - 1) 1 beta_i
  else do
    let h ← beta_i.head i
    let Omega ← Omega.assignBlock 0 i i 1 h
    let m ← idxSub beta_i.rows i
    let t ← beta_i.transpose.rowTail m
    Omega.assignBlock i (i + 1) 1 m t

/-- The body of the loop over the nodes of `rgwish_core` for node `i` with neighbours
`nbd_i`. -/
def node_update {R : Type} [Field R] (llt_solve : MatD R → MatD R → MatD R)
    (N i : Nat) (nbd_i : List Nat) (Sigma Omega : MatD R) : Except Err (MatD R) := do
  let beta_i ←
    (match nbd_i with
    | [] => (pure (MatD.zero (N - 1) 1) : Except Err (MatD R))
    | [k] => beta_single N i k Sigma Omega
    | _ => beta_general llt_solve N i nbd_i Sigma Omega)
  plug_beta N i beta_i Omega

/-- The body of the loop of `utils::get_upper_part` on the state
`(res, start_pos, n_elem)`.  `start_pos` is an `int` and `n_elem` an `unsigned int`:
`start_pos += n_elem` is evaluated in `unsigned int` and converted back, so the state holds
the 32-bit pattern of `start_pos`, and a pattern from `2^31` on is a negative start of the
segment. -/
def get_upper_part_step {R : Type} (Mat : MatD R) (st : MatD R × Nat × Nat) (i : Nat) :
    Except Err (MatD R × Nat × Nat) := do
  let b ← Mat.block i i 1 st.2.2
  if st.2.1 < 2147483648 then do
    let res ← st.1.assignSegment st.2.1 st.2.2 b.transpose
    pure (res, u32 (st.2.1 + st.2.2), u32 (st.2.2 + 4294967295))
  else .error .undefined_behaviour

/-- `utils::get_upper_part`.  `N` is an `unsigned int`; the size `0.5*N*(N-1) + N` of the
result is evaluated in double precision with `N - 1` an `unsigned int`. -/
def get_upper_part {R : Type} [Zero R] (Mat : MatD R) : Except Err (MatD R) :=
  if Mat.rows ≠ Mat.cols then .error .runtime_error
  else do
    let N := u32 Mat.rows
    let res : MatD R := MatD.zero (N * u32 (N + 4294967295) / 2 + N) 1
    let st ← (List.range Mat.rows).foldlM (get_upper_part_step Mat) (res, 0, N)
    pure st.1

/-- The list of the coefficients of a matrix, row by row. -/
def coeffs {R : Type} (A : MatD R) : List R :=
  (List.range A.rows).flatMap (fun r => (List.range A.cols).map (fun c => A.coeff r c))

/-- `maxCoeff()`: the largest coefficient; invalid on a matrix without coefficients. -/
def maxCoeff {R : Type} [LinearOrder R] (A : MatD R) : Except Err R :=
  match coeffs A with
  | [] => .error .undefined_behaviour
  | a :: t => .ok (t.foldl max a)

/-- `(A - B).cwiseAbs()`. -/
def cwiseAbsDiff {R : Type} [LinearOrderedField R] (A B : MatD R) : Except Err (MatD R) := do
  let M ← A.sub B
  pure ⟨M.rows, M.cols, fun r c => |M.coeff r c|⟩

/-- `utils::NormInf::norm`: `(A - B).lpNorm<Eigen::Infinity>()`, the largest absolute
value of a coefficient. -/
def NormInf.norm {R : Type} [LinearOrderedField R] (A B : MatD R) : Except Err R := do
  let M ← cwiseAbsDiff A B
  maxCoeff M

/-- `utils::Norm1::norm`: `(A - B).lpNorm<1>()`, the sum of the absolute values of the
coefficients. -/
def Norm1.norm {R : Type} [LinearOrderedField R] (A B : MatD R) : Except Err R := do
  let M ← cwiseAbsDiff A B
  pure ((Finset.range M.rows).sum (fun r => (Finset.range M.cols).sum (fun c => M.coeff r c)))

/-- `utils::NormSq::norm`: `(A - B).squaredNorm()`, the sum of the squares of the
coefficients. -/
def NormSq.norm {R : Type} [LinearOrderedField R] (A B : MatD R) : Except Err R := do
  let M ← A.sub B
  pure ((Finset.range M.rows).sum (fun r =>
    (Finset.range M.cols).sum (fun c => M.coeff r c * M.coeff r c)))

/-- `utils::MeanNorm::norm`: `Ones.transpose() * (A-B).cwiseAbs() * Ones` divided by
`A.cols()*A.cols()`, with `Ones` of size `A.cols()`. -/
def MeanNorm.norm {R : Type} [LinearOrderedField R] (A B : MatD R) : Except Err R := do
  let Ones : MatD R := ⟨A.cols, 1, fun _ _ => 1⟩
  let M ← cwiseAbsDiff A B
  let left ← Ones.transpose.mul M
  let prod ← left.mul Ones
  pure (prod.coeff 0 0 / ((A.cols * A.cols : Nat) : R))

end utils

namespace utils

/-- The index in the full matrix of row (or column) `r` of the matrix obtained by deleting
row and column `x`. -/
def skipIndex (x r : Nat) : Nat := if r < x then r else r + 1

/-- Specification side of `View_ExcMult`: the entry `(i,j)` of the symmetric matrix whose
upper triangle is the upper triangle of `A`. -/
def symUpper {R : Type} (A : MatD R) (i j : Nat) : R :=
  if i ≤ j then A.coeff i j else A.coeff j i

/-- Specification side of `View_ExcMult`: entry `r` of the product with `b` of the matrix
obtained by deleting row `x` and column `x` from the symmetric matrix `symUpper A`. -/
def excMult_spec {R : Type} [Semiring R] (x : Nat) (A b : MatD R) (r : Nat) : R :=
  (Finset.range b.rows).sum
    (fun c => symUpper A (skipIndex x r) (skipIndex x c) * b.coeff c 0)

/-- The matrix `Kmat` is a left inverse of the symmetric matrix whose upper triangle is
the upper triangle of `Omega`: `Kmat * Omega.selfadjointView<Upper>()` is the `N × N`
identity. -/
def IsLeftInverseSym {R : Type} [Semiring R] (N : Nat) (Kmat Omega : MatD R) : Prop :=
  ∀ r, r < N → ∀ c, c < N →
    (Finset.range N).sum (fun k => Kmat.coeff r k * symUpper Omega k c)
      = if r = c then 1 else 0

instance {R : Type} [Semiring R] [DecidableEq R] (N : Nat) (Kmat Omega : MatD R) :
    Decidable (IsLeftInverseSym N Kmat Omega) := by
  unfold IsLeftInverseSym; infer_instance

/-- The bilinear form `u^T W v` of the `N × N` matrix with the entries `W r c`. -/
def bilForm {R : Type} [Semiring R] (N : Nat) (W : Nat → Nat → R) (u v : Nat → R) : R :=
  (Finset.range N).sum (fun r => (Finset.range N).sum (fun c => u r * W r c * v c))

/-- The `N × N` matrix with the entries `W r c` is positive definite: `x^T W x > 0` for
every vector `x` that is not zero. -/
def IsPosDef {R : Type} [OrderedSemiring R] (N : Nat) (W : Nat → Nat → R) : Prop :=
  ∀ x : Nat → R, (∃ r, r < N ∧ x r ≠ 0) → 0 < bilForm N W x x

/-- The neighbour lists `nbd` are those of an undirected graph on the nodes `0 .. N-1`:
every node has its list, the list is increasing, its entries are nodes other than the node
itself, and `j` is in the list of `n` whenever `n` is in the list of `j`. -/
def IsGraphNbd (N : Nat) (nbd : Neighbourhood) : Prop :=
  ∀ j, j < N → ∃ l, Neighbourhood.find nbd j = some l ∧ l.Pairwise (· < ·) ∧
    ∀ n ∈ l, n < N ∧ n ≠ j ∧ ∃ l2, Neighbourhood.find nbd n = some l2 ∧ j ∈ l2

/-- The solver `llt_solve` is exact on the symmetric positive definite systems with `n`
unknowns: the vector it returns for `M` and `rhs` solves `M x = rhs`. -/
def ExactOnPosDef {R : Type} [OrderedSemiring R] (llt_solve : MatD R → MatD R → MatD R)
    (n : Nat) : Prop :=
  ∀ M rhs : MatD R, M.rows = n → M.cols = n → (∀ r c, M.coeff r c = M.coeff c r) →
    IsPosDef n M.coeff → ∀ r, r < n →
      (Finset.range n).sum (fun c => M.coeff r c * (llt_solve M rhs).coeff c 0)
        = rhs.coeff r 0

/-- The invariant of the sweeps of `rgwish_core`: `Omega` is `N × N`, the symmetric matrix
of its upper triangle is positive definite, and it has the entries of `Sigma` on the
diagonal and at the links of the graph. -/
def SweepInvariant {R : Type} [OrderedSemiring R] (N : Nat) (nbd : Neighbourhood)
    (Sigma Omega : MatD R) : Prop :=
  Omega.rows = N ∧ Omega.cols = N ∧ IsPosDef N (symUpper Omega) ∧
  (∀ r, r < N → Omega.coeff r r = Sigma.coeff r r) ∧
  (∀ j, j < N → ∀ l, Neighbourhood.find nbd j = some l →
    ∀ n ∈ l, symUpper Omega n j = Sigma.coeff n j)

end utils

/-- A partition of three nodes whose first group is a singleton: `{0}, {1,2}`. -/
def partFirstSingleton : Groups :=
  { n_groups := 2
    n_elements := 3
    n_singleton := 1
    pos_singleton := [0]
    get_group := fun i => if i = 0 then [0] else if i = 1 then [1, 2] else []
    map_of_indeces := fun n => if n = 0 then some 0 else if n < 3 then some 1 else none }

/-- A partition of five nodes whose middle group is a singleton: `{0,1}, {2}, {3,4}`. -/
def partMidSingleton : Groups :=
  { n_groups := 3
    n_elements := 5
    n_singleton := 1
    pos_singleton := [1]
    get_group := fun i =>
      if i = 0 then [0, 1] else if i = 1 then [2] else if i = 2 then [3, 4] else []
    map_of_indeces := fun n =>
      if n < 2 then some 0 else if n = 2 then some 1 else if n < 5 then some 2 else none }

/-- A partition of four nodes into two pairs: `{0,1}, {2,3}`. -/
def partTwoPairs : Groups :=
  { n_groups := 2
    n_elements := 4
    n_singleton := 0
    pos_singleton := []
    get_group := fun i => if i = 0 then [0, 1] else if i = 1 then [2, 3] else []
    map_of_indeces := fun n => if n < 2 then some 0 else if n < 4 then some 1 else none }

/-- The vector-backed graph over `{0,1}, {2}, {3,4}` built from `[1, 0, 1, 1, 0]`. -/
def graphMidSingleton : BlockGraphAdjCRTP :=
  { ptr_groups := partMidSingleton
    n_links := 7
    n_blocks := 3
    data := [1, 0, 1, 1, 0]
    neighbours := [(0, [1, 3, 4]), (1, [0, 3, 4]), (2, [3, 4]), (3, [0, 1, 2]), (4, [0, 1, 2])] }

/-- A partition of `131074` nodes into `65537` pairs `{2i, 2i+1}`. -/
def partManyPairs : Groups :=
  { n_groups := 65537
    n_elements := 131074
    n_singleton := 0
    pos_singleton := []
    get_group := fun i => [2 * i, 2 * i + 1]
    map_of_indeces := fun n => if n < 131074 then some (n / 2) else none }

/-- A `3 × 3` matrix with the single non-zero entries `(0,2)` and `(2,0)`. -/
def matCorner : InnerData :=
  { rows := 3
    cols := 3
    coeff := fun i j => if (i = 0 ∧ j = 2) ∨ (i = 2 ∧ j = 0) then 1 else 0 }

/-- The matrix-backed graph over `{0,1}, {2}, {3,4}` built from `[1, 0, 1, 1, 0]`. -/
def matrixGraphMidSingleton : BlockGraphCRTP :=
  match BlockGraphCRTP.mk_from_adj [1, 0, 1, 1, 0] partMidSingleton with
  | .ok G => G
  | .error _ => BlockGraphCRTP.init partMidSingleton

/-- The matrix-backed graph over `{0,1}, {2}, {3,4}` built from the matrix `matCorner`. -/
def matrixGraphCorner : BlockGraphCRTP :=
  match BlockGraphCRTP.mk_from_matrix matCorner partMidSingleton with
  | .ok G => G
  | .error _ => BlockGraphCRTP.init partMidSingleton

/-- A partition of `131072` nodes into two groups of `65536` nodes:
`{0, .., 65535}, {65536, .., 131071}`. -/
def partTwoBlocks : Groups :=
  { n_groups := 2
    n_elements := 131072
    n_singleton := 0
    pos_singleton := []
    get_group := fun i =>
      if i = 0 then List.range' 0 65536 else if i = 1 then List.range' 65536 65536 else []
    map_of_indeces := fun n =>
      if n < 65536 then some 0 else if n < 131072 then some 1 else none }

/-- A kernel over the integers for running `rgwish_core` on examples: the draw returns
its scale matrix and counts one draw in the engine, the solvers return their argument, a
node update leaves `Omega` as it is, and the statistic of a sweep is `0`. -/
def exampleRgwishKernel : utils.RgwishKernel Int Nat :=
  { rwish := fun _ engine _ D => (D, engine + 1)
    llt_solve_identity := fun M _ => M
    node_update := fun _ _ _ _ Omega => .ok Omega
    norm := fun _ => 0
    copy_upper_to_lower := fun Omega => Omega
    lt := fun x y => decide (x < y)
    selfadjoint_llt_solve_identity := fun M _ => M }

/-- The `2 × 2` identity matrix over the integers. -/
def identityTwoInt : MatD Int :=
  { rows := 2, cols := 2, coeff := fun i j => if i = j then 1 else 0 }

/-- A `2 × 3` matrix of zeros over the integers. -/
def zerosTwoByThreeInt : MatD Int :=
  { rows := 2, cols := 3, coeff := fun _ _ => 0 }

/-- A partition of two nodes into one group: `{0,1}`. -/
def partOnePair : Groups :=
  { n_groups := 1
    n_elements := 2
    n_singleton := 0
    pos_singleton := []
    get_group := fun i => if i = 0 then [0, 1] else []
    map_of_indeces := fun n => if n < 2 then some 0 else none }

/-- The vector-backed graph over `{0,1}` built from `[1]`: the complete graph on two
nodes. -/
def graphOnePairComplete : BlockGraphAdjCRTP :=
  { ptr_groups := partOnePair
    n_links := 1
    n_blocks := 1
    data := [1]
    neighbours := [(0, [1]), (1, [0])] }

/-- The vector-backed graph over `{0,1}` built from `[0]`: the empty graph on two
nodes. -/
def graphOnePairEmpty : BlockGraphAdjCRTP :=
  { ptr_groups := partOnePair
    n_links := 0
    n_blocks := 0
    data := [0]
    neighbours := [(0, []), (1, [])] }

/-- The vector-backed graph over `{0,1}, {2,3}` built from `[1, 1, 0]`. -/
def graphTwoPairs : BlockGraphAdjCRTP :=
  { ptr_groups := partTwoPairs
    n_links := 5
    n_blocks := 2
    data := [1, 1, 0]
    neighbours := [(0, [1, 2, 3]), (1, [0, 2, 3]), (2, [0, 1]), (3, [0, 1])] }

/-- The vector-backed graph over `{0,1}, {2,3}` built from `[1, 1, 0]` and then changed by
`add_link(1,1)`: every pair of nodes is linked, the caches are those of `[1, 1, 0]`. -/
def graphStaleComplete : BlockGraphAdjCRTP :=
  { ptr_groups := partTwoPairs
    n_links := 5
    n_blocks := 2
    data := [1, 1, 1]
    neighbours := [(0, [1, 2, 3]), (1, [0, 2, 3]), (2, [0, 1]), (3, [0, 1])] }

/-- A kernel over the rationals for running `log_normalizing_constat` on examples: exact
arithmetic, with `log` and `lgamma` replaced by the zero function, a Cholesky
factorisation that always succeeds, determinant `1`, and a Monte Carlo branch that returns
`0` and counts the iterations in the engine. -/
def exampleLogConstKernel : utils.LogConstKernel Rat Nat :=
  { zero := 0
    one := 1
    half := 1 / 2
    ofNat := fun n => (n : Rat)
    add := fun x y => x + y
    sub := fun x y => x - y
    mul := fun x y => x * y
    le := fun x y => decide (x ≤ y)
    ne := fun x y => decide (x ≠ y)
    log := fun _ => 0
    lgamma := fun _ => 0
    log_pi := 0
    log_2 := 0
    llt_success := fun _ => true
    determinant := fun _ => 1
    monte_carlo := fun _ _ _ MCiteration _ engine => (.ok 0, engine + MCiteration) }

/-- The `2 × 2` identity matrix over the rationals. -/
def identityTwoRat : MatD Rat :=
  { rows := 2, cols := 2, coeff := fun i j => if i = j then 1 else 0 }

/-- A `2 × 2` matrix over the rationals that is not symmetric: `D(0,1) = 1`,
`D(1,0) = 0`. -/
def asymmetricTwoRat : MatD Rat :=
  { rows := 2, cols := 2, coeff := fun i j => if i = j then 1 else if i < j then 1 else 0 }

/-- A `2 × 3` matrix of zeros over the rationals. -/
def zerosTwoByThreeRat : MatD Rat :=
  { rows := 2, cols := 3, coeff := fun _ _ => 0 }

/-- The square matrix of a `MatD` over the reals, indexed by its rows. -/
def MatD.toMatrix (D : MatD Real) : Matrix (Fin D.rows) (Fin D.rows) Real :=
  Matrix.of (fun i j => D.coeff i j)

/-- The operations of `log_normalizing_constat` in exact real arithmetic: `std::log` is the
natural logarithm, `std::lgamma` the logarithm of the absolute value of the Gamma
function, the Cholesky factorisation succeeds on the positive definite matrices, and the
determinant is the determinant.  The Monte Carlo branch is a parameter. -/
noncomputable def realLogConstKernel (E : Type)
    (monte_carlo : GraphView → Real → MatD Real → Nat → List Nat → E → Except Err Real × E) :
    utils.LogConstKernel Real E :=
  { zero := 0
    one := 1
    half := 1 / 2
    ofNat := fun n => (n : Real)
    add := fun x y => x + y
    sub := fun x y => x - y
    mul := fun x y => x * y
    le := fun x y => decide (x ≤ y)
    ne := fun x y => decide (x ≠ y)
    log := Real.log
    lgamma := fun x => Real.log (Real.Gamma x)
    log_pi := Real.log Real.pi
    log_2 := Real.log 2
    llt_success := fun D =>
      @decide (D.rows = D.cols ∧ D.toMatrix.PosDef) (Classical.propDecidable _)
    determinant := fun D => D.toMatrix.det
    monte_carlo := monte_carlo }

/-- The `2 × 2` identity matrix over the reals. -/
def identityTwoReal : MatD Real :=
  { rows := 2, cols := 2, coeff := fun i j => if i = j then 1 else 0 }

/-- The `3 × 3` integer matrix with entries `Mat(i,j) = 3 i + j`. -/
def matCountingInt : MatD Int :=
  { rows := 3, cols := 3, coeff := fun i j => 3 * (i : Int) + (j : Int) }

/-- The integer vector `(1, 2)`. -/
def vecOneTwoInt : MatD Int :=
  { rows := 2, cols := 1, coeff := fun r _ => (r : Int) + 1 }

/-- The `3 × 3` rational matrix with entries `1 / (i + j + 1)`. -/
def hilbertThreeRat : MatD Rat :=
  { rows := 3, cols := 3, coeff := fun i j => 1 / ((i + j + 1 : Nat) : Rat) }

/-- The kernel of `rgwish_core` with the node update `utils::node_update`, the statistic
`MeanNorm` (the default `NormType`) of the upper triangle against the transposed lower
one, the copy of the upper triangle onto the lower one and `<` of the scalars; the draw
and the three solvers of `Eigen` are parameters. -/
def utils.eigenKernel {R E : Type} [LinearOrderedField R]
    (rwish : utils.isChol → E → R → MatD R → MatD R × E)
    (llt_solve_identity : MatD R → Nat → MatD R)
    (llt_solve : MatD R → MatD R → MatD R)
    (selfadjoint_llt_solve_identity : MatD R → Nat → MatD R) : utils.RgwishKernel R E :=
  { rwish := rwish
    llt_solve_identity := llt_solve_identity
    node_update := utils.node_update llt_solve
    norm := fun Omega =>
      match utils.MeanNorm.norm Omega.triangularViewUpper
          Omega.triangularViewLower.transpose with
      | .ok v => v
      | .error _ => 0
    copy_upper_to_lower := MatD.copyUpperToLower
    lt := fun x y => decide (x < y)
    selfadjoint_llt_solve_identity := selfadjoint_llt_solve_identity }

/-- The vector-backed graph over `{0,1}, {2,3}` built from `[0, 1, 0]`: the four-cycle
`0 - 2 - 1 - 3 - 0`, in which `(0,1)` and `(2,3)` are not linked. -/
def graphFourCycle : BlockGraphAdjCRTP :=
  { ptr_groups := partTwoPairs
    n_links := 4
    n_blocks := 1
    data := [0, 1, 0]
    neighbours := [(0, [2, 3]), (1, [2, 3]), (2, [0, 1]), (3, [0, 1])] }

/-- A symmetric positive definite `4 × 4` matrix with determinant `1`, used as the draw
`K` of an example. -/
def drawFourRat : MatD Rat :=
  { rows := 4
    cols := 4
    coeff := fun i j =>
      (([[1, 1, 0, 1], [1, 2, 1, 1], [0, 1, 2, 1], [1, 1, 1, 3]].getD i []).getD j 0 : Int) }

/-- The inverse of `drawFourRat`. -/
def sigmaFourRat : MatD Rat :=
  { rows := 4
    cols := 4
    coeff := fun i j =>
      (([[7, -4, 3, -2], [-4, 3, -2, 1], [3, -2, 2, -1], [-2, 1, -1, 1]].getD i []).getD j 0
        : Int) }

/-- The inverse of the matrix `Omega` that one sweep over `graphFourCycle` makes of
`sigmaFourRat`. -/
def precisionFourRat : MatD Rat :=
  { rows := 4
    cols := 4
    coeff := fun i j =>
      (([[33, -3, -36, 36], [-3, 61, 60, -12], [-36, 60, 144, 0], [36, -12, 0, 144]].getD i
        []).getD j 0 : Int) / 60 }

/-- Exact solver of the systems with one or two unknowns (Cramer's rule). -/
def cramerSolve (M rhs : MatD Rat) : MatD Rat :=
  { rows := M.cols
    cols := rhs.cols
    coeff := fun r c =>
      if M.cols = 1 then rhs.coeff 0 c / M.coeff 0 0
      else if r = 0 then
        (rhs.coeff 0 c * M.coeff 1 1 - M.coeff 0 1 * rhs.coeff 1 c)
          / (M.coeff 0 0 * M.coeff 1 1 - M.coeff 0 1 * M.coeff 1 0)
      else
        (M.coeff 0 0 * rhs.coeff 1 c - M.coeff 1 0 * rhs.coeff 0 c)
          / (M.coeff 0 0 * M.coeff 1 1 - M.coeff 0 1 * M.coeff 1 0) }

/-- The kernel of an example run of `rgwish_core` over the rationals: the draw is
`drawFourRat`, its inverse is `sigmaFourRat`, the systems of the node updates are solved
by `cramerSolve`, and the last solve returns `precisionFourRat`. -/
def exampleCycleKernel : utils.RgwishKernel Rat Nat :=
  utils.eigenKernel (fun _ engine _ _ => (drawFourRat, engine + 1))
    (fun _ _ => sigmaFourRat) cramerSolve (fun _ _ => precisionFourRat)

/-- The `4 × 4` identity matrix over the rationals. -/
def identityFourRat : MatD Rat :=
  { rows := 4, cols := 4, coeff := fun i j => if i = j then 1 else 0 }

namespace utils

/-- The inner loop `for(j = i+1; j < data.cols(); ++j)` of `check_structure` on the columns
that are left; `true` means that the loop ran to its end without `return false`.  The
graph is passed by constant reference, so the two calls `G(i,j)` of the condition give
the same value; `data(i,j)` is read only behind `G(i,j) == 0` or `G(i,j) == 1`. -/
def check_structure_row {R : Type} [LinearOrderedField R] (G : Nat → Nat → Except Err Nat)
    (data : MatD R) (threshold : R) (i : Nat) : List Nat → Except Err Bool
  | [] => .ok true
  | j :: js => do
    let g ← G i j
    if g = 0 then do
      let d ← data.read i j
      if |d| > threshold then .ok false
      else check_structure_row G data threshold i js
    else if g = 1 then do
      let d ← data.read i j
      if |d| < threshold then .ok false
      else check_structure_row G data threshold i js
    else check_structure_row G data threshold i js

/-- The outer loop of `check_structure` on the rows that are left. -/
def check_structure_rows {R : Type} [LinearOrderedField R] (G : Nat → Nat → Except Err Nat)
    (data : MatD R) (threshold : R) : List Nat → Except Err Bool
  | [] => .ok true
  | i :: is => do
    let r ← check_structure_row G data threshold i
      (List.range' (i + 1) (data.cols - (i + 1)))
    if r then check_structure_rows G data threshold is else .ok false

/-- `utils::check_structure`.  The outer loop is `for(IdxType i = 1; i < data.rows()-1; ++i)`
with `IdxType = std::size_t`: `data.rows() - 1` is converted to `std::size_t` for the
comparison. -/
def check_structure {R : Type} [LinearOrderedField R] (G : Nat → Nat → Except Err Nat)
    (data : MatD R) (threshold : R) : Except Err Bool :=
  check_structure_rows G data threshold
    (List.range' 1 (u64 (data.rows + 18446744073709551615) - 1))

/-- The operations of `double` that the two `logSumExp` use: `0.0`, `+`, `-`, `<`,
`std::exp`, `std::log` and `gsl_sf_log_1plusx`. -/
structure LogSumExpOps (R : Type) where
  zero : R
  add : R → R → R
  sub : R → R → R
  lt : R → R → Bool
  exp : R → R
  log : R → R
  log_1plusx : R → R

/-- `utils::logSumExp(double x, double y)`. -/
def logSumExp2 {R : Type} (K : LogSumExpOps R) (x y : R) : R :=
  if K.lt x y then K.add y (K.log_1plusx (K.exp (K.sub x y)))
  else K.add x (K.log_1plusx (K.exp (K.sub y x)))

/-- `std::max_element(v.cbegin(), v.cend())`: the first of the largest elements, `none`
for the iterator `v.cend()` of an empty range. -/
def max_element {R : Type} (lt : R → R → Bool) : List R → Option R
  | [] => none
  | x :: xs => some (xs.foldl (fun largest y => if lt largest y then y else largest) x)

/-- `utils::logSumExp(std::vector<double> const & v)`; dereferencing `it_max` is invalid
when `v` is empty. -/
def logSumExp {R : Type} (K : LogSumExpOps R) (v : List R) : Except Err R :=
  match max_element K.lt v with
  | none => .error .undefined_behaviour
  | some it_max =>
    let res := v.foldl (fun res x => K.add res (K.exp (K.sub x it_max))) K.zero
    .ok (K.add it_max (K.log res))

/-- `utils::build_adjs` with `T = unsigned int`, `true` stored as `1` and `false` as `0`;
the result is `all_G` after the call.  The first argument bounds the depth of the
recursion: `none` means that the bound was reached. -/
def build_adjs : Nat → List (List Nat) → List Nat → Nat → Option (List (List Nat))
  | 0, _, _, _ => none
  | fuel + 1, all_G, g, n_el =>
    if g.length = n_el then some (all_G ++ [g])
    else
      match build_adjs fuel all_G (g ++ [1]) n_el with
      | none => none
      | some all_G1 => build_adjs fuel all_G1 (g ++ [0]) n_el

/-- The compile-time cases of `list_all_graphs` on its template argument
`GraphStructure`: `isCompleteGraph`, `isBlockGraph`, neither. -/
inductive GraphKind where
  | Complete
  | Block
  | Other
  deriving DecidableEq, Repr

/-- `utils::list_all_graphs(p, ptr_groups)` without the printing.  `mk_complete` is the
constructor `Graph(all_G[i])` of a complete graph type (its class is not among the
sources) and `mk_block` the constructor `Graph(all_G[i], ptr_groups)` of a block graph
type.  `n_el = 0.5*(p*p - p)` has `p*p - p` in `unsigned int`.  Modelled from the spec:
`Groups::get_possible_block_links`, taken to be the one of the graph classes.  The first
argument bounds the depth of the recursion of `build_adjs`. -/
def list_all_graphs {Γ : Type} (kind : GraphKind) (mk_complete : List Nat → Except Err Γ)
    (mk_block : List Nat → Groups → Except Err Γ) (fuel p : Nat)
    (ptr_groups : Option Groups) : Option (Except Err (List Γ)) :=
  if p = 0 ∧ ptr_groups.isNone then some (.error .runtime_error)
  else
    match kind, ptr_groups with
    | .Complete, _ =>
      (build_adjs fuel [] [] (u32 (u32 (p * p) + 4294967296 - p) / 2)).map
        (fun all_G => all_G.mapM mk_complete)
    | .Block, none => some (.error .runtime_error)
    | .Block, some Gr =>
      (build_adjs fuel [] [] (get_possible_block_links Gr)).map
        (fun all_G => all_G.mapM (fun g => mk_block g Gr))
    | .Other, _ => some (.error .runtime_error)

/-- An entry of `vector_free_element` in the Monte Carlo branch of
`log_normalizing_constat`, recorded by the sampler call that produces it: `chisq k` is
`std::sqrt(rchisq(engine, b + k))` and `normal` is `rnorm(engine)`. -/
inductive FreeElement where
  | chisq (nu_i : Nat)
  | normal
  deriving DecidableEq, Repr

/-- One pass of the loop of step 2 (sampling the free elements) on the state
`(entries written so far, time_to_diagonal, offset of it_nu in nu)`.  Dereferencing
`it_nu` at `nu.cend()` is invalid; `time_to_diagonal` is an `unsigned int`. -/
def free_elements_step (nu : List Nat) (st : List FreeElement × Nat × Nat) :
    Except Err (List FreeElement × Nat × Nat) :=
  match nu[st.2.2]? with
  | none => .error .undefined_behaviour
  | some nu_i =>
    let entry := if st.2.1 = 0 then FreeElement.chisq nu_i else FreeElement.normal
    if st.2.1 = nu_i then .ok (st.1 ++ [entry], 0, st.2.2 + 1)
    else .ok (st.1 ++ [entry], u32 (st.2.1 + 1), st.2.2)

/-- Step 2 of the Monte Carlo branch: the loop `for(i = 0; i < N_free_elements; ++i)` that
fills `vector_free_element`.  Pass `i` writes the entry `i`, so the vector after the loop
is the list of the entries in the order of the passes. -/
def free_elements_fill (nu : List Nat) (N_free_elements : Nat) :
    Except Err (List FreeElement) := do
  let st ← (List.range N_free_elements).foldlM (fun st _ => free_elements_step nu st)
    ([], 0, 0)
  pure st.1

/-- The statement `Psi(i,j) = *it_fe; it_fe++` of step 3 on the state `(offset of it_fe in
vector_free_element, cells of Psi assigned from the vector so far)`.  Dereferencing `it_fe`
at the end of the vector is invalid, and so is a cell outside the `N × N` matrix `Psi`. -/
def read_free_element {α : Type} (fe : List α) (N i j : Nat)
    (st : Nat × List (Nat × Nat × α)) : Except Err (Nat × List (Nat × Nat × α)) :=
  if i < N ∧ j < N then
    match fe[st.1]? with
    | some v => .ok (st.1 + 1, st.2 ++ [(i, j, v)])
    | none => .error .undefined_behaviour
  else .error .undefined_behaviour

/-- A loop `for(j = first; j < N; ++j)` of step 3 in row `i`: the cell `(i,j)` is assigned
from the vector when the graph has the link and is computed from the cells above it (no
read of the vector) otherwise.  `on_true` tells the test of the source: `G(i,j) == true`
(the link is `1`) or the `else` of `G(i,j) == false` (the link is not `0`). -/
def complete_psi_row {α : Type} (G : Nat → Nat → Except Err Nat) (fe : List α)
    (N i first : Nat) (on_true : Bool) (st : Nat × List (Nat × Nat × α)) :
    Except Err (Nat × List (Nat × Nat × α)) :=
  (List.range' first (N - first)).foldlM
    (fun st j => do
      let g ← G i j
      if (if on_true then g = 1 else g ≠ 0) then read_free_element fe N i j st
      else pure st)
    st

/-- Step 3 of the Monte Carlo branch (completion of the upper part of `Psi`) as far as
`vector_free_element` is concerned: the reads through `it_fe`, for the branch
`H.isIdentity()` and for the general one.  Rows `0` and `1` are written out in the source,
the rows `2 .. N-2` are a loop (`N - 1` in `unsigned int`), the last row is not
completed. -/
def complete_psi_reads {α : Type} (G : Nat → Nat → Except Err Nat) (N : Nat)
    (H_isIdentity : Bool) (fe : List α) : Except Err (Nat × List (Nat × Nat × α)) := do
  let st ← read_free_element fe N 0 0 (0, [])
  let st ← complete_psi_row G fe N 0 1 H_isIdentity st
  let st ← read_free_element fe N 1 1 st
  let st ← complete_psi_row G fe N 1 2 false st
  (List.range' 2 (u32 (N + 4294967295) - 2)).foldlM
    (fun st i =>
      if H_isIdentity then complete_psi_row G fe N i i false st
      else do
        let st ← read_free_element fe N i i st
        complete_psi_row G fe N i (i + 1) false st)
    st

end utils

/-- A partition of two nodes into two singletons: `{0}, {1}`. -/
def partTwoSingletons : Groups :=
  { n_groups := 2
    n_elements := 2
    n_singleton := 2
    pos_singleton := [0, 1]
    get_group := fun i => if i < 2 then [i] else []
    map_of_indeces := fun n => if n < 2 then some n else none }

/-- A vector-backed graph over `{0}, {1}` that holds the vector `[0]` of the validated
length `1`: the object on which the constructor from `[0]` calls `find_neighbours`. -/
def graphTwoSingletons : BlockGraphAdjCRTP :=
  { ptr_groups := partTwoSingletons
    n_links := 0
    n_blocks := 0
    data := [0]
    neighbours := [] }

/-- The vector-backed graph over `{0}, {1,2}` built from `[0, 0]`. -/
def graphFirstSingletonEmpty : BlockGraphAdjCRTP :=
  { ptr_groups := partFirstSingleton
    n_links := 0
    n_blocks := 0
    data := [0, 0]
    neighbours := [(0, []), (1, []), (2, [])] }

/-- The exact real operations for `logSumExp`: `gsl_sf_log_1plusx(x)` is `log(1 + x)`. -/
noncomputable def realLogSumExpOps : utils.LogSumExpOps Real :=
  { zero := 0
    add := fun x y => x + y
    sub := fun x y => x - y
    lt := fun x y => decide (x < y)
    exp := Real.exp
    log := Real.log
    log_1plusx := fun x => Real.log (1 + x) }

/-- A `2 × 2` matrix over the rationals with the entry `1` in the cell `(0,1)`. -/
def matUpperOneRat : MatD Rat :=
  { rows := 2, cols := 2, coeff := fun i j => if i = 0 ∧ j = 1 then 1 else 0 }

/-- A `3 × 3` matrix over the rationals with the entry `1` in the cells `(0,1)` and
`(0,2)`. -/
def matFirstRowRat : MatD Rat :=
  { rows := 3, cols := 3, coeff := fun i j => if i = 0 ∧ 0 < j then 1 else 0 }

/-- Indicator of a singleton position: `1` if group `k` is listed by
`get_pos_singleton()`, else `0`. -/
def ind (g : Groups) (k : Nat) : Nat := if k ∈ g.pos_singleton then 1 else 0

/-- Number of stored cells in the rows before row `h`. -/
def rowStart (g : Groups) : Nat → Nat
  | 0 => 0
  | h + 1 => rowStart g h + (g.n_groups - h - ind g h)

/-- The sum `Σ_{k<i} (M - k)`. -/
def rowSum (M : Nat) : Nat → Nat
  | 0 => 0
  | i + 1 => rowSum M i + (M - i)

/-- Number of singleton positions below `h`. -/
def sumInd (g : Groups) : Nat → Nat
  | 0 => 0
  | h + 1 => sumInd g h + ind g h

/-- Rank of the stored cell `(r,c)` in the row-major enumeration of the stored cells. -/
def trueIndex (g : Groups) (r c : Nat) : Nat := rowStart g r + (c - r) - ind g r

/-- Number of pairs `(u, v)` with `u` in `X`, `v` in `Y` and `u < v`. -/
def ltPairs (X Y : Finset Nat) : Nat :=
  ∑ u ∈ X, ∑ v ∈ Y, if u < v then 1 else 0

/-- The nodes below `n` that `map_of_indeces` sends to group `i`. -/
def fiber (g : Groups) (i : Nat) : Finset Nat :=
  (Finset.range g.n_elements).filter (fun u => g.map_of_indeces u = some i)

/-- What `compute_nlinks_nblocks` adds to `n_links` for the pair of groups `(i, j)`, without
the reduction to 32 bits. -/
def linkWeight (g : Groups) (link : Nat → Nat → Except Err Nat) (i j : Nat) : Nat :=
  if link i j = .ok 1 then
    if i = j then g.get_group_size i * (g.get_group_size i - 1) / 2
    else g.get_group_size i * g.get_group_size j
  else 0

/-- The sum of `linkWeight` over the pairs of groups `i <= j < M`. -/
def allLinks (g : Groups) (link : Nat → Nat → Except Err Nat) : Nat :=
  ((List.range g.n_groups).map
    (fun i => ((List.range' i (g.n_groups - i)).map (linkWeight g link i)).sum)).sum

/-- Number of unordered pairs of distinct nodes `u < v < n` that `link` joins. -/
def linkedPairs (n : Nat) (link : Nat → Nat → Except Err Nat) : Nat :=
  ((Finset.range n ×ˢ Finset.range n).filter
    (fun p => p.1 < p.2 ∧ link p.1 p.2 = .ok 1)).card

/-- The index of the stored vector that the vector-backed graph uses for the pair of
groups `{i, j}`: `compute_diagonal_position(r) + (c - r)` with `r` the smaller and `c` the
larger of the two. -/
def cellIndex (g : Groups) (i j : Nat) : Nat :=
  compute_diagonal_position g (min i j) + (max i j - min i j)

/-- What the two graph classes take from the vector `A` for the pair of groups `{i, j}`:
`1` on a singleton diagonal, else the entry `A[cellIndex i j]`. -/
def cellRead (g : Groups) (A : List Nat) (i j : Nat) : Except Err Nat :=
  if i = j ∧ i ∈ g.pos_singleton then .ok 1 else Adj.read A (cellIndex g i j)

/-- The link function of the empty block graph over `g`: `1` on a singleton diagonal and
`0` on every other pair. -/
def emptyLink (g : Groups) (i j : Nat) : Except Err Nat :=
  .ok (if i = j ∧ i ∈ g.pos_singleton then 1 else 0)

/-- All vectors of length `k` with entries `1` and `0`, in the order in which `build_adjs`
appends them. -/
def boolVectors : Nat → List (List Nat)
  | 0 => [[]]
  | k + 1 => (boolVectors k).map (fun t => 1 :: t) ++ (boolVectors k).map (fun t => 0 :: t)

/-- The entries of `vector_free_element` row by row: for each entry `k` of `nu`, one
`chisq k` followed by `k` entries `normal`. -/
def freeLayout (nu : List Nat) : List utils.FreeElement :=
  nu.flatMap (fun k => utils.FreeElement.chisq k :: List.replicate k utils.FreeElement.normal)

/-- Number of nodes `j` with `i < j < n` that `cv` links to `i`. -/
def nuCount (n : Nat) (cv : Nat → Nat → Except Err Nat) (i : Nat) : Nat :=
  (List.range' (i + 1) (n - (i + 1))).countP (fun j => decide (cv i j = .ok 1))

/-- The layout of the free elements for a graph in complete form `V` on `n` nodes whose link
query is `cv`: `compute_nu` returns a vector `nu` of length `n` with
`nu[i] = #{j : i < j < n, cv(i,j) = 1}` and sum `get_n_links()`; the loop of step 2 on
`N_free_elements = n_links + N` (in `unsigned int`) returns, and the vector holds, row by
row, one `chisq nu[i]` followed by `nu[i]` entries `normal`; and in the Monte Carlo
branch (`n_links` neither `0` nor `n(n-1)/2`) the completion step on a vector of that
length returns with `it_fe` at the offset `n_links + N - 1`, the last entry, for both
forms of `H`. -/
def FreeElementsOK (V : GraphView) (n : Nat) (cv : Nat → Nat → Except Err Nat) : Prop :=
  ∃ nu, utils.compute_nu V V.get_size = .ok nu ∧ nu.length = n ∧
    nu.sum = V.get_n_links ∧
    (∀ i, i < n → nu[i]? = some (nuCount n cv i)) ∧
    utils.free_elements_fill nu (u32 (V.get_n_links + V.get_size)) = .ok (freeLayout nu) ∧
    (freeLayout nu).length = V.get_n_links + V.get_size ∧
    (V.get_n_links ≠ 0 → V.get_n_links ≠ n * (n - 1) / 2 →
      ∀ (H_isIdentity : Bool) (fe : List utils.FreeElement),
        fe.length = u32 (V.get_n_links + V.get_size) →
        ∃ cells, utils.complete_psi_reads cv V.get_size H_isIdentity fe
          = .ok (V.get_n_links + V.get_size - 1, cells))


/-! ## The position codec -/

theorem ind_le_one (g : Groups) (k : Nat) : ind g k ≤ 1 := by
  unfold ind; split <;> omega

theorem rowSum_closed (M : Nat) : ∀ i, i ≤ M → 2 * rowSum M i + i * i = 2 * i * M + i
  | 0, _ => by simp [rowSum]
  | i + 1, h => by
    have ih := rowSum_closed M i (by omega)
    obtain ⟨d, rfl⟩ : ∃ d, M = i + 1 + d := ⟨M - (i + 1), by omega⟩
    simp only [rowSum]
    have : i + 1 + d - i = d + 1 := by omega
    rw [this]
    nlinarith

theorem rowSum_le (M : Nat) : ∀ i, i ≤ M → rowSum M i ≤ i * M := by
  intro i hi
  have := rowSum_closed M i hi
  nlinarith

theorem fold_eq_rowSum (g : Groups) (hM : g.n_groups ≤ 4294967295) :
    ∀ i, i ≤ g.n_groups →
      (List.range i).foldl
        (fun res k => u64 (res + u64 (g.n_groups + 18446744073709551616 - k))) 0
        = rowSum g.n_groups i
  | 0, _ => by simp [rowSum]
  | i + 1, h => by
    have ih := fold_eq_rowSum g hM i (by omega)
    rw [List.range_succ, List.foldl_append, ih]
    have hb := rowSum_le g.n_groups (i + 1) h
    have hb2 : (i + 1) * g.n_groups ≤ 4294967295 * 4294967295 :=
      Nat.mul_le_mul (by omega) hM
    simp only [List.foldl_cons, List.foldl_nil, rowSum, u64] at hb ⊢
    omega

theorem countP_le_succ (l : List Nat) (i : Nat) :
    l.countP (fun s => s ≤ i + 1) = l.countP (fun s => s ≤ i) + l.count (i + 1) := by
  induction l with
  | nil => simp
  | cons a t ih =>
    simp only [List.countP_cons, List.count_cons, ih, decide_eq_true_eq, beq_iff_eq]
    split_ifs <;> omega

theorem countP_le_zero (l : List Nat) :
    l.countP (fun s => s ≤ 0) = l.count 0 := by
  induction l with
  | nil => simp
  | cons a t ih =>
    simp only [List.countP_cons, List.count_cons, ih, decide_eq_true_eq, beq_iff_eq]
    split_ifs <;> omega

theorem count_eq_ind (g : Groups) (hnd : g.pos_singleton.Nodup) (k : Nat) :
    g.pos_singleton.count k = ind g k := by
  unfold ind
  split
  · next h => exact List.count_eq_one_of_mem hnd h
  · next h => exact List.count_eq_zero_of_not_mem h

theorem countP_eq_sumInd (g : Groups) (hnd : g.pos_singleton.Nodup) :
    ∀ i, g.pos_singleton.countP (fun s => s ≤ i) = sumInd g (i + 1)
  | 0 => by rw [countP_le_zero, count_eq_ind g hnd]; simp [sumInd]
  | i + 1 => by
    rw [countP_le_succ, countP_eq_sumInd g hnd i, count_eq_ind g hnd]
    simp [sumInd]


theorem rowStart_add_sumInd (g : Groups) :
    ∀ h, h ≤ g.n_groups → rowStart g h + sumInd g h = rowSum g.n_groups h
  | 0, _ => by simp [rowStart, sumInd, rowSum]
  | h + 1, hh => by
    have ih := rowStart_add_sumInd g h (by omega)
    have := ind_le_one g h
    simp only [rowStart, sumInd, rowSum]
    omega

theorem rowStart_mono (g : Groups) (a : Nat) : ∀ d, rowStart g a ≤ rowStart g (a + d)
  | 0 => by simp
  | d + 1 => by
    have := rowStart_mono g a d
    rw [← Nat.add_assoc]
    simp only [rowStart]
    omega

theorem SingletonsOK.nodup {g : Groups} (hg : g.SingletonsOK) : g.pos_singleton.Nodup :=
  hg.2.1.imp (fun h => Nat.ne_of_lt h)

theorem rowSum_lt (g : Groups) (hM : g.n_groups ≤ 4294967295) (h : Nat) (hh : h ≤ g.n_groups) :
    rowSum g.n_groups h < 18446744073709551616 := by
  have hb := rowSum_le g.n_groups h hh
  have hb2 : h * g.n_groups ≤ 4294967295 * 4294967295 :=
    Nat.mul_le_mul (by omega) hM
  omega

theorem cdp_add_ind (g : Groups) (hg : g.SingletonsOK) (h : Nat) (h1 : 1 ≤ h)
    (hM : h < g.n_groups) :
    compute_diagonal_position g h + ind g h = rowStart g h := by
  obtain ⟨hlt, _, _, hS⟩ := hg
  have hnd := SingletonsOK.nodup ⟨hlt, ‹_›, ‹_›, hS⟩
  have hfold := fold_eq_rowSum g hlt h (by omega)
  have hrs := rowStart_add_sumInd g h (by omega)
  have hcnt := countP_eq_sumInd g hnd h
  have hbound := rowSum_lt g hlt h (by omega)
  have hmono := rowStart_mono g 1 (h - 1)
  have h1' : 1 + (h - 1) = h := by omega
  rw [h1'] at hmono
  have hr1 : rowStart g 1 = g.n_groups - 0 - ind g 0 := by simp [rowStart]
  have hi0 := ind_le_one g 0
  have hih := ind_le_one g h
  unfold compute_diagonal_position
  rw [if_neg (by omega)]
  simp only [hfold]
  split
  · simp only [decide_eq_true_eq] at hcnt ⊢
    rw [show (List.countP (fun pos_s => decide (pos_s ≤ h)) g.pos_singleton)
          = sumInd g (h + 1) from hcnt]
    simp only [sumInd, u64]
    omega
  · next hz =>
    have hnil : g.pos_singleton = [] := by
      apply List.eq_nil_of_length_eq_zero
      omega
    have : ind g h = 0 := by simp [ind, hnil]
    have hs : sumInd g (h + 1) = 0 := by
      rw [← hcnt, hnil]; simp
    simp only [sumInd] at hs
    omega

theorem sumInd_total (g : Groups) (hg : g.SingletonsOK) :
    sumInd g g.n_groups = g.n_singleton := by
  obtain ⟨hlt, hp, hb, hS⟩ := hg
  have hnd := SingletonsOK.nodup ⟨hlt, hp, hb, hS⟩
  rcases Nat.eq_zero_or_pos g.n_groups with h0 | hpos
  · have hnil : g.pos_singleton = [] := by
      apply List.eq_nil_iff_forall_not_mem.mpr
      intro s hs
      have := hb s hs
      omega
    rw [h0, hS, hnil]; simp [sumInd]
  · obtain ⟨m, hm⟩ : ∃ m, g.n_groups = m + 1 := ⟨g.n_groups - 1, by omega⟩
    rw [hm, ← countP_eq_sumInd g hnd m, hS]
    apply List.countP_eq_length.mpr
    intro s hs
    have := hb s hs
    simp only [decide_eq_true_eq]
    omega

theorem n_stored_eq_rowStart (g : Groups) (hg : g.SingletonsOK) :
    n_stored g = rowStart g g.n_groups := by
  have hS := sumInd_total g hg
  have hrs := rowStart_add_sumInd g g.n_groups (Nat.le_refl _)
  have hc := rowSum_closed g.n_groups g.n_groups (Nat.le_refl _)
  unfold n_stored
  rcases Nat.eq_zero_or_pos g.n_groups with h0 | hpos
  · rw [h0] at hrs hc ⊢
    simp [rowSum] at hrs
    omega
  · obtain ⟨m, hm⟩ : ∃ m, g.n_groups = m + 1 := ⟨g.n_groups - 1, by omega⟩
    rw [hm] at hrs hc hS ⊢
    have hX : 2 * rowSum (m + 1) (m + 1) = (m + 1) * m + 2 * (m + 1) := by nlinarith
    clear hc
    rw [Nat.add_sub_cancel]
    generalize (m + 1) * m = X at hX ⊢
    omega


theorem ind_eq_zero {g : Groups} {k : Nat} (h : k ∉ g.pos_singleton) : ind g k = 0 := by
  simp [ind, h]

theorem ind_eq_one {g : Groups} {k : Nat} (h : k ∈ g.pos_singleton) : ind g k = 1 := by
  simp [ind, h]

theorem trueIndex_in_row (g : Groups) (r c : Nat) (hst : StoredCell g r c) :
    rowStart g r ≤ trueIndex g r c ∧ trueIndex g r c < rowStart g (r + 1) := by
  have hi := ind_le_one g r
  unfold trueIndex
  simp only [rowStart]
  rcases hst with ⟨h1, h2⟩ | ⟨h1, h2, h3⟩
  · omega
  · have := ind_eq_zero h3
    omega

theorem trueIndex_lt_n_stored (g : Groups) (hg : g.SingletonsOK) (r c : Nat)
    (hst : StoredCell g r c) : trueIndex g r c < n_stored g := by
  have hrow := trueIndex_in_row g r c hst
  have hr : r + 1 ≤ g.n_groups := by
    rcases hst with ⟨h1, h2⟩ | ⟨h1, h2, _⟩ <;> omega
  have hmono := rowStart_mono g (r + 1) (g.n_groups - (r + 1))
  rw [show r + 1 + (g.n_groups - (r + 1)) = g.n_groups by omega] at hmono
  rw [n_stored_eq_rowStart g hg]
  omega

theorem trueIndex_strictMono (g : Groups) (r c r2 c2 : Nat) (h1 : StoredCell g r c)
    (h2 : StoredCell g r2 c2) (hlex : r < r2 ∨ (r = r2 ∧ c < c2)) :
    trueIndex g r c < trueIndex g r2 c2 := by
  rcases hlex with hlt | ⟨rfl, hc⟩
  · have ha := trueIndex_in_row g r c h1
    have hb := trueIndex_in_row g r2 c2 h2
    have hmono := rowStart_mono g (r + 1) (r2 - (r + 1))
    rw [show r + 1 + (r2 - (r + 1)) = r2 by omega] at hmono
    omega
  · have hi := ind_le_one g r
    unfold trueIndex
    rcases h1 with ⟨h1, _⟩ | ⟨h1, _, h3⟩
    · omega
    · have := ind_eq_zero h3
      omega

theorem trueIndex_injective (g : Groups) (r c r2 c2 : Nat) (h1 : StoredCell g r c)
    (h2 : StoredCell g r2 c2) (he : trueIndex g r c = trueIndex g r2 c2) :
    r = r2 ∧ c = c2 := by
  rcases Nat.lt_trichotomy r r2 with hr | hr | hr
  · have := trueIndex_strictMono g r c r2 c2 h1 h2 (Or.inl hr); omega
  · rcases Nat.lt_trichotomy c c2 with hc | hc | hc
    · have := trueIndex_strictMono g r c r2 c2 h1 h2 (Or.inr ⟨hr, hc⟩); omega
    · exact ⟨hr, hc⟩
    · have := trueIndex_strictMono g r2 c2 r c h2 h1 (Or.inr ⟨hr.symm, hc⟩); omega
  · have := trueIndex_strictMono g r2 c2 r c h2 h1 (Or.inl hr); omega

/-! ## Loops that return normally, loops that do not throw -/

theorem foldlM_inv {α β : Type} (f : β → α → Except Err β) (P : β → Prop) (l : List α)
    (h : ∀ b a, P b → a ∈ l → ∃ b2, f b a = .ok b2 ∧ P b2) :
    ∀ b, P b → ∃ b2, l.foldlM f b = .ok b2 ∧ P b2 := by
  induction l with
  | nil => intro b hb; exact ⟨b, rfl, hb⟩
  | cons a t ih =>
    intro b hb
    obtain ⟨b1, h1, hP1⟩ := h b a hb (List.mem_cons_self _ _)
    obtain ⟨b2, h2, hP2⟩ :=
      ih (fun b a hb ha => h b a hb (List.mem_cons_of_mem _ ha)) b1 hP1
    refine ⟨b2, ?_, hP2⟩
    rw [List.foldlM_cons, h1]
    exact h2

theorem bind_ne_runtime {α β : Type} (x : Except Err α) (f : α → Except Err β)
    (hx : x ≠ .error .runtime_error) (hf : ∀ a, f a ≠ .error .runtime_error) :
    (x >>= f) ≠ .error .runtime_error := by
  cases x with
  | error e =>
    intro he
    apply hx
    injection he with he
    rw [he]
  | ok a => exact hf a

theorem foldlM_ne_runtime {α β : Type} (f : β → α → Except Err β) (l : List α)
    (h : ∀ b a, a ∈ l → f b a ≠ .error .runtime_error) :
    ∀ b, l.foldlM f b ≠ .error .runtime_error := by
  induction l with
  | nil => intro b hb; cases hb
  | cons a t ih =>
    intro b
    rw [List.foldlM_cons]
    exact bind_ne_runtime _ _ (h b a (List.mem_cons_self _ _))
      (ih (fun b a ha => h b a (List.mem_cons_of_mem _ ha)))

theorem find_group_idx_ok (g : Groups) (hv : g.Valid) (i : Nat) (hi : i < g.n_elements) :
    ∃ k, find_group_idx g i = .ok k ∧ k < g.n_groups := by
  obtain ⟨k, hk, hm, _⟩ := hv.2.2.2.2.2.2 i hi
  exact ⟨k, by simp [find_group_idx, hm], hk⟩

theorem nbd_of_node_ok (g : Groups) (link : Nat → Nat → Except Err Nat) (hv : g.Valid)
    (hlink : ∀ i j, i < g.n_groups → j < g.n_groups → ∃ v, link i j = .ok v)
    (i : Nat) (hi : i < g.n_elements) : ∃ l, nbd_of_node g link i = .ok l := by
  obtain ⟨k, hk, hkM⟩ := find_group_idx_ok g hv i hi
  unfold nbd_of_node
  rw [hk]
  obtain ⟨l, hl, _⟩ := foldlM_inv
    (fun temp j => do
      let l ← link k j
      if l = 1 then
        if k = j then
          pure (((g.get_group j).filter (fun idx => !(idx == i))).foldl set_insert temp)
        else
          pure ((g.get_group j).foldl set_insert temp)
      else pure temp)
    (fun _ => True) (List.range (get_size g))
    (by
      intro b j _ hj
      have hj2 : j < g.n_groups := by simpa [get_size] using hj
      obtain ⟨v, hv2⟩ := hlink k j hkM hj2
      simp only [hv2, bind, Except.bind]
      split_ifs <;> exact ⟨_, rfl, trivial⟩)
    [] trivial
  exact ⟨l, hl⟩

theorem find_neighbours_loop_ok (g : Groups) (link : Nat → Nat → Except Err Nat)
    (hv : g.Valid)
    (hlink : ∀ i j, i < g.n_groups → j < g.n_groups → ∃ v, link i j = .ok v)
    (nb : Neighbourhood) : ∃ nb2, find_neighbours_loop g link nb = .ok nb2 := by
  unfold find_neighbours_loop
  obtain ⟨r, hr, _⟩ := foldlM_inv
    (fun nb i => do
      let my_nbds ← nbd_of_node g link i
      pure (Neighbourhood.insert nb i my_nbds))
    (fun _ => True) (List.range g.n_elements)
    (by
      intro b i _ hi
      obtain ⟨l, hl⟩ := nbd_of_node_ok g link hv hlink i (by simpa using hi)
      simp only [hl, bind, Except.bind]
      exact ⟨_, rfl, trivial⟩)
    nb trivial
  exact ⟨r, hr⟩

theorem nlinks_nblocks_loop_ok (g : Groups) (link : Nat → Nat → Except Err Nat)
    (hlink : ∀ i j, i < g.n_groups → j < g.n_groups → ∃ v, link i j = .ok v) :
    ∃ r, nlinks_nblocks_loop g link = .ok r := by
  unfold nlinks_nblocks_loop
  obtain ⟨r, hr, _⟩ := foldlM_inv
    (fun acc i =>
      (List.range' i (get_size g - i)).foldlM
        (fun (acc : Nat × Nat) j => do
          let l ← link i j
          if l = 1 then
            let n_blocks := u32 (acc.2 + 1)
            if i = j then
              pure (u32 (acc.1 + g.get_group_size i * u32 (g.get_group_size i + 4294967295) / 2),
                n_blocks)
            else
              pure (u32 (acc.1 + u32 (g.get_group_size i * g.get_group_size j)), n_blocks)
          else pure acc)
        acc)
    (fun _ => True) (List.range (get_size g))
    (by
      intro acc i _ hi
      have hi2 : i < g.n_groups := by simpa [get_size] using hi
      exact foldlM_inv _ (fun _ => True) _
        (by
          intro acc j _ hj
          have hj2 : j < g.n_groups := by
            have := List.mem_range'_1.mp hj
            unfold get_size at this
            omega
          obtain ⟨v, hv2⟩ := hlink i j hi2 hj2
          simp only [hv2, bind, Except.bind]
          split_ifs <;> exact ⟨_, rfl, trivial⟩)
        acc trivial)
    (0, 0) trivial
  rw [hr]
  exact ⟨_, rfl⟩

theorem Adj_read_ne_runtime (A : List Nat) (k : Nat) :
    Adj.read A k ≠ .error .runtime_error := by
  unfold Adj.read
  split <;> simp

theorem InnerData_read_ne_runtime (m : InnerData) (i j : Nat) :
    m.read i j ≠ .error .runtime_error := by
  unfold InnerData.read
  split <;> simp

theorem InnerData_write_ne_runtime (m : InnerData) (i j v : Nat) :
    m.write i j v ≠ .error .runtime_error := by
  unfold InnerData.write
  split <;> simp

theorem matrix_link_ne_runtime (G : BlockGraphCRTP) (i j : Nat) :
    G.link i j ≠ .error .runtime_error := by
  unfold BlockGraphCRTP.link
  split <;> exact InnerData_read_ne_runtime _ _ _

theorem adj_link_ne_runtime (G : BlockGraphAdjCRTP) (i j : Nat)
    (hi : i ≤ G.ptr_groups.n_groups) (hj : j ≤ G.ptr_groups.n_groups) :
    G.link i j ≠ .error .runtime_error := by
  unfold BlockGraphAdjCRTP.link
  rw [if_neg (by unfold get_size; omega)]
  split_ifs <;> first | exact Adj_read_ne_runtime _ _ | simp

theorem nbd_of_node_ne_runtime (g : Groups) (link : Nat → Nat → Except Err Nat)
    (hv : g.Valid)
    (hlink : ∀ i j, i < g.n_groups → j < g.n_groups → link i j ≠ .error .runtime_error)
    (i : Nat) (hi : i < g.n_elements) : nbd_of_node g link i ≠ .error .runtime_error := by
  obtain ⟨k, hk, hkM⟩ := find_group_idx_ok g hv i hi
  unfold nbd_of_node
  rw [hk]
  apply foldlM_ne_runtime
  intro b j hj
  have hj2 : j < g.n_groups := by simpa [get_size] using hj
  apply bind_ne_runtime _ _ (hlink k j hkM hj2)
  intro v
  split_ifs <;> simp [pure, Except.pure]

theorem find_neighbours_loop_ne_runtime (g : Groups) (link : Nat → Nat → Except Err Nat)
    (hv : g.Valid)
    (hlink : ∀ i j, i < g.n_groups → j < g.n_groups → link i j ≠ .error .runtime_error)
    (nb : Neighbourhood) : find_neighbours_loop g link nb ≠ .error .runtime_error := by
  unfold find_neighbours_loop
  apply foldlM_ne_runtime
  intro b i hi
  apply bind_ne_runtime _ _ (nbd_of_node_ne_runtime g link hv hlink i (by simpa using hi))
  intro v
  simp [pure, Except.pure]

theorem nlinks_nblocks_loop_ne_runtime (g : Groups) (link : Nat → Nat → Except Err Nat)
    (hlink : ∀ i j, i < g.n_groups → j < g.n_groups → link i j ≠ .error .runtime_error) :
    nlinks_nblocks_loop g link ≠ .error .runtime_error := by
  unfold nlinks_nblocks_loop
  apply bind_ne_runtime
  · apply foldlM_ne_runtime
    intro acc i hi
    have hi2 : i < g.n_groups := by simpa [get_size] using hi
    apply foldlM_ne_runtime
    intro acc j hj
    have hj2 : j < g.n_groups := by
      have := List.mem_range'_1.mp hj
      unfold get_size at this
      omega
    apply bind_ne_runtime _ _ (hlink i j hi2 hj2)
    intro v
    split_ifs <;> simp [pure, Except.pure]
  · intro r
    simp [pure, Except.pure]

theorem fillFromAdj_ne_runtime (G : BlockGraphCRTP) (A : List Nat) :
    G.fillFromAdj A ≠ .error .runtime_error := by
  unfold BlockGraphCRTP.fillFromAdj
  apply bind_ne_runtime
  · apply foldlM_ne_runtime
    intro d i _
    apply foldlM_ne_runtime
    intro d j _
    split_ifs <;> first
      | exact InnerData_write_ne_runtime _ _ _ _
      | exact bind_ne_runtime _ _ (Adj_read_ne_runtime _ _)
          (fun v => InnerData_write_ne_runtime _ _ _ _)
  · intro d
    simp [pure, Except.pure]

theorem bind_ne_runtime_ok {α β : Type} (x : Except Err α) (f : α → Except Err β)
    (hx : x ≠ .error .runtime_error) (hf : ∀ a, x = .ok a → f a ≠ .error .runtime_error) :
    (x >>= f) ≠ .error .runtime_error := by
  cases x with
  | error e =>
    intro he
    apply hx
    injection he with he
    rw [he]
  | ok a => exact hf a rfl

theorem matrix_fillFromAdj_groups (G G2 : BlockGraphCRTP) (A : List Nat)
    (h : G.fillFromAdj A = .ok G2) : G2.ptr_groups = G.ptr_groups := by
  unfold BlockGraphCRTP.fillFromAdj at h
  simp only [bind, Except.bind, pure, Except.pure] at h
  split at h
  · cases h
  · injection h with h
    rw [← h]

theorem matrix_find_neighbours_frame (G G2 : BlockGraphCRTP)
    (h : G.find_neighbours = .ok G2) :
    G2.ptr_groups = G.ptr_groups ∧ G2.data = G.data := by
  unfold BlockGraphCRTP.find_neighbours at h
  simp only [bind, Except.bind, pure, Except.pure] at h
  split at h
  · cases h
  · injection h with h
    rw [← h]
    exact ⟨rfl, rfl⟩

theorem matrix_compute_frame (G G2 : BlockGraphCRTP)
    (h : G.compute_nlinks_nblocks = .ok G2) :
    G2.ptr_groups = G.ptr_groups ∧ G2.data = G.data := by
  unfold BlockGraphCRTP.compute_nlinks_nblocks at h
  simp only [bind, Except.bind, pure, Except.pure] at h
  split at h
  · cases h
  · injection h with h
    rw [← h]
    exact ⟨rfl, rfl⟩

theorem adj_find_neighbours_frame (G G2 : BlockGraphAdjCRTP)
    (h : G.find_neighbours = .ok G2) :
    G2.ptr_groups = G.ptr_groups ∧ G2.data = G.data := by
  unfold BlockGraphAdjCRTP.find_neighbours at h
  simp only [bind, Except.bind, pure, Except.pure] at h
  split at h
  · cases h
  · injection h with h
    rw [← h]
    exact ⟨rfl, rfl⟩

theorem matrix_find_neighbours_ne_runtime (G : BlockGraphCRTP) (hv : G.ptr_groups.Valid) :
    G.find_neighbours ≠ .error .runtime_error := by
  unfold BlockGraphCRTP.find_neighbours
  apply bind_ne_runtime _ _
    (find_neighbours_loop_ne_runtime _ _ hv (fun i j _ _ => matrix_link_ne_runtime G i j) _)
  intro nb
  simp [pure, Except.pure]

theorem matrix_compute_ne_runtime (G : BlockGraphCRTP) :
    G.compute_nlinks_nblocks ≠ .error .runtime_error := by
  unfold BlockGraphCRTP.compute_nlinks_nblocks
  apply bind_ne_runtime _ _
    (nlinks_nblocks_loop_ne_runtime _ _ (fun i j _ _ => matrix_link_ne_runtime G i j))
  intro r
  simp [pure, Except.pure]

theorem adj_find_neighbours_ne_runtime (G : BlockGraphAdjCRTP) (hv : G.ptr_groups.Valid) :
    G.find_neighbours ≠ .error .runtime_error := by
  unfold BlockGraphAdjCRTP.find_neighbours
  apply bind_ne_runtime _ _
    (find_neighbours_loop_ne_runtime _ _ hv
      (fun i j hi hj => adj_link_ne_runtime G i j (by omega) (by omega)) _)
  intro nb
  simp [pure, Except.pure]

theorem adj_compute_ne_runtime (G : BlockGraphAdjCRTP) :
    G.compute_nlinks_nblocks ≠ .error .runtime_error := by
  unfold BlockGraphAdjCRTP.compute_nlinks_nblocks
  apply bind_ne_runtime _ _
    (nlinks_nblocks_loop_ne_runtime _ _
      (fun i j hi hj => adj_link_ne_runtime G i j (by omega) (by omega)))
  intro r
  simp [pure, Except.pure]

theorem matrix_after_fill_ne_runtime (G : BlockGraphCRTP) (hv : G.ptr_groups.Valid)
    (A : List Nat) (clear : Bool) :
    (G.fillFromAdj A >>= fun G1 =>
      (if clear then ({ G1 with neighbours := [] } : BlockGraphCRTP) else G1).find_neighbours
        >>= fun G2 => G2.compute_nlinks_nblocks) ≠ .error .runtime_error := by
  apply bind_ne_runtime_ok _ _ (fillFromAdj_ne_runtime G A)
  intro G1 h1
  have hg := matrix_fillFromAdj_groups G G1 A h1
  apply bind_ne_runtime _ _
  · apply matrix_find_neighbours_ne_runtime
    cases clear
    · simpa [hg] using hv
    · simpa [hg] using hv
  · intro G2
    exact matrix_compute_ne_runtime G2

theorem size_test_throws_iff (Gr : Groups) (hv : Gr.Valid) (A : List Nat) :
    (BlockGraphCRTP.mk_from_adj A Gr = .error .runtime_error ↔ coherent_size Gr ≠ A.length) ∧
    (BlockGraphAdjCRTP.mk_from_adj A Gr = .error .runtime_error ↔
      coherent_size Gr ≠ A.length) ∧
    (∀ G : BlockGraphCRTP, G.ptr_groups = Gr →
      (G.set_graph A = .error .runtime_error ↔ coherent_size Gr ≠ A.length)) ∧
    (∀ G : BlockGraphAdjCRTP, G.ptr_groups = Gr →
      (G.set_graph A = .error .runtime_error ↔ coherent_size Gr ≠ A.length)) := by
  refine ⟨?_, ?_, ?_, ?_⟩
  · unfold BlockGraphCRTP.mk_from_adj
    by_cases h : coherent_size Gr ≠ A.length
    · rw [if_pos h]; exact ⟨fun _ => h, fun _ => rfl⟩
    · rw [if_neg h]
      refine ⟨fun he => absurd he ?_, fun h2 => absurd h2 h⟩
      exact matrix_after_fill_ne_runtime (BlockGraphCRTP.init Gr) hv A false
  · unfold BlockGraphAdjCRTP.mk_from_adj
    by_cases h : coherent_size Gr ≠ A.length
    · rw [if_pos h]; exact ⟨fun _ => h, fun _ => rfl⟩
    · rw [if_neg h]
      refine ⟨fun he => absurd he ?_, fun h2 => absurd h2 h⟩
      exact bind_ne_runtime _ _ (adj_find_neighbours_ne_runtime _ hv)
        (fun G2 => adj_compute_ne_runtime G2)
  · intro G hG
    subst hG
    unfold BlockGraphCRTP.set_graph
    by_cases h : coherent_size G.ptr_groups ≠ A.length
    · rw [if_pos h]; exact ⟨fun _ => h, fun _ => rfl⟩
    · rw [if_neg h]
      refine ⟨fun he => absurd he ?_, fun h2 => absurd h2 h⟩
      exact matrix_after_fill_ne_runtime G hv A true
  · intro G hG
    subst hG
    unfold BlockGraphAdjCRTP.set_graph
    by_cases h : coherent_size G.ptr_groups ≠ A.length
    · rw [if_pos h]; exact ⟨fun _ => h, fun _ => rfl⟩
    · rw [if_neg h]
      refine ⟨fun he => absurd he ?_, fun h2 => absurd h2 h⟩
      exact bind_ne_runtime _ _ (adj_find_neighbours_ne_runtime _ hv)
        (fun G2 => adj_compute_ne_runtime G2)

theorem write_singletons_ok (M : Nat) (l : List Nat) (hl : ∀ s ∈ l, s < M) :
    ∀ m : InnerData, m.rows = M → m.cols = M →
      ∃ d, l.foldlM (fun (d : InnerData) pos => d.write pos pos 1) m = .ok d ∧
        d.rows = M ∧ d.cols = M ∧
        ∀ a b, d.coeff a b = if a = b ∧ a ∈ l then 1 else m.coeff a b := by
  induction l with
  | nil =>
    intro m hr hc
    exact ⟨m, rfl, hr, hc, fun a b => by simp⟩
  | cons s t ih =>
    intro m hr hc
    have hs : s < M := hl s (List.mem_cons_self _ _)
    obtain ⟨d, hd, hdr, hdc, hco⟩ :=
      ih (fun x hx => hl x (List.mem_cons_of_mem _ hx))
        { m with coeff := fun a b => if a = s ∧ b = s then 1 else m.coeff a b } hr hc
    refine ⟨d, ?_, hdr, hdc, ?_⟩
    · rw [List.foldlM_cons]
      have hw : m.write s s 1
          = .ok { m with coeff := fun a b => if a = s ∧ b = s then 1 else m.coeff a b } := by
        unfold InnerData.write
        rw [if_pos ⟨by omega, by omega⟩]
      rw [hw]
      exact hd
    · intro a b
      rw [hco a b]
      by_cases h1 : a = b
      · subst h1
        by_cases h2 : a ∈ t
        · simp [h2]
        · by_cases h3 : a = s
          · subst h3; simp [h2]
          · simp [h2, h3]
      · have : ¬ (a = s ∧ b = s) := fun h => h1 (h.1.trans h.2.symm)
        simp [h1, this]

theorem matrix_link_ok (G : BlockGraphCRTP) (M : Nat) (hr : G.data.rows = M)
    (hc : G.data.cols = M) (i j : Nat) (hi : i < M) (hj : j < M) :
    G.link i j = .ok (if i < j then G.data.coeff i j else G.data.coeff j i) := by
  unfold BlockGraphCRTP.link InnerData.read
  split
  · rw [if_pos ⟨by omega, by omega⟩]
  · rw [if_pos ⟨by omega, by omega⟩]

theorem matrix_loops_ok (G : BlockGraphCRTP) (hv : G.ptr_groups.Valid)
    (hr : G.data.rows = G.ptr_groups.n_groups) (hc : G.data.cols = G.ptr_groups.n_groups) :
    ∃ G2, (G.find_neighbours >>= fun G1 => G1.compute_nlinks_nblocks) = .ok G2 ∧
      G2.ptr_groups = G.ptr_groups ∧ G2.data = G.data := by
  have hlink : ∀ (H : BlockGraphCRTP), H.ptr_groups = G.ptr_groups → H.data = G.data →
      ∀ i j, i < G.ptr_groups.n_groups → j < G.ptr_groups.n_groups →
        ∃ v, H.link i j = .ok v := by
    intro H _ hd i j hi hj
    exact ⟨_, matrix_link_ok H _ (by rw [hd]; exact hr) (by rw [hd]; exact hc) i j hi hj⟩
  obtain ⟨nb, hnb⟩ := find_neighbours_loop_ok G.ptr_groups G.link hv (hlink G rfl rfl)
    G.neighbours
  have h1 : G.find_neighbours = .ok { G with neighbours := nb } := by
    unfold BlockGraphCRTP.find_neighbours
    rw [hnb]
    rfl
  obtain ⟨⟨nl, nbl⟩, hr2⟩ := nlinks_nblocks_loop_ok G.ptr_groups
    ({ G with neighbours := nb } : BlockGraphCRTP).link
    (hlink { G with neighbours := nb } rfl rfl)
  refine ⟨{ G with neighbours := nb, n_links := nl, n_blocks := nbl }, ?_, rfl, rfl⟩
  rw [h1]
  show BlockGraphCRTP.compute_nlinks_nblocks { G with neighbours := nb } = _
  unfold BlockGraphCRTP.compute_nlinks_nblocks
  rw [hr2]
  rfl

/-! ## Claims on the position codec -/

/-- C1: the round trip `encode(decode(p)) = p` is broken by the code when the first group
is a singleton.  On the partition `{0}, {1,2}` the position `0` is valid and `pos_to_ij`
decodes it to the cell `(0,1)`, but the storage index of `(0,1)`,
`compute_diagonal_position(0) + (1 - 0)`, is `1`. -/
theorem encode_decode_first_singleton :
    partFirstSingleton.Valid ∧ 0 < n_stored partFirstSingleton ∧
      pos_to_ij partFirstSingleton 0 = .ok (0, 1) ∧
      compute_diagonal_position partFirstSingleton 0 + (1 - 0) = 1 := by
  decide

/-- C2: the round trip `decode(encode(r,c)) = (r,c)` is broken by the code when the first
group is a singleton.  On the partition `{0}, {1,2}` the cell `(0,1)` is stored, its
storage index `compute_diagonal_position(0) + (1 - 0)` is `1`, and `pos_to_ij` decodes
`1` to the cell `(1,1)`. -/
theorem decode_encode_first_singleton :
    partFirstSingleton.Valid ∧ StoredCell partFirstSingleton 0 1 ∧
      pos_to_ij partFirstSingleton (compute_diagonal_position partFirstSingleton 0 + (1 - 0))
        = .ok (1, 1) := by
  decide

/-- C5: the round trip through the matrix-backed graph is broken by the code when the
first group is a singleton.  On the partition `{0}, {1,2}` the vector `[1, 0]` has the
valid length `2`; building `BlockGraphCRTP` from it and reading `get_adj_list()` back
gives `[0, 0]`: `fillFromAdj` reads the cell `(0,1)` from index `1`, the index of the
cell `(1,1)`. -/
theorem get_adj_list_first_singleton :
    partFirstSingleton.Valid ∧ [1, 0].length = n_stored partFirstSingleton ∧
      (BlockGraphCRTP.mk_from_adj [1, 0] partFirstSingleton).bind
        (fun G => G.get_adj_list) = .ok [0, 0] := by
  decide

/-! ## Claims on link mutation -/

/-- C8: in `BlockGraphAdjCRTP`, for a singleton group `s`, `add_link(s,s)` and
`remove_link(s,s)` return normally and leave the whole state, the stored vector
included, exactly as it was. -/
theorem add_remove_link_singleton_noop (G : BlockGraphAdjCRTP) (s : Nat)
    (hs : s ∈ G.ptr_groups.pos_singleton) :
    G.add_link s s = .ok G ∧ G.remove_link s s = .ok G := by
  unfold BlockGraphAdjCRTP.add_link BlockGraphAdjCRTP.remove_link
  simp only [if_true, hs, not_true_eq_false, if_false]
  exact ⟨rfl, rfl⟩

/-- Witness of C8 on the graph over `{0,1}, {2}, {3,4}` at the singleton group `1`. -/
theorem add_remove_link_singleton_noop_witness :
    1 ∈ graphMidSingleton.ptr_groups.pos_singleton ∧
    BlockGraphAdjCRTP.mk_from_adj [1, 0, 1, 1, 0] partMidSingleton = .ok graphMidSingleton ∧
    graphMidSingleton.add_link 1 1 = .ok graphMidSingleton ∧
    graphMidSingleton.remove_link 1 1 = .ok graphMidSingleton :=
  ⟨by decide, by rfl,
    add_remove_link_singleton_noop graphMidSingleton 1 (by decide)⟩

/-- C9: the matrix-backed `BlockGraphCRTP` does not keep the diagonal of a singleton group
connected.  Over the partition `{0,1}, {2}, {3,4}`, after constructing the graph from
`[1, 0, 1, 1, 0]` the link `(1,1)` of the singleton group `1` reads `1`; after
`remove_link(1,1)` it reads `0`. -/
theorem matrix_remove_link_singleton_diagonal :
    partMidSingleton.Valid ∧ 1 ∈ partMidSingleton.pos_singleton ∧
    (BlockGraphCRTP.mk_from_adj [1, 0, 1, 1, 0] partMidSingleton).bind
      (fun G => G.link 1 1) = .ok 1 ∧
    (BlockGraphCRTP.mk_from_adj [1, 0, 1, 1, 0] partMidSingleton).bind
      (fun G => (G.remove_link 1 1).bind (fun G => G.link 1 1)) = .ok 0 := by
  decide

/-- C10: in the matrix-backed `BlockGraphCRTP`, `add_link(i,j)` with `i > j` writes the
lower triangle, which the link query never reads.  Over the partition `{0,1}, {2,3}`,
starting from the empty graph `[0, 0, 0]`, after `add_link(1,0)` both `link(1,0)` and
`link(0,1)` still read `0`; after `add_link(0,1)` both read `1`. -/
theorem matrix_add_link_lower_triangle :
    partTwoPairs.Valid ∧
    (BlockGraphCRTP.mk_from_adj [0, 0, 0] partTwoPairs).bind
      (fun G => (G.add_link 1 0).bind (fun G => G.link 1 0)) = .ok 0 ∧
    (BlockGraphCRTP.mk_from_adj [0, 0, 0] partTwoPairs).bind
      (fun G => (G.add_link 1 0).bind (fun G => G.link 0 1)) = .ok 0 ∧
    (BlockGraphCRTP.mk_from_adj [0, 0, 0] partTwoPairs).bind
      (fun G => (G.add_link 0 1).bind (fun G => G.link 1 0)) = .ok 1 := by
  decide

/-! ## Claims on construction -/

theorem sumInd_le (g : Groups) : ∀ h, sumInd g h ≤ h
  | 0 => by simp [sumInd]
  | h + 1 => by
    have := sumInd_le g h
    have := ind_le_one g h
    simp only [sumInd]
    omega

theorem coherent_size_eq_n_stored (g : Groups) (hg : g.SingletonsOK)
    (hM : g.n_groups ≤ 65536) : coherent_size g = n_stored g := by
  have hS := sumInd_total g hg
  have hle := sumInd_le g g.n_groups
  unfold coherent_size n_stored u32
  rcases Nat.eq_zero_or_pos g.n_groups with h0 | hpos
  · rw [h0] at hle hS ⊢
    have : g.n_singleton = 0 := by omega
    rw [this]
  · have h1 : (g.n_groups + 4294967295) % 4294967296 = g.n_groups - 1 := by omega
    rw [h1]
    have hX : g.n_groups * (g.n_groups - 1) ≤ 65536 * 65535 :=
      Nat.mul_le_mul hM (by omega)
    generalize g.n_groups * (g.n_groups - 1) = X at hX ⊢
    omega

theorem partManyPairs_valid : partManyPairs.Valid := by
  refine ⟨⟨by decide, List.Pairwise.nil, ?_, rfl⟩, by decide, ?_, ?_, ?_, ?_, ?_⟩
  · intro s hs; cases hs
  · intro i _
    simp [partManyPairs]
  · intro i _
    simp [partManyPairs]
  · intro i _
    simp [partManyPairs]
  · intro i hi n hn
    simp only [partManyPairs, List.mem_cons, List.mem_singleton, List.not_mem_nil,
      or_false] at hi hn ⊢
    rcases hn with rfl | rfl
    · refine ⟨by omega, ?_⟩
      rw [if_pos (by omega)]
      congr 1
      omega
    · refine ⟨by omega, ?_⟩
      rw [if_pos (by omega)]
      congr 1
      omega
  · intro n hn
    simp only [partManyPairs] at hn ⊢
    refine ⟨n / 2, by omega, by rw [if_pos hn], ?_⟩
    simp only [List.mem_cons, List.mem_singleton, List.not_mem_nil, or_false]
    omega

/-- C6 (as stated, refuted): with `M = 65537` groups the length test wraps in `unsigned int`
arithmetic.  Over `65537` pairs, a vector of the exact length
`M(M-1)/2 + M - S = 2147581953` is rejected with the dimension error by the constructor
of `BlockGraphAdjCRTP`, and a vector of length `98305`, which differs from it, is not
rejected. -/
theorem dimension_error_wraps_at_65537_groups :
    partManyPairs.Valid ∧
    (List.replicate 2147581953 0).length = n_stored partManyPairs ∧
    BlockGraphAdjCRTP.mk_from_adj (List.replicate 2147581953 0) partManyPairs
      = .error .runtime_error ∧
    (List.replicate 98305 0).length ≠ n_stored partManyPairs ∧
    BlockGraphAdjCRTP.mk_from_adj (List.replicate 98305 0) partManyPairs
      ≠ .error .runtime_error := by
  have hc : coherent_size partManyPairs = 98305 := by decide
  have hn : n_stored partManyPairs = 2147581953 := by decide
  have hcore := fun A => (size_test_throws_iff partManyPairs partManyPairs_valid A).2.1
  refine ⟨partManyPairs_valid, ?_, ?_, ?_, ?_⟩
  · rw [List.length_replicate, hn]
  · rw [hcore, hc, List.length_replicate]
    omega
  · rw [List.length_replicate, hn]
    omega
  · rw [Ne, hcore, hc, List.length_replicate]
    omega

/-- C6 (amended): over a valid partition with at most `65536` groups, each of the
constructor of `BlockGraphCRTP` from a compressed vector `A`, the constructor of
`BlockGraphAdjCRTP` from `A`, and `set_graph(A)` of either class throws the runtime error
if and only if the length of `A` differs from `M(M-1)/2 + M - S`. -/
theorem dimension_error_iff (Gr : Groups) (hv : Gr.Valid) (hM : Gr.n_groups ≤ 65536)
    (A : List Nat) :
    (BlockGraphCRTP.mk_from_adj A Gr = .error .runtime_error ↔ A.length ≠ n_stored Gr) ∧
    (BlockGraphAdjCRTP.mk_from_adj A Gr = .error .runtime_error ↔ A.length ≠ n_stored Gr) ∧
    (∀ G : BlockGraphCRTP, G.ptr_groups = Gr →
      (G.set_graph A = .error .runtime_error ↔ A.length ≠ n_stored Gr)) ∧
    (∀ G : BlockGraphAdjCRTP, G.ptr_groups = Gr →
      (G.set_graph A = .error .runtime_error ↔ A.length ≠ n_stored Gr)) := by
  have hc := coherent_size_eq_n_stored Gr hv.1 hM
  have hcore := size_test_throws_iff Gr hv A
  rw [hc] at hcore
  have hsymm : n_stored Gr ≠ A.length ↔ A.length ≠ n_stored Gr := ⟨Ne.symm, Ne.symm⟩
  simp only [hsymm] at hcore
  exact hcore

/-- Witness of C6 (amended) on the partition `{0,1}, {2}, {3,4}` with the vector
`[1, 0, 1]`, whose length differs from `5`. -/
theorem dimension_error_iff_witness :
    partMidSingleton.Valid ∧ partMidSingleton.n_groups ≤ 65536 ∧
    ((BlockGraphCRTP.mk_from_adj [1, 0, 1] partMidSingleton = .error .runtime_error ↔
        [1, 0, 1].length ≠ n_stored partMidSingleton) ∧
    (BlockGraphAdjCRTP.mk_from_adj [1, 0, 1] partMidSingleton = .error .runtime_error ↔
        [1, 0, 1].length ≠ n_stored partMidSingleton) ∧
    (∀ G : BlockGraphCRTP, G.ptr_groups = partMidSingleton →
      (G.set_graph [1, 0, 1] = .error .runtime_error ↔
        [1, 0, 1].length ≠ n_stored partMidSingleton)) ∧
    (∀ G : BlockGraphAdjCRTP, G.ptr_groups = partMidSingleton →
      (G.set_graph [1, 0, 1] = .error .runtime_error ↔
        [1, 0, 1].length ≠ n_stored partMidSingleton))) :=
  ⟨by decide, by decide, dimension_error_iff partMidSingleton (by decide) (by decide) [1, 0, 1]⟩

/-- C7: over a valid partition, the constructor of `BlockGraphCRTP` from a group-by-group
matrix throws unless the matrix is square with side `M`; when the matrix is square with
side `M` the constructor returns a graph whose `link(i,j)`, for `i <= j < M`, is the
matrix entry `(i,j)`, except that `link(s,s)` is `1` (true) for every singleton group
`s`. -/
theorem mk_from_matrix_spec (Mat : InnerData) (Gr : Groups) (hv : Gr.Valid) :
    (¬ (Mat.rows = Mat.cols ∧ Mat.rows = Gr.n_groups) →
      BlockGraphCRTP.mk_from_matrix Mat Gr = .error .runtime_error) ∧
    (Mat.rows = Mat.cols ∧ Mat.rows = Gr.n_groups →
      ∃ G, BlockGraphCRTP.mk_from_matrix Mat Gr = .ok G ∧
        ∀ i j, i ≤ j → j < Gr.n_groups →
          G.link i j = .ok (if i = j ∧ i ∈ Gr.pos_singleton then 1 else Mat.coeff i j)) := by
  constructor
  · intro h
    unfold BlockGraphCRTP.mk_from_matrix
    by_cases h1 : Mat.rows = Mat.cols
    · rw [if_neg (by simpa using h1), if_pos (fun h2 => h ⟨h1, h2.symm⟩)]
    · rw [if_pos h1]
  · rintro ⟨h1, h2⟩
    unfold BlockGraphCRTP.mk_from_matrix
    rw [if_neg (by simpa using h1), if_neg (by simpa using h2.symm)]
    obtain ⟨d, hd, hdr, hdc, hco⟩ := write_singletons_ok Gr.n_groups Gr.pos_singleton
      hv.1.2.2.1 Mat h2 (by rw [← h1]; exact h2)
    obtain ⟨G, hG, hGg, hGd⟩ := matrix_loops_ok
      ({ BlockGraphCRTP.init Gr with data := d } : BlockGraphCRTP) hv hdr hdc
    refine ⟨G, ?_, ?_⟩
    · rw [hd]
      exact hG
    · intro i j hij hj
      rw [matrix_link_ok G Gr.n_groups (by rw [hGd]; exact hdr) (by rw [hGd]; exact hdc)
        i j (by omega) hj, hGd]
      show Except.ok (if i < j then d.coeff i j else d.coeff j i) = _
      by_cases hlt : i < j
      · have hne : ¬ (i = j ∧ i ∈ Gr.pos_singleton) := fun h => by omega
        rw [if_pos hlt, hco, if_neg hne]
      · have he : i = j := by omega
        subst he
        rw [if_neg hlt, hco]

/-- Witness of C7 on the partition `{0,1}, {2}, {3,4}` and a `3 × 3` matrix whose diagonal
is zero: the constructor returns a graph in which `link(1,1)` is `1`. -/
theorem mk_from_matrix_spec_witness :
    partMidSingleton.Valid ∧
    ((¬ (matCorner.rows = matCorner.cols ∧ matCorner.rows = partMidSingleton.n_groups) →
      BlockGraphCRTP.mk_from_matrix matCorner partMidSingleton = .error .runtime_error) ∧
    (matCorner.rows = matCorner.cols ∧ matCorner.rows = partMidSingleton.n_groups →
      ∃ G, BlockGraphCRTP.mk_from_matrix matCorner partMidSingleton = .ok G ∧
        ∀ i j, i ≤ j → j < partMidSingleton.n_groups →
          G.link i j = .ok (if i = j ∧ i ∈ partMidSingleton.pos_singleton then 1
            else matCorner.coeff i j))) :=
  ⟨by decide, mk_from_matrix_spec matCorner partMidSingleton (by decide)⟩

/-! ## Claims on the cached neighbours and counters -/

/-- C11: `add_link` does not refresh the caches.  Over the partition `{0,1}, {2,3}`, the
vector-backed graph built from `[0, 0, 0]` holds empty neighbour lists and the counters
`0, 0`; after `add_link(0,1)` the stored vector is `[0, 1, 0]` and
`get_neighbours()`, `get_n_links()`, `get_n_block_links()` are still the empty lists and
`0, 0`, whereas recomputing them from the link function of the graph gives the lists
`[2,3], [2,3], [0,1], [0,1]` and the counters `4, 1`.  The matrix-backed graph shows the
same stale values. -/
theorem add_link_leaves_caches_stale :
    partTwoPairs.Valid ∧
    (BlockGraphAdjCRTP.mk_from_adj [0, 0, 0] partTwoPairs).bind
      (fun G => (G.add_link 0 1).bind (fun G => pure
        (G.data, G.get_neighbours, G.get_n_links, G.get_n_block_links)))
      = .ok ([0, 1, 0], [(0, []), (1, []), (2, []), (3, [])], 0, 0) ∧
    (BlockGraphAdjCRTP.mk_from_adj [0, 0, 0] partTwoPairs).bind
      (fun G => (G.add_link 0 1).bind (fun G =>
        (find_neighbours_loop G.ptr_groups G.link []).bind (fun nb =>
          (nlinks_nblocks_loop G.ptr_groups G.link).bind (fun c => pure (nb, c)))))
      = .ok ([(0, [2, 3]), (1, [2, 3]), (2, [0, 1]), (3, [0, 1])], 4, 1) ∧
    (BlockGraphCRTP.mk_from_adj [0, 0, 0] partTwoPairs).bind
      (fun G => (G.add_link 0 1).bind (fun G => pure
        (G.get_neighbours, G.get_n_links, G.get_n_block_links)))
      = .ok ([(0, []), (1, []), (2, []), (3, [])], 0, 0) ∧
    (BlockGraphCRTP.mk_from_adj [0, 0, 0] partTwoPairs).bind
      (fun G => (G.add_link 0 1).bind (fun G =>
        (find_neighbours_loop G.ptr_groups G.link []).bind (fun nb =>
          (nlinks_nblocks_loop G.ptr_groups G.link).bind (fun c => pure (nb, c)))))
      = .ok ([(0, [2, 3]), (1, [2, 3]), (2, [0, 1]), (3, [0, 1])], 4, 1) := by
  refine ⟨by decide, by rfl, by rfl, by rfl, by rfl⟩

/-! ## The neighbour lists computed by `find_neighbours` -/

theorem mem_set_insert (l : List Nat) (x y : Nat) : y ∈ set_insert l x ↔ y = x ∨ y ∈ l := by
  induction l with
  | nil => simp [set_insert]
  | cons a t ih =>
    simp only [set_insert]
    split_ifs with h1 h2
    · subst h1
      simp
    · simp
    · simp only [List.mem_cons, ih]
      tauto

theorem set_insert_sorted (l : List Nat) (x : Nat) (h : l.Pairwise (· < ·)) :
    (set_insert l x).Pairwise (· < ·) := by
  induction l with
  | nil => simp [set_insert]
  | cons a t ih =>
    rw [List.pairwise_cons] at h
    simp only [set_insert]
    split_ifs with h1 h2
    · exact List.pairwise_cons.mpr h
    · refine List.pairwise_cons.mpr ⟨?_, List.pairwise_cons.mpr h⟩
      intro b hb
      rcases List.mem_cons.mp hb with rfl | hb
      · exact h2
      · exact Nat.lt_trans h2 (h.1 b hb)
    · refine List.pairwise_cons.mpr ⟨?_, ih h.2⟩
      intro b hb
      rcases (mem_set_insert t x b).mp hb with rfl | hb
      · omega
      · exact h.1 b hb

theorem mem_foldl_set_insert (xs : List Nat) :
    ∀ (temp : List Nat) (y : Nat), y ∈ xs.foldl set_insert temp ↔ y ∈ temp ∨ y ∈ xs := by
  induction xs with
  | nil => intro temp y; simp
  | cons a t ih =>
    intro temp y
    rw [List.foldl_cons, ih, mem_set_insert]
    simp only [List.mem_cons]
    tauto

theorem foldl_set_insert_sorted (xs : List Nat) :
    ∀ temp : List Nat, temp.Pairwise (· < ·) → (xs.foldl set_insert temp).Pairwise (· < ·) := by
  induction xs with
  | nil => intro temp h; exact h
  | cons a t ih =>
    intro temp h
    rw [List.foldl_cons]
    exact ih _ (set_insert_sorted temp a h)

theorem nbd_fold_spec (g : Groups) (link : Nat → Nat → Except Err Nat) (k i : Nat) :
    ∀ (js : List Nat) (temp l : List Nat),
      js.foldlM
        (fun temp j => do
          let l ← link k j
          if l = 1 then
            if k = j then
              pure (((g.get_group j).filter (fun idx => !(idx == i))).foldl set_insert temp)
            else
              pure ((g.get_group j).foldl set_insert temp)
          else pure temp)
        temp = .ok l →
      (∀ x, x ∈ l ↔ x ∈ temp ∨
        ∃ j ∈ js, link k j = .ok 1 ∧ x ∈ g.get_group j ∧ (k = j → x ≠ i)) ∧
      (temp.Pairwise (· < ·) → l.Pairwise (· < ·)) := by
  intro js
  induction js with
  | nil =>
    intro temp l h
    injection h with h
    subst h
    simp
  | cons j t ih =>
    intro temp l h
    rw [List.foldlM_cons] at h
    cases hl : link k j with
    | error e =>
      rw [hl] at h
      cases h
    | ok v =>
      rw [hl] at h
      simp only [bind, Except.bind] at h
      by_cases hv : v = 1
      · subst hv
        by_cases hkj : k = j
        · subst hkj
          simp only [if_true, pure, Except.pure] at h
          obtain ⟨hm, hs⟩ := ih _ l h
          refine ⟨?_, fun hp => hs (foldl_set_insert_sorted _ _ hp)⟩
          intro x
          rw [hm x, mem_foldl_set_insert]
          simp only [List.mem_filter, Bool.not_eq_true', beq_eq_false_iff_ne, ne_eq,
            List.mem_cons, exists_eq_or_imp]
          constructor
          · rintro ((hx | ⟨hx, hne⟩) | ⟨j, hj, h1, h2, h3⟩)
            · exact Or.inl hx
            · exact Or.inr (Or.inl ⟨hl, hx, fun _ => hne⟩)
            · exact Or.inr (Or.inr ⟨j, hj, h1, h2, h3⟩)
          · rintro (hx | ⟨_, hx, hne⟩ | ⟨j, hj, h1, h2, h3⟩)
            · exact Or.inl (Or.inl hx)
            · exact Or.inl (Or.inr ⟨hx, hne trivial⟩)
            · exact Or.inr ⟨j, hj, h1, h2, h3⟩
        · simp only [if_true, if_neg hkj, pure, Except.pure] at h
          obtain ⟨hm, hs⟩ := ih _ l h
          refine ⟨?_, fun hp => hs (foldl_set_insert_sorted _ _ hp)⟩
          intro x
          rw [hm x, mem_foldl_set_insert]
          simp only [List.mem_cons, exists_eq_or_imp]
          constructor
          · rintro ((hx | hx) | ⟨j, hj, h1, h2, h3⟩)
            · exact Or.inl hx
            · exact Or.inr (Or.inl ⟨hl, hx, fun h => absurd h hkj⟩)
            · exact Or.inr (Or.inr ⟨j, hj, h1, h2, h3⟩)
          · rintro (hx | ⟨_, hx, _⟩ | ⟨j, hj, h1, h2, h3⟩)
            · exact Or.inl (Or.inl hx)
            · exact Or.inl (Or.inr hx)
            · exact Or.inr ⟨j, hj, h1, h2, h3⟩
      · simp only [if_neg hv, pure, Except.pure] at h
        obtain ⟨hm, hs⟩ := ih _ l h
        refine ⟨?_, hs⟩
        intro x
        rw [hm x]
        simp only [List.mem_cons, exists_eq_or_imp]
        constructor
        · rintro (hx | ⟨j, hj, h1, h2, h3⟩)
          · exact Or.inl hx
          · exact Or.inr (Or.inr ⟨j, hj, h1, h2, h3⟩)
        · rintro (hx | ⟨h1, _⟩ | ⟨j, hj, h1, h2, h3⟩)
          · exact Or.inl hx
          · rw [hl] at h1
            injection h1 with h1
            exact absurd h1 hv
          · exact Or.inr ⟨j, hj, h1, h2, h3⟩

theorem nbd_of_node_spec (g : Groups) (link : Nat → Nat → Except Err Nat) (i k : Nat)
    (l : List Nat) (hk : g.map_of_indeces i = some k) (h : nbd_of_node g link i = .ok l) :
    (∀ x, x ∈ l ↔
      ∃ j, j < g.n_groups ∧ link k j = .ok 1 ∧ x ∈ g.get_group j ∧ (k = j → x ≠ i)) ∧
    l.Pairwise (· < ·) := by
  unfold nbd_of_node find_group_idx at h
  rw [hk] at h
  obtain ⟨hm, hs⟩ := nbd_fold_spec g link k i _ _ _ h
  refine ⟨?_, hs List.Pairwise.nil⟩
  intro x
  rw [hm x]
  simp [get_size]

theorem Neighbourhood_insert_append (nb : Neighbourhood) (k : Nat) (v : List Nat)
    (h : ∀ p ∈ nb, p.1 < k) : Neighbourhood.insert nb k v = nb ++ [(k, v)] := by
  induction nb with
  | nil => rfl
  | cons p t ih =>
    obtain ⟨a, b⟩ := p
    have ha : a < k := h (a, b) (List.mem_cons_self _ _)
    simp only [Neighbourhood.insert]
    rw [if_neg (by omega), if_neg (by omega), ih (fun q hq => h q (List.mem_cons_of_mem _ hq))]
    rfl

theorem find_loop_spec_aux (g : Groups) (link : Nat → Nat → Except Err Nat) :
    ∀ (m s : Nat) (nb nb2 : Neighbourhood),
      nb.map Prod.fst = List.range s →
      (∀ p ∈ nb, nbd_of_node g link p.1 = .ok p.2) →
      (List.range' s m).foldlM
        (fun nb i => do
          let my_nbds ← nbd_of_node g link i
          pure (Neighbourhood.insert nb i my_nbds))
        nb = .ok nb2 →
      nb2.map Prod.fst = List.range (s + m) ∧
        ∀ p ∈ nb2, nbd_of_node g link p.1 = .ok p.2 := by
  intro m
  induction m with
  | zero =>
    intro s nb nb2 hk hp h
    injection h with h
    subst h
    exact ⟨hk, hp⟩
  | succ m ih =>
    intro s nb nb2 hk hp h
    rw [List.range'_succ, List.foldlM_cons] at h
    cases hn : nbd_of_node g link s with
    | error e =>
      rw [hn] at h
      cases h
    | ok l =>
      rw [hn] at h
      simp only [bind, Except.bind, pure, Except.pure] at h
      have hlt : ∀ p ∈ nb, p.1 < s := by
        intro p hp2
        have : p.1 ∈ nb.map Prod.fst := List.mem_map_of_mem _ hp2
        rw [hk] at this
        exact List.mem_range.mp this
      rw [Neighbourhood_insert_append nb s l hlt] at h
      have := ih (s + 1) (nb ++ [(s, l)]) nb2
        (by rw [List.map_append, hk, List.range_succ]; rfl)
        (by
          intro p hp2
          rcases List.mem_append.mp hp2 with hp2 | hp2
          · exact hp p hp2
          · rw [List.mem_singleton] at hp2
            subst hp2
            exact hn)
        h
      rw [show s + (m + 1) = s + 1 + m by omega]
      exact this

theorem find_neighbours_loop_spec (g : Groups) (link : Nat → Nat → Except Err Nat)
    (nb : Neighbourhood) (h : find_neighbours_loop g link [] = .ok nb) :
    nb.map Prod.fst = List.range g.n_elements ∧
      ∀ p ∈ nb, nbd_of_node g link p.1 = .ok p.2 := by
  unfold find_neighbours_loop at h
  rw [List.range_eq_range'] at h
  have := find_loop_spec_aux g link g.n_elements 0 [] nb rfl
    (fun p hp => absurd hp (List.not_mem_nil p)) h
  rw [Nat.zero_add] at this
  exact this

theorem lookup_of_keys (nb : Neighbourhood) (i : Nat) (h : i ∈ nb.map Prod.fst) :
    ∃ l, List.lookup i nb = some l ∧ (i, l) ∈ nb := by
  induction nb with
  | nil => cases h
  | cons p t ih =>
    obtain ⟨a, b⟩ := p
    by_cases hia : i = a
    · subst hia
      exact ⟨b, by simp [List.lookup], List.mem_cons_self _ _⟩
    · have hmem : i ∈ t.map Prod.fst := by
        rcases List.mem_cons.mp h with h | h
        · exact absurd h hia
        · exact h
      obtain ⟨l, hl, hm⟩ := ih hmem
      refine ⟨l, ?_, List.mem_cons_of_mem _ hm⟩
      rw [List.lookup_cons]
      have : (i == a) = false := by simpa using hia
      rw [this]
      exact hl

theorem nbd_at_spec (g : Groups) (link : Nat → Nat → Except Err Nat) (nb : Neighbourhood)
    (h : find_neighbours_loop g link [] = .ok nb) (i : Nat) (hi : i < g.n_elements) :
    ∃ l, nbd_at nb i = .ok l ∧ nbd_of_node g link i = .ok l := by
  obtain ⟨hk, hp⟩ := find_neighbours_loop_spec g link nb h
  have hlen : nb.length = g.n_elements := by
    have := congrArg List.length hk
    simpa using this
  obtain ⟨l, hl, hm⟩ := lookup_of_keys nb i (by rw [hk]; exact List.mem_range.mpr hi)
  refine ⟨l, ?_, hp (i, l) hm⟩
  unfold nbd_at Neighbourhood.find
  rw [if_neg (by omega), hl]
  rfl

/-! ## Constructors and `set_graph` leave fresh caches -/

theorem matrix_loops_fresh (G G2 : BlockGraphCRTP) (hn : G.neighbours = [])
    (h : (G.find_neighbours >>= fun G1 => G1.compute_nlinks_nblocks) = .ok G2) :
    G2.ptr_groups = G.ptr_groups ∧ G2.data = G.data ∧ G2.CachesFresh := by
  unfold BlockGraphCRTP.find_neighbours BlockGraphCRTP.compute_nlinks_nblocks at h
  rw [hn] at h
  cases h1 : find_neighbours_loop G.ptr_groups G.link [] with
  | error e =>
    rw [h1] at h
    cases h
  | ok nb =>
    rw [h1] at h
    simp only [bind, Except.bind, pure, Except.pure] at h
    cases h2 : nlinks_nblocks_loop G.ptr_groups
        (BlockGraphCRTP.link { G with neighbours := nb }) with
    | error e =>
      rw [h2] at h
      cases h
    | ok r =>
      obtain ⟨nl, nbl⟩ := r
      rw [h2] at h
      injection h with h
      subst h
      exact ⟨rfl, rfl, h1, h2⟩

theorem adj_loops_fresh (G G2 : BlockGraphAdjCRTP) (hn : G.neighbours = [])
    (h : (G.find_neighbours >>= fun G1 => G1.compute_nlinks_nblocks) = .ok G2) :
    G2.ptr_groups = G.ptr_groups ∧ G2.data = G.data ∧ G2.CachesFresh := by
  unfold BlockGraphAdjCRTP.find_neighbours BlockGraphAdjCRTP.compute_nlinks_nblocks at h
  rw [hn] at h
  cases h1 : find_neighbours_loop G.ptr_groups G.link [] with
  | error e =>
    rw [h1] at h
    cases h
  | ok nb =>
    rw [h1] at h
    simp only [bind, Except.bind, pure, Except.pure] at h
    cases h2 : nlinks_nblocks_loop G.ptr_groups
        (BlockGraphAdjCRTP.link { G with neighbours := nb }) with
    | error e =>
      rw [h2] at h
      cases h
    | ok r =>
      obtain ⟨nl, nbl⟩ := r
      rw [h2] at h
      injection h with h
      subst h
      exact ⟨rfl, rfl, h1, h2⟩

theorem adj_mk_from_adj_fresh (A : List Nat) (Gr : Groups) (G : BlockGraphAdjCRTP)
    (h : BlockGraphAdjCRTP.mk_from_adj A Gr = .ok G) :
    G.ptr_groups = Gr ∧ G.data = A ∧ G.CachesFresh := by
  unfold BlockGraphAdjCRTP.mk_from_adj at h
  split at h
  · cases h
  · exact adj_loops_fresh _ G rfl h

theorem adj_set_graph_fresh (G0 : BlockGraphAdjCRTP) (A : List Nat) (G : BlockGraphAdjCRTP)
    (h : G0.set_graph A = .ok G) :
    G.ptr_groups = G0.ptr_groups ∧ G.data = A ∧ G.CachesFresh := by
  unfold BlockGraphAdjCRTP.set_graph at h
  split at h
  · cases h
  · exact adj_loops_fresh _ G rfl h

theorem matrix_mk_from_adj_fresh (A : List Nat) (Gr : Groups) (G : BlockGraphCRTP)
    (h : BlockGraphCRTP.mk_from_adj A Gr = .ok G) :
    G.ptr_groups = Gr ∧ G.CachesFresh := by
  unfold BlockGraphCRTP.mk_from_adj at h
  split at h
  · cases h
  · cases h1 : BlockGraphCRTP.fillFromAdj (BlockGraphCRTP.init Gr) A with
    | error e =>
      rw [h1] at h
      cases h
    | ok G1 =>
      rw [h1] at h
      have hg := matrix_fillFromAdj_groups _ _ _ h1
      have hn : G1.neighbours = [] := by
        unfold BlockGraphCRTP.fillFromAdj at h1
        simp only [bind, Except.bind, pure, Except.pure] at h1
        split at h1
        · cases h1
        · injection h1 with h1
          rw [← h1]
          rfl
      obtain ⟨h2, _, h3⟩ := matrix_loops_fresh G1 G hn h
      exact ⟨by rw [h2, hg]; rfl, h3⟩

theorem matrix_mk_from_matrix_fresh (Mat : InnerData) (Gr : Groups) (G : BlockGraphCRTP)
    (h : BlockGraphCRTP.mk_from_matrix Mat Gr = .ok G) :
    G.ptr_groups = Gr ∧ G.CachesFresh := by
  unfold BlockGraphCRTP.mk_from_matrix at h
  split at h
  · cases h
  · split at h
    · cases h
    · cases h1 : List.foldlM (fun (d : InnerData) pos => d.write pos pos 1) Mat
          Gr.pos_singleton with
      | error e =>
        rw [h1] at h
        cases h
      | ok d =>
        rw [h1] at h
        obtain ⟨h2, _, h3⟩ := matrix_loops_fresh
          ({ BlockGraphCRTP.init Gr with data := d } : BlockGraphCRTP) G rfl h
        exact ⟨h2, h3⟩

/-! ## Neighbour lists against the node-level link -/

theorem nbd_generic (g : Groups) (hv : g.Valid) (link : Nat → Nat → Except Err Nat)
    (nb : Neighbourhood) (h : find_neighbours_loop g link [] = .ok nb) (i : Nat)
    (hi : i < g.n_elements) :
    ∃ l gi, nbd_at nb i = .ok l ∧ g.map_of_indeces i = some gi ∧ gi < g.n_groups ∧
      l.Pairwise (· < ·) ∧ (∀ x ∈ l, x < g.n_elements) ∧
      ∀ j, j < g.n_elements →
        (j ∈ l ↔ j ≠ i ∧ ∃ gj, g.map_of_indeces j = some gj ∧ link gi gj = .ok 1) := by
  obtain ⟨gi, hgi, hmi, _⟩ := hv.2.2.2.2.2.2 i hi
  obtain ⟨l, hl, hn⟩ := nbd_at_spec g link nb h i hi
  obtain ⟨hm, hs⟩ := nbd_of_node_spec g link i gi l hmi hn
  refine ⟨l, gi, hl, hmi, hgi, hs, ?_, ?_⟩
  · intro x hx
    obtain ⟨j, hj, _, hxj, _⟩ := (hm x).mp hx
    exact (hv.2.2.2.2.2.1 j hj x hxj).1
  · intro j hj
    rw [hm j]
    constructor
    · rintro ⟨jg, hjg, hl1, hjm, hne⟩
      have hmj := (hv.2.2.2.2.2.1 jg hjg j hjm).2
      refine ⟨?_, jg, hmj, hl1⟩
      intro hji
      subst hji
      rw [hmi] at hmj
      injection hmj with hmj
      exact hne hmj rfl
    · rintro ⟨hne, gj, hmj, hl1⟩
      obtain ⟨k, hk, hmk, hjk⟩ := hv.2.2.2.2.2.2 j hj
      rw [hmj] at hmk
      injection hmk with hmk
      subst hmk
      exact ⟨gj, hk, hl1, hjk, fun _ => hne⟩

theorem adj_link_symm (G : BlockGraphAdjCRTP) (a b : Nat) : G.link a b = G.link b a := by
  unfold BlockGraphAdjCRTP.link
  by_cases hab : a = b
  · subst hab; rfl
  · have hba : ¬ b = a := fun h => hab h.symm
    rw [if_neg hab, if_neg hba]
    by_cases hg : a > get_size G.ptr_groups ∨ b > get_size G.ptr_groups
    · rw [if_pos hg, if_pos (Or.symm hg)]
    · rw [if_neg hg, if_neg (fun h => hg (Or.symm h))]
      rcases Nat.lt_or_gt_of_ne hab with h | h
      · rw [if_pos h, if_neg (by omega)]
      · rw [if_neg (by omega), if_pos h]

theorem matrix_link_symm (G : BlockGraphCRTP) (a b : Nat) : G.link a b = G.link b a := by
  unfold BlockGraphCRTP.link
  rcases Nat.lt_trichotomy a b with h | h | h
  · rw [if_pos h, if_neg (by omega)]
  · subst h; rfl
  · rw [if_neg (by omega), if_pos h]

theorem adj_view_link (G : BlockGraphAdjCRTP) (i j gi gj : Nat) (hne : j ≠ i)
    (hi : G.ptr_groups.map_of_indeces i = some gi)
    (hj : G.ptr_groups.map_of_indeces j = some gj) :
    G.completeview.link i j = G.link gi gj := by
  unfold CompleteViewAdjCRTP.link BlockGraphAdjCRTP.completeview find_group_idx
  rw [if_neg (fun h => hne h.symm)]
  simp only [hi, hj]
  rfl

theorem matrix_view_link (G : BlockGraphCRTP) (i j gi gj : Nat) (hne : j ≠ i)
    (hi : G.ptr_groups.map_of_indeces i = some gi)
    (hj : G.ptr_groups.map_of_indeces j = some gj) :
    G.completeview.link i j = G.link gi gj := by
  unfold CompleteViewCRTP.link BlockGraphCRTP.completeview find_group_idx
  rw [if_neg (fun h => hne h.symm)]
  simp only [hi, hj]
  rfl

theorem adj_nbd_fresh (G : BlockGraphAdjCRTP) (hv : G.ptr_groups.Valid) (hf : G.CachesFresh)
    (i : Nat) (hi : i < G.ptr_groups.n_elements) :
    ∃ l, G.completeview.get_nbd_at i = .ok l ∧ l.Pairwise (· < ·) ∧
      (∀ x ∈ l, x < G.ptr_groups.n_elements) ∧
      ∀ j, j < G.ptr_groups.n_elements →
        (j ∈ l ↔ j ≠ i ∧ G.completeview.link i j = .ok 1) := by
  obtain ⟨l, gi, hl, hmi, _, hs, hb, hm⟩ := nbd_generic _ hv _ _ hf.1 i hi
  refine ⟨l, hl, hs, hb, ?_⟩
  intro j hj
  rw [hm j hj]
  obtain ⟨gj, _, hmj, _⟩ := hv.2.2.2.2.2.2 j hj
  constructor
  · rintro ⟨hne, gj2, hmj2, h1⟩
    exact ⟨hne, by rw [adj_view_link G i j gi gj2 hne hmi hmj2]; exact h1⟩
  · rintro ⟨hne, h1⟩
    rw [adj_view_link G i j gi gj hne hmi hmj] at h1
    exact ⟨hne, gj, hmj, h1⟩

theorem matrix_nbd_fresh (G : BlockGraphCRTP) (hv : G.ptr_groups.Valid) (hf : G.CachesFresh)
    (i : Nat) (hi : i < G.ptr_groups.n_elements) :
    ∃ l, G.completeview.get_nbd_at i = .ok l ∧ l.Pairwise (· < ·) ∧
      (∀ x ∈ l, x < G.ptr_groups.n_elements) ∧
      ∀ j, j < G.ptr_groups.n_elements →
        (j ∈ l ↔ j ≠ i ∧ G.completeview.link i j = .ok 1) := by
  obtain ⟨l, gi, hl, hmi, _, hs, hb, hm⟩ := nbd_generic _ hv _ _ hf.1 i hi
  refine ⟨l, hl, hs, hb, ?_⟩
  intro j hj
  rw [hm j hj]
  obtain ⟨gj, _, hmj, _⟩ := hv.2.2.2.2.2.2 j hj
  constructor
  · rintro ⟨hne, gj2, hmj2, h1⟩
    exact ⟨hne, by rw [matrix_view_link G i j gi gj2 hne hmi hmj2]; exact h1⟩
  · rintro ⟨hne, h1⟩
    rw [matrix_view_link G i j gi gj hne hmi hmj] at h1
    exact ⟨hne, gj, hmj, h1⟩

theorem adj_view_link_symm (G : BlockGraphAdjCRTP) (hv : G.ptr_groups.Valid) (i j : Nat)
    (hi : i < G.ptr_groups.n_elements) (hj : j < G.ptr_groups.n_elements) :
    G.completeview.link i j = G.completeview.link j i := by
  by_cases hne : j = i
  · subst hne; rfl
  · obtain ⟨gi, _, hmi, _⟩ := hv.2.2.2.2.2.2 i hi
    obtain ⟨gj, _, hmj, _⟩ := hv.2.2.2.2.2.2 j hj
    rw [adj_view_link G i j gi gj hne hmi hmj,
      adj_view_link G j i gj gi (fun h => hne h.symm) hmj hmi, adj_link_symm]

theorem matrix_view_link_symm (G : BlockGraphCRTP) (hv : G.ptr_groups.Valid) (i j : Nat)
    (hi : i < G.ptr_groups.n_elements) (hj : j < G.ptr_groups.n_elements) :
    G.completeview.link i j = G.completeview.link j i := by
  by_cases hne : j = i
  · subst hne; rfl
  · obtain ⟨gi, _, hmi, _⟩ := hv.2.2.2.2.2.2 i hi
    obtain ⟨gj, _, hmj, _⟩ := hv.2.2.2.2.2.2 j hj
    rw [matrix_view_link G i j gi gj hne hmi hmj,
      matrix_view_link G j i gj gi (fun h => hne h.symm) hmj hmi, matrix_link_symm]

/-- C12: for a block graph freshly constructed over a valid partition (either class from a
compressed vector, or the matrix-backed class from a matrix) and all nodes `i, j < n`:
the complete view's `link(i,i)` is `1` (true), `get_nbd(i)` returns a list, and `j` is in
that list if and only if `j != i` and the complete view's `link(i,j)` is `1`. -/
theorem complete_view_nbd_iff_link (Gr : Groups) (hv : Gr.Valid) (i j : Nat)
    (hi : i < Gr.n_elements) (hj : j < Gr.n_elements) :
    (∀ (A : List Nat) (G : BlockGraphAdjCRTP), BlockGraphAdjCRTP.mk_from_adj A Gr = .ok G →
      G.completeview.link i i = .ok 1 ∧
      ∃ l, G.completeview.get_nbd_at i = .ok l ∧
        (j ∈ l ↔ j ≠ i ∧ G.completeview.link i j = .ok 1)) ∧
    (∀ (A : List Nat) (G : BlockGraphCRTP), BlockGraphCRTP.mk_from_adj A Gr = .ok G →
      G.completeview.link i i = .ok 1 ∧
      ∃ l, G.completeview.get_nbd_at i = .ok l ∧
        (j ∈ l ↔ j ≠ i ∧ G.completeview.link i j = .ok 1)) ∧
    (∀ (Mat : InnerData) (G : BlockGraphCRTP), BlockGraphCRTP.mk_from_matrix Mat Gr = .ok G →
      G.completeview.link i i = .ok 1 ∧
      ∃ l, G.completeview.get_nbd_at i = .ok l ∧
        (j ∈ l ↔ j ≠ i ∧ G.completeview.link i j = .ok 1)) := by
  refine ⟨?_, ?_, ?_⟩
  · intro A G h
    obtain ⟨hg, _, hf⟩ := adj_mk_from_adj_fresh A Gr G h
    subst hg
    obtain ⟨l, hl, _, _, hm⟩ := adj_nbd_fresh G hv hf i hi
    exact ⟨by simp [CompleteViewAdjCRTP.link], l, hl, hm j hj⟩
  · intro A G h
    obtain ⟨hg, hf⟩ := matrix_mk_from_adj_fresh A Gr G h
    subst hg
    obtain ⟨l, hl, _, _, hm⟩ := matrix_nbd_fresh G hv hf i hi
    exact ⟨by simp [CompleteViewCRTP.link], l, hl, hm j hj⟩
  · intro Mat G h
    obtain ⟨hg, hf⟩ := matrix_mk_from_matrix_fresh Mat Gr G h
    subst hg
    obtain ⟨l, hl, _, _, hm⟩ := matrix_nbd_fresh G hv hf i hi
    exact ⟨by simp [CompleteViewCRTP.link], l, hl, hm j hj⟩

/-- Witness of C12 on the partition `{0,1}, {2}, {3,4}`, nodes `0` and `3`, for the three
constructions. -/
theorem complete_view_nbd_iff_link_witness :
    partMidSingleton.Valid ∧
    (graphMidSingleton.completeview.link 0 0 = .ok 1 ∧
      ∃ l, graphMidSingleton.completeview.get_nbd_at 0 = .ok l ∧
        (3 ∈ l ↔ 3 ≠ 0 ∧ graphMidSingleton.completeview.link 0 3 = .ok 1)) ∧
    (matrixGraphMidSingleton.completeview.link 0 0 = .ok 1 ∧
      ∃ l, matrixGraphMidSingleton.completeview.get_nbd_at 0 = .ok l ∧
        (3 ∈ l ↔ 3 ≠ 0 ∧ matrixGraphMidSingleton.completeview.link 0 3 = .ok 1)) ∧
    (matrixGraphCorner.completeview.link 0 0 = .ok 1 ∧
      ∃ l, matrixGraphCorner.completeview.get_nbd_at 0 = .ok l ∧
        (3 ∈ l ↔ 3 ≠ 0 ∧ matrixGraphCorner.completeview.link 0 3 = .ok 1)) :=
  ⟨by decide,
    (complete_view_nbd_iff_link partMidSingleton (by decide) 0 3 (by decide) (by decide)).1
      [1, 0, 1, 1, 0] graphMidSingleton (by rfl),
    (complete_view_nbd_iff_link partMidSingleton (by decide) 0 3 (by decide) (by decide)).2.1
      [1, 0, 1, 1, 0] matrixGraphMidSingleton (by rfl),
    (complete_view_nbd_iff_link partMidSingleton (by decide) 0 3 (by decide) (by decide)).2.2
      matCorner matrixGraphCorner (by rfl)⟩

/-- C13: for a block graph freshly constructed over a valid partition (either class from a
compressed vector, or the matrix-backed class from a matrix) and all nodes `i, j < n`:
`j` is in `neighbours(i)` if and only if `i` is in `neighbours(j)`, and `i` is not in
`neighbours(i)`. -/
theorem neighbours_symmetric_irreflexive (Gr : Groups) (hv : Gr.Valid) (i j : Nat)
    (hi : i < Gr.n_elements) (hj : j < Gr.n_elements) :
    (∀ (A : List Nat) (G : BlockGraphAdjCRTP), BlockGraphAdjCRTP.mk_from_adj A Gr = .ok G →
      ∃ li lj, G.completeview.get_nbd_at i = .ok li ∧ G.completeview.get_nbd_at j = .ok lj ∧
        (j ∈ li ↔ i ∈ lj) ∧ i ∉ li) ∧
    (∀ (A : List Nat) (G : BlockGraphCRTP), BlockGraphCRTP.mk_from_adj A Gr = .ok G →
      ∃ li lj, G.completeview.get_nbd_at i = .ok li ∧ G.completeview.get_nbd_at j = .ok lj ∧
        (j ∈ li ↔ i ∈ lj) ∧ i ∉ li) ∧
    (∀ (Mat : InnerData) (G : BlockGraphCRTP), BlockGraphCRTP.mk_from_matrix Mat Gr = .ok G →
      ∃ li lj, G.completeview.get_nbd_at i = .ok li ∧ G.completeview.get_nbd_at j = .ok lj ∧
        (j ∈ li ↔ i ∈ lj) ∧ i ∉ li) := by
  have hadj : ∀ G : BlockGraphAdjCRTP, G.ptr_groups = Gr → G.CachesFresh →
      ∃ li lj, G.completeview.get_nbd_at i = .ok li ∧ G.completeview.get_nbd_at j = .ok lj ∧
        (j ∈ li ↔ i ∈ lj) ∧ i ∉ li := by
    intro G hg hf
    subst hg
    obtain ⟨li, hli, _, _, hmi⟩ := adj_nbd_fresh G hv hf i hi
    obtain ⟨lj, hlj, _, _, hmj⟩ := adj_nbd_fresh G hv hf j hj
    refine ⟨li, lj, hli, hlj, ?_, fun h => ((hmi i hi).mp h).1 rfl⟩
    rw [hmi j hj, hmj i hi, adj_view_link_symm G hv i j hi hj]
    exact ⟨fun h => ⟨fun e => h.1 e.symm, h.2⟩, fun h => ⟨fun e => h.1 e.symm, h.2⟩⟩
  have hmat : ∀ G : BlockGraphCRTP, G.ptr_groups = Gr → G.CachesFresh →
      ∃ li lj, G.completeview.get_nbd_at i = .ok li ∧ G.completeview.get_nbd_at j = .ok lj ∧
        (j ∈ li ↔ i ∈ lj) ∧ i ∉ li := by
    intro G hg hf
    subst hg
    obtain ⟨li, hli, _, _, hmi⟩ := matrix_nbd_fresh G hv hf i hi
    obtain ⟨lj, hlj, _, _, hmj⟩ := matrix_nbd_fresh G hv hf j hj
    refine ⟨li, lj, hli, hlj, ?_, fun h => ((hmi i hi).mp h).1 rfl⟩
    rw [hmi j hj, hmj i hi, matrix_view_link_symm G hv i j hi hj]
    exact ⟨fun h => ⟨fun e => h.1 e.symm, h.2⟩, fun h => ⟨fun e => h.1 e.symm, h.2⟩⟩
  refine ⟨?_, ?_, ?_⟩
  · intro A G h
    obtain ⟨hg, _, hf⟩ := adj_mk_from_adj_fresh A Gr G h
    exact hadj G hg hf
  · intro A G h
    obtain ⟨hg, hf⟩ := matrix_mk_from_adj_fresh A Gr G h
    exact hmat G hg hf
  · intro Mat G h
    obtain ⟨hg, hf⟩ := matrix_mk_from_matrix_fresh Mat Gr G h
    exact hmat G hg hf

/-- Witness of C13 on the partition `{0,1}, {2}, {3,4}`, nodes `0` and `3`, for the three
constructions. -/
theorem neighbours_symmetric_irreflexive_witness :
    partMidSingleton.Valid ∧
    (∃ li lj, graphMidSingleton.completeview.get_nbd_at 0 = .ok li ∧
      graphMidSingleton.completeview.get_nbd_at 3 = .ok lj ∧ (3 ∈ li ↔ 0 ∈ lj) ∧ 0 ∉ li) ∧
    (∃ li lj, matrixGraphMidSingleton.completeview.get_nbd_at 0 = .ok li ∧
      matrixGraphMidSingleton.completeview.get_nbd_at 3 = .ok lj ∧
      (3 ∈ li ↔ 0 ∈ lj) ∧ 0 ∉ li) ∧
    (∃ li lj, matrixGraphCorner.completeview.get_nbd_at 0 = .ok li ∧
      matrixGraphCorner.completeview.get_nbd_at 3 = .ok lj ∧ (3 ∈ li ↔ 0 ∈ lj) ∧ 0 ∉ li) :=
  ⟨by decide,
    (neighbours_symmetric_irreflexive partMidSingleton (by decide) 0 3 (by decide)
      (by decide)).1 [1, 0, 1, 1, 0] graphMidSingleton (by rfl),
    (neighbours_symmetric_irreflexive partMidSingleton (by decide) 0 3 (by decide)
      (by decide)).2.1 [1, 0, 1, 1, 0] matrixGraphMidSingleton (by rfl),
    (neighbours_symmetric_irreflexive partMidSingleton (by decide) 0 3 (by decide)
      (by decide)).2.2 matCorner matrixGraphCorner (by rfl)⟩

/-- C14: for a block graph freshly constructed over a valid partition (either class from a
compressed vector, or the matrix-backed class from a matrix) and every node `i < n`, the
neighbour list that `find_neighbours` stored for `i` is strictly increasing and each of its
entries is a node index below `n`. -/
theorem neighbours_sorted_in_range (Gr : Groups) (hv : Gr.Valid) (i : Nat)
    (hi : i < Gr.n_elements) :
    (∀ (A : List Nat) (G : BlockGraphAdjCRTP), BlockGraphAdjCRTP.mk_from_adj A Gr = .ok G →
      ∃ l, G.completeview.get_nbd_at i = .ok l ∧ l.Pairwise (· < ·) ∧
        ∀ x ∈ l, x < Gr.n_elements) ∧
    (∀ (A : List Nat) (G : BlockGraphCRTP), BlockGraphCRTP.mk_from_adj A Gr = .ok G →
      ∃ l, G.completeview.get_nbd_at i = .ok l ∧ l.Pairwise (· < ·) ∧
        ∀ x ∈ l, x < Gr.n_elements) ∧
    (∀ (Mat : InnerData) (G : BlockGraphCRTP), BlockGraphCRTP.mk_from_matrix Mat Gr = .ok G →
      ∃ l, G.completeview.get_nbd_at i = .ok l ∧ l.Pairwise (· < ·) ∧
        ∀ x ∈ l, x < Gr.n_elements) := by
  refine ⟨?_, ?_, ?_⟩
  · intro A G h
    obtain ⟨hg, _, hf⟩ := adj_mk_from_adj_fresh A Gr G h
    subst hg
    obtain ⟨l, hl, hs, hb, _⟩ := adj_nbd_fresh G hv hf i hi
    exact ⟨l, hl, hs, hb⟩
  · intro A G h
    obtain ⟨hg, hf⟩ := matrix_mk_from_adj_fresh A Gr G h
    subst hg
    obtain ⟨l, hl, hs, hb, _⟩ := matrix_nbd_fresh G hv hf i hi
    exact ⟨l, hl, hs, hb⟩
  · intro Mat G h
    obtain ⟨hg, hf⟩ := matrix_mk_from_matrix_fresh Mat Gr G h
    subst hg
    obtain ⟨l, hl, hs, hb, _⟩ := matrix_nbd_fresh G hv hf i hi
    exact ⟨l, hl, hs, hb⟩

/-- Witness of C14 on the partition `{0,1}, {2}, {3,4}`, node `0`, for the three
constructions. -/
theorem neighbours_sorted_in_range_witness :
    partMidSingleton.Valid ∧
    (∃ l, graphMidSingleton.completeview.get_nbd_at 0 = .ok l ∧ l.Pairwise (· < ·) ∧
      ∀ x ∈ l, x < partMidSingleton.n_elements) ∧
    (∃ l, matrixGraphMidSingleton.completeview.get_nbd_at 0 = .ok l ∧ l.Pairwise (· < ·) ∧
      ∀ x ∈ l, x < partMidSingleton.n_elements) ∧
    (∃ l, matrixGraphCorner.completeview.get_nbd_at 0 = .ok l ∧ l.Pairwise (· < ·) ∧
      ∀ x ∈ l, x < partMidSingleton.n_elements) :=
  ⟨by decide,
    (neighbours_sorted_in_range partMidSingleton (by decide) 0 (by decide)).1
      [1, 0, 1, 1, 0] graphMidSingleton (by rfl),
    (neighbours_sorted_in_range partMidSingleton (by decide) 0 (by decide)).2.1
      [1, 0, 1, 1, 0] matrixGraphMidSingleton (by rfl),
    (neighbours_sorted_in_range partMidSingleton (by decide) 0 (by decide)).2.2
      matCorner matrixGraphCorner (by rfl)⟩

/-! ## Counting linked pairs of nodes -/

theorem ltPairs_add_swap (X Y : Finset Nat) :
    ltPairs X Y + ltPairs Y X = ∑ u ∈ X, ∑ v ∈ Y, if u ≠ v then 1 else 0 := by
  unfold ltPairs
  rw [Finset.sum_comm (s := Y) (t := X), ← Finset.sum_add_distrib]
  apply Finset.sum_congr rfl
  intro u _
  rw [← Finset.sum_add_distrib]
  apply Finset.sum_congr rfl
  intro v _
  split_ifs <;> omega

theorem sum_ne_eq (Y : Finset Nat) (u : Nat) :
    (∑ v ∈ Y, if u ≠ v then 1 else 0) = Y.card - (if u ∈ Y then 1 else 0) := by
  rw [← Finset.card_filter]
  have : Y.filter (fun v => u ≠ v) = Y.erase u := by
    ext v
    simp only [Finset.mem_filter, Finset.mem_erase, ne_eq]
    constructor
    · rintro ⟨h1, h2⟩; exact ⟨fun h => h2 h.symm, h1⟩
    · rintro ⟨h1, h2⟩; exact ⟨h2, fun h => h1 h.symm⟩
  rw [this, Finset.card_erase_eq_ite]
  split_ifs <;> omega

theorem ltPairs_disjoint (X Y : Finset Nat) (h : ∀ u ∈ X, u ∉ Y) :
    ltPairs X Y + ltPairs Y X = X.card * Y.card := by
  rw [ltPairs_add_swap]
  rw [Finset.sum_congr rfl (fun u hu => by rw [sum_ne_eq, if_neg (h u hu)])]
  simp

theorem ltPairs_self (X : Finset Nat) : ltPairs X X = X.card * (X.card - 1) / 2 := by
  have h := ltPairs_add_swap X X
  rw [Finset.sum_congr rfl (fun u hu => by rw [sum_ne_eq, if_pos hu])] at h
  simp only [Finset.sum_const, smul_eq_mul] at h
  omega

theorem sum_square_eq_triangle (M : Nat) (a : Nat → Nat → Nat) :
    (∑ i ∈ Finset.range M, ∑ j ∈ Finset.range M, a i j) =
      ∑ i ∈ Finset.range M, ∑ j ∈ Finset.range M,
        if i = j then a i i else if i < j then a i j + a j i else 0 := by
  have h1 : (∑ i ∈ Finset.range M, ∑ j ∈ Finset.range M, a i j) =
      ∑ i ∈ Finset.range M, ∑ j ∈ Finset.range M,
        ((if i = j then a i i else if i < j then a i j else 0) +
          (if j < i then a i j else 0)) := by
    apply Finset.sum_congr rfl
    intro i _
    apply Finset.sum_congr rfl
    intro j _
    rcases Nat.lt_trichotomy i j with h | h | h
    · rw [if_neg (by omega), if_pos h, if_neg (by omega)]; rfl
    · subst h; simp
    · rw [if_neg (by omega), if_neg (by omega), if_pos h]; simp
  rw [h1]
  simp only [Finset.sum_add_distrib]
  rw [Finset.sum_comm (f := fun i j => if j < i then a i j else 0)]
  simp only [← Finset.sum_add_distrib]
  apply Finset.sum_congr rfl
  intro i _
  apply Finset.sum_congr rfl
  intro j _
  rcases Nat.lt_trichotomy i j with h | h | h
  · rw [if_neg (by omega), if_pos h, if_pos h, if_neg (by omega), if_pos h]
  · subst h; simp
  · rw [if_neg (by omega), if_neg (by omega), if_neg (by omega), if_neg (by omega),
      if_neg (by omega)]

theorem list_sum_range_eq (n : Nat) (f : Nat → Nat) :
    ((List.range n).map f).sum = ∑ i ∈ Finset.range n, f i := by
  induction n with
  | zero => simp
  | succ n ih =>
    rw [List.range_succ, List.map_append, List.sum_append, ih, Finset.sum_range_succ]
    simp

theorem list_sum_range'_eq (m s : Nat) (f : Nat → Nat) :
    ((List.range' s m).map f).sum = ∑ k ∈ Finset.range m, f (s + k) := by
  induction m generalizing s with
  | zero => simp
  | succ m ih =>
    rw [List.range'_succ, List.map_cons, List.sum_cons, ih, Finset.sum_range_succ']
    have : ∀ k, s + 1 + k = s + (k + 1) := fun k => by omega
    simp only [this, Nat.add_zero]
    omega

theorem list_sum_range'_ite (M i : Nat) (f : Nat → Nat) :
    ((List.range' i (M - i)).map f).sum =
      ∑ j ∈ Finset.range M, if i ≤ j then f j else 0 := by
  rw [list_sum_range'_eq, ← Finset.sum_filter]
  have : (Finset.range M).filter (fun j => i ≤ j) = Finset.Ico i M := by
    ext j
    simp only [Finset.mem_filter, Finset.mem_range, Finset.mem_Ico]
    omega
  rw [this, Finset.sum_Ico_eq_sum_range]

theorem fiber_eq_toFinset (g : Groups) (hv : g.Valid) (i : Nat) (hi : i < g.n_groups) :
    fiber g i = (g.get_group i).toFinset := by
  ext u
  simp only [fiber, Finset.mem_filter, Finset.mem_range, List.mem_toFinset]
  constructor
  · rintro ⟨hu, hm⟩
    obtain ⟨k, _, hk, hmem⟩ := hv.2.2.2.2.2.2 u hu
    rw [hm] at hk
    injection hk with hk
    subst hk
    exact hmem
  · intro hmem
    exact hv.2.2.2.2.2.1 i hi u hmem

theorem fiber_card (g : Groups) (hv : g.Valid) (i : Nat) (hi : i < g.n_groups) :
    (fiber g i).card = g.get_group_size i := by
  rw [fiber_eq_toFinset g hv i hi, Groups.get_group_size]
  exact List.toFinset_card_of_nodup ((hv.2.2.2.1 i hi).imp (fun h => Nat.ne_of_lt h))

theorem fiber_disjoint (g : Groups) (i j : Nat) (hij : i ≠ j) :
    ∀ u ∈ fiber g i, u ∉ fiber g j := by
  intro u hu hu2
  simp only [fiber, Finset.mem_filter] at hu hu2
  rw [hu.2] at hu2
  exact hij (Option.some.inj hu2.2)

theorem sum_fiberwise (g : Groups) (hv : g.Valid) (F : Nat → Nat) :
    (∑ u ∈ Finset.range g.n_elements, F u) =
      ∑ i ∈ Finset.range g.n_groups, ∑ u ∈ fiber g i, F u := by
  have hmaps : ∀ u ∈ Finset.range g.n_elements,
      (g.map_of_indeces u).getD 0 ∈ Finset.range g.n_groups := by
    intro u hu
    obtain ⟨k, hk, hm, _⟩ := hv.2.2.2.2.2.2 u (Finset.mem_range.mp hu)
    rw [hm]
    exact Finset.mem_range.mpr hk
  rw [← Finset.sum_fiberwise_of_maps_to hmaps F]
  apply Finset.sum_congr rfl
  intro i _
  apply Finset.sum_congr _ (fun _ _ => rfl)
  ext u
  simp only [fiber, Finset.mem_filter, Finset.mem_range]
  constructor
  · rintro ⟨hu, hm⟩
    obtain ⟨k, _, hk, _⟩ := hv.2.2.2.2.2.2 u hu
    rw [hk] at hm ⊢
    simp only [Option.getD_some] at hm
    exact ⟨hu, by rw [hm]⟩
  · rintro ⟨hu, hm⟩
    exact ⟨hu, by rw [hm]; rfl⟩

theorem linkedPairs_eq_sum (n : Nat) (cv : Nat → Nat → Except Err Nat) :
    linkedPairs n cv =
      ∑ u ∈ Finset.range n, ∑ v ∈ Finset.range n,
        if u < v ∧ cv u v = .ok 1 then 1 else 0 := by
  unfold linkedPairs
  rw [Finset.card_filter, Finset.sum_product]

theorem linkedPairs_eq_allLinks (g : Groups) (hv : g.Valid)
    (link cv : Nat → Nat → Except Err Nat) (hsymm : ∀ a b, link a b = link b a)
    (hcv : ∀ u v gu gv, u ≠ v → g.map_of_indeces u = some gu →
      g.map_of_indeces v = some gv → cv u v = link gu gv) :
    linkedPairs g.n_elements cv = allLinks g link := by
  rw [linkedPairs_eq_sum, sum_fiberwise g hv]
  have hstep : ∀ i ∈ Finset.range g.n_groups,
      (∑ u ∈ fiber g i, ∑ v ∈ Finset.range g.n_elements,
        if u < v ∧ cv u v = .ok 1 then 1 else 0) =
      ∑ j ∈ Finset.range g.n_groups,
        (if link i j = .ok 1 then 1 else 0) * ltPairs (fiber g i) (fiber g j) := by
    intro i _
    rw [Finset.sum_congr rfl (fun u _ => sum_fiberwise g hv _), Finset.sum_comm]
    apply Finset.sum_congr rfl
    intro j _
    unfold ltPairs
    rw [Finset.mul_sum]
    apply Finset.sum_congr rfl
    intro u hu
    rw [Finset.mul_sum]
    apply Finset.sum_congr rfl
    intro v hv2
    simp only [fiber, Finset.mem_filter] at hu hv2
    by_cases huv : u < v
    · rw [hcv u v i j (by omega) hu.2 hv2.2]
      simp [huv]
    · simp [huv]
  rw [Finset.sum_congr rfl hstep, sum_square_eq_triangle]
  unfold allLinks
  rw [list_sum_range_eq]
  apply Finset.sum_congr rfl
  intro i hi
  rw [list_sum_range'_ite]
  apply Finset.sum_congr rfl
  intro j hj
  have hi2 := Finset.mem_range.mp hi
  have hj2 := Finset.mem_range.mp hj
  unfold linkWeight
  rcases Nat.lt_trichotomy i j with h | h | h
  · have hne : ¬ i = j := by omega
    rw [if_neg hne, if_pos h, if_pos (Nat.le_of_lt h), if_neg hne, hsymm j i]
    by_cases hl : link i j = .ok 1
    · rw [if_pos hl, if_pos hl, Nat.one_mul, Nat.one_mul,
        ltPairs_disjoint _ _ (fiber_disjoint g i j hne), fiber_card g hv i hi2,
        fiber_card g hv j hj2]
    · rw [if_neg hl, if_neg hl]
      simp
  · subst h
    rw [if_pos rfl, if_pos (Nat.le_refl _), if_pos rfl, ltPairs_self, fiber_card g hv i hi2]
    by_cases hl : link i i = .ok 1
    · rw [if_pos hl, if_pos hl, Nat.one_mul]
    · rw [if_neg hl, if_neg hl]
      simp
  · rw [if_neg (by omega), if_neg (by omega), if_neg (by omega)]

/-! ## The value stored by `compute_nlinks_nblocks` -/

theorem group_size_bounds (g : Groups) (hv : g.Valid) (i : Nat) (hi : i < g.n_groups) :
    1 ≤ g.get_group_size i ∧ g.get_group_size i ≤ g.n_elements := by
  constructor
  · have := hv.2.2.2.2.1 i hi
    unfold Groups.get_group_size
    exact List.length_pos.mpr this
  · rw [← fiber_card g hv i hi]
    have := Finset.card_filter_le (Finset.range g.n_elements)
      (fun u => g.map_of_indeces u = some i)
    simpa [fiber] using this

theorem nlinks_inner_spec (g : Groups) (hv : g.Valid) (link : Nat → Nat → Except Err Nat)
    (i : Nat) (hi : i < g.n_groups) :
    ∀ (js : List Nat) (acc res : Nat × Nat), (∀ j ∈ js, j < g.n_groups) →
      js.foldlM
        (fun (acc : Nat × Nat) j => do
          let l ← link i j
          if l = 1 then
            let n_blocks := u32 (acc.2 + 1)
            if i = j then
              pure (u32 (acc.1 + g.get_group_size i * u32 (g.get_group_size i + 4294967295) / 2),
                n_blocks)
            else
              pure (u32 (acc.1 + u32 (g.get_group_size i * g.get_group_size j)), n_blocks)
          else pure acc)
        acc = .ok res →
      res.1 % 4294967296 = (acc.1 + (js.map (linkWeight g link i)).sum) % 4294967296 ∧
        (acc.1 < 4294967296 → res.1 < 4294967296) := by
  intro js
  induction js with
  | nil =>
    intro acc res _ h
    injection h with h
    subst h
    simp
  | cons j t ih =>
    intro acc res hjs h
    rw [List.foldlM_cons] at h
    have hsz := group_size_bounds g hv i hi
    have hn : g.n_elements ≤ 4294967295 := hv.2.1
    cases hl : link i j with
    | error e =>
      rw [hl] at h
      cases h
    | ok v =>
      rw [hl] at h
      simp only [bind, Except.bind] at h
      rw [List.map_cons, List.sum_cons]
      have hw : ∀ acc1 : Nat × Nat,
          t.foldlM
            (fun (acc : Nat × Nat) j => do
              let l ← link i j
              if l = 1 then
                let n_blocks := u32 (acc.2 + 1)
                if i = j then
                  pure (u32 (acc.1 + g.get_group_size i *
                    u32 (g.get_group_size i + 4294967295) / 2), n_blocks)
                else
                  pure (u32 (acc.1 + u32 (g.get_group_size i * g.get_group_size j)),
                    n_blocks)
              else pure acc)
            acc1 = .ok res →
          acc1.1 % 4294967296 = (acc.1 + linkWeight g link i j) % 4294967296 →
          (acc.1 < 4294967296 → acc1.1 < 4294967296) →
          res.1 % 4294967296 =
              (acc.1 + (linkWeight g link i j + (t.map (linkWeight g link i)).sum))
                % 4294967296 ∧
            (acc.1 < 4294967296 → res.1 < 4294967296) := by
        intro acc1 h1 hc hb
        obtain ⟨h2, h3⟩ := ih acc1 res (fun x hx => hjs x (List.mem_cons_of_mem _ hx)) h1
        refine ⟨?_, fun ha => h3 (hb ha)⟩
        omega
      by_cases hv1 : v = 1
      · subst hv1
        by_cases hij : i = j
        · subst hij
          simp only [if_true, pure, Except.pure] at h
          refine hw _ h ?_ ?_
          · simp only [linkWeight, hl, if_true, u32]
            have : (g.get_group_size i + 4294967295) % 4294967296 = g.get_group_size i - 1 := by
              omega
            rw [this]
            omega
          · intro _
            simp only [u32]
            omega
        · simp only [if_true, if_neg hij, pure, Except.pure] at h
          refine hw _ h ?_ ?_
          · simp only [linkWeight, hl, if_true, if_neg hij, u32]
            omega
          · intro _
            simp only [u32]
            omega
      · simp only [if_neg hv1, pure, Except.pure] at h
        refine hw _ h ?_ (fun ha => ha)
        have : ¬ (Except.ok v : Except Err Nat) = .ok 1 := by
          intro he
          injection he with he
          exact hv1 he
        simp only [linkWeight, hl, if_neg this]
        omega

theorem nlinks_outer_spec (g : Groups) (hv : g.Valid) (link : Nat → Nat → Except Err Nat) :
    ∀ (is : List Nat) (acc res : Nat × Nat), (∀ i ∈ is, i < g.n_groups) →
      is.foldlM
        (fun acc i =>
          (List.range' i (get_size g - i)).foldlM
            (fun (acc : Nat × Nat) j => do
              let l ← link i j
              if l = 1 then
                let n_blocks := u32 (acc.2 + 1)
                if i = j then
                  pure (u32 (acc.1 + g.get_group_size i *
                    u32 (g.get_group_size i + 4294967295) / 2), n_blocks)
                else
                  pure (u32 (acc.1 + u32 (g.get_group_size i * g.get_group_size j)),
                    n_blocks)
              else pure acc)
            acc)
        acc = .ok res →
      res.1 % 4294967296 =
          (acc.1 + (is.map (fun i =>
            ((List.range' i (g.n_groups - i)).map (linkWeight g link i)).sum)).sum)
            % 4294967296 ∧
        (acc.1 < 4294967296 → res.1 < 4294967296) := by
  intro is
  induction is with
  | nil =>
    intro acc res _ h
    injection h with h
    subst h
    simp
  | cons i t ih =>
    intro acc res his h
    rw [List.foldlM_cons] at h
    have hi : i < g.n_groups := his i (List.mem_cons_self _ _)
    cases h1 : (List.range' i (get_size g - i)).foldlM
        (fun (acc : Nat × Nat) j => do
          let l ← link i j
          if l = 1 then
            let n_blocks := u32 (acc.2 + 1)
            if i = j then
              pure (u32 (acc.1 + g.get_group_size i *
                u32 (g.get_group_size i + 4294967295) / 2), n_blocks)
            else
              pure (u32 (acc.1 + u32 (g.get_group_size i * g.get_group_size j)),
                n_blocks)
          else pure acc)
        acc with
    | error e =>
      rw [h1] at h
      cases h
    | ok acc1 =>
      rw [h1] at h
      obtain ⟨h2, h3⟩ := nlinks_inner_spec g hv link i hi _ acc acc1
        (by
          intro j hj
          have := List.mem_range'_1.mp hj
          unfold get_size at this
          omega)
        h1
      obtain ⟨h4, h5⟩ := ih acc1 res (fun x hx => his x (List.mem_cons_of_mem _ hx)) h
      rw [List.map_cons, List.sum_cons]
      unfold get_size at h2
      refine ⟨?_, fun ha => h5 (h3 ha)⟩
      omega

theorem nlinks_loop_spec (g : Groups) (hv : g.Valid) (link : Nat → Nat → Except Err Nat)
    (nl nbl : Nat) (h : nlinks_nblocks_loop g link = .ok (nl, nbl)) :
    nl = allLinks g link % 4294967296 := by
  unfold nlinks_nblocks_loop at h
  simp only [bind, Except.bind, pure, Except.pure] at h
  split at h
  · cases h
  · next r hr =>
    injection h with h
    injection h with h1 _
    obtain ⟨h2, h3⟩ := nlinks_outer_spec g hv link _ (0, 0) r
      (fun i hi => by simpa [get_size] using hi) hr
    have h4 := h3 (by decide)
    unfold allLinks
    simp only [Nat.zero_add, get_size] at h2
    rw [← h1]
    omega

/-! ## Link counter against the number of linked pairs -/

theorem card_all_pairs (n : Nat) :
    ((Finset.range n ×ˢ Finset.range n).filter (fun p => p.1 < p.2)).card
      = n * (n - 1) / 2 := by
  rw [Finset.card_filter, Finset.sum_product]
  have := ltPairs_self (Finset.range n)
  rw [Finset.card_range] at this
  exact this

theorem linkedPairs_le (n : Nat) (cv : Nat → Nat → Except Err Nat) :
    linkedPairs n cv ≤ n * (n - 1) / 2 := by
  rw [← card_all_pairs]
  apply Finset.card_le_card
  intro p hp
  simp only [Finset.mem_filter] at hp ⊢
  exact ⟨hp.1, hp.2.1⟩

theorem linkedPairs_eq_all_iff (n : Nat) (cv : Nat → Nat → Except Err Nat) :
    linkedPairs n cv = n * (n - 1) / 2 ↔ ∀ u v, u < v → v < n → cv u v = .ok 1 := by
  rw [← card_all_pairs]
  constructor
  · intro h u v huv hv
    have hsub : (Finset.range n ×ˢ Finset.range n).filter
        (fun p => p.1 < p.2 ∧ cv p.1 p.2 = .ok 1) ⊆
        (Finset.range n ×ˢ Finset.range n).filter (fun p => p.1 < p.2) := by
      intro p hp
      simp only [Finset.mem_filter] at hp ⊢
      exact ⟨hp.1, hp.2.1⟩
    have heq := Finset.eq_of_subset_of_card_le hsub (Nat.le_of_eq h.symm)
    have hmem : (u, v) ∈ (Finset.range n ×ˢ Finset.range n).filter (fun p => p.1 < p.2) := by
      simp only [Finset.mem_filter, Finset.mem_product, Finset.mem_range]
      exact ⟨⟨by omega, hv⟩, huv⟩
    rw [← heq] at hmem
    simp only [Finset.mem_filter] at hmem
    exact hmem.2.2
  · intro h
    unfold linkedPairs
    congr 1
    apply Finset.filter_congr
    intro p hp
    simp only [Finset.mem_product, Finset.mem_range] at hp
    constructor
    · intro h2; exact h2.1
    · intro h2; exact ⟨h2, h p.1 p.2 h2 hp.2⟩

theorem possible_links_eq (n : Nat) (hn : n ≤ 4294967295) :
    n * u32 (n + 4294967295) / 2 = n * (n - 1) / 2 := by
  rcases Nat.eq_zero_or_pos n with h | h
  · subst h; simp
  · have : u32 (n + 4294967295) = n - 1 := by unfold u32; omega
    rw [this]

theorem adj_n_links_fresh (G : BlockGraphAdjCRTP) (hv : G.ptr_groups.Valid)
    (hf : G.CachesFresh) :
    G.n_links = linkedPairs G.ptr_groups.n_elements G.completeview.link % 4294967296 := by
  rw [nlinks_loop_spec _ hv _ _ _ hf.2,
    linkedPairs_eq_allLinks _ hv G.link G.completeview.link (adj_link_symm G)
      (fun u v gu gv hne hu hv2 => adj_view_link G u v gu gv (fun h => hne h.symm) hu hv2)]

theorem matrix_n_links_fresh (G : BlockGraphCRTP) (hv : G.ptr_groups.Valid)
    (hf : G.CachesFresh) :
    G.n_links = linkedPairs G.ptr_groups.n_elements G.completeview.link % 4294967296 := by
  rw [nlinks_loop_spec _ hv _ _ _ hf.2,
    linkedPairs_eq_allLinks _ hv G.link G.completeview.link (matrix_link_symm G)
      (fun u v gu gv hne hu hv2 => matrix_view_link G u v gu gv (fun h => hne h.symm) hu hv2)]

theorem adj_n_links_spec (G : BlockGraphAdjCRTP) (hv : G.ptr_groups.Valid)
    (hf : G.CachesFresh)
    (hb : G.ptr_groups.n_elements * (G.ptr_groups.n_elements - 1) / 2 < 4294967296) :
    G.get_n_links = linkedPairs G.ptr_groups.n_elements G.completeview.link ∧
    G.get_possible_links = G.ptr_groups.n_elements * (G.ptr_groups.n_elements - 1) / 2 ∧
    (G.get_n_links = G.get_possible_links ↔
      ∀ u v, u < v → v < G.ptr_groups.n_elements → G.completeview.link u v = .ok 1) := by
  have h1 := adj_n_links_fresh G hv hf
  have h2 := linkedPairs_le G.ptr_groups.n_elements G.completeview.link
  have h3 : G.get_n_links = linkedPairs G.ptr_groups.n_elements G.completeview.link := by
    unfold BlockGraphAdjCRTP.get_n_links
    omega
  have h4 : G.get_possible_links
      = G.ptr_groups.n_elements * (G.ptr_groups.n_elements - 1) / 2 :=
    possible_links_eq _ hv.2.1
  refine ⟨h3, h4, ?_⟩
  rw [h3, h4]
  exact linkedPairs_eq_all_iff _ _

theorem matrix_n_links_spec (G : BlockGraphCRTP) (hv : G.ptr_groups.Valid)
    (hf : G.CachesFresh)
    (hb : G.ptr_groups.n_elements * (G.ptr_groups.n_elements - 1) / 2 < 4294967296) :
    G.get_n_links = linkedPairs G.ptr_groups.n_elements G.completeview.link ∧
    G.get_possible_links = G.ptr_groups.n_elements * (G.ptr_groups.n_elements - 1) / 2 ∧
    (G.get_n_links = G.get_possible_links ↔
      ∀ u v, u < v → v < G.ptr_groups.n_elements → G.completeview.link u v = .ok 1) := by
  have h1 := matrix_n_links_fresh G hv hf
  have h2 := linkedPairs_le G.ptr_groups.n_elements G.completeview.link
  have h3 : G.get_n_links = linkedPairs G.ptr_groups.n_elements G.completeview.link := by
    unfold BlockGraphCRTP.get_n_links
    omega
  have h4 : G.get_possible_links
      = G.ptr_groups.n_elements * (G.ptr_groups.n_elements - 1) / 2 :=
    possible_links_eq _ hv.2.1
  refine ⟨h3, h4, ?_⟩
  rw [h3, h4]
  exact linkedPairs_eq_all_iff _ _

theorem adj_mk_from_adj_ok (A : List Nat) (Gr : Groups) (hv : Gr.Valid)
    (hsz : coherent_size Gr = A.length)
    (hlink : ∀ i j, i < Gr.n_groups → j < Gr.n_groups →
      ∃ v, BlockGraphAdjCRTP.link
        { ptr_groups := Gr, n_links := 0, n_blocks := 0, data := A, neighbours := [] } i j
        = .ok v) :
    ∃ G, BlockGraphAdjCRTP.mk_from_adj A Gr = .ok G := by
  unfold BlockGraphAdjCRTP.mk_from_adj
  rw [if_neg (by simpa using hsz)]
  obtain ⟨nb, hnb⟩ := find_neighbours_loop_ok Gr _ hv hlink []
  obtain ⟨⟨nl, nbl⟩, hr⟩ := nlinks_nblocks_loop_ok Gr _ hlink
  refine ⟨{ ptr_groups := Gr, n_links := nl, n_blocks := nbl, data := A, neighbours := nb }, ?_⟩
  unfold BlockGraphAdjCRTP.find_neighbours
  rw [hnb]
  show BlockGraphAdjCRTP.compute_nlinks_nblocks
    { ptr_groups := Gr, n_links := 0, n_blocks := 0, data := A, neighbours := nb } = _
  unfold BlockGraphAdjCRTP.compute_nlinks_nblocks
  rw [show nlinks_nblocks_loop Gr (BlockGraphAdjCRTP.link
      { ptr_groups := Gr, n_links := 0, n_blocks := 0, data := A, neighbours := nb })
    = .ok (nl, nbl) from hr]
  rfl

theorem partTwoBlocks_valid : partTwoBlocks.Valid := by
  refine ⟨⟨by decide, List.Pairwise.nil, ?_, rfl⟩, by decide, ?_, ?_, ?_, ?_, ?_⟩
  · intro s hs; cases hs
  · intro i hi
    have hi2 : i < 2 := hi
    interval_cases i <;> simp [partTwoBlocks]
  · intro i hi
    have hi2 : i < 2 := hi
    interval_cases i
    · exact List.pairwise_lt_range' 0 65536
    · exact List.pairwise_lt_range' 65536 65536
  · intro i hi
    have hi2 : i < 2 := hi
    interval_cases i <;> simp [partTwoBlocks]
  · intro i hi n hn
    have hi2 : i < 2 := hi
    interval_cases i
    · have h := List.mem_range'_1.mp hn
      have hlt : n < 65536 := by omega
      exact ⟨by show n < 131072; omega, by simp [partTwoBlocks, hlt]⟩
    · have h := List.mem_range'_1.mp hn
      have h1 : ¬ n < 65536 := by omega
      have h2 : n < 131072 := by omega
      exact ⟨h2, by simp [partTwoBlocks, h1, h2]⟩
  · intro n hn
    have hn2 : n < 131072 := hn
    by_cases h : n < 65536
    · exact ⟨0, by decide, by simp [partTwoBlocks, h],
        List.mem_range'_1.mpr ⟨by omega, by omega⟩⟩
    · exact ⟨1, by decide, by simp [partTwoBlocks, h, hn2],
        List.mem_range'_1.mpr ⟨by omega, by omega⟩⟩

theorem allLinks_two_blocks (G : BlockGraphAdjCRTP) (hg : G.ptr_groups = partTwoBlocks)
    (hd : G.data = [0, 1, 0]) : allLinks G.ptr_groups G.link = 4294967296 := by
  have h00 : G.link 0 0 = .ok 0 := by
    unfold BlockGraphAdjCRTP.link
    rw [hg, hd]
    decide
  have h01 : G.link 0 1 = .ok 1 := by
    unfold BlockGraphAdjCRTP.link
    rw [hg, hd]
    decide
  have h11 : G.link 1 1 = .ok 0 := by
    unfold BlockGraphAdjCRTP.link
    rw [hg, hd]
    decide
  have hs0 : G.ptr_groups.get_group_size 0 = 65536 := by
    rw [hg]
    simp [Groups.get_group_size, partTwoBlocks]
  have hs1 : G.ptr_groups.get_group_size 1 = 65536 := by
    rw [hg]
    simp [Groups.get_group_size, partTwoBlocks]
  have hM : G.ptr_groups.n_groups = 2 := by rw [hg]; rfl
  unfold allLinks
  rw [hM]
  simp [List.range_succ, List.range'_succ, linkWeight, h00, h01, h11, hs0, hs1]

/-- C15 (as stated, refuted): the link counter is an `unsigned int` and wraps.  Over two
groups of `65536` nodes, the vector-backed graph built from `[0, 1, 0]` links each node of
the first group to each node of the second one, `4294967296` pairs of distinct nodes, and
`compute_nlinks_nblocks` adds `65536 * 65536`, which is `0` in `unsigned int`:
`get_n_links()` is `0`. -/
theorem n_links_wraps_two_blocks :
    partTwoBlocks.Valid ∧
    ∃ G, BlockGraphAdjCRTP.mk_from_adj [0, 1, 0] partTwoBlocks = .ok G ∧
      G.get_n_links = 0 ∧
      linkedPairs partTwoBlocks.n_elements G.completeview.link = 4294967296 := by
  refine ⟨partTwoBlocks_valid, ?_⟩
  obtain ⟨G, hG⟩ := adj_mk_from_adj_ok [0, 1, 0] partTwoBlocks partTwoBlocks_valid
    (by decide)
    (by
      intro i j hi hj
      have hi2 : i < 2 := hi
      have hj2 : j < 2 := hj
      interval_cases i <;> interval_cases j <;> exact ⟨_, rfl⟩)
  obtain ⟨hg, hd, hf⟩ := adj_mk_from_adj_fresh _ _ G hG
  have hv : G.ptr_groups.Valid := by rw [hg]; exact partTwoBlocks_valid
  have hall := allLinks_two_blocks G hg hd
  have hlp : linkedPairs G.ptr_groups.n_elements G.completeview.link = 4294967296 := by
    rw [linkedPairs_eq_allLinks _ hv G.link G.completeview.link (adj_link_symm G)
      (fun u v gu gv hne hu hv2 => adj_view_link G u v gu gv (fun h => hne h.symm) hu hv2)]
    exact hall
  refine ⟨G, hG, ?_, by rw [← hg]; exact hlp⟩
  unfold BlockGraphAdjCRTP.get_n_links
  rw [adj_n_links_fresh G hv hf, hlp]

/-- C15 (amended): for a block graph freshly constructed over a valid partition of `n`
nodes with `n(n-1)/2 < 2^32` (either class from a compressed vector, or the matrix-backed
class from a matrix), `get_n_links()` is the number of unordered pairs of distinct nodes
whose complete-view link is `1`, `get_possible_links()` is `n(n-1)/2`, and the two are
equal if and only if every pair of distinct nodes is linked. -/
theorem n_links_counts_linked_pairs (Gr : Groups) (hv : Gr.Valid)
    (hb : Gr.n_elements * (Gr.n_elements - 1) / 2 < 4294967296) :
    (∀ (A : List Nat) (G : BlockGraphAdjCRTP), BlockGraphAdjCRTP.mk_from_adj A Gr = .ok G →
      G.get_n_links = linkedPairs Gr.n_elements G.completeview.link ∧
      G.get_possible_links = Gr.n_elements * (Gr.n_elements - 1) / 2 ∧
      (G.get_n_links = G.get_possible_links ↔
        ∀ u v, u < v → v < Gr.n_elements → G.completeview.link u v = .ok 1)) ∧
    (∀ (A : List Nat) (G : BlockGraphCRTP), BlockGraphCRTP.mk_from_adj A Gr = .ok G →
      G.get_n_links = linkedPairs Gr.n_elements G.completeview.link ∧
      G.get_possible_links = Gr.n_elements * (Gr.n_elements - 1) / 2 ∧
      (G.get_n_links = G.get_possible_links ↔
        ∀ u v, u < v → v < Gr.n_elements → G.completeview.link u v = .ok 1)) ∧
    (∀ (Mat : InnerData) (G : BlockGraphCRTP), BlockGraphCRTP.mk_from_matrix Mat Gr = .ok G →
      G.get_n_links = linkedPairs Gr.n_elements G.completeview.link ∧
      G.get_possible_links = Gr.n_elements * (Gr.n_elements - 1) / 2 ∧
      (G.get_n_links = G.get_possible_links ↔
        ∀ u v, u < v → v < Gr.n_elements → G.completeview.link u v = .ok 1)) := by
  refine ⟨?_, ?_, ?_⟩
  · intro A G h
    obtain ⟨hg, _, hf⟩ := adj_mk_from_adj_fresh A Gr G h
    subst hg
    exact adj_n_links_spec G hv hf hb
  · intro A G h
    obtain ⟨hg, hf⟩ := matrix_mk_from_adj_fresh A Gr G h
    subst hg
    exact matrix_n_links_spec G hv hf hb
  · intro Mat G h
    obtain ⟨hg, hf⟩ := matrix_mk_from_matrix_fresh Mat Gr G h
    subst hg
    exact matrix_n_links_spec G hv hf hb

/-- Witness of C15 (amended) on the partition `{0,1}, {2}, {3,4}` for the three
constructions. -/
theorem n_links_counts_linked_pairs_witness :
    partMidSingleton.Valid ∧
    partMidSingleton.n_elements * (partMidSingleton.n_elements - 1) / 2 < 4294967296 ∧
    (graphMidSingleton.get_n_links
        = linkedPairs partMidSingleton.n_elements graphMidSingleton.completeview.link ∧
      graphMidSingleton.get_possible_links
        = partMidSingleton.n_elements * (partMidSingleton.n_elements - 1) / 2 ∧
      (graphMidSingleton.get_n_links = graphMidSingleton.get_possible_links ↔
        ∀ u v, u < v → v < partMidSingleton.n_elements →
          graphMidSingleton.completeview.link u v = .ok 1)) ∧
    (matrixGraphMidSingleton.get_n_links
        = linkedPairs partMidSingleton.n_elements matrixGraphMidSingleton.completeview.link ∧
      matrixGraphMidSingleton.get_possible_links
        = partMidSingleton.n_elements * (partMidSingleton.n_elements - 1) / 2 ∧
      (matrixGraphMidSingleton.get_n_links = matrixGraphMidSingleton.get_possible_links ↔
        ∀ u v, u < v → v < partMidSingleton.n_elements →
          matrixGraphMidSingleton.completeview.link u v = .ok 1)) ∧
    (matrixGraphCorner.get_n_links
        = linkedPairs partMidSingleton.n_elements matrixGraphCorner.completeview.link ∧
      matrixGraphCorner.get_possible_links
        = partMidSingleton.n_elements * (partMidSingleton.n_elements - 1) / 2 ∧
      (matrixGraphCorner.get_n_links = matrixGraphCorner.get_possible_links ↔
        ∀ u v, u < v → v < partMidSingleton.n_elements →
          matrixGraphCorner.completeview.link u v = .ok 1)) :=
  ⟨by decide, by decide,
    (n_links_counts_linked_pairs partMidSingleton (by decide) (by decide)).1
      [1, 0, 1, 1, 0] graphMidSingleton (by rfl),
    (n_links_counts_linked_pairs partMidSingleton (by decide) (by decide)).2.1
      [1, 0, 1, 1, 0] matrixGraphMidSingleton (by rfl),
    (n_links_counts_linked_pairs partMidSingleton (by decide) (by decide)).2.2
      matCorner matrixGraphCorner (by rfl)⟩

/-! ## The sweep loop of `rgwish_core` -/

namespace utils

theorem rgwish_loop_converged {R E : Type} (K : RgwishKernel R E) (N : Nat)
    (nbd : Neighbourhood) (Sigma : MatD R) (threshold : R) (fuel : Nat) (Omega : MatD R)
    (it : Nat) :
    rgwish_loop K N nbd Sigma threshold fuel (Omega, true, it) = .ok (Omega, true, it) := by
  cases fuel with
  | zero => rfl
  | succ f => rfl

theorem rgwish_loop_spec {R E : Type} (K : RgwishKernel R E) (N : Nat)
    (nbd : Neighbourhood) (Sigma : MatD R) (threshold : R) :
    ∀ (fuel : Nat) (Omega : MatD R) (it : Nat) (res : MatD R × Bool × Nat),
      rgwish_loop K N nbd Sigma threshold fuel (Omega, false, it) = .ok res →
      res.2.2 ≤ it + fuel ∧
      (res.2.1 = false → res.2.2 = it + fuel) ∧
      (res.2.1 = true → it < res.2.2 ∧
        ∃ Oprev O1, rgwish_sweep K N nbd Sigma Oprev = .ok O1 ∧
          K.lt (K.norm O1) threshold = true ∧ res.1 = K.copy_upper_to_lower O1) := by
  intro fuel
  induction fuel with
  | zero =>
    intro Omega it res h
    injection h with h
    subst h
    exact ⟨Nat.le_refl _, fun _ => rfl, fun h => Bool.noConfusion h⟩
  | succ f ih =>
    intro Omega it res h
    simp only [rgwish_loop] at h
    cases hs : rgwish_sweep K N nbd Sigma Omega with
    | error e =>
      rw [hs] at h
      cases h
    | ok O1 =>
      rw [hs] at h
      simp only [Bool.false_eq_true, if_false] at h
      cases hc : K.lt (K.norm O1) threshold with
      | true =>
        rw [hc, rgwish_loop_converged] at h
        injection h with h
        subst h
        exact ⟨by simp only; omega, fun h => Bool.noConfusion h,
          fun _ => ⟨by simp only; omega, Omega, O1, hs, hc, rfl⟩⟩
      | false =>
        rw [hc] at h
        obtain ⟨h1, h2, h3⟩ := ih _ _ res h
        refine ⟨by omega, fun hf => by have := h2 hf; omega, fun ht => ?_⟩
        obtain ⟨h4, h5⟩ := h3 ht
        exact ⟨by omega, h5⟩

theorem rgwish_loop_error {R E : Type} (K : RgwishKernel R E) (N : Nat)
    (nbd : Neighbourhood) (Sigma : MatD R) (threshold : R) :
    ∀ (fuel : Nat) (st : MatD R × Bool × Nat) (e : Err),
      rgwish_loop K N nbd Sigma threshold fuel st = .error e →
      ∃ Omega, rgwish_sweep K N nbd Sigma Omega = .error e := by
  intro fuel
  induction fuel with
  | zero =>
    intro st e h
    cases h
  | succ f ih =>
    intro st e h
    obtain ⟨Omega, converged, it⟩ := st
    simp only [rgwish_loop] at h
    cases converged with
    | true => cases h
    | false =>
      simp only [Bool.false_eq_true, if_false] at h
      cases hs : rgwish_sweep K N nbd Sigma Omega with
      | error e2 =>
        rw [hs] at h
        injection h with h
        subst h
        exact ⟨Omega, hs⟩
      | ok O1 =>
        rw [hs] at h
        exact ih _ e h

theorem rgwish_loop_ok {R E : Type} (K : RgwishKernel R E) (N : Nat)
    (nbd : Neighbourhood) (Sigma : MatD R) (threshold : R)
    (hs : ∀ Omega, ∃ O1, rgwish_sweep K N nbd Sigma Omega = .ok O1) :
    ∀ (fuel : Nat) (st : MatD R × Bool × Nat),
      ∃ res, rgwish_loop K N nbd Sigma threshold fuel st = .ok res := by
  intro fuel
  induction fuel with
  | zero => intro st; exact ⟨st, rfl⟩
  | succ f ih =>
    intro st
    obtain ⟨Omega, converged, it⟩ := st
    cases converged with
    | true => exact ⟨_, rgwish_loop_converged K N nbd Sigma threshold _ Omega it⟩
    | false =>
      obtain ⟨O1, h1⟩ := hs Omega
      obtain ⟨res, hres⟩ := ih (K.copy_upper_to_lower O1, K.lt (K.norm O1) threshold, it + 1)
      refine ⟨res, ?_⟩
      simp only [rgwish_loop, Bool.false_eq_true, if_false, h1]
      exact hres

end utils

/-! ## Claims on `rgwish_core` -/

namespace utils

/-- On a freshly constructed vector-backed graph with `n(n-1)/2 < 2^32` in which every
pair of distinct nodes is linked, `rgwish_core` returns the draw with `converged = true`
and `it = 0`, and runs no sweep. -/
theorem rgwish_core_complete_fresh {R E : Type} (K : RgwishKernel R E) (form : ScaleForm)
    (G : BlockGraphAdjCRTP) (hv : G.ptr_groups.Valid) (hf : G.CachesFresh)
    (hb : G.ptr_groups.n_elements * (G.ptr_groups.n_elements - 1) / 2 < 4294967296)
    (hall : ∀ u v, u < v → v < G.ptr_groups.n_elements → G.completeview.link u v = .ok 1)
    (b : R) (D : MatD R) (threshold : R) (engine : E) (max_iter : Nat)
    (hsq : D.rows = D.cols) (hsz : D.rows = G.ptr_groups.n_elements) :
    rgwish_core K form G.completeview.view b D threshold engine max_iter =
      (.ok ((rgwish_core_draw K form G.ptr_groups.n_elements engine b D).1, true, 0),
        (rgwish_core_draw K form G.ptr_groups.n_elements engine b D).2) := by
  obtain ⟨_, _, h3⟩ := adj_n_links_spec G hv hf hb
  have heq : G.get_n_links = G.get_possible_links := h3.mpr hall
  unfold rgwish_core
  rw [if_neg (by simpa using hsq), if_neg (by
    simp only [CompleteViewAdjCRTP.view, CompleteViewAdjCRTP.get_size,
      BlockGraphAdjCRTP.completeview]
    omega)]
  simp only [CompleteViewAdjCRTP.view, CompleteViewAdjCRTP.get_size,
    CompleteViewAdjCRTP.get_n_links, CompleteViewAdjCRTP.get_possible_links,
    BlockGraphAdjCRTP.completeview, heq, if_true]

/-- C16: `rgwish_core` recognises a complete graph by the cached counter
`get_n_links()`, which `add_link` leaves stale.  Over the partition `{0,1}, {2,3}`, the
graph built from `[1, 1, 0]` and completed by `add_link(1,1)` links every pair of its four
nodes, but its counter is still `5` and not `get_possible_links() = 6`: for every kernel of
numerical operations, every form of `D`, every square `D` of side `4` and every
`max_iter >= 1`, `rgwish_core` enters the sweep loop and does not return a triple
`(K, true, 0)`. -/
theorem rgwish_core_stale_counter :
    partTwoPairs.Valid ∧
    (BlockGraphAdjCRTP.mk_from_adj [1, 1, 0] partTwoPairs).bind (fun G => G.add_link 1 1)
      = .ok graphStaleComplete ∧
    (∀ u, u < 4 → ∀ v, v < 4 → graphStaleComplete.completeview.link u v = .ok 1) ∧
    graphStaleComplete.completeview.view.get_size = 4 ∧
    graphStaleComplete.completeview.view.get_n_links = 5 ∧
    graphStaleComplete.completeview.view.get_possible_links = 6 ∧
    ∀ (R E : Type) (K : RgwishKernel R E) (form : ScaleForm) (b : R) (D : MatD R)
      (threshold : R) (engine : E) (max_iter : Nat) (Kmat : MatD R) (engine2 : E),
      D.rows = 4 → D.cols = 4 → 1 ≤ max_iter →
      rgwish_core K form graphStaleComplete.completeview.view b D threshold engine max_iter
        ≠ (.ok (Kmat, true, 0), engine2) := by
  refine ⟨by decide, by rfl, by decide, by rfl, by rfl, by rfl, ?_⟩
  intro R E K form b D threshold engine max_iter Kmat engine2 hr hc hm
  unfold rgwish_core
  rw [if_neg (by rw [hr, hc]; decide), if_neg (by
    rw [hr]
    show ¬ (4 ≠ 4)
    decide)]
  have hne : ¬ graphStaleComplete.completeview.view.get_n_links
      = graphStaleComplete.completeview.view.get_possible_links := by decide
  simp only [hne, if_false]
  split
  · intro h
    injection h with h1 _
    cases h1
  · next Omega converged it hl =>
    intro h
    injection h with h1 _
    injection h1 with h1
    injection h1 with _ h2
    injection h2 with h3 h4
    obtain ⟨_, h6, h7⟩ := rgwish_loop_spec K _ _ _ threshold max_iter _ 0 _ hl
    have := (h7 h3).1
    simp only at this
    omega

/-- C17: `rgwish_core` throws the runtime error, with the random engine in the state it
was given, whenever `D` is not square or the number of rows of `D` differs from the size
of the graph. -/
theorem rgwish_core_dimension_error {R E : Type} (K : RgwishKernel R E) (form : ScaleForm)
    (G : GraphView) (b : R) (D : MatD R) (threshold : R) (engine : E) (max_iter : Nat)
    (h : D.rows ≠ D.cols ∨ G.get_size ≠ D.rows) :
    rgwish_core K form G b D threshold engine max_iter = (.error .runtime_error, engine) := by
  unfold rgwish_core
  by_cases h1 : D.rows ≠ D.cols
  · rw [if_pos h1]
  · rw [if_neg h1]
    rcases h with h | h
    · exact absurd h h1
    · rw [if_pos h]

/-- Witness of C17: the complete graph on two nodes with a `2 × 3` matrix `D`. -/
theorem rgwish_core_dimension_error_witness :
    (zerosTwoByThreeInt.rows ≠ zerosTwoByThreeInt.cols ∨
      graphOnePairComplete.completeview.view.get_size ≠ zerosTwoByThreeInt.rows) ∧
    rgwish_core exampleRgwishKernel ScaleForm.InvScale graphOnePairComplete.completeview.view
      3 zerosTwoByThreeInt 1 0 500 = (.error .runtime_error, 0) :=
  ⟨Or.inl (by decide),
    rgwish_core_dimension_error exampleRgwishKernel ScaleForm.InvScale
      graphOnePairComplete.completeview.view 3 zerosTwoByThreeInt 1 0 500
      (Or.inl (by decide))⟩

/-- C18: when the dimension checks pass and the counter `get_n_links()` differs from
`get_possible_links()`, `rgwish_core` either stops on an error raised by a sweep, or
returns `(Omega⁻¹, converged, it)` with `it <= max_iter`; `converged` is true only if the
statistic of the sweep that produced `Omega` was below the threshold, and when `converged`
is false then `it = max_iter`.  When no sweep raises an error the function returns a
value. -/
theorem rgwish_core_loop_bounds {R E : Type} (K : RgwishKernel R E) (form : ScaleForm)
    (G : GraphView) (b : R) (D : MatD R) (threshold : R) (engine : E) (max_iter : Nat)
    (hsq : D.rows = D.cols) (hsz : G.get_size = D.rows)
    (hnc : G.get_n_links ≠ G.get_possible_links) :
    ((∃ e Omega,
        rgwish_core K form G b D threshold engine max_iter
          = (.error e, (rgwish_core_draw K form G.get_size engine b D).2) ∧
        rgwish_sweep K G.get_size G.get_nbd
          (K.llt_solve_identity (rgwish_core_draw K form G.get_size engine b D).1 G.get_size)
          Omega = .error e) ∨
      (∃ Omega converged it,
        rgwish_core K form G b D threshold engine max_iter
          = (.ok (K.selfadjoint_llt_solve_identity Omega G.get_size, converged, it),
              (rgwish_core_draw K form G.get_size engine b D).2) ∧
        it ≤ max_iter ∧
        (converged = true → ∃ Oprev O1,
          rgwish_sweep K G.get_size G.get_nbd
            (K.llt_solve_identity (rgwish_core_draw K form G.get_size engine b D).1
              G.get_size) Oprev = .ok O1 ∧
          K.lt (K.norm O1) threshold = true ∧ Omega = K.copy_upper_to_lower O1) ∧
        (converged = false → it = max_iter))) ∧
    ((∀ Omega, ∃ O1,
        rgwish_sweep K G.get_size G.get_nbd
          (K.llt_solve_identity (rgwish_core_draw K form G.get_size engine b D).1 G.get_size)
          Omega = .ok O1) →
      ∃ P converged it,
        rgwish_core K form G b D threshold engine max_iter
          = (.ok (P, converged, it), (rgwish_core_draw K form G.get_size engine b D).2)) := by
  unfold rgwish_core
  rw [if_neg (by simpa using hsq), if_neg (by simpa using hsz)]
  simp only [hnc, if_false]
  constructor
  · cases hl : rgwish_loop K G.get_size G.get_nbd
        (K.llt_solve_identity (rgwish_core_draw K form G.get_size engine b D).1 G.get_size)
        threshold max_iter
        (K.llt_solve_identity (rgwish_core_draw K form G.get_size engine b D).1 G.get_size,
          false, 0) with
    | error e =>
      obtain ⟨Omega, hO⟩ := rgwish_loop_error K _ _ _ threshold _ _ e hl
      exact Or.inl ⟨e, Omega, rfl, hO⟩
    | ok res =>
      obtain ⟨Omega, converged, it⟩ := res
      obtain ⟨h1, h2, h3⟩ := rgwish_loop_spec K _ _ _ threshold _ _ 0 _ hl
      refine Or.inr ⟨Omega, converged, it, rfl, by simpa using h1, ?_, ?_⟩
      · intro hc
        exact (h3 hc).2
      · intro hc
        simpa using h2 hc
  · intro hs
    obtain ⟨res, hres⟩ := rgwish_loop_ok K G.get_size G.get_nbd
      (K.llt_solve_identity (rgwish_core_draw K form G.get_size engine b D).1 G.get_size)
      threshold hs max_iter
      (K.llt_solve_identity (rgwish_core_draw K form G.get_size engine b D).1 G.get_size,
        false, 0)
    obtain ⟨Omega, converged, it⟩ := res
    rw [hres]
    exact ⟨_, _, _, rfl⟩

/-- Witness of C18: the empty graph on two nodes, the identity as `D`, the example kernel
and `max_iter = 500`. -/
theorem rgwish_core_loop_bounds_witness :
    identityTwoInt.rows = identityTwoInt.cols ∧
    graphOnePairEmpty.completeview.view.get_size = identityTwoInt.rows ∧
    graphOnePairEmpty.completeview.view.get_n_links
      ≠ graphOnePairEmpty.completeview.view.get_possible_links ∧
    rgwish_core exampleRgwishKernel ScaleForm.InvScale graphOnePairEmpty.completeview.view
      3 identityTwoInt 1 0 500 = (.ok (identityTwoInt, true, 1), 1) ∧
    ∃ P converged it,
      rgwish_core exampleRgwishKernel ScaleForm.InvScale graphOnePairEmpty.completeview.view
        3 identityTwoInt 1 0 500
        = (.ok (P, converged, it),
            (rgwish_core_draw exampleRgwishKernel ScaleForm.InvScale
              graphOnePairEmpty.completeview.view.get_size 0 3 identityTwoInt).2) :=
  ⟨by decide, by decide, by decide, by rfl,
    (rgwish_core_loop_bounds exampleRgwishKernel ScaleForm.InvScale
      graphOnePairEmpty.completeview.view 3 identityTwoInt 1 0 500
      (by decide) (by decide) (by decide)).2
      (fun Omega => ⟨Omega, by rfl⟩)⟩

end utils

namespace utils

/-- C19: `log_normalizing_constat` throws for every input with `b <= 2`, and for every
input whose square matrix `D` has an entry `D(i,j) != D(j,i)`, whatever the graph, the
Monte Carlo sample size and the engine; both tests come before the graph is read.  For a
matrix `D` that is not square the comparison `D != D.transpose()` is outside the contract
of the matrix library, and no value is returned. -/
theorem log_normalizing_constat_validation {R E : Type} (K : LogConstKernel R E)
    (G : GraphView) (b : R) (D : MatD R) (MCiteration : Nat) (engine : E) :
    (K.le b (K.ofNat 2) = true →
      log_normalizing_constat K G b D MCiteration engine = (.error .runtime_error, engine)) ∧
    (D.rows = D.cols →
      (∃ i j, i < D.rows ∧ j < D.cols ∧ K.ne (D.coeff i j) (D.coeff j i) = true) →
      log_normalizing_constat K G b D MCiteration engine = (.error .runtime_error, engine)) ∧
    (D.rows ≠ D.cols →
      ∃ e, log_normalizing_constat K G b D MCiteration engine = (.error e, engine)) := by
  refine ⟨?_, ?_, ?_⟩
  · intro hb
    unfold log_normalizing_constat
    rw [if_pos hb]
  · intro hsq ⟨i, j, hi, hj, hne⟩
    unfold log_normalizing_constat
    by_cases hb : K.le b (K.ofNat 2) = true
    · rw [if_pos hb]
    · rw [if_neg hb]
      have ht : ne_transpose K.ne D = .ok true := by
        unfold ne_transpose
        rw [if_pos hsq]
        congr 1
        rw [List.any_eq_true]
        refine ⟨i, List.mem_range.mpr hi, ?_⟩
        rw [List.any_eq_true]
        exact ⟨j, List.mem_range.mpr hj, hne⟩
      rw [ht]
  · intro hsq
    unfold log_normalizing_constat
    by_cases hb : K.le b (K.ofNat 2) = true
    · rw [if_pos hb]
      exact ⟨_, rfl⟩
    · rw [if_neg hb]
      have ht : ne_transpose K.ne D = .error .undefined_behaviour := by
        unfold ne_transpose
        rw [if_neg hsq]
      rw [ht]
      exact ⟨_, rfl⟩

/-- Witness of C19: `b = 1` with the identity, `b = 3` with a matrix whose entries
`(0,1)` and `(1,0)` differ, and `b = 3` with a `2 × 3` matrix. -/
theorem log_normalizing_constat_validation_witness :
    log_normalizing_constat exampleLogConstKernel graphOnePairComplete.completeview.view
      1 identityTwoRat 100 0 = (.error .runtime_error, 0) ∧
    log_normalizing_constat exampleLogConstKernel graphOnePairComplete.completeview.view
      3 asymmetricTwoRat 100 0 = (.error .runtime_error, 0) ∧
    ∃ e, log_normalizing_constat exampleLogConstKernel graphOnePairComplete.completeview.view
      3 zerosTwoByThreeRat 100 0 = (.error e, 0) :=
  ⟨(log_normalizing_constat_validation exampleLogConstKernel
      graphOnePairComplete.completeview.view 1 identityTwoRat 100 0).1 (by decide),
    (log_normalizing_constat_validation exampleLogConstKernel
      graphOnePairComplete.completeview.view 3 asymmetricTwoRat 100 0).2.1 (by decide)
      ⟨0, 1, by decide, by decide, by decide⟩,
    (log_normalizing_constat_validation exampleLogConstKernel
      graphOnePairComplete.completeview.view 3 zerosTwoByThreeRat 100 0).2.2 (by decide)⟩

/-- The matrix of `identityTwoReal` is the identity. -/
theorem identityTwoReal_toMatrix : identityTwoReal.toMatrix = 1 := by
  ext i j
  simp [MatD.toMatrix, identityTwoReal, Matrix.one_apply, Fin.ext_iff]

/-- The value of `lgamma(3/2)`: `Γ(3/2) = √π / 2`. -/
theorem lgamma_three_halves :
    Real.log (Real.Gamma (3 / 2)) = Real.log Real.pi / 2 - Real.log 2 := by
  have h : Real.Gamma (3 / 2) = Real.sqrt Real.pi / 2 := by
    have h1 : (3 / 2 : Real) = 1 / 2 + 1 := by norm_num
    rw [h1, Real.Gamma_add_one (by norm_num), Real.Gamma_one_half_eq]
    ring
  rw [h, Real.log_div (Real.sqrt_pos.mpr Real.pi_pos).ne.symm (by norm_num),
    Real.log_sqrt Real.pi_pos.le]

/-- The logarithm `log π` is larger than `1`. -/
theorem log_pi_gt_one : 1 < Real.log Real.pi := by
  rw [Real.lt_log_iff_exp_lt Real.pi_pos]
  have h1 := Real.exp_one_lt_d9
  have h2 := Real.pi_gt_three
  linarith

/-- C20: for `N = 2`, the complete graph built from `[1]` over the partition `{0,1}`,
`b = 3` and `D` the identity, `log_normalizing_constat` in exact real arithmetic takes the
closed-form branch and returns `log(8π) + log(π)/2`: the term `(N/2)*log_pi` is computed
with the integer quotient `N/2 = 1`.  The analytic value is
`log(2^4 · π^(1/2) · Γ(2) · Γ(3/2)) = log(8π)`, and the returned value is more than `1/2`
away from it, so not within `1e-10`. -/
theorem log_normalizing_constat_complete_pair (E : Type)
    (monte_carlo : GraphView → Real → MatD Real → Nat → List Nat → E → Except Err Real × E)
    (MCiteration : Nat) (engine : E) :
    BlockGraphAdjCRTP.mk_from_adj [1] partOnePair = .ok graphOnePairComplete ∧
    log_normalizing_constat (realLogConstKernel E monte_carlo)
        graphOnePairComplete.completeview.view 3 identityTwoReal MCiteration engine
      = (.ok (Real.log (8 * Real.pi) + Real.log Real.pi / 2), engine) ∧
    Real.log (2 ^ 4 * Real.sqrt Real.pi * Real.Gamma 2 * Real.Gamma (3 / 2))
      = Real.log (8 * Real.pi) ∧
    1 / 2 < |(Real.log (8 * Real.pi) + Real.log Real.pi / 2) - Real.log (8 * Real.pi)| ∧
    ¬ |(Real.log (8 * Real.pi) + Real.log Real.pi / 2) - Real.log (8 * Real.pi)|
        ≤ 1 / 10 ^ 10 := by
  have hd : (Real.log (8 * Real.pi) + Real.log Real.pi / 2) - Real.log (8 * Real.pi)
      = Real.log Real.pi / 2 := by ring
  have hlog := log_pi_gt_one
  refine ⟨by rfl, ?_, ?_, ?_, ?_⟩
  · have hnu : compute_nu graphOnePairComplete.completeview.view 2 = .ok [1, 0] := by rfl
    have hsz : graphOnePairComplete.completeview.view.get_size = 2 := by rfl
    have hnl : graphOnePairComplete.completeview.view.get_n_links = 1 := by rfl
    have hne : ne_transpose (realLogConstKernel E monte_carlo).ne identityTwoReal
        = .ok false := by
      simp [ne_transpose, identityTwoReal, realLogConstKernel, List.range_succ]
    have hpd : (realLogConstKernel E monte_carlo).llt_success identityTwoReal = true := by
      simp only [realLogConstKernel, decide_eq_true_eq]
      refine ⟨rfl, ?_⟩
      rw [identityTwoReal_toMatrix]
      exact Matrix.PosDef.one
    have hb : (realLogConstKernel E monte_carlo).le 3
        ((realLogConstKernel E monte_carlo).ofNat 2) = false := by
      simp only [realLogConstKernel, decide_eq_false_iff_not]
      norm_num
    unfold log_normalizing_constat
    rw [hb, hne]
    simp only [hpd, hsz, hnl, hnu]
    have hm : 2 * u32 (2 + 4294967295) / 2 = 1 := by decide
    simp only [hm]
    simp only [log_constant_complete, realLogConstKernel, List.foldl, identityTwoReal_toMatrix,
      Matrix.det_one, Real.log_one]
    rw [if_neg (by decide), if_neg (by simp), if_pos trivial]
    congr 2
    have e1 : (1 / 2 * (3 + ((1 : Nat) : Real))) = 2 := by norm_num
    have e2 : (1 / 2 * (3 + ((0 : Nat) : Real))) = 3 / 2 := by norm_num
    have e3 : Real.log (8 * Real.pi) = 3 * Real.log 2 + Real.log Real.pi := by
      rw [Real.log_mul (by norm_num) Real.pi_pos.ne.symm]
      have h8 : (8 : Real) = 2 ^ 3 := by norm_num
      rw [h8, Real.log_pow]
      norm_num
    rw [e1, e2, Real.Gamma_two, Real.log_one, lgamma_three_halves, e3]
    norm_num
    ring
  · congr 1
    have h1 : (3 / 2 : Real) = 1 / 2 + 1 := by norm_num
    rw [Real.Gamma_two, h1, Real.Gamma_add_one (by norm_num), Real.Gamma_one_half_eq]
    have hs : Real.sqrt Real.pi * Real.sqrt Real.pi = Real.pi :=
      Real.mul_self_sqrt Real.pi_pos.le
    linear_combination 8 * hs
  · rw [hd, abs_of_pos (by linarith)]
    linarith
  · rw [hd, abs_of_pos (by linarith)]
    have : (1 : Real) / 10 ^ 10 < 1 / 2 := by norm_num
    linarith

end utils

/-! ## Claims on the range checks and on `set_graph` -/

/-- C21: the guard of `BlockGraphAdjCRTP::operator()` is `i > get_size() || j > get_size()`,
so an index equal to the number of groups `M` passes it.  On the graph over `{0,1}, {2,3}`
built from `[1, 1, 0]` (`M = 2`) the queries `(0,2)` and `(2,0)` return `data[2]`, the
value of the cell `(1,1)`, and the query `(2,2)` reads past the end of the vector; none of
them throws.  For every graph the query throws when `i > M` or `j > M`, and never throws
when `i <= M` and `j <= M`. -/
theorem adj_link_guard_admits_size :
    BlockGraphAdjCRTP.mk_from_adj [1, 1, 0] partTwoPairs = .ok graphTwoPairs ∧
    get_size graphTwoPairs.ptr_groups = 2 ∧
    graphTwoPairs.link 0 2 = .ok 0 ∧
    graphTwoPairs.link 2 0 = .ok 0 ∧
    graphTwoPairs.link 1 1 = .ok 0 ∧
    graphTwoPairs.link 2 2 = .error .undefined_behaviour ∧
    (∀ (G : BlockGraphAdjCRTP) (i j : Nat),
      i > get_size G.ptr_groups ∨ j > get_size G.ptr_groups →
      G.link i j = .error .runtime_error) ∧
    (∀ (G : BlockGraphAdjCRTP) (i j : Nat),
      i ≤ get_size G.ptr_groups → j ≤ get_size G.ptr_groups →
      G.link i j ≠ .error .runtime_error) := by
  refine ⟨by rfl, by rfl, by rfl, by rfl, by rfl, by rfl, ?_, ?_⟩
  · intro G i j h
    unfold BlockGraphAdjCRTP.link
    rw [if_pos h]
  · intro G i j hi hj
    exact adj_link_ne_runtime G i j hi hj

/-- C23: when the length test of `set_graph(A)` fails, the call throws the runtime error
before it has written anything: the object after the call is the object before it, with
the same stored adjacency, link values, neighbour map, `n_links` and `n_blocks`.  This
holds for both classes; for a partition with coherent singleton bookkeeping and at most
`65536` groups the length test fails exactly when `A.size()` differs from
`M(M-1)/2 + M - S`. -/
theorem set_graph_error_leaves_graph (A : List Nat) :
    (∀ G : BlockGraphCRTP, coherent_size G.ptr_groups ≠ A.length →
      G.set_graph_effect A = .thrown G .runtime_error ∧
      G.set_graph A = .error .runtime_error) ∧
    (∀ G : BlockGraphAdjCRTP, coherent_size G.ptr_groups ≠ A.length →
      G.set_graph_effect A = .thrown G .runtime_error ∧
      G.set_graph A = .error .runtime_error) ∧
    (∀ (G G1 : BlockGraphCRTP) (e : Err), G.set_graph_effect A = .thrown G1 e →
      coherent_size G.ptr_groups ≠ A.length ∧ e = .runtime_error ∧
      G1.data = G.data ∧ (∀ i j, G1.link i j = G.link i j) ∧
      G1.get_adj_list = G.get_adj_list ∧ G1.get_neighbours = G.get_neighbours ∧
      G1.get_n_links = G.get_n_links ∧ G1.get_n_block_links = G.get_n_block_links) ∧
    (∀ (G G1 : BlockGraphAdjCRTP) (e : Err), G.set_graph_effect A = .thrown G1 e →
      coherent_size G.ptr_groups ≠ A.length ∧ e = .runtime_error ∧
      G1.data = G.data ∧ (∀ i j, G1.link i j = G.link i j) ∧
      G1.get_neighbours = G.get_neighbours ∧
      G1.get_n_links = G.get_n_links ∧ G1.get_n_block_links = G.get_n_block_links) ∧
    (∀ G : BlockGraphCRTP, (G.set_graph_effect A).toExcept = G.set_graph A) ∧
    (∀ G : BlockGraphAdjCRTP, (G.set_graph_effect A).toExcept = G.set_graph A) ∧
    (∀ g : Groups, g.SingletonsOK → g.n_groups ≤ 65536 →
      (coherent_size g ≠ A.length ↔ n_stored g ≠ A.length)) := by
  refine ⟨?_, ?_, ?_, ?_, ?_, ?_, ?_⟩
  · intro G h
    unfold BlockGraphCRTP.set_graph_effect BlockGraphCRTP.set_graph
    rw [if_pos h, if_pos h]
    exact ⟨rfl, rfl⟩
  · intro G h
    unfold BlockGraphAdjCRTP.set_graph_effect BlockGraphAdjCRTP.set_graph
    rw [if_pos h, if_pos h]
    exact ⟨rfl, rfl⟩
  · intro G G1 e h
    unfold BlockGraphCRTP.set_graph_effect at h
    by_cases hc : coherent_size G.ptr_groups ≠ A.length
    · rw [if_pos hc] at h
      injection h with h1 h2
      subst h1
      subst h2
      exact ⟨hc, rfl, rfl, fun _ _ => rfl, rfl, rfl, rfl, rfl⟩
    · rw [if_neg hc] at h
      unfold Effect.ofBody at h
      split at h <;> cases h
  · intro G G1 e h
    unfold BlockGraphAdjCRTP.set_graph_effect at h
    by_cases hc : coherent_size G.ptr_groups ≠ A.length
    · rw [if_pos hc] at h
      injection h with h1 h2
      subst h1
      subst h2
      exact ⟨hc, rfl, rfl, fun _ _ => rfl, rfl, rfl, rfl⟩
    · rw [if_neg hc] at h
      unfold Effect.ofBody at h
      split at h <;> cases h
  · intro G
    unfold BlockGraphCRTP.set_graph_effect BlockGraphCRTP.set_graph
    split_ifs
    · rfl
    · unfold Effect.ofBody
      split <;> simp_all [Effect.toExcept]
  · intro G
    unfold BlockGraphAdjCRTP.set_graph_effect BlockGraphAdjCRTP.set_graph
    split_ifs
    · rfl
    · unfold Effect.ofBody
      split <;> simp_all [Effect.toExcept]
  · intro g hg hM
    rw [coherent_size_eq_n_stored g hg hM]

/-- Witness of C23: `set_graph([1])` on the graphs over `{0,1}, {2,3}` (three stored
cells) built from `[1, 1, 0]`. -/
theorem set_graph_error_leaves_graph_witness :
    coherent_size graphTwoPairs.ptr_groups ≠ [1].length ∧
    graphTwoPairs.set_graph_effect [1] = .thrown graphTwoPairs .runtime_error ∧
    graphTwoPairs.set_graph [1] = .error .runtime_error ∧
    (BlockGraphCRTP.init partTwoPairs).set_graph_effect [1]
      = .thrown (BlockGraphCRTP.init partTwoPairs) .runtime_error :=
  ⟨by decide,
    ((set_graph_error_leaves_graph [1]).2.1 graphTwoPairs (by decide)).1,
    ((set_graph_error_leaves_graph [1]).2.1 graphTwoPairs (by decide)).2,
    ((set_graph_error_leaves_graph [1]).1 (BlockGraphCRTP.init partTwoPairs) (by decide)).1⟩

/-! ## The closed-form branches of `log_normalizing_constat` -/

namespace utils

/-- The bound `max_n_links` of `log_normalizing_constat` is `N(N-1)/2` for a size that
is an `unsigned int`. -/
theorem max_n_links_eq (N : Nat) (hN : N ≤ 4294967295) :
    N * u32 (N + 4294967295) / 2 = N * (N - 1) / 2 := by
  rcases Nat.eq_zero_or_pos N with h | h
  · subst h; rfl
  · have : u32 (N + 4294967295) = N - 1 := by
      unfold u32
      omega
    rw [this]

/-- C25: for a graph whose counter `get_n_links()` is `N(N-1)/2` (complete) or `0`
(empty), the value returned by `log_normalizing_constat` is the same for every
`MCiteration` and every state of the engine, the engine is returned in the state it was
given, and the Monte Carlo branch is never entered: replacing it by any other function
leaves the result unchanged.  When the checks pass and `nu` is computed, the value is the
closed form of the complete branch, respectively of the empty branch. -/
theorem log_normalizing_constat_closed_form {R E : Type} (K : LogConstKernel R E)
    (G : GraphView) (b : R) (D : MatD R) (MC1 MC2 : Nat) (e1 e2 : E)
    (hN : G.get_size ≤ 4294967295)
    (h : G.get_n_links = G.get_size * (G.get_size - 1) / 2 ∨ G.get_n_links = 0) :
    (log_normalizing_constat K G b D MC1 e1).1 = (log_normalizing_constat K G b D MC2 e2).1 ∧
    (log_normalizing_constat K G b D MC1 e1).2 = e1 ∧
    (∀ mc, log_normalizing_constat { K with monte_carlo := mc } G b D MC1 e1
      = log_normalizing_constat K G b D MC1 e1) ∧
    (K.le b (K.ofNat 2) = false → ne_transpose K.ne D = .ok false → K.llt_success D = true →
      ∀ nu, compute_nu G G.get_size = .ok nu →
        (G.get_n_links = G.get_size * (G.get_size - 1) / 2 →
          log_normalizing_constat K G b D MC1 e1
            = (.ok (log_constant_complete K G.get_size b D nu), e1)) ∧
        (G.get_n_links ≠ G.get_size * (G.get_size - 1) / 2 →
          log_normalizing_constat K G b D MC1 e1
            = (log_constant_empty K G.get_size b D, e1))) := by
  have hmax := max_n_links_eq G.get_size hN
  have key : ∀ (MC MC' : Nat) (e e' : E) mc,
      (log_normalizing_constat { K with monte_carlo := mc } G b D MC' e').1
        = (log_normalizing_constat K G b D MC e).1 ∧
      (log_normalizing_constat { K with monte_carlo := mc } G b D MC' e').2 = e' := by
    intro MC MC' e e' mc
    unfold log_normalizing_constat
    dsimp only
    simp only [hmax]
    cases hb : K.le b (K.ofNat 2)
    · cases ht : ne_transpose K.ne D with
      | error err => simp
      | ok t =>
        cases t with
        | true => simp
        | false =>
          cases hl : K.llt_success D
          · simp
          · cases hnu : compute_nu G G.get_size with
            | error err => simp
            | ok nu =>
              rcases h with h | h
              · simp [h, log_constant_complete]
              · by_cases hc : G.get_n_links = G.get_size * (G.get_size - 1) / 2
                · simp [hc, log_constant_complete]
                · have hc2 : ¬ 0 = G.get_size * (G.get_size - 1) / 2 := by
                    rw [← h]
                    exact hc
                  simp [hc2, h, log_constant_empty]
    · simp
  refine ⟨?_, ?_, ?_, ?_⟩
  · have h1 := (key MC2 MC1 e2 e1 K.monte_carlo).1
    exact h1
  · exact (key MC1 MC1 e1 e1 K.monte_carlo).2
  · intro mc
    have h1 := key MC1 MC1 e1 e1 mc
    have h2 := (key MC1 MC1 e1 e1 K.monte_carlo).2
    exact Prod.ext h1.1 (h1.2.trans h2.symm)
  · intro hb ht hl nu hnu
    unfold log_normalizing_constat
    simp only [hmax, hb, ht, hl, hnu]
    constructor
    · intro hc
      simp [hc]
    · intro hc
      rcases h with h | h
      · exact absurd h hc
      · have hc2 : ¬ 0 = G.get_size * (G.get_size - 1) / 2 := by
          rw [← h]
          exact hc
        simp [hc2, h]

/-- Witness of C25: the complete and the empty graph on two nodes, `b = 3`, `D` the
identity, with `MCiteration` `100` and `7` and engine states `0` and `5`. -/
theorem log_normalizing_constat_closed_form_witness :
    (log_normalizing_constat exampleLogConstKernel graphOnePairComplete.completeview.view
        3 identityTwoRat 100 0).1
      = (log_normalizing_constat exampleLogConstKernel graphOnePairComplete.completeview.view
        3 identityTwoRat 7 5).1 ∧
    (log_normalizing_constat exampleLogConstKernel graphOnePairEmpty.completeview.view
        3 identityTwoRat 100 0).1
      = (log_normalizing_constat exampleLogConstKernel graphOnePairEmpty.completeview.view
        3 identityTwoRat 7 5).1 ∧
    (log_normalizing_constat exampleLogConstKernel graphOnePairEmpty.completeview.view
        3 identityTwoRat 100 0).2 = 0 :=
  ⟨(log_normalizing_constat_closed_form exampleLogConstKernel
      graphOnePairComplete.completeview.view 3 identityTwoRat 100 7 0 5
      (by decide) (Or.inl (by decide))).1,
    (log_normalizing_constat_closed_form exampleLogConstKernel
      graphOnePairEmpty.completeview.view 3 identityTwoRat 100 7 0 5
      (by decide) (Or.inr (by decide))).1,
    (log_normalizing_constat_closed_form exampleLogConstKernel
      graphOnePairEmpty.completeview.view 3 identityTwoRat 100 7 0 5
      (by decide) (Or.inr (by decide))).2.1⟩

end utils

/-! ## `get_upper_part` -/

namespace utils

theorem upperStart_succ (N i : Nat) :
    (Finset.range (i + 1)).sum (fun k => N - k) = (Finset.range i).sum (fun k => N - k) + (N - i) :=
  Finset.sum_range_succ _ _

theorem upperStart_mono (N i j : Nat) (h : i ≤ j) :
    (Finset.range i).sum (fun k => N - k) ≤ (Finset.range j).sum (fun k => N - k) :=
  Finset.sum_le_sum_of_subset (Finset.range_mono h)

theorem upperStart_double (N i : Nat) (h : i ≤ N) :
    2 * (Finset.range i).sum (fun k => N - k) = i * (2 * N - i + 1) := by
  induction i with
  | zero => simp
  | succ i ih =>
    rw [upperStart_succ, Nat.mul_add, ih (by omega)]
    obtain ⟨M, rfl⟩ : ∃ M, N = i + 1 + M := ⟨N - (i + 1), by omega⟩
    have e1 : 2 * (i + 1 + M) - i + 1 = i + 2 * M + 3 := by omega
    have e2 : 2 * (i + 1 + M) - (i + 1) + 1 = i + 2 * M + 2 := by omega
    have e3 : i + 1 + M - i = M + 1 := by omega
    rw [e1, e2, e3]
    ring

theorem upperStart_total (N : Nat) :
    (Finset.range N).sum (fun k => N - k) = N * (N - 1) / 2 + N := by
  have h := upperStart_double N N le_rfl
  rcases Nat.eq_zero_or_pos N with h0 | hpos
  · subst h0; simp
  · obtain ⟨M, rfl⟩ : ∃ M, N = M + 1 := ⟨N - 1, by omega⟩
    have e1 : 2 * (M + 1) - (M + 1) + 1 = M + 2 := by omega
    rw [e1] at h
    have e2 : M + 1 - 1 = M := by omega
    rw [e2]
    have hev : (M + 1) * M = 2 * ((M + 1) * M / 2) := by
      have : 2 ∣ (M + 1) * M := by
        have := Nat.even_mul_succ_self M
        rw [Nat.mul_comm] at this
        exact this.two_dvd
      omega
    have h3 : (M + 1) * (M + 2) = (M + 1) * M + 2 * (M + 1) := by ring
    rw [h3] at h
    omega


theorem get_upper_part_step_ok {R : Type} (Mat : MatD R) (res : MatD R) (s n i : Nat)
    (hb : i + 1 ≤ Mat.rows ∧ i + n ≤ Mat.cols) (hs : s < 2147483648)
    (hr : s + n ≤ res.rows ∧ 0 + 1 ≤ res.cols) :
    get_upper_part_step Mat (res, s, n) i =
      .ok (⟨res.rows, res.cols, fun r c =>
          if s ≤ r ∧ r < s + n ∧ 0 ≤ c ∧ c < 0 + 1 then Mat.coeff (i + (c - 0)) (i + (r - s))
          else res.coeff r c⟩,
        u32 (s + n), u32 (n + 4294967295)) := by
  unfold get_upper_part_step MatD.block MatD.assignSegment MatD.assignBlock MatD.transpose
  simp only [bind, Except.bind, pure, Except.pure]
  rw [if_pos hb]
  dsimp only
  rw [if_pos hs, if_pos ⟨hr.1, hr.2, rfl, rfl⟩]

theorem get_upper_part_step_error {R : Type} (Mat : MatD R) (res : MatD R) (s n i : Nat)
    (hs : ¬ s < 2147483648) :
    ∃ e, get_upper_part_step Mat (res, s, n) i = .error e := by
  unfold get_upper_part_step MatD.block
  simp only [bind, Except.bind]
  split_ifs <;> exact ⟨_, rfl⟩

theorem get_upper_part_step_ne_runtime {R : Type} (Mat : MatD R) (st : MatD R × Nat × Nat)
    (i : Nat) : get_upper_part_step Mat st i ≠ .error .runtime_error := by
  unfold get_upper_part_step MatD.block MatD.assignSegment MatD.assignBlock
  simp only [bind, Except.bind, pure, Except.pure]
  split_ifs <;> first | (simp; done) | (intro h; dsimp only at h; split_ifs at h; simp at h)

theorem get_upper_part_loop_inv {R : Type} (Mat : MatD R) (hsq : Mat.rows = Mat.cols)
    (hL : Mat.rows * (Mat.rows - 1) / 2 + Mat.rows < 4294967296) (res0 : MatD R)
    (hres0 : res0.rows = Mat.rows * (Mat.rows - 1) / 2 + Mat.rows ∧ res0.cols = 1) :
    ∀ i, i ≤ Mat.rows → ∀ st,
      (List.range i).foldlM (get_upper_part_step Mat) (res0, 0, Mat.rows) = .ok st →
      st.2.1 = (Finset.range i).sum (fun k => Mat.rows - k) ∧
      st.2.2 = Mat.rows - i ∧
      st.1.rows = Mat.rows * (Mat.rows - 1) / 2 + Mat.rows ∧ st.1.cols = 1 ∧
      (∀ j, j < i → (Finset.range j).sum (fun k => Mat.rows - k) < 2147483648) ∧
      (∀ r c, r < i → r ≤ c → c < Mat.rows →
        st.1.coeff ((Finset.range r).sum (fun k => Mat.rows - k) + (c - r)) 0
          = Mat.coeff r c) := by
  intro i
  induction i with
  | zero =>
    intro _ st h
    simp only [List.range_zero, List.foldlM_nil, pure, Except.pure] at h
    injection h with h
    subst h
    refine ⟨by simp, by simp, hres0.1, hres0.2, ?_, ?_⟩
    · intro j hj; omega
    · intro r c hr; omega
  | succ i ih =>
    intro hi st h
    rw [List.range_succ, List.foldlM_append] at h
    cases h0 : (List.range i).foldlM (get_upper_part_step Mat) (res0, 0, Mat.rows) with
    | error e =>
      rw [h0] at h
      cases h
    | ok st0 =>
      rw [h0] at h
      obtain ⟨h1, h2, h3, h4, h5, h6⟩ := ih (by omega) st0 h0
      obtain ⟨res, s, n⟩ := st0
      simp only at h1 h2 h3 h4 h6
      subst h1
      subst h2
      have hmono := upperStart_mono Mat.rows (i + 1) Mat.rows hi
      rw [upperStart_succ, upperStart_total] at hmono
      have hstep : get_upper_part_step Mat
          (res, (Finset.range i).sum (fun k => Mat.rows - k), Mat.rows - i) i = .ok st := by
        simp only [List.foldlM_cons, List.foldlM_nil, bind, Except.bind, pure,
          Except.pure] at h
        cases hq : get_upper_part_step Mat
            (res, (Finset.range i).sum (fun k => Mat.rows - k), Mat.rows - i) i with
        | error e => rw [hq] at h; cases h
        | ok v => rw [hq] at h; exact h
      by_cases hs : (Finset.range i).sum (fun k => Mat.rows - k) < 2147483648
      · rw [get_upper_part_step_ok Mat res _ _ i ⟨by omega, by omega⟩ hs
          ⟨by omega, by omega⟩] at hstep
        injection hstep with hstep
        subst hstep
        refine ⟨?_, ?_, h3, h4, ?_, ?_⟩
        · simp only [upperStart_succ, u32]
          omega
        · simp only [u32]
          omega
        · intro j hj
          rcases Nat.lt_succ_iff_lt_or_eq.mp hj with hj | hj
          · exact h5 j hj
          · rw [hj]; exact hs
        · intro r c hr hrc hc
          simp only
          rcases Nat.lt_succ_iff_lt_or_eq.mp hr with hr | hr
          · have hm := upperStart_mono Mat.rows (r + 1) i hr
            rw [upperStart_succ] at hm
            rw [if_neg (by omega)]
            exact h6 r c hr hrc hc
          · subst hr
            rw [if_pos ⟨by omega, by omega, by omega, by omega⟩]
            congr 1
            omega
      · obtain ⟨e, he⟩ := get_upper_part_step_error Mat res _ (Mat.rows - i) i hs
        rw [he] at hstep
        cases hstep

theorem get_upper_part_loop_ok {R : Type} (Mat : MatD R) (hsq : Mat.rows = Mat.cols)
    (hL : Mat.rows * (Mat.rows - 1) / 2 + Mat.rows < 4294967296) (res0 : MatD R)
    (hres0 : res0.rows = Mat.rows * (Mat.rows - 1) / 2 + Mat.rows ∧ res0.cols = 1)
    (hb : ∀ j, j < Mat.rows → (Finset.range j).sum (fun k => Mat.rows - k) < 2147483648) :
    ∀ i, i ≤ Mat.rows → ∃ st,
      (List.range i).foldlM (get_upper_part_step Mat) (res0, 0, Mat.rows) = .ok st := by
  intro i
  induction i with
  | zero => intro _; exact ⟨_, rfl⟩
  | succ i ih =>
    intro hi
    obtain ⟨st0, h0⟩ := ih (by omega)
    obtain ⟨h1, h2, h3, h4, _, _⟩ := get_upper_part_loop_inv Mat hsq hL res0 hres0 i
      (by omega) st0 h0
    obtain ⟨res, s, n⟩ := st0
    simp only at h1 h2 h3 h4
    subst h1
    subst h2
    have hmono := upperStart_mono Mat.rows (i + 1) Mat.rows hi
    rw [upperStart_succ, upperStart_total] at hmono
    rw [List.range_succ, List.foldlM_append, h0]
    simp only [List.foldlM_cons, List.foldlM_nil, bind, Except.bind, pure, Except.pure]
    rw [get_upper_part_step_ok Mat res _ _ i ⟨by omega, by omega⟩ (hb i (by omega))
      ⟨by omega, by omega⟩]
    exact ⟨_, rfl⟩


theorem get_upper_part_loop_ne_runtime {R : Type} (Mat : MatD R) (l : List Nat)
    (st : MatD R × Nat × Nat) :
    l.foldlM (get_upper_part_step Mat) st ≠ .error .runtime_error :=
  foldlM_ne_runtime _ l (fun b a _ => get_upper_part_step_ne_runtime Mat b a) st

theorem upperStart_bound (N j : Nat) (hN : N ≤ 65535) (hj : j < N) :
    (Finset.range j).sum (fun k => N - k) < 2147483648 := by
  have hmono := upperStart_mono N (j + 1) N hj
  rw [upperStart_succ, upperStart_total] at hmono
  have h1 : N * (N - 1) ≤ 65535 * 65534 := Nat.mul_le_mul hN (by omega)
  omega

/-- C26 (bound): the `65536 × 65536` matrix of zeros is square, but `get_upper_part` does
not return on it: the `int` counter `start_pos` passes `2^31 - 1` before the last row and
the segment `res.segment(start_pos, n_elem)` then starts at a negative position. -/
theorem get_upper_part_overflows_at_65536 :
    get_upper_part (MatD.zero 65536 65536 : MatD Int) = .error .undefined_behaviour := by
  have hne : ∀ st, (List.range 65536).foldlM
      (get_upper_part_step (MatD.zero 65536 65536 : MatD Int))
      ((MatD.zero 2147516416 1 : MatD Int), 0, 65536) ≠ .ok st := by
    intro st h
    obtain ⟨_, _, _, _, h5, _⟩ := get_upper_part_loop_inv (MatD.zero 65536 65536 : MatD Int)
      rfl (by decide) (MatD.zero 2147516416 1) ⟨rfl, rfl⟩ 65536 le_rfl st h
    have h6 := h5 65535 (by decide)
    have h7 := upperStart_double 65536 65535 (by decide)
    simp only [MatD.zero] at h6
    omega
  have hnr := get_upper_part_loop_ne_runtime (MatD.zero 65536 65536 : MatD Int)
    (List.range 65536) ((MatD.zero 2147516416 1 : MatD Int), 0, 65536)
  unfold get_upper_part
  rw [if_neg (by simp [MatD.zero])]
  have e1 : u32 65536 = 65536 := by decide
  have e2 : (MatD.zero 65536 65536 : MatD Int).rows = 65536 := rfl
  simp only [e2, e1]
  have e3 : 65536 * u32 (65536 + 4294967295) / 2 + 65536 = 2147516416 := by decide
  rw [e3]
  cases hq : (List.range 65536).foldlM
      (get_upper_part_step (MatD.zero 65536 65536 : MatD Int))
      ((MatD.zero 2147516416 1 : MatD Int), 0, 65536) with
  | ok st => exact absurd hq (hne st)
  | error e =>
    cases e with
    | runtime_error => exact absurd hq hnr
    | undefined_behaviour => rfl

/-- C26: `get_upper_part` throws the runtime error on a matrix that is not square; on a
square `N × N` matrix with `N <= 65535` it returns a vector of length `N(N+1)/2` whose
entry at index `Σ_{k<i}(N - k) + (j - i)` is `Mat(i,j)` for all `i <= j < N`. -/
theorem get_upper_part_spec {R : Type} [Zero R] (Mat : MatD R) :
    (Mat.rows ≠ Mat.cols → get_upper_part Mat = .error .runtime_error) ∧
    (Mat.rows = Mat.cols → Mat.rows ≤ 65535 →
      ∃ res, get_upper_part Mat = .ok res ∧
        res.rows = Mat.rows * (Mat.rows + 1) / 2 ∧ res.cols = 1 ∧
        ∀ i j, i ≤ j → j < Mat.rows →
          res.coeff ((Finset.range i).sum (fun k => Mat.rows - k) + (j - i)) 0
            = Mat.coeff i j) := by
  constructor
  · intro h
    unfold get_upper_part
    rw [if_pos h]
  · intro hsq hN
    have hNN : Mat.rows * (Mat.rows - 1) ≤ 65535 * 65534 := Nat.mul_le_mul hN (by omega)
    have hL : Mat.rows * (Mat.rows - 1) / 2 + Mat.rows < 4294967296 := by omega
    have hu : u32 Mat.rows = Mat.rows := by unfold u32; omega
    have hmax := max_n_links_eq Mat.rows (by omega)
    obtain ⟨st, hst⟩ := get_upper_part_loop_ok Mat hsq hL
      (MatD.zero (Mat.rows * (Mat.rows - 1) / 2 + Mat.rows) 1) ⟨rfl, rfl⟩
      (fun j hj => upperStart_bound Mat.rows j hN hj) Mat.rows le_rfl
    obtain ⟨_, _, h3, h4, _, h6⟩ := get_upper_part_loop_inv Mat hsq hL
      (MatD.zero (Mat.rows * (Mat.rows - 1) / 2 + Mat.rows) 1) ⟨rfl, rfl⟩
      Mat.rows le_rfl st hst
    refine ⟨st.1, ?_, ?_, h4, ?_⟩
    · unfold get_upper_part
      rw [if_neg (by simpa using hsq)]
      simp only [hu, hmax, hst, bind, Except.bind, pure, Except.pure]
    · rw [h3]
      have h := upperStart_double Mat.rows Mat.rows le_rfl
      rw [upperStart_total] at h
      have e : 2 * Mat.rows - Mat.rows + 1 = Mat.rows + 1 := by omega
      rw [e] at h
      omega
    · intro i j hij hj
      exact h6 i j (by omega) hij hj

/-- Witness of C26: the `3 × 3` matrix with entries `3 i + j` and a `2 × 3` matrix. -/
theorem get_upper_part_spec_witness :
    get_upper_part zerosTwoByThreeInt = .error .runtime_error ∧
    ∃ res, get_upper_part matCountingInt = .ok res ∧
      res.rows = matCountingInt.rows * (matCountingInt.rows + 1) / 2 ∧ res.cols = 1 ∧
      ∀ i j, i ≤ j → j < matCountingInt.rows →
        res.coeff ((Finset.range i).sum (fun k => matCountingInt.rows - k) + (j - i)) 0
          = matCountingInt.coeff i j :=
  ⟨(get_upper_part_spec zerosTwoByThreeInt).1 (by decide),
    (get_upper_part_spec matCountingInt).2 rfl (by decide)⟩


end utils

/-! ## `View_ExcMult` -/

namespace utils

theorem MatD.block_ok {R : Type} (A : MatD R) (i j p q : Nat)
    (h : i + p ≤ A.rows ∧ j + q ≤ A.cols) :
    A.block i j p q = .ok ⟨p, q, fun r c => A.coeff (i + r) (j + c)⟩ := by
  unfold MatD.block
  rw [if_pos h]

theorem MatD.mul_ok {R : Type} [Semiring R] (A B : MatD R) (h : A.cols = B.rows) :
    A.mul B = .ok ⟨A.rows, B.cols, fun r c =>
      (Finset.range A.cols).sum (fun k => A.coeff r k * B.coeff k c)⟩ := by
  unfold MatD.mul
  rw [if_pos h]

theorem View_ExcMult_first {R : Type} [Semiring R] (p : Nat) (A b : MatD R)
    (hA : A.rows = p + 1 ∧ A.cols = p + 1) (hb : b.rows = p ∧ b.cols = 1) :
    ∃ res, View_ExcMult 0 A b = .ok res ∧ res.rows = p ∧ res.cols = 1 ∧
      ∀ r, r < p → res.coeff r 0 = excMult_spec 0 A b r := by
  obtain ⟨hA1, hA2⟩ := hA
  obtain ⟨hb1, hb2⟩ := hb
  unfold View_ExcMult
  dsimp only
  rw [if_pos rfl]
  simp only [MatD.bottomRightCorner, bind, Except.bind]
  rw [if_pos (by omega), MatD.block_ok _ _ _ _ _ (by omega)]
  simp only []
  rw [MatD.mul_ok _ _ (by simp [MatD.selfadjointViewUpper])]
  refine ⟨_, rfl, by simp [MatD.selfadjointViewUpper, hb1], hb2, ?_⟩
  intro r hr
  simp only [MatD.selfadjointViewUpper, excMult_spec, symUpper, skipIndex, hA1, hA2, hb1,
    Nat.not_lt_zero, if_false, Nat.add_sub_cancel]
  apply Finset.sum_congr rfl
  intro c hc
  have e : p + 1 - p = 1 := by omega
  simp only [e, Nat.add_comm 1, Nat.add_le_add_iff_right]


theorem View_ExcMult_last {R : Type} [Semiring R] (p : Nat) (A b : MatD R) (hp : p ≠ 0)
    (hA : A.rows = p + 1 ∧ A.cols = p + 1) (hb : b.rows = p ∧ b.cols = 1) :
    ∃ res, View_ExcMult p A b = .ok res ∧ res.rows = p ∧ res.cols = 1 ∧
      ∀ r, r < p → res.coeff r 0 = excMult_spec p A b r := by
  obtain ⟨hA1, hA2⟩ := hA
  obtain ⟨hb1, hb2⟩ := hb
  unfold View_ExcMult
  dsimp only
  rw [if_neg hp, if_pos hb1.symm]
  simp only [MatD.topLeftCorner, bind, Except.bind]
  rw [MatD.block_ok _ _ _ _ _ (by omega)]
  simp only []
  rw [MatD.mul_ok _ _ (by simp [MatD.selfadjointViewUpper])]
  refine ⟨_, rfl, by simp [MatD.selfadjointViewUpper, hb1], hb2, ?_⟩
  intro r hr
  simp only [MatD.selfadjointViewUpper, excMult_spec, symUpper, skipIndex, hb1, hr, if_true,
    Nat.zero_add]
  apply Finset.sum_congr rfl
  intro c hc
  rw [if_pos (Finset.mem_range.mp hc)]

set_option maxRecDepth 10000 in
theorem View_ExcMult_middle {R : Type} [Semiring R] (p x : Nat) (A b : MatD R)
    (hp : p ≤ 4294967295) (hx0 : x ≠ 0) (hxp : x < p)
    (hA : A.rows = p + 1 ∧ A.cols = p + 1) (hb : b.rows = p ∧ b.cols = 1) :
    ∃ res, View_ExcMult x A b = .ok res ∧ res.rows = p ∧ res.cols = 1 ∧
      ∀ r, r < p → res.coeff r 0 = excMult_spec x A b r := by
  obtain ⟨hA1, hA2⟩ := hA
  obtain ⟨hb1, hb2⟩ := hb
  have hq : u32 (p + 4294967296 - x) = p - x := by unfold u32; omega
  unfold View_ExcMult
  dsimp only
  rw [if_neg hx0, if_neg (by omega)]
  simp (disch := omega) only [MatD.topLeftCorner, MatD.bottomRightCorner, MatD.head, MatD.tail,
    MatD.assignHead, MatD.assignTail, MatD.block, MatD.assignBlock, MatD.mul, MatD.add,
    MatD.selfadjointViewUpper, MatD.transpose, MatD.zero, bind, Except.bind, hq, hA1, hA2,
    hb1, hb2, if_pos, and_self, Nat.zero_add, le_refl]
  simp only [and_true, true_and]
  repeat (rw [if_pos (by omega)]; try dsimp only)
  refine ⟨_, rfl, rfl, rfl, ?_⟩
  intro r hr
  have e1 : p - (p - x) = x := by omega
  have e2 : p + 1 - (p - x) = x + 1 := by omega
  have hp2 : p = x + (p - x) := by omega
  simp only [e1, e2, Nat.sub_zero, excMult_spec, symUpper, hb1]
  conv_rhs => rw [hp2, Finset.sum_range_add]
  by_cases hrx : r < x
  · rw [if_neg (by omega), if_neg (by omega), if_pos (by omega), if_pos (by omega)]
    congr 1
    · apply Finset.sum_congr rfl
      intro c hc
      have hc2 := Finset.mem_range.mp hc
      simp only [skipIndex, hrx, hc2, if_true]
    · apply Finset.sum_congr rfl
      intro c hc
      have hc2 := Finset.mem_range.mp hc
      have e3 : ¬ (x + c < x) := by omega
      have e4 : x + 1 + c = x + c + 1 := by omega
      simp only [skipIndex, hrx, if_true, e3, if_false, e4]
      rw [if_pos (by omega)]
  · rw [if_pos (by omega), if_pos (by omega), add_comm]
    have e5 : x + (r - x) - x = r - x := by omega
    have e6 : x + 1 + (r - x) = r + 1 := by omega
    simp only [e5, e6]
    congr 1
    · apply Finset.sum_congr rfl
      intro c hc
      have hc2 := Finset.mem_range.mp hc
      simp only [skipIndex, hrx, hc2, if_true, if_false]
      rw [if_neg (by omega)]
    · apply Finset.sum_congr rfl
      intro c hc
      have hc2 := Finset.mem_range.mp hc
      have e3 : ¬ (x + c < x) := by omega
      have e4 : x + 1 + c = x + c + 1 := by omega
      simp only [skipIndex, hrx, if_false, e3, e4]
      by_cases hle : r - x ≤ c
      · rw [if_pos hle, if_pos (by omega)]
      · rw [if_neg hle, if_neg (by omega)]


theorem View_ExcMult_entries {R : Type} [Semiring R] (p x : Nat) (A b : MatD R)
    (hp : p ≤ 4294967295) (hx : x ≤ p)
    (hA : A.rows = p + 1 ∧ A.cols = p + 1) (hb : b.rows = p ∧ b.cols = 1) :
    ∃ res, View_ExcMult x A b = .ok res ∧ res.rows = p ∧ res.cols = 1 ∧
      ∀ r, r < p → res.coeff r 0 = excMult_spec x A b r := by
  by_cases hx0 : x = 0
  · subst hx0
    exact View_ExcMult_first p A b hA hb
  · by_cases hxp : x = p
    · subst hxp
      exact View_ExcMult_last x A b hx0 hA hb
    · exact View_ExcMult_middle p x A b hp hx0 (by omega) hA hb

/-- C27: for every `p` (in particular `p >= 1`), `x <= p`, a `(p+1) × (p+1)` matrix `A` and a vector `b` of size `p`
(sizes are `unsigned int`), `View_ExcMult<Symmetric::True>(x, A, b)` returns a vector of
size `p` whose entries are those of the product with `b` of the matrix obtained by
deleting row `x` and column `x` from the symmetric matrix whose upper triangle is the
upper triangle of `A`.  The lower triangle of `A` is not read: a matrix with the same
upper triangle gives the same entries. -/
theorem View_ExcMult_refines_spec {R : Type} [Semiring R] (p x : Nat) (A b : MatD R)
    (hp : p ≤ 4294967295) (hx : x ≤ p)
    (hA : A.rows = p + 1 ∧ A.cols = p + 1) (hb : b.rows = p ∧ b.cols = 1) :
    (∃ res, View_ExcMult x A b = .ok res ∧ res.rows = p ∧ res.cols = 1 ∧
      ∀ r, r < p → res.coeff r 0 = excMult_spec x A b r) ∧
    (∀ A2 : MatD R, A2.rows = p + 1 → A2.cols = p + 1 →
      (∀ i j, i ≤ j → A2.coeff i j = A.coeff i j) →
      ∃ res res2, View_ExcMult x A b = .ok res ∧ View_ExcMult x A2 b = .ok res2 ∧
        ∀ r, r < p → res2.coeff r 0 = res.coeff r 0) := by
  have key : ∀ A1 : MatD R, A1.rows = p + 1 ∧ A1.cols = p + 1 →
      ∃ res, View_ExcMult x A1 b = .ok res ∧ res.rows = p ∧ res.cols = 1 ∧
        ∀ r, r < p → res.coeff r 0 = excMult_spec x A1 b r :=
    fun A1 hA1 => View_ExcMult_entries p x A1 b hp hx hA1 hb
  refine ⟨key A hA, ?_⟩
  intro A2 h1 h2 hup
  obtain ⟨res, hres, _, _, hc⟩ := key A hA
  obtain ⟨res2, hres2, _, _, hc2⟩ := key A2 ⟨h1, h2⟩
  refine ⟨res, res2, hres, hres2, ?_⟩
  intro r hr
  rw [hc r hr, hc2 r hr]
  unfold excMult_spec symUpper
  apply Finset.sum_congr rfl
  intro c _
  split_ifs with h
  · rw [hup _ _ h]
  · rw [hup _ _ (by omega)]

/-- Witness of C27: `p = 2`, `x = 1`, the matrix with entries `3 i + j` and the vector
`(1, 2)`. -/
theorem View_ExcMult_refines_spec_witness :
    (∃ res, View_ExcMult 1 matCountingInt vecOneTwoInt = .ok res ∧ res.rows = 2 ∧
      res.cols = 1 ∧ ∀ r, r < 2 → res.coeff r 0 = excMult_spec 1 matCountingInt vecOneTwoInt r) ∧
    excMult_spec 1 matCountingInt vecOneTwoInt 0 = 4 ∧
    excMult_spec 1 matCountingInt vecOneTwoInt 1 = 18 :=
  ⟨(View_ExcMult_refines_spec 2 1 matCountingInt vecOneTwoInt (by decide) (by decide)
      ⟨rfl, rfl⟩ ⟨rfl, rfl⟩).1, by decide, by decide⟩

end utils

/-! ## The node update of `rgwish_core` -/

namespace utils

set_option maxRecDepth 10000 in
theorem beta_single_spec {R : Type} [Field R] (N i k : Nat) (Sigma Omega : MatD R)
    (hi : i < N) (hk : k < N)
    (hO : Omega.rows = N ∧ Omega.cols = N) (hS : Sigma.rows = N ∧ Sigma.cols = N) :
    ∃ w, beta_single N i k Sigma Omega = .ok w ∧ w.rows = N - 1 ∧ w.cols = 1 ∧
      ∀ r, r < N - 1 →
        w.coeff r 0 = symUpper Omega (skipIndex i r) k * (Sigma.coeff k i / Omega.coeff k k) := by
  obtain ⟨hO1, hO2⟩ := hO
  obtain ⟨hS1, hS2⟩ := hS
  unfold beta_single
  simp only [MatD.read, MatD.head, MatD.tail, MatD.assignHead, MatD.assignTail,
    MatD.assignSegment, MatD.block, MatD.assignBlock, MatD.scale, MatD.transpose, MatD.zero,
    idxSub, bind, Except.bind, pure, Except.pure, hO1, hO2, hS1, hS2, and_true, true_and,
    Nat.zero_add, le_refl]
  rw [if_pos (by omega)]
  dsimp only
  rw [if_pos (by omega)]
  dsimp only
  by_cases h0 : i = 0
  · rw [if_pos h0]
    repeat (rw [if_pos (by omega)]; try dsimp only)
    refine ⟨_, rfl, rfl, rfl, ?_⟩
    intro r hr
    simp only [symUpper, skipIndex]
    split_ifs <;> first | (exfalso; omega) | (congr 2; omega)
  · rw [if_neg h0]
    by_cases hl : i = N - 1
    · rw [if_pos hl]
      repeat (rw [if_pos (by omega)]; try dsimp only)
      refine ⟨_, rfl, rfl, rfl, ?_⟩
      intro r hr
      simp only [symUpper, skipIndex]
      split_ifs <;> first | (exfalso; omega) | (congr 2 <;> omega)
    · rw [if_neg hl]
      by_cases hlt : i < k
      · rw [if_pos hlt]
        repeat (rw [if_pos (by omega)]; try dsimp only)
        refine ⟨_, rfl, rfl, rfl, ?_⟩
        intro r hr
        simp only [symUpper, skipIndex]
        split_ifs <;> first | (exfalso; omega) | (congr 2 <;> omega)
      · rw [if_neg hlt]
        repeat (rw [if_pos (by omega)]; try dsimp only)
        refine ⟨_, rfl, rfl, rfl, ?_⟩
        intro r hr
        simp only [symUpper, skipIndex]
        split_ifs <;> first | (exfalso; omega) | (congr 2 <;> omega)


theorem beta_hat_single {R : Type} [Zero R] (N i k : Nat) (bstar : MatD R)
    (hi : i < N) (hk : k < N) (hik : k ≠ i) (hb : bstar.rows = 1 ∧ bstar.cols = 1) :
    beta_hat N i [k] bstar = .ok ⟨N - 1, 1, fun r c =>
      if r = (if k < i then k else k - 1) ∧ c = 0 then bstar.coeff 0 0 else 0⟩ := by
  unfold beta_hat
  simp only [List.enum_cons, List.enum_nil, List.enumFrom_cons, List.enumFrom_nil,
    List.foldlM_cons, List.foldlM_nil, MatD.read, MatD.write, MatD.zero, bind, Except.bind,
    pure, Except.pure, hb.1, hb.2]
  by_cases hlt : k < i
  · simp only [hlt, if_true]
    rw [if_pos (by omega)]
    dsimp only
    rw [if_pos (by omega)]
  · simp only [hlt, if_false]
    rw [if_pos (by omega), if_pos (by omega)]
    dsimp only
    rw [if_pos (by omega)]

theorem excMult_spec_single {R : Type} [Semiring R] (N i k : Nat) (Omega : MatD R) (v : R)
    (hi : i < N) (hk : k < N) (hik : k ≠ i) (r : Nat) :
    excMult_spec i Omega ⟨N - 1, 1, fun r c =>
      if r = (if k < i then k else k - 1) ∧ c = 0 then v else 0⟩ r
      = symUpper Omega (skipIndex i r) k * v := by
  unfold excMult_spec
  dsimp only
  rw [Finset.sum_eq_single (if k < i then k else k - 1)]
  · simp only [and_self, if_true]
    congr 2
    unfold skipIndex
    split_ifs <;> omega
  · intro c _ hc
    simp only [hc, false_and, if_false, mul_zero]
  · intro hc
    exfalso
    apply hc
    rw [Finset.mem_range]
    split_ifs <;> omega

/-- C28: for a node `i` whose only neighbour is `k`, the closed-form branch of the node
update returns the vector that `View_ExcMult(i, Omega, beta_hat)` returns for the vector
`beta_hat` of size `N - 1` that holds `beta_star = Sigma(k,i) / Omega(k,k)` at the place of
`k` and zeros elsewhere, in every position of `i` and `k`; and the general branch, run on
the neighbour list `[k]` with a solver that is exact on `1 × 1` systems, returns the same
vector.  Sizes are `unsigned int`. -/
theorem single_neighbour_matches_general {R : Type} [Field R] (N i k : Nat)
    (Sigma Omega : MatD R) (hN : N ≤ 4294967296) (hi : i < N) (hk : k < N) (hik : k ≠ i)
    (hO : Omega.rows = N ∧ Omega.cols = N) (hS : Sigma.rows = N ∧ Sigma.cols = N) :
    ∃ w, beta_single N i k Sigma Omega = .ok w ∧ w.rows = N - 1 ∧ w.cols = 1 ∧
      (∀ bstar : MatD R, bstar.rows = 1 → bstar.cols = 1 →
        bstar.coeff 0 0 = Sigma.coeff k i / Omega.coeff k k →
        ∃ bh v, beta_hat N i [k] bstar = .ok bh ∧ bh.rows = N - 1 ∧ bh.cols = 1 ∧
          (∀ r, bh.coeff r 0
            = if r = (if k < i then k else k - 1) then Sigma.coeff k i / Omega.coeff k k
              else 0) ∧
          View_ExcMult i Omega bh = .ok v ∧ v.rows = N - 1 ∧ v.cols = 1 ∧
          ∀ r, r < N - 1 → w.coeff r 0 = v.coeff r 0) ∧
      (∀ llt_solve : MatD R → MatD R → MatD R,
        (∀ M rhs : MatD R, M.rows = 1 → M.cols = 1 → rhs.rows = 1 → rhs.cols = 1 →
          (llt_solve M rhs).rows = 1 ∧ (llt_solve M rhs).cols = 1 ∧
          (llt_solve M rhs).coeff 0 0 = rhs.coeff 0 0 / M.coeff 0 0) →
        ∃ v, beta_general llt_solve N i [k] Sigma Omega = .ok v ∧ v.rows = N - 1 ∧
          v.cols = 1 ∧ ∀ r, r < N - 1 → w.coeff r 0 = v.coeff r 0) := by
  obtain ⟨w, hw, hw1, hw2, hwc⟩ := beta_single_spec N i k Sigma Omega hi hk hO hS
  have hev : ∀ bstar : MatD R, bstar.rows = 1 → bstar.cols = 1 →
      bstar.coeff 0 0 = Sigma.coeff k i / Omega.coeff k k →
      ∃ bh v, beta_hat N i [k] bstar = .ok bh ∧ bh.rows = N - 1 ∧ bh.cols = 1 ∧
        (∀ r, bh.coeff r 0
          = if r = (if k < i then k else k - 1) then Sigma.coeff k i / Omega.coeff k k
            else 0) ∧
        View_ExcMult i Omega bh = .ok v ∧ v.rows = N - 1 ∧ v.cols = 1 ∧
        ∀ r, r < N - 1 → w.coeff r 0 = v.coeff r 0 := by
    intro bstar hb1 hb2 hb3
    obtain ⟨v, hv, hv1, hv2, hvc⟩ := View_ExcMult_entries (N - 1) i Omega
      ⟨N - 1, 1, fun r c =>
        if r = (if k < i then k else k - 1) ∧ c = 0 then bstar.coeff 0 0 else 0⟩
      (by omega) (by omega) ⟨by omega, by omega⟩ ⟨rfl, rfl⟩
    refine ⟨_, v, beta_hat_single N i k bstar hi hk hik ⟨hb1, hb2⟩, rfl, rfl, ?_, hv, hv1,
      hv2, ?_⟩
    · intro r
      simp only [and_true, hb3]
    · intro r hr
      rw [hwc r hr, hvc r hr, excMult_spec_single N i k Omega _ hi hk hik r, hb3]
  refine ⟨w, hw, hw1, hw2, hev, ?_⟩
  intro llt_solve hsolve
  have hsub1 : SubMatrix_sym [k] Omega = .ok (MatD.selfadjointViewUpper
      ⟨1, 1, fun r c => Omega.coeff ([k].getD r 0) ([k].getD c 0)⟩) := by
    unfold SubMatrix_sym
    rw [if_neg (by rw [hO.1, hO.2]; simp)]
    simp only [List.getLast?_singleton, List.length_singleton]
    rw [if_neg (by omega), if_pos (by
      intro n hn
      rw [List.mem_singleton] at hn
      omega)]
  have hsub2 : SubMatrix_col [k] i Sigma
      = .ok ⟨1, 1, fun r _ => Sigma.coeff ([k].getD r 0) i⟩ := by
    unfold SubMatrix_col
    simp only [List.getLast?_singleton, List.length_singleton]
    rw [if_neg (by omega), if_pos (by
      intro n hn
      rw [List.mem_singleton] at hn
      omega)]
  obtain ⟨hs1, hs2, hs3⟩ := hsolve
    (MatD.selfadjointViewUpper ⟨1, 1, fun r c => Omega.coeff ([k].getD r 0) ([k].getD c 0)⟩)
    ⟨1, 1, fun r _ => Sigma.coeff ([k].getD r 0) i⟩ rfl rfl rfl rfl
  obtain ⟨bh, v, hbh, _, _, _, hv, hv1, hv2, hvc⟩ := hev _ hs1 hs2 (by
    rw [hs3]
    simp [MatD.selfadjointViewUpper])
  refine ⟨v, ?_, hv1, hv2, hvc⟩
  unfold beta_general
  simp only [hsub1, hsub2, bind, Except.bind, hbh, hv]

/-- Witness of C28: `N = 3`, node `i = 1` with the single neighbour `k = 2`, and the
rational matrices `Sigma = Omega` with entries `1 / (i + j + 1)`. -/
theorem single_neighbour_matches_general_witness :
    ∃ w, beta_single 3 1 2 hilbertThreeRat hilbertThreeRat = .ok w ∧ w.rows = 3 - 1 ∧
      w.cols = 1 ∧
      (∀ bstar : MatD Rat, bstar.rows = 1 → bstar.cols = 1 →
        bstar.coeff 0 0 = hilbertThreeRat.coeff 2 1 / hilbertThreeRat.coeff 2 2 →
        ∃ bh v, beta_hat 3 1 [2] bstar = .ok bh ∧ bh.rows = 3 - 1 ∧ bh.cols = 1 ∧
          (∀ r, bh.coeff r 0
            = if r = (if 2 < 1 then 2 else 2 - 1) then
                hilbertThreeRat.coeff 2 1 / hilbertThreeRat.coeff 2 2
              else 0) ∧
          View_ExcMult 1 hilbertThreeRat bh = .ok v ∧ v.rows = 3 - 1 ∧ v.cols = 1 ∧
          ∀ r, r < 3 - 1 → w.coeff r 0 = v.coeff r 0) ∧
      (∀ llt_solve : MatD Rat → MatD Rat → MatD Rat,
        (∀ M rhs : MatD Rat, M.rows = 1 → M.cols = 1 → rhs.rows = 1 → rhs.cols = 1 →
          (llt_solve M rhs).rows = 1 ∧ (llt_solve M rhs).cols = 1 ∧
          (llt_solve M rhs).coeff 0 0 = rhs.coeff 0 0 / M.coeff 0 0) →
        ∃ v, beta_general llt_solve 3 1 [2] hilbertThreeRat hilbertThreeRat = .ok v ∧
          v.rows = 3 - 1 ∧ v.cols = 1 ∧ ∀ r, r < 3 - 1 → w.coeff r 0 = v.coeff r 0) :=
  single_neighbour_matches_general 3 1 2 hilbertThreeRat hilbertThreeRat (by decide)
    (by decide) (by decide) (by decide) ⟨rfl, rfl⟩ ⟨rfl, rfl⟩

theorem assignBlock_frame {R : Type} (A B A2 : MatD R) (i j p q : Nat)
    (h : A.assignBlock i j p q B = .ok A2) :
    A2.rows = A.rows ∧ A2.cols = A.cols ∧
    ∀ r c, A2.coeff r c
      = if i ≤ r ∧ r < i + p ∧ j ≤ c ∧ c < j + q then B.coeff (r - i) (c - j)
        else A.coeff r c := by
  unfold MatD.assignBlock at h
  split_ifs at h
  injection h with h
  subst h
  exact ⟨rfl, rfl, fun _ _ => rfl⟩

theorem plug_beta_frame {R : Type} (N i : Nat) (beta_i Omega Omega2 : MatD R)
    (h : plug_beta N i beta_i Omega = .ok Omega2) :
    Omega2.rows = Omega.rows ∧ Omega2.cols = Omega.cols ∧
    ∀ r c, ¬ (c = i ∧ r < i) → ¬ (r = i ∧ i < c) → Omega2.coeff r c = Omega.coeff r c := by
  unfold plug_beta at h
  by_cases h0 : i = 0
  · rw [if_pos h0] at h
    obtain ⟨h1, h2, h3⟩ := assignBlock_frame _ _ _ _ _ _ _ h
    refine ⟨h1, h2, ?_⟩
    intro r c _ hb
    rw [h3, if_neg (by omega)]
  · rw [if_neg h0] at h
    by_cases hl : i = N - 1
    · rw [if_pos hl] at h
      obtain ⟨h1, h2, h3⟩ := assignBlock_frame _ _ _ _ _ _ _ h
      refine ⟨h1, h2, ?_⟩
      intro r c ha _
      rw [h3, if_neg (by omega)]
    · rw [if_neg hl] at h
      simp only [bind, Except.bind] at h
      cases hh : beta_i.head i with
      | error e => rw [hh] at h; cases h
      | ok hd =>
        rw [hh] at h
        simp only at h
        cases ha : Omega.assignBlock 0 i i 1 hd with
        | error e => rw [ha] at h; cases h
        | ok O1 =>
          rw [ha] at h
          simp only at h
          cases hm : idxSub beta_i.rows i with
          | error e => rw [hm] at h; cases h
          | ok m =>
            rw [hm] at h
            simp only at h
            cases ht : beta_i.transpose.rowTail m with
            | error e => rw [ht] at h; cases h
            | ok t =>
              rw [ht] at h
              simp only at h
              obtain ⟨h1, h2, h3⟩ := assignBlock_frame _ _ _ _ _ _ _ ha
              obtain ⟨h4, h5, h6⟩ := assignBlock_frame _ _ _ _ _ _ _ h
              refine ⟨by rw [h4, h1], by rw [h5, h2], ?_⟩
              intro r c hx hy
              rw [h6, if_neg (by omega), h3, if_neg (by omega)]

theorem node_update_frame {R : Type} [Field R] (llt_solve : MatD R → MatD R → MatD R)
    (N i : Nat) (nbd_i : List Nat) (Sigma Omega Omega2 : MatD R)
    (h : node_update llt_solve N i nbd_i Sigma Omega = .ok Omega2) :
    Omega2.rows = Omega.rows ∧ Omega2.cols = Omega.cols ∧
    ∀ r c, ¬ (c = i ∧ r < i) → ¬ (r = i ∧ i < c) → Omega2.coeff r c = Omega.coeff r c := by
  unfold node_update at h
  simp only [bind, Except.bind] at h
  split at h
  · cases h
  · exact plug_beta_frame N i _ Omega Omega2 h

theorem plug_beta_spec {R : Type} (N i : Nat) (beta_i Omega : MatD R) (hi : i < N)
    (hO : Omega.rows = N ∧ Omega.cols = N) (hb : beta_i.rows = N - 1 ∧ beta_i.cols = 1) :
    ∃ Omega2, plug_beta N i beta_i Omega = .ok Omega2 ∧
      Omega2.rows = N ∧ Omega2.cols = N ∧
      (∀ r, r < i → Omega2.coeff r i = beta_i.coeff r 0) ∧
      (∀ c, i < c → c < N → Omega2.coeff i c = beta_i.coeff (c - 1) 0) := by
  unfold plug_beta
  simp only [MatD.assignBlock, MatD.head, MatD.rowTail, MatD.block, MatD.transpose, idxSub,
    bind, Except.bind, hO.1, hO.2, hb.1, hb.2, and_true, true_and]
  by_cases h0 : i = 0
  · rw [if_pos h0, if_pos (by omega)]
    refine ⟨_, rfl, rfl, rfl, ?_, ?_⟩
    · intro r hr; omega
    · intro c h1 h2
      dsimp only
      rw [if_pos (by omega)]
      congr 1
  · rw [if_neg h0]
    by_cases hl : i = N - 1
    · rw [if_pos hl, if_pos (by omega)]
      refine ⟨_, rfl, rfl, rfl, ?_, ?_⟩
      · intro r hr
        dsimp only
        rw [if_pos (by omega)]
        congr 1; omega
      · intro c h1 h2; omega
    · rw [if_neg hl]
      repeat (rw [if_pos (by omega)]; try dsimp only)
      refine ⟨_, rfl, rfl, rfl, ?_, ?_⟩
      · intro r hr
        dsimp only
        rw [if_neg (by omega), if_pos (by omega)]
        congr 1 <;> omega
      · intro c h1 h2
        dsimp only
        rw [if_pos (by omega)]
        congr 1 <;> omega


theorem beta_hat_spec {R : Type} [Zero R] (N i : Nat) (nbd : List Nat) (bstar : MatD R)
    (hi : i < N) (hn : ∀ n ∈ nbd, n < N) (hb : nbd.length ≤ bstar.rows ∧ 1 ≤ bstar.cols) :
    ∃ bh, beta_hat N i nbd bstar = .ok bh ∧ bh.rows = N - 1 ∧ bh.cols = 1 ∧
      ∀ r, bh.coeff r 0 ≠ 0 → skipIndex i r ∈ nbd := by
  unfold beta_hat
  apply foldlM_inv _ (fun bh : MatD R => bh.rows = N - 1 ∧ bh.cols = 1 ∧
      ∀ r, bh.coeff r 0 ≠ 0 → skipIndex i r ∈ nbd)
  · intro bh e ⟨h1, h2, h3⟩ he
    have hlt := List.fst_lt_of_mem_enum he
    have hmem := List.snd_mem_of_mem_enum he
    have hN := hn _ hmem
    simp only [MatD.read, MatD.write, bind, Except.bind, pure, Except.pure, h1, h2]
    by_cases hlt2 : e.2 < i
    · rw [if_pos hlt2, if_pos (by omega)]
      dsimp only
      rw [if_pos (by omega)]
      refine ⟨_, rfl, rfl, rfl, ?_⟩
      intro r hr
      dsimp only at hr
      by_cases hre : r = e.2
      · rw [hre]
        unfold skipIndex
        rw [if_pos hlt2]
        exact hmem
      · rw [if_neg (by simp [hre])] at hr
        exact h3 r hr
    · rw [if_neg hlt2]
      by_cases hgt : e.2 > i
      · rw [if_pos hgt, if_pos (by omega)]
        dsimp only
        rw [if_pos (by omega)]
        refine ⟨_, rfl, rfl, rfl, ?_⟩
        intro r hr
        dsimp only at hr
        by_cases hre : r = e.2 - 1
        · rw [hre]
          unfold skipIndex
          rw [if_neg (by omega)]
          have : e.2 - 1 + 1 = e.2 := by omega
          rw [this]
          exact hmem
        · rw [if_neg (by simp [hre])] at hr
          exact h3 r hr
      · rw [if_neg hgt]
        exact ⟨_, rfl, h1, h2, h3⟩
  · refine ⟨rfl, rfl, ?_⟩
    intro r hr
    exact absurd rfl hr

theorem SubMatrix_sym_ok {R : Type} (nbd : List Nat) (M : MatD R) (hne : nbd ≠ [])
    (hsq : M.rows = M.cols) (hn : ∀ n ∈ nbd, n < M.rows) :
    SubMatrix_sym nbd M = .ok (MatD.selfadjointViewUpper
      ⟨nbd.length, nbd.length, fun r c => M.coeff (nbd.getD r 0) (nbd.getD c 0)⟩) := by
  unfold SubMatrix_sym
  rw [if_neg (by simpa using hsq)]
  obtain ⟨l, hl⟩ : ∃ l, nbd.getLast? = some l := by
    cases h : nbd.getLast? with
    | none => exact absurd (List.getLast?_eq_none_iff.mp h) hne
    | some l => exact ⟨l, rfl⟩
  rw [hl]
  have hmem : l ∈ nbd := List.mem_of_getLast?_eq_some hl
  have := hn l hmem
  simp only []
  rw [if_neg (by omega), if_pos hn]

theorem SubMatrix_col_ok {R : Type} (nbd : List Nat) (idx : Nat) (M : MatD R)
    (hne : nbd ≠ []) (hidx : idx < M.cols) (hn : ∀ n ∈ nbd, n < M.rows) :
    SubMatrix_col nbd idx M
      = .ok ⟨nbd.length, 1, fun r _ => M.coeff (nbd.getD r 0) idx⟩ := by
  unfold SubMatrix_col
  obtain ⟨l, hl⟩ : ∃ l, nbd.getLast? = some l := by
    cases h : nbd.getLast? with
    | none => exact absurd (List.getLast?_eq_none_iff.mp h) hne
    | some l => exact ⟨l, rfl⟩
  rw [hl]
  have hmem : l ∈ nbd := List.mem_of_getLast?_eq_some hl
  have := hn l hmem
  simp only []
  rw [if_neg (by omega), if_pos hn]

theorem beta_general_spec {R : Type} [Semiring R] (llt_solve : MatD R → MatD R → MatD R)
    (N i : Nat) (nbd : List Nat) (Sigma Omega : MatD R) (hN : N ≤ 4294967296) (hi : i < N)
    (hne : nbd ≠ []) (hn : ∀ n ∈ nbd, n < N)
    (hO : Omega.rows = N ∧ Omega.cols = N) (hS : Sigma.rows = N ∧ Sigma.cols = N)
    (hsolve : ∀ M rhs : MatD R,
      (llt_solve M rhs).rows = M.cols ∧ (llt_solve M rhs).cols = rhs.cols) :
    ∃ bh v, beta_general llt_solve N i nbd Sigma Omega = .ok v ∧ v.rows = N - 1 ∧
      v.cols = 1 ∧ bh.rows = N - 1 ∧ bh.cols = 1 ∧
      (∀ r, bh.coeff r 0 ≠ 0 → skipIndex i r ∈ nbd) ∧
      ∀ r, r < N - 1 → v.coeff r 0 = excMult_spec i Omega bh r := by
  have h1 := SubMatrix_sym_ok nbd Omega hne (by rw [hO.1, hO.2]) (by rw [hO.1]; exact hn)
  have h2 := SubMatrix_col_ok nbd i Sigma hne (by rw [hS.2]; exact hi)
    (by rw [hS.1]; exact hn)
  obtain ⟨hs1, hs2⟩ := hsolve
    (MatD.selfadjointViewUpper
      ⟨nbd.length, nbd.length, fun r c => Omega.coeff (nbd.getD r 0) (nbd.getD c 0)⟩)
    ⟨nbd.length, 1, fun r _ => Sigma.coeff (nbd.getD r 0) i⟩
  obtain ⟨bh, hbh, hb1, hb2, hb3⟩ := beta_hat_spec N i nbd _ hi hn
    ⟨by rw [hs1]; exact le_rfl, by rw [hs2]⟩
  obtain ⟨v, hv, hv1, hv2, hvc⟩ := View_ExcMult_entries (N - 1) i Omega bh (by omega)
    (by omega) ⟨by omega, by omega⟩ ⟨hb1, hb2⟩
  refine ⟨bh, v, ?_, hv1, hv2, hb1, hb2, hb3, hvc⟩
  unfold beta_general
  simp only [h1, h2, bind, Except.bind, hbh, hv]

theorem node_update_returns {R : Type} [Field R] (llt_solve : MatD R → MatD R → MatD R)
    (N i : Nat) (nbd : List Nat) (Sigma Omega : MatD R) (hN : N ≤ 4294967296) (hi : i < N)
    (hn : ∀ n ∈ nbd, n < N)
    (hO : Omega.rows = N ∧ Omega.cols = N) (hS : Sigma.rows = N ∧ Sigma.cols = N)
    (hsolve : ∀ M rhs : MatD R,
      (llt_solve M rhs).rows = M.cols ∧ (llt_solve M rhs).cols = rhs.cols) :
    ∃ Omega2, node_update llt_solve N i nbd Sigma Omega = .ok Omega2 ∧
      Omega2.rows = N ∧ Omega2.cols = N := by
  unfold node_update
  match nbd, hn with
  | [], _ =>
    obtain ⟨O2, h, h1, h2, _⟩ := plug_beta_spec N i (MatD.zero (N - 1) 1) Omega hi hO
      ⟨rfl, rfl⟩
    exact ⟨O2, by simpa [bind, Except.bind, pure, Except.pure] using h, h1, h2⟩
  | [k], hn =>
    obtain ⟨w, hw, hw1, hw2, _⟩ := beta_single_spec N i k Sigma Omega hi
      (hn k (List.mem_singleton_self k)) hO hS
    obtain ⟨O2, h, h1, h2, _⟩ := plug_beta_spec N i w Omega hi hO ⟨hw1, hw2⟩
    exact ⟨O2, by simpa [bind, Except.bind, hw] using h, h1, h2⟩
  | k1 :: k2 :: t, hn =>
    obtain ⟨_, v, hv, hv1, hv2, _⟩ := beta_general_spec llt_solve N i (k1 :: k2 :: t) Sigma
      Omega hN hi (by simp) hn hO hS hsolve
    obtain ⟨O2, h, h1, h2, _⟩ := plug_beta_spec N i v Omega hi hO ⟨hv1, hv2⟩
    exact ⟨O2, by simpa [bind, Except.bind, hv] using h, h1, h2⟩

/-- C29: the update of node `i` changes only the entries `Omega(r,i)` with `r < i` and
`Omega(i,c)` with `c > i`: the dimensions, every diagonal entry, every entry of the lower
triangle and every entry of the upper triangle outside row and column `i` are the same
before and after.  For a node without neighbours the update returns and the written
entries are zero.  The update returns for every neighbour list with entries below `N`,
when `Omega` and `Sigma` are `N × N` and the solver returns a vector of the size of its
system. -/
theorem node_update_touches_row_col {R : Type} [Field R]
    (llt_solve : MatD R → MatD R → MatD R) (N i : Nat) (nbd_i : List Nat)
    (Sigma Omega : MatD R) :
    (∀ Omega2, node_update llt_solve N i nbd_i Sigma Omega = .ok Omega2 →
      Omega2.rows = Omega.rows ∧ Omega2.cols = Omega.cols ∧
      (∀ r, Omega2.coeff r r = Omega.coeff r r) ∧
      (∀ r c, c < r → Omega2.coeff r c = Omega.coeff r c) ∧
      (∀ r c, r < c → r ≠ i → c ≠ i → Omega2.coeff r c = Omega.coeff r c)) ∧
    (i < N → Omega.rows = N ∧ Omega.cols = N →
      ∃ Omega2, node_update llt_solve N i [] Sigma Omega = .ok Omega2 ∧
        (∀ r, r < i → Omega2.coeff r i = 0) ∧
        (∀ c, i < c → c < N → Omega2.coeff i c = 0)) ∧
    (N ≤ 4294967296 → i < N → (∀ n ∈ nbd_i, n < N) →
      Omega.rows = N ∧ Omega.cols = N → Sigma.rows = N ∧ Sigma.cols = N →
      (∀ M rhs : MatD R,
        (llt_solve M rhs).rows = M.cols ∧ (llt_solve M rhs).cols = rhs.cols) →
      ∃ Omega2, node_update llt_solve N i nbd_i Sigma Omega = .ok Omega2) := by
  refine ⟨?_, ?_, ?_⟩
  · intro Omega2 h
    obtain ⟨h1, h2, h3⟩ := node_update_frame llt_solve N i nbd_i Sigma Omega Omega2 h
    refine ⟨h1, h2, ?_, ?_, ?_⟩
    · intro r
      exact h3 r r (by omega) (by omega)
    · intro r c hrc
      exact h3 r c (by omega) (by omega)
    · intro r c _ hr hc
      exact h3 r c (by omega) (by omega)
  · intro hi hO
    obtain ⟨O2, h, _, _, h3, h4⟩ := plug_beta_spec N i (MatD.zero (N - 1) 1) Omega hi hO
      ⟨rfl, rfl⟩
    refine ⟨O2, ?_, ?_, ?_⟩
    · unfold node_update
      simpa [bind, Except.bind, pure, Except.pure] using h
    · intro r hr
      rw [h3 r hr]
      rfl
    · intro c h1 h2
      rw [h4 c h1 h2]
      rfl
  · intro hN hi hn hO hS hsolve
    obtain ⟨O2, h, _⟩ := node_update_returns llt_solve N i nbd_i Sigma Omega hN hi hn hO hS
      hsolve
    exact ⟨O2, h⟩

/-- Witness of C29: `N = 3`, node `i = 1` with the neighbours `0` and `2`, the rational
matrix with entries `1 / (i + j + 1)` as `Sigma` and `Omega`, and a solver that returns
its right-hand side. -/
theorem node_update_touches_row_col_witness :
    (∃ Omega2, node_update (fun _ rhs => rhs) 3 1 [] hilbertThreeRat hilbertThreeRat
        = .ok Omega2 ∧
      (∀ r, r < 1 → Omega2.coeff r 1 = 0) ∧ (∀ c, 1 < c → c < 3 → Omega2.coeff 1 c = 0)) ∧
    ∃ Omega2, node_update
      (fun M rhs => (⟨M.cols, rhs.cols, rhs.coeff⟩ : MatD Rat)) 3 1 [0, 2]
      hilbertThreeRat hilbertThreeRat = .ok Omega2 :=
  ⟨(node_update_touches_row_col (fun _ rhs => rhs) 3 1 [] hilbertThreeRat
      hilbertThreeRat).2.1 (by decide) ⟨rfl, rfl⟩,
    (node_update_touches_row_col (fun M rhs => (⟨M.cols, rhs.cols, rhs.coeff⟩ : MatD Rat))
      3 1 [0, 2] hilbertThreeRat hilbertThreeRat).2.2 (by decide) (by decide) (by decide)
      ⟨rfl, rfl⟩ ⟨rfl, rfl⟩ (fun _ _ => ⟨rfl, rfl⟩)⟩

end utils

/-! ## The convergence statistics -/

namespace utils

theorem foldl_max_mem {R : Type} [LinearOrder R] (t : List R) :
    ∀ a : R, t.foldl max a ∈ a :: t ∧ ∀ x ∈ a :: t, x ≤ t.foldl max a := by
  induction t with
  | nil =>
    intro a
    simp
  | cons b t ih =>
    intro a
    obtain ⟨h1, h2⟩ := ih (max a b)
    rw [List.foldl_cons]
    constructor
    · rcases List.mem_cons.mp h1 with h | h
      · rw [h]
        rcases max_choice a b with hm | hm
        · rw [hm]; exact List.mem_cons_self _ _
        · rw [hm]; exact List.mem_cons_of_mem _ (List.mem_cons_self _ _)
      · exact List.mem_cons_of_mem _ (List.mem_cons_of_mem _ h)
    · intro x hx
      rcases List.mem_cons.mp hx with h | h
      · rw [h]
        exact le_trans (le_max_left a b) (h2 _ (List.mem_cons_self _ _))
      · rcases List.mem_cons.mp h with h | h
        · rw [h]
          exact le_trans (le_max_right a b) (h2 _ (List.mem_cons_self _ _))
        · exact h2 x (List.mem_cons_of_mem _ h)

theorem mem_coeffs {R : Type} (A : MatD R) (x : R) :
    x ∈ coeffs A ↔ ∃ r c, r < A.rows ∧ c < A.cols ∧ x = A.coeff r c := by
  unfold coeffs
  simp only [List.mem_flatMap, List.mem_map, List.mem_range]
  constructor
  · rintro ⟨r, hr, c, hc, h⟩
    exact ⟨r, c, hr, hc, h.symm⟩
  · rintro ⟨r, c, hr, hc, h⟩
    exact ⟨r, hr, c, hc, h.symm⟩

theorem maxCoeff_spec {R : Type} [LinearOrder R] (A : MatD R) (hr : 0 < A.rows)
    (hc : 0 < A.cols) :
    ∃ m, maxCoeff A = .ok m ∧ (∃ r c, r < A.rows ∧ c < A.cols ∧ m = A.coeff r c) ∧
      ∀ r c, r < A.rows → c < A.cols → A.coeff r c ≤ m := by
  unfold maxCoeff
  cases hl : coeffs A with
  | nil =>
    have : A.coeff 0 0 ∈ coeffs A := (mem_coeffs A _).mpr ⟨0, 0, hr, hc, rfl⟩
    rw [hl] at this
    cases this
  | cons a t =>
    obtain ⟨h1, h2⟩ := foldl_max_mem t a
    refine ⟨_, rfl, ?_, ?_⟩
    · rw [← hl] at h1
      exact (mem_coeffs A _).mp h1
    · intro r c hr hc
      apply h2
      rw [← hl]
      exact (mem_coeffs A _).mpr ⟨r, c, hr, hc, rfl⟩

theorem double_sum_eq_zero_iff {R : Type} [LinearOrderedField R] (n m : Nat)
    (f : Nat → Nat → R) (hf : ∀ r c, 0 ≤ f r c) :
    (Finset.range n).sum (fun r => (Finset.range m).sum (fun c => f r c)) = 0 ↔
      ∀ r c, r < n → c < m → f r c = 0 := by
  rw [Finset.sum_eq_zero_iff_of_nonneg (fun r _ => Finset.sum_nonneg (fun c _ => hf r c))]
  constructor
  · intro h r c hr hc
    have := h r (Finset.mem_range.mpr hr)
    rw [Finset.sum_eq_zero_iff_of_nonneg (fun c _ => hf r c)] at this
    exact this c (Finset.mem_range.mpr hc)
  · intro h r hr
    rw [Finset.sum_eq_zero_iff_of_nonneg (fun c _ => hf r c)]
    intro c hc
    exact h r c (Finset.mem_range.mp hr) (Finset.mem_range.mp hc)

/-- C30: for `N × N` matrices `A` and `B` with `N >= 1`, the four statistics `MeanNorm`,
`Norm1`, `NormInf` and `NormSq` return a value that is non-negative and is zero exactly
when `A(i,j) = B(i,j)` for all `i, j < N`; and `MeanNorm(A,B) = Norm1(A,B) / N²`. -/
theorem norms_nonneg_zero_iff {R : Type} [LinearOrderedField R] (N : Nat) (A B : MatD R)
    (hN : 1 ≤ N) (hA : A.rows = N ∧ A.cols = N) (hB : B.rows = N ∧ B.cols = N) :
    ∃ m n1 ni nsq : R,
      MeanNorm.norm A B = .ok m ∧ Norm1.norm A B = .ok n1 ∧
      NormInf.norm A B = .ok ni ∧ NormSq.norm A B = .ok nsq ∧
      0 ≤ m ∧ 0 ≤ n1 ∧ 0 ≤ ni ∧ 0 ≤ nsq ∧
      (m = 0 ↔ ∀ i j, i < N → j < N → A.coeff i j = B.coeff i j) ∧
      (n1 = 0 ↔ ∀ i j, i < N → j < N → A.coeff i j = B.coeff i j) ∧
      (ni = 0 ↔ ∀ i j, i < N → j < N → A.coeff i j = B.coeff i j) ∧
      (nsq = 0 ↔ ∀ i j, i < N → j < N → A.coeff i j = B.coeff i j) ∧
      m = n1 / ((N : R) * (N : R)) := by
  obtain ⟨hA1, hA2⟩ := hA
  obtain ⟨hB1, hB2⟩ := hB
  have hsub : A.sub B = .ok ⟨N, N, fun r c => A.coeff r c - B.coeff r c⟩ := by
    unfold MatD.sub
    rw [if_pos ⟨by rw [hA1, hB1], by rw [hA2, hB2]⟩, hA1, hA2]
  have habs : cwiseAbsDiff A B = .ok ⟨N, N, fun r c => |A.coeff r c - B.coeff r c|⟩ := by
    unfold cwiseAbsDiff
    simp only [hsub, bind, Except.bind, pure, Except.pure]
  have hNpos : (0 : R) < (N : R) * (N : R) := by
    have : (0 : R) < (N : R) := by exact_mod_cast hN
    positivity
  have e1 : (Finset.range N).sum (fun r => (Finset.range N).sum (fun c =>
      |A.coeff r c - B.coeff r c|)) = 0 ↔
      ∀ i j, i < N → j < N → A.coeff i j = B.coeff i j := by
    rw [double_sum_eq_zero_iff N N _ (fun r c => abs_nonneg _)]
    constructor
    · intro h i j hi hj
      exact sub_eq_zero.mp (abs_eq_zero.mp (h i j hi hj))
    · intro h i j hi hj
      rw [h i j hi hj, sub_self, abs_zero]
  have e2 : (Finset.range N).sum (fun r => (Finset.range N).sum (fun c =>
      (A.coeff r c - B.coeff r c) * (A.coeff r c - B.coeff r c))) = 0 ↔
      ∀ i j, i < N → j < N → A.coeff i j = B.coeff i j := by
    rw [double_sum_eq_zero_iff N N _ (fun r c => mul_self_nonneg _)]
    constructor
    · intro h i j hi hj
      exact sub_eq_zero.mp (mul_self_eq_zero.mp (h i j hi hj))
    · intro h i j hi hj
      rw [h i j hi hj, sub_self, mul_zero]
  have hn1 : (0 : R) ≤ (Finset.range N).sum (fun r => (Finset.range N).sum (fun c =>
      |A.coeff r c - B.coeff r c|)) :=
    Finset.sum_nonneg (fun r _ => Finset.sum_nonneg (fun c _ => abs_nonneg _))
  obtain ⟨ni, hni, ⟨r0, c0, hr0, hc0, hni2⟩, hni3⟩ := maxCoeff_spec
    (⟨N, N, fun r c => |A.coeff r c - B.coeff r c|⟩ : MatD R) (by simpa using hN)
    (by simpa using hN)
  refine ⟨(Finset.range N).sum (fun r => (Finset.range N).sum (fun c =>
      |A.coeff r c - B.coeff r c|)) / ((N : R) * (N : R)),
    (Finset.range N).sum (fun r => (Finset.range N).sum (fun c =>
      |A.coeff r c - B.coeff r c|)), ni,
    (Finset.range N).sum (fun r => (Finset.range N).sum (fun c =>
      (A.coeff r c - B.coeff r c) * (A.coeff r c - B.coeff r c))),
    ?_, ?_, ?_, ?_, ?_, hn1, ?_, ?_, ?_, e1, ?_, e2, rfl⟩
  · unfold MeanNorm.norm
    simp only [habs, bind, Except.bind, pure, Except.pure, MatD.mul, MatD.transpose, hA2,
      if_true, one_mul, mul_one, Nat.cast_mul]
    congr 2
    exact Finset.sum_comm
  · unfold Norm1.norm
    simp only [habs, bind, Except.bind, pure, Except.pure]
  · unfold NormInf.norm
    simp only [habs, bind, Except.bind]
    exact hni
  · unfold NormSq.norm
    simp only [hsub, bind, Except.bind, pure, Except.pure]
  · exact div_nonneg hn1 hNpos.le
  · rw [hni2]
    exact abs_nonneg _
  · exact Finset.sum_nonneg (fun r _ => Finset.sum_nonneg (fun c _ => mul_self_nonneg _))
  · rw [div_eq_zero_iff, e1]
    constructor
    · rintro (h | h)
      · exact h
      · exact absurd h hNpos.ne.symm
    · intro h
      exact Or.inl h
  · constructor
    · intro h i j hi hj
      have h1 := hni3 i j hi hj
      rw [h] at h1
      exact sub_eq_zero.mp (abs_eq_zero.mp (le_antisymm h1 (abs_nonneg _)))
    · intro h
      rw [hni2]
      simp only
      rw [h r0 c0 hr0 hc0, sub_self, abs_zero]

/-- Witness of C30: the `3 × 3` rational matrix with entries `1 / (i + j + 1)` against
itself. -/
theorem norms_nonneg_zero_iff_witness :
    ∃ m n1 ni nsq : Rat,
      MeanNorm.norm hilbertThreeRat hilbertThreeRat = .ok m ∧
      Norm1.norm hilbertThreeRat hilbertThreeRat = .ok n1 ∧
      NormInf.norm hilbertThreeRat hilbertThreeRat = .ok ni ∧
      NormSq.norm hilbertThreeRat hilbertThreeRat = .ok nsq ∧
      0 ≤ m ∧ 0 ≤ n1 ∧ 0 ≤ ni ∧ 0 ≤ nsq ∧
      (m = 0 ↔ ∀ i j, i < 3 → j < 3 → hilbertThreeRat.coeff i j = hilbertThreeRat.coeff i j) ∧
      (n1 = 0 ↔ ∀ i j, i < 3 → j < 3 → hilbertThreeRat.coeff i j = hilbertThreeRat.coeff i j) ∧
      (ni = 0 ↔ ∀ i j, i < 3 → j < 3 → hilbertThreeRat.coeff i j = hilbertThreeRat.coeff i j) ∧
      (nsq = 0 ↔ ∀ i j, i < 3 → j < 3 → hilbertThreeRat.coeff i j = hilbertThreeRat.coeff i j) ∧
      m = n1 / (((3 : Nat) : Rat) * ((3 : Nat) : Rat)) :=
  norms_nonneg_zero_iff 3 hilbertThreeRat hilbertThreeRat (by decide) ⟨rfl, rfl⟩ ⟨rfl, rfl⟩

end utils

/-! ## The zero pattern of the result of `rgwish_core` -/

namespace utils

theorem skipIndex_pos (i k : Nat) (hik : k ≠ i) :
    skipIndex i (if k < i then k else k - 1) = k := by
  unfold skipIndex
  split_ifs <;> omega

theorem node_update_beta {R : Type} [Field R] (llt_solve : MatD R → MatD R → MatD R)
    (N i : Nat) (nbd : List Nat) (Sigma Omega : MatD R) (hN : N ≤ 4294967296) (hi : i < N)
    (hn : ∀ n ∈ nbd, n < N ∧ n ≠ i)
    (hO : Omega.rows = N ∧ Omega.cols = N) (hS : Sigma.rows = N ∧ Sigma.cols = N)
    (hsolve : ∀ M rhs : MatD R,
      (llt_solve M rhs).rows = M.cols ∧ (llt_solve M rhs).cols = rhs.cols) :
    ∃ bh Omega2 : MatD R, node_update llt_solve N i nbd Sigma Omega = .ok Omega2 ∧
      bh.rows = N - 1 ∧
      (∀ r, bh.coeff r 0 ≠ 0 → skipIndex i r ∈ nbd) ∧
      Omega2.rows = N ∧ Omega2.cols = N ∧
      (∀ r, r < i → Omega2.coeff r i = excMult_spec i Omega bh r) ∧
      (∀ c, i < c → c < N → Omega2.coeff i c = excMult_spec i Omega bh (c - 1)) := by
  have hn1 : ∀ n ∈ nbd, n < N := fun n h => (hn n h).1
  unfold node_update
  match nbd, hn, hn1 with
  | [], _, _ =>
    obtain ⟨O2, h, h1, h2, h3, h4⟩ := plug_beta_spec N i (MatD.zero (N - 1) 1) Omega hi hO
      ⟨rfl, rfl⟩
    refine ⟨MatD.zero (N - 1) 1, O2, by simpa [bind, Except.bind, pure, Except.pure] using h,
      rfl, ?_, h1, h2, ?_, ?_⟩
    · intro r hr
      exact absurd rfl hr
    · intro r hr
      rw [h3 r hr]
      simp [excMult_spec, MatD.zero]
    · intro c hc1 hc2
      rw [h4 c hc1 hc2]
      simp [excMult_spec, MatD.zero]
  | [k], hn, _ =>
    have hk := hn k (List.mem_singleton_self k)
    obtain ⟨w, hw, hw1, hw2, hwc⟩ := beta_single_spec N i k Sigma Omega hi hk.1 hO hS
    obtain ⟨O2, h, h1, h2, h3, h4⟩ := plug_beta_spec N i w Omega hi hO ⟨hw1, hw2⟩
    refine ⟨⟨N - 1, 1, fun r c =>
        if r = (if k < i then k else k - 1) ∧ c = 0 then Sigma.coeff k i / Omega.coeff k k
        else 0⟩, O2, by simpa [bind, Except.bind, hw] using h, rfl, ?_, h1, h2, ?_, ?_⟩
    · intro r hr
      dsimp only at hr
      by_cases hre : r = (if k < i then k else k - 1)
      · rw [hre, skipIndex_pos i k hk.2]
        exact List.mem_singleton_self k
      · rw [if_neg (by simp [hre])] at hr
        exact absurd rfl hr
    · intro r hr
      rw [h3 r hr, hwc r (by omega), excMult_spec_single N i k Omega _ hi hk.1 hk.2 r]
    · intro c hc1 hc2
      rw [h4 c hc1 hc2, hwc (c - 1) (by omega),
        excMult_spec_single N i k Omega _ hi hk.1 hk.2 (c - 1)]
  | k1 :: k2 :: t, _, hn1 =>
    obtain ⟨bh, v, hv, hv1, hv2, hb1, _, hb3, hvc⟩ := beta_general_spec llt_solve N i
      (k1 :: k2 :: t) Sigma Omega hN hi (by simp) hn1 hO hS hsolve
    obtain ⟨O2, h, h1, h2, h3, h4⟩ := plug_beta_spec N i v Omega hi hO ⟨hv1, hv2⟩
    refine ⟨bh, O2, by simpa [bind, Except.bind, hv] using h, hb1, hb3, h1, h2, ?_, ?_⟩
    · intro r hr
      rw [h3 r hr, hvc r (by omega)]
    · intro c hc1 hc2
      rw [h4 c hc1 hc2, hvc (c - 1) (by omega)]

theorem sum_skipIndex {R : Type} [AddCommMonoid R] (N i : Nat) (hi : i < N) (g : Nat → R) :
    (Finset.range (N - 1)).sum (fun c => g (skipIndex i c))
      = (Finset.range N).sum (fun c => if c = i then 0 else g c) := by
  have e1 : N - 1 = i + (N - 1 - i) := by omega
  have e2 : N = i + 1 + (N - 1 - i) := by omega
  rw [e1, Finset.sum_range_add]
  conv_rhs => rw [e2, Finset.sum_range_add, Finset.sum_range_succ]
  have h1 : (Finset.range i).sum (fun c => g (skipIndex i c))
      = (Finset.range i).sum (fun c => if c = i then 0 else g c) := by
    apply Finset.sum_congr rfl
    intro c hc
    have := Finset.mem_range.mp hc
    rw [if_neg (by omega)]
    unfold skipIndex
    rw [if_pos this]
  have h2 : (Finset.range (N - 1 - i)).sum (fun c => g (skipIndex i (i + c)))
      = (Finset.range (N - 1 - i)).sum (fun c => if i + 1 + c = i then 0 else g (i + 1 + c)) := by
    apply Finset.sum_congr rfl
    intro c _
    rw [if_neg (by omega)]
    unfold skipIndex
    rw [if_neg (by omega)]
    congr 1
    omega
  rw [h1, h2, if_pos rfl, add_zero]

theorem zero_pattern_algebra {R : Type} [Field R] (N i : Nat) (hi : i < N)
    (W K : Nat → Nat → R) (γ : Nat → R) (hγ : γ i = 0)
    (hKW : ∀ j c, j < N → c < N →
      (Finset.range N).sum (fun r => K j r * W r c) = if j = c then 1 else 0)
    (hfix : ∀ r, r < N → r ≠ i → W r i = (Finset.range N).sum (fun c => W r c * γ c)) :
    ∀ j, j < N → j ≠ i → γ j = 0 → K j i = 0 := by
  have key : ∀ j, j < N →
      (Finset.range N).sum (fun r => K j r * W r i)
        = K j i * (W i i - (Finset.range N).sum (fun c => W i c * γ c)) + γ j := by
    intro j hj
    have hT : (Finset.range N).sum (fun r => K j r *
        (Finset.range N).sum (fun c => W r c * γ c)) = γ j := by
      simp only [Finset.mul_sum]
      rw [Finset.sum_comm]
      have : ∀ c ∈ Finset.range N, (Finset.range N).sum (fun r => K j r * (W r c * γ c))
          = (if j = c then 1 else 0) * γ c := by
        intro c hc
        rw [← hKW j c hj (Finset.mem_range.mp hc), Finset.sum_mul]
        apply Finset.sum_congr rfl
        intro r _
        ring
      rw [Finset.sum_congr rfl this]
      rw [Finset.sum_eq_single j]
      · simp
      · intro c _ hc
        rw [if_neg (Ne.symm hc), zero_mul]
      · intro hj2
        exact absurd (Finset.mem_range.mpr hj) hj2
    have hsplit : ∀ f : Nat → R, (Finset.range N).sum f
        = f i + ((Finset.range N).erase i).sum f := by
      intro f
      rw [Finset.add_sum_erase _ _ (Finset.mem_range.mpr hi)]
    rw [hsplit (fun r => K j r * W r i)]
    have h2 : ((Finset.range N).erase i).sum (fun r => K j r * W r i)
        = ((Finset.range N).erase i).sum (fun r => K j r *
            (Finset.range N).sum (fun c => W r c * γ c)) := by
      apply Finset.sum_congr rfl
      intro r hr
      rw [Finset.mem_erase, Finset.mem_range] at hr
      rw [hfix r hr.2 hr.1]
    rw [h2]
    have h3 := hsplit (fun r => K j r * (Finset.range N).sum (fun c => W r c * γ c))
    rw [hT] at h3
    have h4 : ((Finset.range N).erase i).sum (fun r => K j r *
        (Finset.range N).sum (fun c => W r c * γ c))
        = γ j - K j i * (Finset.range N).sum (fun c => W i c * γ c) := by
      rw [h3]
      ring
    rw [h4]
    ring
  have hs : K i i * (W i i - (Finset.range N).sum (fun c => W i c * γ c)) = 1 := by
    have := key i hi
    rw [hKW i i hi hi, if_pos rfl, hγ, add_zero] at this
    exact this.symm
  have hsne : (W i i - (Finset.range N).sum (fun c => W i c * γ c)) ≠ 0 := by
    intro h0
    rw [h0, mul_zero] at hs
    exact zero_ne_one hs
  intro j hj hji hgj
  have := key j hj
  rw [hKW j i hj hi, if_neg hji, hgj, add_zero] at this
  rcases mul_eq_zero.mp this.symm with h | h
  · exact h
  · exact absurd h hsne


theorem foldlM_preserves {α β : Type} (f : β → α → Except Err β) (P : β → Prop)
    (h : ∀ b a b2, P b → f b a = .ok b2 → P b2) :
    ∀ (l : List α) (b b2 : β), P b → l.foldlM f b = .ok b2 → P b2 := by
  intro l
  induction l with
  | nil =>
    intro b b2 hb hf
    simp only [List.foldlM_nil, pure, Except.pure] at hf
    injection hf with hf
    rw [← hf]
    exact hb
  | cons a t ih =>
    intro b b2 hb hf
    rw [List.foldlM_cons] at hf
    cases h1 : f b a with
    | error e =>
      rw [h1] at hf
      cases hf
    | ok b1 =>
      rw [h1] at hf
      exact ih b1 b2 (h b a b1 hb h1) hf

theorem symUpper_copyUpperToLower {R : Type} (A : MatD R) (r c : Nat) :
    symUpper (MatD.copyUpperToLower A) r c = symUpper A r c := by
  unfold symUpper MatD.copyUpperToLower
  dsimp only
  split_ifs with h1 h2
  · have : r = c := by omega
    subst this
    rfl
  · rfl
  · rfl

theorem node_update_relation {R : Type} [Field R] (llt_solve : MatD R → MatD R → MatD R)
    (N i : Nat) (nbd : List Nat) (Sigma Omega : MatD R) (hN : N ≤ 4294967296) (hi : i < N)
    (hn : ∀ n ∈ nbd, n < N ∧ n ≠ i)
    (hO : Omega.rows = N ∧ Omega.cols = N) (hS : Sigma.rows = N ∧ Sigma.cols = N)
    (hsolve : ∀ M rhs : MatD R,
      (llt_solve M rhs).rows = M.cols ∧ (llt_solve M rhs).cols = rhs.cols) :
    ∃ (γ : Nat → R) (Omega2 : MatD R),
      node_update llt_solve N i nbd Sigma Omega = .ok Omega2 ∧ γ i = 0 ∧
      (∀ j, j ≠ i → j ∉ nbd → γ j = 0) ∧
      ∀ r, r < N → r ≠ i →
        symUpper Omega2 r i = (Finset.range N).sum (fun c => symUpper Omega r c * γ c) := by
  obtain ⟨bh, O2, hO2, hb1, hb3, _, _, h3, h4⟩ := node_update_beta llt_solve N i nbd
    Sigma Omega hN hi hn hO hS hsolve
  have hu : ∀ c, c ≠ i → skipIndex i (if c < i then c else c - 1) = c := by
    intro c hc
    unfold skipIndex
    split_ifs <;> omega
  have hu2 : ∀ c, (if skipIndex i c < i then skipIndex i c else skipIndex i c - 1) = c := by
    intro c
    unfold skipIndex
    split_ifs <;> omega
  refine ⟨fun c => if c = i then 0 else bh.coeff (if c < i then c else c - 1) 0, O2, hO2,
    by simp, ?_, ?_⟩
  · intro j hji hjn
    simp only [if_neg hji]
    by_contra hne
    have := hb3 _ hne
    rw [hu j hji] at this
    exact hjn this
  · intro r hr hri
    have hsum : ∀ r2, skipIndex i r2 = r → excMult_spec i Omega bh r2
        = (Finset.range N).sum (fun c => symUpper Omega r c *
          (if c = i then 0 else bh.coeff (if c < i then c else c - 1) 0)) := by
      intro r2 hr2
      unfold excMult_spec
      rw [hb1, hr2]
      have := sum_skipIndex N i hi
        (fun c => symUpper Omega r c * bh.coeff (if c < i then c else c - 1) 0)
      simp only [hu2] at this
      rw [this]
      apply Finset.sum_congr rfl
      intro c _
      by_cases hc : c = i
      · rw [if_pos hc, if_pos hc, mul_zero]
      · rw [if_neg hc, if_neg hc]
    rcases Nat.lt_or_gt_of_ne hri with hlt | hgt
    · have e : symUpper O2 r i = O2.coeff r i := by
        unfold symUpper
        rw [if_pos (by omega)]
      rw [e, h3 r hlt]
      apply hsum
      unfold skipIndex
      rw [if_pos hlt]
    · have e : symUpper O2 r i = O2.coeff i r := by
        unfold symUpper
        rw [if_neg (by omega)]
      rw [e, h4 r hgt hr]
      apply hsum
      unfold skipIndex
      rw [if_neg (by omega)]
      omega

theorem foldlM_range_succ_ok {β : Type} (f : β → Nat → Except Err β) (M : Nat) (b b2 : β)
    (h : (List.range (M + 1)).foldlM f b = .ok b2) :
    ∃ b1, (List.range M).foldlM f b = .ok b1 ∧ f b1 M = .ok b2 := by
  rw [List.range_succ, List.foldlM_append] at h
  cases hpre : (List.range M).foldlM f b with
  | error e =>
    rw [hpre] at h
    cases h
  | ok b1 =>
    rw [hpre] at h
    refine ⟨b1, rfl, ?_⟩
    simp only [List.foldlM_cons, List.foldlM_nil, bind, Except.bind, pure, Except.pure] at h
    cases hq : f b1 M with
    | error e => rw [hq] at h; cases h
    | ok v => rw [hq] at h; exact h

theorem last_node_zero_pattern {R E : Type} [LinearOrderedField R]
    (rwish : isChol → E → R → MatD R → MatD R × E) (inv fin : MatD R → Nat → MatD R)
    (llt_solve : MatD R → MatD R → MatD R) (N : Nat) (nbd : Neighbourhood)
    (Sigma Omega0 O1 Kmat : MatD R) (nbd_last : List Nat)
    (hN1 : 1 ≤ N) (hN : N ≤ 4294967296)
    (hO : Omega0.rows = N ∧ Omega0.cols = N) (hS : Sigma.rows = N ∧ Sigma.cols = N)
    (hsolve : ∀ M rhs : MatD R,
      (llt_solve M rhs).rows = M.cols ∧ (llt_solve M rhs).cols = rhs.cols)
    (hfind : Neighbourhood.find nbd (N - 1) = some nbd_last)
    (hnbd : ∀ n ∈ nbd_last, n < N ∧ n ≠ N - 1)
    (hsweep : rgwish_sweep (eigenKernel rwish inv llt_solve fin) N nbd Sigma Omega0 = .ok O1)
    (hinv : IsLeftInverseSym N Kmat (MatD.copyUpperToLower O1)) :
    ∀ j, j < N - 1 → j ∉ nbd_last → Kmat.coeff j (N - 1) = 0 := by
  obtain ⟨M, rfl⟩ : ∃ M, N = M + 1 := ⟨N - 1, by omega⟩
  simp only [Nat.add_sub_cancel] at hfind hnbd ⊢
  unfold rgwish_sweep at hsweep
  obtain ⟨Opre, hpre, hstep⟩ := foldlM_range_succ_ok _ M Omega0 O1 hsweep
  have hdims : Opre.rows = M + 1 ∧ Opre.cols = M + 1 := by
    refine foldlM_preserves _ (fun O : MatD R => O.rows = M + 1 ∧ O.cols = M + 1) ?_
      (List.range M) Omega0 Opre hO hpre
    intro b a b2 hb hf
    split at hf
    · obtain ⟨h1, h2, _⟩ := node_update_frame llt_solve (M + 1) a _ Sigma b b2 hf
      exact ⟨by rw [h1, hb.1], by rw [h2, hb.2]⟩
    · cases hf
  simp only [hfind] at hstep
  have hlast : node_update llt_solve (M + 1) M nbd_last Sigma Opre = .ok O1 := hstep
  obtain ⟨γ, O2, hO2, hγ, hγ0, hrel⟩ := node_update_relation llt_solve (M + 1) M nbd_last
    Sigma Opre hN (by omega) hnbd hdims hS hsolve
  rw [hO2] at hlast
  injection hlast with hlast
  subst hlast
  obtain ⟨_, _, hframe⟩ := node_update_frame llt_solve (M + 1) M nbd_last Sigma Opre O2 hO2
  have hW : ∀ r c, r ≠ M → c ≠ M → symUpper Opre r c = symUpper O2 r c := by
    intro r c hr hc
    unfold symUpper
    split_ifs
    · rw [hframe r c (by omega) (by omega)]
    · rw [hframe c r (by omega) (by omega)]
  intro j hj hjn
  apply zero_pattern_algebra (M + 1) M (by omega) (symUpper (MatD.copyUpperToLower O2))
    Kmat.coeff γ hγ (fun a c ha hc => hinv a ha c hc) ?_ j (by omega) (by omega)
    (hγ0 j (by omega) hjn)
  intro r hr hrM
  rw [symUpper_copyUpperToLower, hrel r hr hrM]
  apply Finset.sum_congr rfl
  intro c _
  by_cases hc : c = M
  · rw [hc, hγ, mul_zero, mul_zero]
  · rw [symUpper_copyUpperToLower, hW r c hrM hc]


theorem rgwish_loop_last_sweep {R E : Type} (K : RgwishKernel R E) (N : Nat)
    (nbd : Neighbourhood) (Sigma : MatD R) (threshold : R) (P : MatD R → Prop)
    (hP : ∀ Omega O1, P Omega → rgwish_sweep K N nbd Sigma Omega = .ok O1 →
      P (K.copy_upper_to_lower O1)) :
    ∀ (fuel : Nat) (Omega : MatD R) (it : Nat) (res : MatD R × Bool × Nat), P Omega →
      rgwish_loop K N nbd Sigma threshold fuel (Omega, false, it) = .ok res →
      res = (Omega, false, it) ∨
      ∃ Oprev O1, P Oprev ∧ rgwish_sweep K N nbd Sigma Oprev = .ok O1 ∧
        res.1 = K.copy_upper_to_lower O1 := by
  intro fuel
  induction fuel with
  | zero =>
    intro Omega it res _ h
    injection h with h
    exact Or.inl h.symm
  | succ fuel ih =>
    intro Omega it res hPO h
    simp only [rgwish_loop] at h
    cases hs : rgwish_sweep K N nbd Sigma Omega with
    | error e =>
      rw [hs] at h
      cases h
    | ok O1 =>
      rw [hs] at h
      simp only [Bool.false_eq_true, if_false] at h
      cases hc : K.lt (K.norm O1) threshold with
      | true =>
        rw [hc, rgwish_loop_converged] at h
        injection h with h
        subst h
        exact Or.inr ⟨Omega, O1, hPO, hs, rfl⟩
      | false =>
        rw [hc] at h
        rcases ih _ _ res (hP Omega O1 hPO hs) h with h1 | h1
        · right
          refine ⟨Omega, O1, hPO, hs, ?_⟩
          rw [h1]
        · exact Or.inr h1


theorem rgwish_sweep_dims {R E : Type} [LinearOrderedField R]
    (rwish : isChol → E → R → MatD R → MatD R × E) (inv fin : MatD R → Nat → MatD R)
    (llt_solve : MatD R → MatD R → MatD R) (N : Nat) (nbd : Neighbourhood)
    (Sigma Omega0 O1 : MatD R) (h0 : Omega0.rows = N ∧ Omega0.cols = N)
    (h : rgwish_sweep (eigenKernel rwish inv llt_solve fin) N nbd Sigma Omega0 = .ok O1) :
    O1.rows = N ∧ O1.cols = N := by
  unfold rgwish_sweep at h
  refine foldlM_preserves _ (fun O : MatD R => O.rows = N ∧ O.cols = N) ?_
    (List.range N) Omega0 O1 h0 h
  intro b a b2 hb hf
  split at hf
  · obtain ⟨h1, h2, _⟩ := node_update_frame llt_solve N a _ Sigma b b2 hf
    exact ⟨by rw [h1, hb.1], by rw [h2, hb.2]⟩
  · cases hf

theorem cramerSolve_exact (M rhs : MatD Rat)
    (hdet : M.coeff 0 0 * M.coeff 1 1 - M.coeff 0 1 * M.coeff 1 0 ≠ 0) (h2 : M.cols = 2) :
    M.coeff 0 0 * (cramerSolve M rhs).coeff 0 0 + M.coeff 0 1 * (cramerSolve M rhs).coeff 1 0
      = rhs.coeff 0 0 ∧
    M.coeff 1 0 * (cramerSolve M rhs).coeff 0 0 + M.coeff 1 1 * (cramerSolve M rhs).coeff 1 0
      = rhs.coeff 1 0 := by
  unfold cramerSolve
  simp only [h2, OfNat.ofNat_ne_one, if_false, if_true, one_ne_zero]
  constructor
  · field_simp
    ring
  · field_simp
    ring

set_option maxRecDepth 100000 in
/-- C24 (counterexample): on the four-cycle `0 - 2 - 1 - 3 - 0` (the graph over
`{0,1}, {2,3}` built from `[0, 1, 0]`), with the draw `drawFourRat`, exact rational
arithmetic and the threshold `1/10`, `rgwish_core` returns after one sweep with
`converged = true` a matrix `K` with `K(0,1) = -1/20`, although the nodes `0` and `1` are
not linked.  The matrices of the example kernel are exact: `sigmaFourRat` is the inverse of
the draw, `cramerSolve` solves the systems with two unknowns, and `precisionFourRat` is the
inverse of the symmetric matrix the loop ends with.  At the threshold `1/100` the same run
needs a second sweep. -/
theorem rgwish_core_converged_non_edge_not_small :
    BlockGraphAdjCRTP.mk_from_adj [0, 1, 0] partTwoPairs = .ok graphFourCycle ∧
    graphFourCycle.completeview.link 0 1 = .ok 0 ∧
    (∀ r, r < 4 → ∀ c, c < 4 →
      (Finset.range 4).sum (fun k => drawFourRat.coeff r k * sigmaFourRat.coeff k c)
        = if r = c then 1 else 0) ∧
    (∀ M rhs : MatD Rat,
      M.coeff 0 0 * M.coeff 1 1 - M.coeff 0 1 * M.coeff 1 0 ≠ 0 → M.cols = 2 →
      M.coeff 0 0 * (cramerSolve M rhs).coeff 0 0
          + M.coeff 0 1 * (cramerSolve M rhs).coeff 1 0 = rhs.coeff 0 0 ∧
      M.coeff 1 0 * (cramerSolve M rhs).coeff 0 0
          + M.coeff 1 1 * (cramerSolve M rhs).coeff 1 0 = rhs.coeff 1 0) ∧
    (rgwish_core exampleCycleKernel ScaleForm.Scale graphFourCycle.completeview.view 3
        identityFourRat (1 / 10) 0 500).1.map (fun res => (res.1.coeff 0 1, res.2))
      = .ok (-1 / 20, true, 1) ∧
    (rgwish_loop exampleCycleKernel 4 graphFourCycle.completeview.view.get_nbd sigmaFourRat
        (1 / 10) 500 (sigmaFourRat, false, 0)).map
        (fun st : MatD Rat × Bool × Nat => decide (IsLeftInverseSym 4 precisionFourRat st.1))
      = .ok true ∧
    (rgwish_core exampleCycleKernel ScaleForm.Scale graphFourCycle.completeview.view 3
        identityFourRat (1 / 100) 0 500).1.map (fun res => res.2) = .ok (true, 2) ∧
    (1 : Rat) / 100000 < |(-1 / 20 : Rat)| := by
  refine ⟨by rfl, by rfl, by with_unfolding_all decide, cramerSolve_exact,
    by with_unfolding_all decide, by with_unfolding_all decide,
    by with_unfolding_all decide, by with_unfolding_all decide⟩

end utils

/-! ## The storage index -/

theorem cdp_zero (g : Groups) : compute_diagonal_position g 0 = 0 := by
  unfold compute_diagonal_position
  rw [if_pos rfl]

theorem encode_eq_trueIndex_row (g : Groups) (hg : g.SingletonsOK) (r c : Nat) (hr : 1 ≤ r)
    (hst : StoredCell g r c) :
    compute_diagonal_position g r + (c - r) = trueIndex g r c := by
  have hrM : r < g.n_groups := by
    rcases hst with ⟨h1, h2⟩ | ⟨h1, h2, _⟩ <;> omega
  have h := cdp_add_ind g hg r hr hrM
  have hi := ind_le_one g r
  unfold trueIndex
  rcases hst with ⟨h1, h2⟩ | ⟨h1, h2, h3⟩
  · omega
  · have := ind_eq_zero h3
    omega

theorem encode_eq_trueIndex (g : Groups) (hg : g.SingletonsOK) (h0 : 0 ∉ g.pos_singleton)
    (r c : Nat) (hst : StoredCell g r c) :
    compute_diagonal_position g r + (c - r) = trueIndex g r c := by
  rcases Nat.eq_zero_or_pos r with hr | hr
  · subst hr
    have := ind_eq_zero h0
    rw [cdp_zero]
    unfold trueIndex
    simp only [rowStart]
    omega
  · exact encode_eq_trueIndex_row g hg r c hr hst

theorem rowSum_eq_sum (M : Nat) :
    ∀ h, h ≤ M → (rowSum M h : Int) = ∑ k ∈ Finset.range h, ((M : Int) - (k : Int))
  | 0, _ => by simp [rowSum]
  | h + 1, hh => by
    have ih := rowSum_eq_sum M h (by omega)
    rw [Finset.sum_range_succ, ← ih]
    simp only [rowSum]
    omega

theorem cdp_formula (g : Groups) (hg : g.SingletonsOK) (h : Nat) (hM : h < g.n_groups)
    (h1 : 1 ≤ h ∨ 0 ∉ g.pos_singleton) :
    (compute_diagonal_position g h : Int)
      = (∑ k ∈ Finset.range h, ((g.n_groups : Int) - (k : Int)))
        - (g.pos_singleton.countP (fun s => s ≤ h) : Int) := by
  have hnd := SingletonsOK.nodup hg
  have hcnt := countP_eq_sumInd g hnd h
  rw [hcnt, ← rowSum_eq_sum g.n_groups h (by omega)]
  have hrs := rowStart_add_sumInd g h (by omega)
  simp only [sumInd]
  rcases Nat.eq_zero_or_pos h with hz | hpos
  · subst hz
    have h0 : 0 ∉ g.pos_singleton := by
      rcases h1 with h1 | h1
      · omega
      · exact h1
    have := ind_eq_zero h0
    rw [cdp_zero]
    simp only [rowSum, sumInd]
    omega
  · have := cdp_add_ind g hg h hpos hM
    omega

/-- C40: `compute_diagonal_position(h)` is the sum of `M - k` over `k < h` minus the number
of singleton positions `<= h` for every row `h >= 1`, and for the row `0` when the first
group is not a singleton.  For the row `0` of a partition whose first group is a singleton
the code returns `0` (the early `return 0`), one more than the value of the formula: on
the partition `{0}, {1,2}` the formula gives `-1`. -/
theorem compute_diagonal_position_row_zero :
    (partFirstSingleton.Valid ∧ 0 < partFirstSingleton.n_groups ∧
      compute_diagonal_position partFirstSingleton 0 = 0 ∧
      (∑ k ∈ Finset.range 0, ((partFirstSingleton.n_groups : Int) - (k : Int)))
        - (partFirstSingleton.pos_singleton.countP (fun s => s ≤ 0) : Int) = -1) ∧
    (∀ g : Groups, g.SingletonsOK → ∀ h, h < g.n_groups →
      (1 ≤ h ∨ 0 ∉ g.pos_singleton) →
      (compute_diagonal_position g h : Int)
        = (∑ k ∈ Finset.range h, ((g.n_groups : Int) - (k : Int)))
          - (g.pos_singleton.countP (fun s => s ≤ h) : Int)) ∧
    (∀ g : Groups, g.SingletonsOK → 0 ∈ g.pos_singleton →
      (compute_diagonal_position g 0 : Int)
        = (∑ k ∈ Finset.range 0, ((g.n_groups : Int) - (k : Int)))
          - (g.pos_singleton.countP (fun s => s ≤ 0) : Int) + 1) := by
  refine ⟨⟨by decide, by decide, by decide, by decide⟩, ?_, ?_⟩
  · intro g hg h hM h1
    exact cdp_formula g hg h hM h1
  · intro g hg h0
    have hnd := SingletonsOK.nodup hg
    have hcnt := countP_eq_sumInd g hnd 0
    have := ind_eq_one h0
    rw [hcnt, cdp_zero]
    simp only [sumInd, Finset.range_zero, Finset.sum_empty]
    omega

theorem cdp_small (g : Groups) (hg : g.SingletonsOK) (r : Nat) (hr : r < g.n_groups) :
    compute_diagonal_position g r + g.n_groups < 18446744073709551616 := by
  have hM := hg.1
  rcases Nat.eq_zero_or_pos r with h0 | hpos
  · subst h0
    rw [cdp_zero]
    omega
  · have h1 := cdp_add_ind g hg r hpos hr
    have h2 := rowStart_add_sumInd g r (by omega)
    have h3 := rowSum_le g.n_groups r (by omega)
    have h4 : r * g.n_groups ≤ 4294967295 * 4294967295 := Nat.mul_le_mul (by omega) hM
    omega

theorem cellIndex_comm (g : Groups) (i j : Nat) : cellIndex g i j = cellIndex g j i := by
  unfold cellIndex
  rw [Nat.min_comm, Nat.max_comm]

theorem adj_link_cell (G : BlockGraphAdjCRTP) (hg : G.ptr_groups.SingletonsOK) (i j : Nat)
    (hi : i < G.ptr_groups.n_groups) (hj : j < G.ptr_groups.n_groups) :
    G.link i j = if i = j ∧ i ∈ G.ptr_groups.pos_singleton then .ok 1
      else Adj.read G.data (cellIndex G.ptr_groups i j) := by
  have hci := cdp_small G.ptr_groups hg i hi
  have hcj := cdp_small G.ptr_groups hg j hj
  unfold BlockGraphAdjCRTP.link cellIndex
  rw [if_neg (by unfold get_size; omega)]
  by_cases hij : i = j
  · subst hij
    rw [if_pos rfl]
    by_cases hs : i ∈ G.ptr_groups.pos_singleton
    · rw [if_neg (not_not.mpr hs), if_pos ⟨rfl, hs⟩]
    · have hns : ¬ (i = i ∧ i ∈ G.ptr_groups.pos_singleton) := fun h => hs h.2
      rw [if_pos hs, if_neg hns]
      simp
  · have hns : ¬ (i = j ∧ i ∈ G.ptr_groups.pos_singleton) := fun h => hij h.1
    rw [if_neg hij, if_neg hns]
    by_cases hlt : i < j
    · rw [if_pos hlt, Nat.min_eq_left (by omega), Nat.max_eq_right (by omega)]
      unfold u64
      rw [Nat.mod_eq_of_lt (by omega)]
    · rw [if_neg hlt, Nat.min_eq_right (by omega), Nat.max_eq_left (by omega)]
      unfold u64
      rw [Nat.mod_eq_of_lt (by omega)]

theorem adj_add_link_cell (G : BlockGraphAdjCRTP) (hg : G.ptr_groups.SingletonsOK)
    (i j : Nat) (hi : i < G.ptr_groups.n_groups) (hj : j < G.ptr_groups.n_groups) :
    G.add_link i j = if i = j ∧ i ∈ G.ptr_groups.pos_singleton then .ok G
      else (Adj.write G.data (cellIndex G.ptr_groups i j) 1).map
        (fun d => { G with data := d }) := by
  have hci := cdp_small G.ptr_groups hg i hi
  have hcj := cdp_small G.ptr_groups hg j hj
  unfold BlockGraphAdjCRTP.add_link cellIndex
  by_cases hij : i = j
  · subst hij
    rw [if_pos rfl]
    by_cases hs : i ∈ G.ptr_groups.pos_singleton
    · rw [if_neg (not_not.mpr hs), if_pos ⟨rfl, hs⟩]
      rfl
    · have hns : ¬ (i = i ∧ i ∈ G.ptr_groups.pos_singleton) := fun h => hs h.2
      rw [if_pos hs, if_neg hns]
      simp only [Nat.min_self, Nat.max_self, Nat.sub_self, Nat.add_zero]
      cases Adj.write G.data (compute_diagonal_position G.ptr_groups i) 1 <;> rfl
  · have hns : ¬ (i = j ∧ i ∈ G.ptr_groups.pos_singleton) := fun h => hij h.1
    rw [if_neg hij, if_neg hns]
    by_cases hlt : i < j
    · rw [if_pos hlt, Nat.min_eq_left (by omega), Nat.max_eq_right (by omega)]
      unfold u64
      rw [Nat.mod_eq_of_lt (by omega)]
      cases Adj.write G.data (compute_diagonal_position G.ptr_groups i + (j - i)) 1 <;> rfl
    · rw [if_neg hlt, Nat.min_eq_right (by omega), Nat.max_eq_left (by omega)]
      unfold u64
      rw [Nat.mod_eq_of_lt (by omega)]
      cases Adj.write G.data (compute_diagonal_position G.ptr_groups j + (i - j)) 1 <;> rfl

theorem adj_remove_link_cell (G : BlockGraphAdjCRTP) (hg : G.ptr_groups.SingletonsOK)
    (i j : Nat) (hi : i < G.ptr_groups.n_groups) (hj : j < G.ptr_groups.n_groups) :
    G.remove_link i j = if i = j ∧ i ∈ G.ptr_groups.pos_singleton then .ok G
      else (Adj.write G.data (cellIndex G.ptr_groups i j) 0).map
        (fun d => { G with data := d }) := by
  have hci := cdp_small G.ptr_groups hg i hi
  have hcj := cdp_small G.ptr_groups hg j hj
  unfold BlockGraphAdjCRTP.remove_link cellIndex
  by_cases hij : i = j
  · subst hij
    rw [if_pos rfl]
    by_cases hs : i ∈ G.ptr_groups.pos_singleton
    · rw [if_neg (not_not.mpr hs), if_pos ⟨rfl, hs⟩]
      rfl
    · have hns : ¬ (i = i ∧ i ∈ G.ptr_groups.pos_singleton) := fun h => hs h.2
      rw [if_pos hs, if_neg hns]
      simp only [Nat.min_self, Nat.max_self, Nat.sub_self, Nat.add_zero]
      cases Adj.write G.data (compute_diagonal_position G.ptr_groups i) 0 <;> rfl
  · have hns : ¬ (i = j ∧ i ∈ G.ptr_groups.pos_singleton) := fun h => hij h.1
    rw [if_neg hij, if_neg hns]
    by_cases hlt : i < j
    · rw [if_pos hlt, Nat.min_eq_left (by omega), Nat.max_eq_right (by omega)]
      unfold u64
      rw [Nat.mod_eq_of_lt (by omega)]
      cases Adj.write G.data (compute_diagonal_position G.ptr_groups i + (j - i)) 0 <;> rfl
    · rw [if_neg hlt, Nat.min_eq_right (by omega), Nat.max_eq_left (by omega)]
      unfold u64
      rw [Nat.mod_eq_of_lt (by omega)]
      cases Adj.write G.data (compute_diagonal_position G.ptr_groups j + (i - j)) 0 <;> rfl

theorem storedCell_min_max (g : Groups) (i j : Nat) (hi : i < g.n_groups)
    (hj : j < g.n_groups) (hs : ¬ (i = j ∧ i ∈ g.pos_singleton)) :
    StoredCell g (min i j) (max i j) := by
  unfold StoredCell
  rcases Nat.lt_trichotomy i j with h | h | h
  · left
    rw [Nat.min_eq_left (by omega), Nat.max_eq_right (by omega)]
    exact ⟨h, hj⟩
  · subst h
    right
    rw [Nat.min_self, Nat.max_self]
    exact ⟨rfl, hi, fun h => hs ⟨rfl, h⟩⟩
  · left
    rw [Nat.min_eq_right (by omega), Nat.max_eq_left (by omega)]
    exact ⟨h, hi⟩

theorem n_singleton_le (g : Groups) (hg : g.SingletonsOK) : g.n_singleton ≤ g.n_groups := by
  rw [← sumInd_total g hg]
  exact sumInd_le g g.n_groups

theorem triangle_ge (M : Nat) (hM : 3 ≤ M) : M ≤ M * (M - 1) / 2 := by
  obtain ⟨m, rfl⟩ : ∃ m, M = m + 3 := ⟨M - 3, by omega⟩
  rw [Nat.le_div_iff_mul_le (by omega)]
  have : m + 3 - 1 = m + 2 := by omega
  rw [this]
  nlinarith

theorem cellIndex_lt (g : Groups) (hg : g.SingletonsOK)
    (hne : ¬ (g.n_groups = 2 ∧ g.n_singleton = 2)) (r c : Nat) (hst : StoredCell g r c) :
    compute_diagonal_position g r + (c - r) < n_stored g := by
  rcases Nat.eq_zero_or_pos r with hr | hr
  · by_cases h0 : 0 ∈ g.pos_singleton
    · subst hr
      rw [cdp_zero]
      have hS := n_singleton_le g hg
      have hc : 1 ≤ c ∧ c < g.n_groups := by
        rcases hst with ⟨h1, h2⟩ | ⟨h1, _, h3⟩
        · omega
        · exact absurd h0 h3
      unfold n_stored
      rcases Nat.lt_or_ge g.n_groups 3 with h3 | h3
      · have h2 : g.n_groups = 2 := by omega
        rw [h2] at hS hc ⊢
        have : g.n_singleton ≠ 2 := fun h => hne ⟨h2, h⟩
        omega
      · have := triangle_ge g.n_groups h3
        omega
    · rw [encode_eq_trueIndex g hg h0 r c hst]
      exact trueIndex_lt_n_stored g hg r c hst
  · rw [encode_eq_trueIndex_row g hg r c hr hst]
    exact trueIndex_lt_n_stored g hg r c hst

theorem Adj_write_ok (A : List Nat) (k v : Nat) (h : k < A.length) :
    Adj.write A k v = .ok (A.set k v) := by
  unfold Adj.write
  rw [if_pos h]

theorem Adj_read_ok (A : List Nat) (k : Nat) (h : k < A.length) :
    Adj.read A k = .ok (A.get ⟨k, h⟩) := by
  unfold Adj.read
  rw [List.getElem?_eq_getElem h]
  rfl

theorem Adj_read_set_ne (A : List Nat) (k k2 v : Nat) (h : k ≠ k2) :
    Adj.read (A.set k v) k2 = Adj.read A k2 := by
  unfold Adj.read
  rw [List.getElem?_set_ne h]

theorem Adj_read_set_eq (A : List Nat) (k v : Nat) (h : k < A.length) :
    Adj.read (A.set k v) k = .ok v := by
  unfold Adj.read
  rw [List.getElem?_set_self h]

/-- C36: the accesses of the vector-backed graph are inside the stored vector for every
partition but one.  Over the partition `{0}, {1}` into two singletons the validated length
is `1` and the pair `(0,1)` is looked up at `compute_diagonal_position(0) + 1 = 1`: the
link query, `add_link(0,1)` and `remove_link(0,1)` access `data[1]`, past the end, and the
constructor from `[0]` does so in `find_neighbours`.  For every partition with coherent
singleton bookkeeping other than two singleton groups, every graph that holds a vector of
length `M(M-1)/2 + M - S` and all `i, j < M`, the three functions return (all their
accesses are inside the vector). -/
theorem adj_access_two_singletons :
    (partTwoSingletons.Valid ∧
      graphTwoSingletons.data.length = n_stored partTwoSingletons ∧
      graphTwoSingletons.link 0 1 = .error .undefined_behaviour ∧
      graphTwoSingletons.add_link 0 1 = .error .undefined_behaviour ∧
      graphTwoSingletons.remove_link 0 1 = .error .undefined_behaviour ∧
      BlockGraphAdjCRTP.mk_from_adj [0] partTwoSingletons = .error .undefined_behaviour) ∧
    (∀ (G : BlockGraphAdjCRTP), G.ptr_groups.SingletonsOK →
      ¬ (G.ptr_groups.n_groups = 2 ∧ G.ptr_groups.n_singleton = 2) →
      G.data.length = n_stored G.ptr_groups →
      ∀ i j, i < G.ptr_groups.n_groups → j < G.ptr_groups.n_groups →
        (∃ v, G.link i j = .ok v) ∧ (∃ G2, G.add_link i j = .ok G2) ∧
        (∃ G2, G.remove_link i j = .ok G2)) := by
  refine ⟨⟨by decide, by decide, by rfl, by rfl, by rfl, by rfl⟩, ?_⟩
  intro G hg hne hlen i j hi hj
  rw [adj_link_cell G hg i j hi hj, adj_add_link_cell G hg i j hi hj,
    adj_remove_link_cell G hg i j hi hj]
  by_cases hs : i = j ∧ i ∈ G.ptr_groups.pos_singleton
  · rw [if_pos hs, if_pos hs, if_pos hs]
    exact ⟨⟨_, rfl⟩, ⟨_, rfl⟩, ⟨_, rfl⟩⟩
  · rw [if_neg hs, if_neg hs, if_neg hs]
    have hst := storedCell_min_max G.ptr_groups i j hi hj hs
    have hlt := cellIndex_lt G.ptr_groups hg hne _ _ hst
    have hk : cellIndex G.ptr_groups i j < G.data.length := by
      rw [hlen]; exact hlt
    rw [Adj_read_ok _ _ hk, Adj_write_ok _ _ _ hk, Adj_write_ok _ _ _ hk]
    exact ⟨⟨_, rfl⟩, ⟨_, rfl⟩, ⟨_, rfl⟩⟩

theorem cellIndex_injective (g : Groups) (hg : g.SingletonsOK) (h0 : 0 ∉ g.pos_singleton)
    (i j a b : Nat) (hi : i < g.n_groups) (hj : j < g.n_groups) (ha : a < g.n_groups)
    (hb : b < g.n_groups) (hs : ¬ (i = j ∧ i ∈ g.pos_singleton))
    (hs2 : ¬ (a = b ∧ a ∈ g.pos_singleton))
    (he : cellIndex g a b = cellIndex g i j) :
    (a = i ∧ b = j) ∨ (a = j ∧ b = i) := by
  have h1 := storedCell_min_max g i j hi hj hs
  have h2 := storedCell_min_max g a b ha hb hs2
  unfold cellIndex at he
  rw [encode_eq_trueIndex g hg h0 _ _ h1, encode_eq_trueIndex g hg h0 _ _ h2] at he
  obtain ⟨e1, e2⟩ := trueIndex_injective g _ _ _ _ h2 h1 he
  rcases Nat.le_total a b with hab | hab <;> rcases Nat.le_total i j with hij | hij
  · rw [Nat.min_eq_left hab, Nat.min_eq_left hij] at e1
    rw [Nat.max_eq_right hab, Nat.max_eq_right hij] at e2
    exact Or.inl ⟨e1, e2⟩
  · rw [Nat.min_eq_left hab, Nat.min_eq_right hij] at e1
    rw [Nat.max_eq_right hab, Nat.max_eq_left hij] at e2
    exact Or.inr ⟨e1, e2⟩
  · rw [Nat.min_eq_right hab, Nat.min_eq_left hij] at e1
    rw [Nat.max_eq_left hab, Nat.max_eq_right hij] at e2
    exact Or.inr ⟨e2, e1⟩
  · rw [Nat.min_eq_right hab, Nat.min_eq_right hij] at e1
    rw [Nat.max_eq_left hab, Nat.max_eq_left hij] at e2
    exact Or.inl ⟨e2, e1⟩

theorem adj_write_frame (G : BlockGraphAdjCRTP) (hg : G.ptr_groups.SingletonsOK)
    (h0 : 0 ∉ G.ptr_groups.pos_singleton) (hlen : G.data.length = n_stored G.ptr_groups)
    (i j v : Nat) (hi : i < G.ptr_groups.n_groups) (hj : j < G.ptr_groups.n_groups)
    (hs : ¬ (i = j ∧ i ∈ G.ptr_groups.pos_singleton)) :
    ∃ d, Adj.write G.data (cellIndex G.ptr_groups i j) v = .ok d ∧
      d.length = G.data.length ∧
      ({ G with data := d } : BlockGraphAdjCRTP).link i j = .ok v ∧
      ({ G with data := d } : BlockGraphAdjCRTP).link j i = .ok v ∧
      ∀ a b, a < G.ptr_groups.n_groups → b < G.ptr_groups.n_groups →
        ¬ ((a = i ∧ b = j) ∨ (a = j ∧ b = i)) →
        ({ G with data := d } : BlockGraphAdjCRTP).link a b = G.link a b := by
  have hne : ¬ (G.ptr_groups.n_groups = 2 ∧ G.ptr_groups.n_singleton = 2) := by
    intro ⟨h2, hS⟩
    have hsum := sumInd_total G.ptr_groups hg
    rw [h2] at hsum
    have hi0 := ind_eq_zero h0
    have hi1 := ind_le_one G.ptr_groups 1
    simp only [sumInd] at hsum
    omega
  have hst := storedCell_min_max G.ptr_groups i j hi hj hs
  have hlt := cellIndex_lt G.ptr_groups hg hne _ _ hst
  have hk : cellIndex G.ptr_groups i j < G.data.length := by
    rw [hlen]; exact hlt
  refine ⟨_, Adj_write_ok _ _ _ hk, by simp, ?_, ?_, ?_⟩
  · rw [adj_link_cell
      ({ G with data := G.data.set (cellIndex G.ptr_groups i j) v } : BlockGraphAdjCRTP)
      hg i j hi hj, if_neg hs]
    exact Adj_read_set_eq _ _ _ hk
  · have hs' : ¬ (j = i ∧ j ∈ G.ptr_groups.pos_singleton) := by
      intro ⟨e, hm⟩
      exact hs ⟨e.symm, e ▸ hm⟩
    rw [adj_link_cell
      ({ G with data := G.data.set (cellIndex G.ptr_groups i j) v } : BlockGraphAdjCRTP)
      hg j i hj hi, if_neg hs']
    show Adj.read _ (cellIndex G.ptr_groups j i) = _
    rw [cellIndex_comm G.ptr_groups j i]
    exact Adj_read_set_eq _ _ _ hk
  · intro a b ha hb hab
    rw [adj_link_cell
      ({ G with data := G.data.set (cellIndex G.ptr_groups i j) v } : BlockGraphAdjCRTP)
      hg a b ha hb, adj_link_cell G hg a b ha hb]
    by_cases hs2 : a = b ∧ a ∈ G.ptr_groups.pos_singleton
    · rw [if_pos hs2, if_pos hs2]
    · rw [if_neg hs2, if_neg hs2]
      apply Adj_read_set_ne
      intro he
      exact hab (cellIndex_injective G.ptr_groups hg h0 i j a b hi hj ha hb hs hs2 he.symm)

/-- C35: `add_link(i,j)` and `remove_link(i,j)` of the vector-backed graph change another
pair when the first group is a singleton.  On the graph over `{0}, {1,2}` built from
`[0, 0]`, `add_link(0,1)` writes `data[compute_diagonal_position(0) + 1] = data[1]`, the
cell of the pair `(1,1)`: the link `(1,1)` reads `0` before the call and `1` after it, and
the link `(0,1)` itself is looked up in the same cell.  For every partition with coherent
singleton bookkeeping whose group `0` is not a singleton, every graph that holds a vector
of length `M(M-1)/2 + M - S` and all `i, j < M` other than a singleton diagonal, both
functions return, the link of `{i,j}` reads `1` after `add_link` and `0` after
`remove_link`, and the link of every other pair `{a,b}` with `a, b < M` reads the same as
before the call. -/
theorem adj_add_link_first_singleton :
    (partFirstSingleton.Valid ∧
      BlockGraphAdjCRTP.mk_from_adj [0, 0] partFirstSingleton
        = .ok graphFirstSingletonEmpty ∧
      graphFirstSingletonEmpty.link 1 1 = .ok 0 ∧
      ∃ G2, graphFirstSingletonEmpty.add_link 0 1 = .ok G2 ∧ G2.data = [0, 1] ∧
        G2.link 1 1 = .ok 1) ∧
    (∀ (G : BlockGraphAdjCRTP), G.ptr_groups.SingletonsOK →
      0 ∉ G.ptr_groups.pos_singleton →
      G.data.length = n_stored G.ptr_groups →
      ∀ i j, i < G.ptr_groups.n_groups → j < G.ptr_groups.n_groups →
        ¬ (i = j ∧ i ∈ G.ptr_groups.pos_singleton) →
        (∃ G2, G.add_link i j = .ok G2 ∧ G2.link i j = .ok 1 ∧
          ∀ a b, a < G.ptr_groups.n_groups → b < G.ptr_groups.n_groups →
            ¬ ((a = i ∧ b = j) ∨ (a = j ∧ b = i)) → G2.link a b = G.link a b) ∧
        (∃ G2, G.remove_link i j = .ok G2 ∧ G2.link i j = .ok 0 ∧
          ∀ a b, a < G.ptr_groups.n_groups → b < G.ptr_groups.n_groups →
            ¬ ((a = i ∧ b = j) ∨ (a = j ∧ b = i)) → G2.link a b = G.link a b)) := by
  refine ⟨⟨by decide, by rfl, by rfl, ⟨_, rfl, by rfl, by rfl⟩⟩, ?_⟩
  intro G hg h0 hlen i j hi hj hs
  refine ⟨?_, ?_⟩
  · obtain ⟨d, hd, _, h1, _, h2⟩ := adj_write_frame G hg h0 hlen i j 1 hi hj hs
    refine ⟨{ G with data := d }, ?_, h1, h2⟩
    rw [adj_add_link_cell G hg i j hi hj, if_neg hs, hd]
    rfl
  · obtain ⟨d, hd, _, h1, _, h2⟩ := adj_write_frame G hg h0 hlen i j 0 hi hj hs
    refine ⟨{ G with data := d }, ?_, h1, h2⟩
    rw [adj_remove_link_cell G hg i j hi hj, if_neg hs, hd]
    rfl


/-! ## Loops and the links they read -/

theorem foldlM_congr_mem {α β : Type} (f g : β → α → Except Err β) (l : List α)
    (h : ∀ b a, a ∈ l → f b a = g b a) : ∀ b, l.foldlM f b = l.foldlM g b := by
  induction l with
  | nil => intro b; rfl
  | cons a t ih =>
    intro b
    rw [List.foldlM_cons, List.foldlM_cons, h b a (List.mem_cons_self _ _)]
    cases g b a with
    | error e => rfl
    | ok b1 => exact ih (fun b a ha => h b a (List.mem_cons_of_mem _ ha)) b1

theorem foldlM_ok_step {α β : Type} (f : β → α → Except Err β) (l : List α) :
    ∀ b r, l.foldlM f b = .ok r → ∀ x ∈ l, ∃ b1 b2, f b1 x = .ok b2 := by
  induction l with
  | nil => intro b r _ x hx; cases hx
  | cons a t ih =>
    intro b r h x hx
    rw [List.foldlM_cons] at h
    cases hfa : f b a with
    | error e => rw [hfa] at h; cases h
    | ok b1 =>
      rw [hfa] at h
      rcases List.mem_cons.mp hx with rfl | hx2
      · exact ⟨b, b1, hfa⟩
      · exact ih b1 r h x hx2

theorem foldlM_range'_inv {β : Type} (f : β → Nat → Except Err β) (P : Nat → β → Prop) :
    ∀ (m s : Nat),
      (∀ k b, s ≤ k → k < s + m → P k b → ∃ b2, f b k = .ok b2 ∧ P (k + 1) b2) →
      ∀ b, P s b → ∃ b2, (List.range' s m).foldlM f b = .ok b2 ∧ P (s + m) b2 := by
  intro m
  induction m with
  | zero => intro s _ b hb; exact ⟨b, rfl, hb⟩
  | succ m ih =>
    intro s h b hb
    obtain ⟨b1, h1, hP1⟩ := h s b (Nat.le_refl _) (by omega) hb
    obtain ⟨b2, h2, hP2⟩ := ih (s + 1)
      (fun k b hk1 hk2 hP => h k b (by omega) (by omega) hP) b1 hP1
    refine ⟨b2, ?_, ?_⟩
    · rw [List.range'_succ, List.foldlM_cons, h1]
      exact h2
    · rw [show s + (m + 1) = s + 1 + m by omega]
      exact hP2

theorem nbd_of_node_congr (g : Groups) (hv : g.Valid) (l1 l2 : Nat → Nat → Except Err Nat)
    (h : ∀ i j, i < g.n_groups → j < g.n_groups → l1 i j = l2 i j) (u : Nat)
    (hu : u < g.n_elements) : nbd_of_node g l1 u = nbd_of_node g l2 u := by
  obtain ⟨k, hk, hkM⟩ := find_group_idx_ok g hv u hu
  unfold nbd_of_node
  rw [hk]
  simp only [bind, Except.bind]
  apply foldlM_congr_mem
  intro b j hj
  have hj2 : j < g.n_groups := by simpa [get_size] using hj
  rw [h k j hkM hj2]

theorem find_neighbours_loop_congr (g : Groups) (hv : g.Valid)
    (l1 l2 : Nat → Nat → Except Err Nat)
    (h : ∀ i j, i < g.n_groups → j < g.n_groups → l1 i j = l2 i j) (nb : Neighbourhood) :
    find_neighbours_loop g l1 nb = find_neighbours_loop g l2 nb := by
  unfold find_neighbours_loop
  apply foldlM_congr_mem
  intro b u hu
  rw [nbd_of_node_congr g hv l1 l2 h u (by simpa using hu)]

theorem nlinks_nblocks_loop_congr (g : Groups) (l1 l2 : Nat → Nat → Except Err Nat)
    (h : ∀ i j, i < g.n_groups → j < g.n_groups → l1 i j = l2 i j) :
    nlinks_nblocks_loop g l1 = nlinks_nblocks_loop g l2 := by
  unfold nlinks_nblocks_loop
  have e : ∀ acc : Nat × Nat,
      (List.range (get_size g)).foldlM
        (fun acc i =>
          (List.range' i (get_size g - i)).foldlM
            (fun (acc : Nat × Nat) j => do
              let l ← l1 i j
              if l = 1 then
                let n_blocks := u32 (acc.2 + 1)
                if i = j then
                  pure (u32 (acc.1 + g.get_group_size i *
                    u32 (g.get_group_size i + 4294967295) / 2), n_blocks)
                else
                  pure (u32 (acc.1 + u32 (g.get_group_size i * g.get_group_size j)),
                    n_blocks)
              else pure acc)
            acc)
        acc =
      (List.range (get_size g)).foldlM
        (fun acc i =>
          (List.range' i (get_size g - i)).foldlM
            (fun (acc : Nat × Nat) j => do
              let l ← l2 i j
              if l = 1 then
                let n_blocks := u32 (acc.2 + 1)
                if i = j then
                  pure (u32 (acc.1 + g.get_group_size i *
                    u32 (g.get_group_size i + 4294967295) / 2), n_blocks)
                else
                  pure (u32 (acc.1 + u32 (g.get_group_size i * g.get_group_size j)),
                    n_blocks)
              else pure acc)
            acc)
        acc := by
    intro acc
    apply foldlM_congr_mem
    intro acc i hi
    have hi2 : i < g.n_groups := by simpa [get_size] using hi
    apply foldlM_congr_mem
    intro acc j hj
    have hj2 : j < g.n_groups := by
      have := List.mem_range'_1.mp hj
      unfold get_size at this
      omega
    rw [h i j hi2 hj2]
  rw [e]

theorem find_neighbours_loop_links_ok (g : Groups) (hv : g.Valid)
    (link : Nat → Nat → Except Err Nat) (nb nb2 : Neighbourhood)
    (h : find_neighbours_loop g link nb = .ok nb2) :
    ∀ k j, k < g.n_groups → j < g.n_groups → ∃ x, link k j = .ok x := by
  intro k j hk hj
  obtain ⟨u, hu⟩ := List.exists_mem_of_ne_nil _ (hv.2.2.2.2.1 k hk)
  obtain ⟨hun, hmap⟩ := hv.2.2.2.2.2.1 k hk u hu
  unfold find_neighbours_loop at h
  obtain ⟨b1, b2, hstep⟩ := foldlM_ok_step _ _ _ _ h u (by simpa using hun)
  cases hn : nbd_of_node g link u with
  | error e => rw [hn] at hstep; cases hstep
  | ok l =>
    unfold nbd_of_node find_group_idx at hn
    rw [hmap] at hn
    simp only [bind, Except.bind] at hn
    obtain ⟨c1, c2, hstep2⟩ := foldlM_ok_step _ _ _ _ hn j (by simpa [get_size] using hj)
    cases hl : link k j with
    | error e => rw [hl] at hstep2; cases hstep2
    | ok x => exact ⟨x, rfl⟩


/-! ## The matrix filled from a vector -/

theorem cellRead_comm (g : Groups) (A : List Nat) (i j : Nat) :
    cellRead g A i j = cellRead g A j i := by
  unfold cellRead
  rw [cellIndex_comm g i j]
  by_cases h : i = j
  · subst h; rfl
  · have h1 : ¬ (i = j ∧ i ∈ g.pos_singleton) := fun x => h x.1
    have h2 : ¬ (j = i ∧ j ∈ g.pos_singleton) := fun x => h x.1.symm
    rw [if_neg h1, if_neg h2]

theorem adj_link_cellRead (G : BlockGraphAdjCRTP) (hg : G.ptr_groups.SingletonsOK)
    (i j : Nat) (hi : i < G.ptr_groups.n_groups) (hj : j < G.ptr_groups.n_groups) :
    G.link i j = cellRead G.ptr_groups G.data i j := by
  rw [adj_link_cell G hg i j hi hj]
  rfl

theorem fill_body_eq (g : Groups) (hg : g.SingletonsOK) (A : List Nat) (i j : Nat)
    (hij : i ≤ j) (hj : j < g.n_groups) (data : InnerData) :
    (if i = j then
      if i ∉ g.pos_singleton then do
        let v ← Adj.read A (compute_diagonal_position g i)
        data.write i j v
      else data.write i j 1
    else do
      let v ← Adj.read A (u64 (compute_diagonal_position g i + (j - i)))
      data.write i j v)
    = (cellRead g A i j >>= fun v => data.write i j v) := by
  have hci := cdp_small g hg i (by omega)
  unfold cellRead cellIndex
  by_cases h : i = j
  · subst h
    rw [if_pos rfl]
    by_cases hs : i ∈ g.pos_singleton
    · have h1 : (i = i ∧ i ∈ g.pos_singleton) := ⟨rfl, hs⟩
      rw [if_neg (not_not.mpr hs), if_pos h1]
      rfl
    · have h1 : ¬ (i = i ∧ i ∈ g.pos_singleton) := fun x => hs x.2
      rw [if_pos hs, if_neg h1]
      simp only [Nat.min_self, Nat.max_self, Nat.sub_self, Nat.add_zero]
  · have h1 : ¬ (i = j ∧ i ∈ g.pos_singleton) := fun x => h x.1
    rw [if_neg h, if_neg h1, Nat.min_eq_left hij, Nat.max_eq_right hij]
    unfold u64
    rw [Nat.mod_eq_of_lt (by omega)]

theorem fillFromAdj_eq (G : BlockGraphCRTP) (hg : G.ptr_groups.SingletonsOK)
    (A : List Nat) :
    G.fillFromAdj A =
      ((List.range G.ptr_groups.n_groups).foldlM
        (fun data i =>
          (List.range' i (G.ptr_groups.n_groups - i)).foldlM
            (fun (data : InnerData) j =>
              cellRead G.ptr_groups A i j >>= fun v => data.write i j v)
            data)
        (InnerData.Zero G.ptr_groups.n_groups G.ptr_groups.n_groups)
        >>= fun data => pure { G with data := data }) := by
  unfold BlockGraphCRTP.fillFromAdj
  have e : (List.range G.ptr_groups.n_groups).foldlM
      (fun data i =>
        (List.range' i (G.ptr_groups.n_groups - i)).foldlM
          (fun (data : InnerData) j =>
            if i = j then
              if i ∉ G.ptr_groups.pos_singleton then do
                let v ← Adj.read A (compute_diagonal_position G.ptr_groups i)
                data.write i j v
              else data.write i j 1
            else do
              let v ← Adj.read A (u64 (compute_diagonal_position G.ptr_groups i + (j - i)))
              data.write i j v)
          data)
      (InnerData.Zero G.ptr_groups.n_groups G.ptr_groups.n_groups)
      = (List.range G.ptr_groups.n_groups).foldlM
        (fun data i =>
          (List.range' i (G.ptr_groups.n_groups - i)).foldlM
            (fun (data : InnerData) j =>
              cellRead G.ptr_groups A i j >>= fun v => data.write i j v)
            data)
        (InnerData.Zero G.ptr_groups.n_groups G.ptr_groups.n_groups) := by
    apply foldlM_congr_mem
    intro d i _
    apply foldlM_congr_mem
    intro d j hj
    have hj2 := List.mem_range'_1.mp hj
    exact fill_body_eq G.ptr_groups hg A i j (by omega) (by omega) d
  show (_ >>= _) = _
  rw [e]

theorem fillFromAdj_cells_ok (G G1 : BlockGraphCRTP) (hg : G.ptr_groups.SingletonsOK)
    (A : List Nat) (h : G.fillFromAdj A = .ok G1) :
    ∀ i j, i < G.ptr_groups.n_groups → j < G.ptr_groups.n_groups →
      ∃ x, cellRead G.ptr_groups A i j = .ok x := by
  have key : ∀ i j, i ≤ j → j < G.ptr_groups.n_groups →
      ∃ x, cellRead G.ptr_groups A i j = .ok x := by
    intro i j hij hj
    rw [fillFromAdj_eq G hg A] at h
    cases hf : (List.range G.ptr_groups.n_groups).foldlM
        (fun data i =>
          (List.range' i (G.ptr_groups.n_groups - i)).foldlM
            (fun (data : InnerData) j =>
              cellRead G.ptr_groups A i j >>= fun v => data.write i j v)
            data)
        (InnerData.Zero G.ptr_groups.n_groups G.ptr_groups.n_groups) with
    | error e => rw [hf] at h; cases h
    | ok d =>
      obtain ⟨b1, b2, hs1⟩ := foldlM_ok_step _ _ _ _ hf i (by simp; omega)
      obtain ⟨c1, c2, hs2⟩ := foldlM_ok_step _ _ _ _ hs1 j
        (List.mem_range'_1.mpr ⟨hij, by omega⟩)
      cases hc : cellRead G.ptr_groups A i j with
      | error e => rw [hc] at hs2; cases hs2
      | ok x => exact ⟨x, rfl⟩
  intro i j hi hj
  rcases Nat.le_total i j with hij | hij
  · exact key i j hij hj
  · rw [cellRead_comm]
    exact key j i hij hi

theorem InnerData_write_ok (m : InnerData) (i j v : Nat) (hi : i < m.rows)
    (hj : j < m.cols) :
    m.write i j v
      = .ok { m with coeff := fun a b => if a = i ∧ b = j then v else m.coeff a b } := by
  unfold InnerData.write
  rw [if_pos ⟨hi, hj⟩]

theorem fillFromAdj_ok (G : BlockGraphCRTP) (hg : G.ptr_groups.SingletonsOK)
    (A : List Nat) (val : Nat → Nat → Nat)
    (hall : ∀ i j, i ≤ j → j < G.ptr_groups.n_groups →
      cellRead G.ptr_groups A i j = .ok (val i j)) :
    ∃ d : InnerData, G.fillFromAdj A = .ok { G with data := d } ∧
      d.rows = G.ptr_groups.n_groups ∧ d.cols = G.ptr_groups.n_groups ∧
      ∀ i j, i ≤ j → j < G.ptr_groups.n_groups → d.coeff i j = val i j := by
  rw [fillFromAdj_eq G hg A]
  obtain ⟨d, hd, hr, hc, hco⟩ := foldlM_range'_inv
    (fun data i =>
      (List.range' i (G.ptr_groups.n_groups - i)).foldlM
        (fun (data : InnerData) j =>
          cellRead G.ptr_groups A i j >>= fun v => data.write i j v)
        data)
    (fun i (d : InnerData) => d.rows = G.ptr_groups.n_groups ∧
      d.cols = G.ptr_groups.n_groups ∧
      ∀ a b, a < i → a ≤ b → b < G.ptr_groups.n_groups → d.coeff a b = val a b)
    G.ptr_groups.n_groups 0
    (by
      intro i d _ hi ⟨hr, hc, hco⟩
      obtain ⟨d2, hd2, hr2, hc2, hco2, hrow⟩ := foldlM_range'_inv
        (fun (data : InnerData) j =>
          cellRead G.ptr_groups A i j >>= fun v => data.write i j v)
        (fun j (d : InnerData) => d.rows = G.ptr_groups.n_groups ∧
          d.cols = G.ptr_groups.n_groups ∧
          (∀ a b, a < i → a ≤ b → b < G.ptr_groups.n_groups → d.coeff a b = val a b) ∧
          ∀ b, i ≤ b → b < j → d.coeff i b = val i b)
        (G.ptr_groups.n_groups - i) i
        (by
          intro j d hj1 hj2 ⟨hr, hc, hco, hrow⟩
          dsimp only
          rw [hall i j hj1 (by omega)]
          simp only [bind, Except.bind]
          rw [InnerData_write_ok d i j _ (by omega) (by omega)]
          refine ⟨_, rfl, hr, hc, ?_, ?_⟩
          · intro a b ha hab hb
            show (if a = i ∧ b = j then _ else _) = _
            rw [if_neg (by omega)]
            exact hco a b ha hab hb
          · intro b hb1 hb2
            show (if i = i ∧ b = j then _ else _) = _
            by_cases hbj : b = j
            · subst hbj
              rw [if_pos ⟨rfl, rfl⟩]
            · rw [if_neg (fun x => hbj x.2)]
              exact hrow b hb1 (by omega))
        d ⟨hr, hc, hco, fun b hb1 hb2 => absurd hb2 (by omega)⟩
      refine ⟨d2, hd2, hr2, hc2, ?_⟩
      intro a b ha hab hb
      rcases Nat.lt_or_ge a i with hai | hai
      · exact hco2 a b hai hab hb
      · have : a = i := by omega
        subst this
        exact hrow b hab (by omega))
    (InnerData.Zero G.ptr_groups.n_groups G.ptr_groups.n_groups)
    ⟨rfl, rfl, fun a b ha => absurd ha (by omega)⟩
  rw [List.range_eq_range', hd]
  refine ⟨d, rfl, hr, hc, ?_⟩
  intro i j hij hj
  exact hco i j (by omega) hij hj


theorem err_cases (e : Err) (h : e ≠ .runtime_error) : e = .undefined_behaviour := by
  cases e with
  | runtime_error => exact absurd rfl h
  | undefined_behaviour => rfl

theorem adj_mk_unfold (A : List Nat) (Gr : Groups) (hsz : coherent_size Gr = A.length) :
    BlockGraphAdjCRTP.mk_from_adj A Gr =
      (find_neighbours_loop Gr
        (BlockGraphAdjCRTP.link
          { ptr_groups := Gr, n_links := 0, n_blocks := 0, data := A, neighbours := [] }) []
        >>= fun nb =>
          nlinks_nblocks_loop Gr
            (BlockGraphAdjCRTP.link
              { ptr_groups := Gr, n_links := 0, n_blocks := 0, data := A,
                neighbours := [] })
          >>= fun r => pure { ptr_groups := Gr, n_links := r.1, n_blocks := r.2, data := A,
                              neighbours := nb }) := by
  unfold BlockGraphAdjCRTP.mk_from_adj
  rw [if_neg (not_not.mpr hsz)]
  unfold BlockGraphAdjCRTP.find_neighbours BlockGraphAdjCRTP.compute_nlinks_nblocks
  simp only [bind, Except.bind, pure, Except.pure]
  cases find_neighbours_loop Gr
      (BlockGraphAdjCRTP.link
        { ptr_groups := Gr, n_links := 0, n_blocks := 0, data := A, neighbours := [] }) [] with
  | error e => rfl
  | ok nb => rfl

theorem matrix_mk_unfold (A : List Nat) (Gr : Groups) (hsz : coherent_size Gr = A.length)
    (d : InnerData)
    (hfill : (BlockGraphCRTP.init Gr).fillFromAdj A
      = .ok { ptr_groups := Gr, n_links := 0, n_blocks := 0, data := d, neighbours := [] }) :
    BlockGraphCRTP.mk_from_adj A Gr =
      (find_neighbours_loop Gr
        (BlockGraphCRTP.link
          { ptr_groups := Gr, n_links := 0, n_blocks := 0, data := d, neighbours := [] }) []
        >>= fun nb =>
          nlinks_nblocks_loop Gr
            (BlockGraphCRTP.link
              { ptr_groups := Gr, n_links := 0, n_blocks := 0, data := d,
                neighbours := [] })
          >>= fun r => pure { ptr_groups := Gr, n_links := r.1, n_blocks := r.2, data := d,
                              neighbours := nb }) := by
  unfold BlockGraphCRTP.mk_from_adj
  rw [if_neg (not_not.mpr hsz)]
  simp only [bind, Except.bind, hfill]
  unfold BlockGraphCRTP.find_neighbours BlockGraphCRTP.compute_nlinks_nblocks
  simp only [bind, Except.bind, pure, Except.pure]
  cases find_neighbours_loop Gr
      (BlockGraphCRTP.link
        { ptr_groups := Gr, n_links := 0, n_blocks := 0, data := d, neighbours := [] }) [] with
  | error e => rfl
  | ok nb => rfl


theorem mk_from_adj_pair (Gr : Groups) (hv : Gr.Valid) (v : List Nat)
    (hsz : coherent_size Gr = v.length) :
    (∃ Gm Ga, BlockGraphCRTP.mk_from_adj v Gr = .ok Gm ∧
      BlockGraphAdjCRTP.mk_from_adj v Gr = .ok Ga ∧
      (∀ i j, i < Gr.n_groups → j < Gr.n_groups → Gm.link i j = Ga.link i j) ∧
      Gm.neighbours = Ga.neighbours ∧ Gm.n_links = Ga.n_links ∧ Gm.n_blocks = Ga.n_blocks ∧
      ∀ i j, i < Gr.n_groups → j < Gr.n_groups → ∃ x, cellRead Gr v i j = .ok x) ∨
    (BlockGraphCRTP.mk_from_adj v Gr = .error .undefined_behaviour ∧
      BlockGraphAdjCRTP.mk_from_adj v Gr = .error .undefined_behaviour ∧
      ∃ i j, i < Gr.n_groups ∧ j < Gr.n_groups ∧ ∀ x, cellRead Gr v i j ≠ .ok x) := by
  by_cases hall : ∀ i j, i < Gr.n_groups → j < Gr.n_groups → ∃ x, cellRead Gr v i j = .ok x
  · left
    have hval : ∀ i j, i < Gr.n_groups → j < Gr.n_groups →
        cellRead Gr v i j
          = .ok (match cellRead Gr v i j with | .ok x => x | .error _ => 0) := by
      intro i j hi hj
      obtain ⟨x, hx⟩ := hall i j hi hj
      rw [hx]
    obtain ⟨d, hfill, hr, hc, hco⟩ := fillFromAdj_ok (BlockGraphCRTP.init Gr) hv.1 v
      (fun i j => match cellRead Gr v i j with | .ok x => x | .error _ => 0)
      (fun i j hij hj => hval i j (Nat.lt_of_le_of_lt hij hj) hj)
    have hlinks : ∀ i j, i < Gr.n_groups → j < Gr.n_groups →
        BlockGraphCRTP.link
          { ptr_groups := Gr, n_links := 0, n_blocks := 0, data := d, neighbours := [] } i j
        = BlockGraphAdjCRTP.link
          { ptr_groups := Gr, n_links := 0, n_blocks := 0, data := v, neighbours := [] }
          i j := by
      intro i j hi hj
      rw [matrix_link_ok _ Gr.n_groups hr hc i j hi hj,
        adj_link_cellRead
          { ptr_groups := Gr, n_links := 0, n_blocks := 0, data := v, neighbours := [] }
          hv.1 i j hi hj]
      show _ = cellRead Gr v i j
      by_cases hij : i < j
      · rw [if_pos hij, hval i j hi hj]
        congr 1
        exact hco i j (by omega) hj
      · rw [if_neg hij, cellRead_comm, hval j i hj hi]
        congr 1
        exact hco j i (by omega) hi
    have hok : ∀ i j, i < Gr.n_groups → j < Gr.n_groups →
        ∃ x, BlockGraphAdjCRTP.link
          { ptr_groups := Gr, n_links := 0, n_blocks := 0, data := v, neighbours := [] }
          i j = .ok x := by
      intro i j hi hj
      rw [adj_link_cellRead
          { ptr_groups := Gr, n_links := 0, n_blocks := 0, data := v, neighbours := [] }
          hv.1 i j hi hj]
      exact hall i j hi hj
    obtain ⟨nb, hnb⟩ := find_neighbours_loop_ok Gr _ hv hok []
    obtain ⟨r, hr2⟩ := nlinks_nblocks_loop_ok Gr _ hok
    rw [matrix_mk_unfold v Gr hsz d hfill, adj_mk_unfold v Gr hsz,
      find_neighbours_loop_congr Gr hv _ _ hlinks [],
      nlinks_nblocks_loop_congr Gr _ _ hlinks, hnb, hr2]
    exact ⟨_, _, rfl, rfl, hlinks, rfl, rfl, rfl, hall⟩
  · right
    have hex : ∃ i j, i < Gr.n_groups ∧ j < Gr.n_groups ∧
        ∀ x, cellRead Gr v i j ≠ .ok x := by
      by_contra hcon
      apply hall
      intro i j hi hj
      by_contra hn
      exact hcon ⟨i, j, hi, hj, fun x hx => hn ⟨x, hx⟩⟩
    obtain ⟨i, j, hi, hj, hbad⟩ := hex
    have hsize := size_test_throws_iff Gr hv v
    refine ⟨?_, ?_, i, j, hi, hj, hbad⟩
    · cases hM : BlockGraphCRTP.mk_from_adj v Gr with
      | error e =>
        congr 1
        apply err_cases
        intro he
        rw [he] at hM
        exact (hsize.1.mp hM) hsz
      | ok G =>
        exfalso
        unfold BlockGraphCRTP.mk_from_adj at hM
        rw [if_neg (not_not.mpr hsz)] at hM
        cases hf : (BlockGraphCRTP.init Gr).fillFromAdj v with
        | error e =>
          simp only [hf, bind, Except.bind] at hM
          cases hM
        | ok G1 =>
          obtain ⟨x, hx⟩ := fillFromAdj_cells_ok (BlockGraphCRTP.init Gr) G1 hv.1 v hf i j hi hj
          exact hbad x hx
    · cases hA : BlockGraphAdjCRTP.mk_from_adj v Gr with
      | error e =>
        congr 1
        apply err_cases
        intro he
        rw [he] at hA
        exact (hsize.2.1.mp hA) hsz
      | ok G =>
        exfalso
        rw [adj_mk_unfold v Gr hsz] at hA
        cases hl : find_neighbours_loop Gr
            (BlockGraphAdjCRTP.link
              { ptr_groups := Gr, n_links := 0, n_blocks := 0, data := v,
                neighbours := [] }) [] with
        | error e =>
          simp only [hl, bind, Except.bind] at hA
          cases hA
        | ok nb =>
          obtain ⟨x, hx⟩ := find_neighbours_loop_links_ok Gr hv _ _ _ hl i j hi hj
          rw [adj_link_cellRead
            { ptr_groups := Gr, n_links := 0, n_blocks := 0, data := v, neighbours := [] }
            hv.1 i j hi hj] at hx
          exact hbad x hx

/-- C37: over a valid partition, the matrix-backed graph and the vector-backed graph built
from the same vector `v` agree.  The two constructors end in the same way: both throw when
the length of `v` fails the test, both make an invalid access when a pair of groups is
looked up past the end of `v`, and otherwise both return; the two graphs then have the same
`link(i,j)` for all `i, j < M`, the same neighbour map, the same `get_n_links()` and the
same `get_n_block_links()`.  Both return when `v` has the length `M(M-1)/2 + M - S`,
`M <= 65536` and the partition is not the one into two singletons. -/
theorem matrix_and_vector_graphs_agree (Gr : Groups) (hv : Gr.Valid) (v : List Nat) :
    (∀ e, BlockGraphCRTP.mk_from_adj v Gr = .error e ↔
      BlockGraphAdjCRTP.mk_from_adj v Gr = .error e) ∧
    (∀ Gm Ga, BlockGraphCRTP.mk_from_adj v Gr = .ok Gm →
      BlockGraphAdjCRTP.mk_from_adj v Gr = .ok Ga →
      (∀ i j, i < Gr.n_groups → j < Gr.n_groups → Gm.link i j = Ga.link i j) ∧
      Gm.get_neighbours = Ga.get_neighbours ∧ Gm.get_n_links = Ga.get_n_links ∧
      Gm.get_n_block_links = Ga.get_n_block_links) ∧
    (v.length = n_stored Gr → Gr.n_groups ≤ 65536 →
      ¬ (Gr.n_groups = 2 ∧ Gr.n_singleton = 2) →
      ∃ Gm Ga, BlockGraphCRTP.mk_from_adj v Gr = .ok Gm ∧
        BlockGraphAdjCRTP.mk_from_adj v Gr = .ok Ga) := by
  by_cases hsz : coherent_size Gr = v.length
  · rcases mk_from_adj_pair Gr hv v hsz with
      ⟨Gm, Ga, hM, hA, hl, hn, hnl, hnb, _⟩ | ⟨hM, hA, i, j, hi, hj, hbad⟩
    · refine ⟨?_, ?_, ?_⟩
      · intro e
        rw [hM, hA]
        constructor <;> intro h <;> cases h
      · intro Gm2 Ga2 hM2 hA2
        rw [hM] at hM2
        rw [hA] at hA2
        injection hM2 with hM2
        injection hA2 with hA2
        subst hM2; subst hA2
        exact ⟨hl, hn, hnl, hnb⟩
      · intro _ _ _
        exact ⟨Gm, Ga, hM, hA⟩
    · refine ⟨?_, ?_, ?_⟩
      · intro e
        rw [hM, hA]
        constructor <;> (intro h; injection h with h; rw [h])
      · intro Gm2 Ga2 hM2
        rw [hM] at hM2
        cases hM2
      · intro hlen hM65 hne
        exfalso
        have hs : ¬ (i = j ∧ i ∈ Gr.pos_singleton) := by
          intro hs
          apply hbad 1
          unfold cellRead
          rw [if_pos hs]
        have hst := storedCell_min_max Gr i j hi hj hs
        have hlt := cellIndex_lt Gr hv.1 hne _ _ hst
        have hk : cellIndex Gr i j < v.length := by
          rw [hlen]; exact hlt
        apply hbad (v.get ⟨cellIndex Gr i j, hk⟩)
        unfold cellRead
        rw [if_neg hs]
        exact Adj_read_ok _ _ hk
  · have hsize := size_test_throws_iff Gr hv v
    have hM := hsize.1.mpr hsz
    have hA := hsize.2.1.mpr hsz
    refine ⟨?_, ?_, ?_⟩
    · intro e
      rw [hM, hA]
      constructor <;> (intro h; injection h with h; rw [h])
    · intro Gm2 Ga2 hM2
      rw [hM] at hM2
      cases hM2
    · intro hlen hM65 _
      exfalso
      apply hsz
      rw [coherent_size_eq_n_stored Gr hv.1 hM65, hlen]

/-- Witness of C37 on the partition `{0,1}, {2}, {3,4}` and the vector `[1, 0, 1, 1, 0]`. -/
theorem matrix_and_vector_graphs_agree_witness :
    partMidSingleton.Valid ∧
    BlockGraphAdjCRTP.mk_from_adj [1, 0, 1, 1, 0] partMidSingleton = .ok graphMidSingleton ∧
    BlockGraphCRTP.mk_from_adj [1, 0, 1, 1, 0] partMidSingleton
      = .ok matrixGraphMidSingleton ∧
    (∀ i j, i < partMidSingleton.n_groups → j < partMidSingleton.n_groups →
      matrixGraphMidSingleton.link i j = graphMidSingleton.link i j) ∧
    matrixGraphMidSingleton.get_neighbours = graphMidSingleton.get_neighbours ∧
    matrixGraphMidSingleton.get_n_links = graphMidSingleton.get_n_links ∧
    matrixGraphMidSingleton.get_n_block_links = graphMidSingleton.get_n_block_links :=
  ⟨by decide, by rfl, by rfl,
    (matrix_and_vector_graphs_agree partMidSingleton (by decide) [1, 0, 1, 1, 0]).2.1
      matrixGraphMidSingleton graphMidSingleton (by rfl) (by rfl)⟩


/-! ## The empty graph -/

theorem foldlM_cons_ok {α β : Type} (f : β → α → Except Err β) (a : α) (t : List α)
    (b b1 : β) (h : f b a = .ok b1) : (a :: t).foldlM f b = t.foldlM f b1 := by
  rw [List.foldlM_cons, h]
  rfl

theorem singleton_group_size (g : Groups) (hv : g.Valid) (i : Nat) (hi : i < g.n_groups)
    (hs : i ∈ g.pos_singleton) : g.get_group_size i = 1 :=
  (hv.2.2.1 i hi).mp hs

theorem nlinks_empty_row (g : Groups) (hv : g.Valid) (i : Nat) (hi : i < g.n_groups)
    (c : Nat) (hc : c < 4294967295) :
    (List.range' i (get_size g - i)).foldlM
      (fun (acc : Nat × Nat) j => do
        let l ← emptyLink g i j
        if l = 1 then
          let n_blocks := u32 (acc.2 + 1)
          if i = j then
            pure (u32 (acc.1 + g.get_group_size i * u32 (g.get_group_size i + 4294967295) / 2),
              n_blocks)
          else
            pure (u32 (acc.1 + u32 (g.get_group_size i * g.get_group_size j)), n_blocks)
        else pure acc)
      (0, c) = .ok (0, c + ind g i) := by
  have hlen : get_size g - i = (get_size g - i - 1) + 1 := by unfold get_size; omega
  rw [hlen, List.range'_succ]
  have hrest : ∀ s : Nat × Nat,
      (List.range' (i + 1) (get_size g - i - 1)).foldlM
        (fun (acc : Nat × Nat) j => do
          let l ← emptyLink g i j
          if l = 1 then
            let n_blocks := u32 (acc.2 + 1)
            if i = j then
              pure (u32 (acc.1 + g.get_group_size i *
                u32 (g.get_group_size i + 4294967295) / 2), n_blocks)
            else
              pure (u32 (acc.1 + u32 (g.get_group_size i * g.get_group_size j)), n_blocks)
          else pure acc)
        s = .ok s := by
    intro s
    obtain ⟨r, hr, hP⟩ := foldlM_inv
      (fun (acc : Nat × Nat) j => do
          let l ← emptyLink g i j
          if l = 1 then
            let n_blocks := u32 (acc.2 + 1)
            if i = j then
              pure (u32 (acc.1 + g.get_group_size i *
                u32 (g.get_group_size i + 4294967295) / 2), n_blocks)
            else
              pure (u32 (acc.1 + u32 (g.get_group_size i * g.get_group_size j)), n_blocks)
          else pure acc)
      (fun acc => acc = s) (List.range' (i + 1) (get_size g - i - 1))
      (by
        intro b j hb hj
        have hj2 := List.mem_range'_1.mp hj
        have hne : ¬ (i = j ∧ i ∈ g.pos_singleton) := fun h => by omega
        simp only [emptyLink, if_neg hne, bind, Except.bind]
        exact ⟨b, rfl, hb⟩)
      s rfl
    rw [hr, hP]
  have hstep : (fun (acc : Nat × Nat) j => do
        let l ← emptyLink g i j
        if l = 1 then
          let n_blocks := u32 (acc.2 + 1)
          if i = j then
            pure (u32 (acc.1 + g.get_group_size i * u32 (g.get_group_size i + 4294967295) / 2),
              n_blocks)
          else
            pure (u32 (acc.1 + u32 (g.get_group_size i * g.get_group_size j)), n_blocks)
        else pure acc) (0, c) i = .ok (0, c + ind g i) := by
    by_cases hs : i ∈ g.pos_singleton
    · have hsz := singleton_group_size g hv i hi hs
      have h1 : (i = i ∧ i ∈ g.pos_singleton) := ⟨rfl, hs⟩
      have e1 : u32 (0 + 1 * u32 (1 + 4294967295) / 2) = 0 := by decide
      have e2 : u32 (c + 1) = c + 1 := by unfold u32; omega
      simp only [emptyLink, eq_self_iff_true, true_and, hs, if_true, bind, Except.bind, pure,
        Except.pure, hsz, e1, e2, ind_eq_one hs]
    · have h1 : ¬ (i = i ∧ i ∈ g.pos_singleton) := fun h => hs h.2
      simp only [emptyLink, eq_self_iff_true, true_and, hs, if_false, bind, Except.bind,
        pure, Except.pure, ind_eq_zero hs, Nat.add_zero]
      rfl
  rw [foldlM_cons_ok _ _ _ _ _ hstep]
  exact hrest _

theorem nlinks_empty (g : Groups) (hv : g.Valid) :
    nlinks_nblocks_loop g (emptyLink g) = .ok (0, 0) := by
  unfold nlinks_nblocks_loop
  obtain ⟨r, hr, hP⟩ := foldlM_range'_inv
    (fun acc i =>
      (List.range' i (get_size g - i)).foldlM
        (fun (acc : Nat × Nat) j => do
          let l ← emptyLink g i j
          if l = 1 then
            let n_blocks := u32 (acc.2 + 1)
            if i = j then
              pure (u32 (acc.1 + g.get_group_size i * u32 (g.get_group_size i + 4294967295) / 2),
                n_blocks)
            else
              pure (u32 (acc.1 + u32 (g.get_group_size i * g.get_group_size j)), n_blocks)
          else pure acc)
        acc)
    (fun k (acc : Nat × Nat) => acc = (0, sumInd g k)) (get_size g) 0
    (by
      intro k b _ hk hb
      have hk2 : k < g.n_groups := by unfold get_size at hk; omega
      have hle := sumInd_le g k
      have hM := hv.1.1
      dsimp only
      rw [hb, nlinks_empty_row g hv k hk2 (sumInd g k) (by omega)]
      exact ⟨_, rfl, by simp only [sumInd]⟩)
    (0, 0) (by simp [sumInd])
  rw [List.range_eq_range', hr, hP]
  simp only [bind, Except.bind, pure, Except.pure, Nat.zero_add]
  have hS := sumInd_total g hv.1
  have hle := n_singleton_le g hv.1
  have hM := hv.1.1
  unfold get_size
  rw [hS]
  have : u32 (g.n_singleton + 4294967296 - g.n_singleton) = 0 := by
    unfold u32; omega
  rw [this]

theorem nbd_empty (g : Groups) (hv : g.Valid) (nb : Neighbourhood)
    (h : find_neighbours_loop g (emptyLink g) [] = .ok nb) (u : Nat)
    (hu : u < g.n_elements) : nbd_at nb u = .ok [] := by
  obtain ⟨l, gi, hl, hmap, hgi, _, hrange, hmem⟩ := nbd_generic g hv (emptyLink g) nb h u hu
  rw [hl]
  congr 1
  apply List.eq_nil_iff_forall_not_mem.mpr
  intro x hx
  have hxn := hrange x hx
  obtain ⟨hne, gj, hmj, hlink⟩ := (hmem x hxn).mp hx
  unfold emptyLink at hlink
  injection hlink with hlink
  by_cases hc : gi = gj ∧ gi ∈ g.pos_singleton
  · obtain ⟨rfl, hs⟩ := hc
    have hsz := singleton_group_size g hv gi hgi hs
    obtain ⟨k1, _, hk1, hu1⟩ := hv.2.2.2.2.2.2 u hu
    obtain ⟨k2, _, hk2, hx2⟩ := hv.2.2.2.2.2.2 x hxn
    rw [hmap] at hk1
    rw [hmj] at hk2
    injection hk1 with hk1
    injection hk2 with hk2
    subst hk1; subst hk2
    unfold Groups.get_group_size at hsz
    obtain ⟨a, ha⟩ := List.length_eq_one.mp hsz
    rw [ha] at hu1 hx2
    simp only [List.mem_singleton] at hu1 hx2
    exact hne (hx2.trans hu1.symm)
  · rw [if_neg hc] at hlink
    cases hlink

theorem adj_loops_ok (G : BlockGraphAdjCRTP) (hv : G.ptr_groups.Valid)
    (hlink : ∀ i j, i < G.ptr_groups.n_groups → j < G.ptr_groups.n_groups →
      ∃ v, G.link i j = .ok v) :
    ∃ G2, (G.find_neighbours >>= fun G1 => G1.compute_nlinks_nblocks) = .ok G2 := by
  obtain ⟨nb, hnb⟩ := find_neighbours_loop_ok G.ptr_groups G.link hv hlink G.neighbours
  have h1 : G.find_neighbours = .ok { G with neighbours := nb } := by
    unfold BlockGraphAdjCRTP.find_neighbours
    rw [hnb]
    rfl
  obtain ⟨⟨nl, nbl⟩, hr2⟩ := nlinks_nblocks_loop_ok G.ptr_groups
    ({ G with neighbours := nb } : BlockGraphAdjCRTP).link hlink
  refine ⟨{ G with neighbours := nb, n_links := nl, n_blocks := nbl }, ?_⟩
  rw [h1]
  show BlockGraphAdjCRTP.compute_nlinks_nblocks { G with neighbours := nb } = _
  unfold BlockGraphAdjCRTP.compute_nlinks_nblocks
  rw [hr2]
  rfl

theorem empty_caches (g : Groups) (hv : g.Valid) (link : Nat → Nat → Except Err Nat)
    (hl : ∀ i j, i < g.n_groups → j < g.n_groups → link i j = emptyLink g i j)
    (nb : Neighbourhood) (nl nbl : Nat)
    (h1 : find_neighbours_loop g link [] = .ok nb)
    (h2 : nlinks_nblocks_loop g link = .ok (nl, nbl)) :
    nl = 0 ∧ nbl = 0 ∧ ∀ u, u < g.n_elements → nbd_at nb u = .ok [] := by
  rw [find_neighbours_loop_congr g hv link (emptyLink g) hl] at h1
  rw [nlinks_nblocks_loop_congr g link (emptyLink g) hl, nlinks_empty g hv] at h2
  injection h2 with h2
  injection h2 with e1 e2
  exact ⟨e1.symm, e2.symm, nbd_empty g hv nb h1⟩


theorem matrix_set_empty_graph_spec (G : BlockGraphCRTP) (hv : G.ptr_groups.Valid) :
    ∃ G2, G.set_empty_graph = .ok G2 ∧ G2.ptr_groups = G.ptr_groups ∧
      (∀ i j, i < G.ptr_groups.n_groups → j < G.ptr_groups.n_groups →
        ¬ (i = j ∧ i ∈ G.ptr_groups.pos_singleton) → G2.link i j = .ok 0) ∧
      G2.get_n_links = 0 ∧ G2.get_n_block_links = 0 ∧
      ∀ u, u < G.ptr_groups.n_elements → G2.completeview.get_nbd_at u = .ok [] := by
  obtain ⟨d, hd, hr, hc, hco⟩ := write_singletons_ok G.ptr_groups.n_groups
    G.ptr_groups.pos_singleton hv.1.2.2.1
    (InnerData.Zero G.ptr_groups.n_groups G.ptr_groups.n_groups) rfl rfl
  obtain ⟨G2, h2, hp, hdat⟩ := matrix_loops_ok
    ({ G with data := d, neighbours := [] } : BlockGraphCRTP) hv hr hc
  obtain ⟨_, _, hf1, hf2⟩ := matrix_loops_fresh
    ({ G with data := d, neighbours := [] } : BlockGraphCRTP) G2 rfl h2
  have hp2 : G2.ptr_groups = G.ptr_groups := hp
  have hd2 : G2.data = d := hdat
  have hl : ∀ i j, i < G.ptr_groups.n_groups → j < G.ptr_groups.n_groups →
      G2.link i j = emptyLink G.ptr_groups i j := by
    intro i j hi hj
    rw [matrix_link_ok G2 G.ptr_groups.n_groups (by rw [hd2]; exact hr)
      (by rw [hd2]; exact hc) i j hi hj, hd2]
    unfold emptyLink
    congr 1
    by_cases hij : i < j
    · rw [if_pos hij, hco i j]
      have h1 : ¬ (i = j ∧ i ∈ G.ptr_groups.pos_singleton) := fun h => by omega
      rw [if_neg h1, if_neg h1]
      rfl
    · rw [if_neg hij, hco j i]
      by_cases h1 : i = j ∧ i ∈ G.ptr_groups.pos_singleton
      · obtain ⟨rfl, hs⟩ := h1
        rw [if_pos ⟨rfl, hs⟩, if_pos ⟨rfl, hs⟩]
      · have h2 : ¬ (j = i ∧ j ∈ G.ptr_groups.pos_singleton) := by
          intro ⟨e, hs⟩
          exact h1 ⟨e.symm, e ▸ hs⟩
        rw [if_neg h1, if_neg h2]
        rfl
  rw [hp2] at hf1 hf2
  obtain ⟨e1, e2, e3⟩ := empty_caches G.ptr_groups hv G2.link hl _ _ _ hf1 hf2
  refine ⟨G2, ?_, hp2, ?_, e1, e2, e3⟩
  · unfold BlockGraphCRTP.set_empty_graph
    unfold get_size
    simp only [bind, Except.bind, hd]
    exact h2
  · intro i j hi hj hs
    rw [hl i j hi hj]
    unfold emptyLink
    rw [if_neg hs]

theorem adj_set_empty_graph_spec (G : BlockGraphAdjCRTP) (hv : G.ptr_groups.Valid)
    (hM : G.ptr_groups.n_groups ≤ 65536)
    (hne : ¬ (G.ptr_groups.n_groups = 2 ∧ G.ptr_groups.n_singleton = 2)) :
    ∃ G2, G.set_empty_graph = .ok G2 ∧ G2.ptr_groups = G.ptr_groups ∧
      (∀ i j, i < G.ptr_groups.n_groups → j < G.ptr_groups.n_groups →
        ¬ (i = j ∧ i ∈ G.ptr_groups.pos_singleton) → G2.link i j = .ok 0) ∧
      G2.get_n_links = 0 ∧ G2.get_n_block_links = 0 ∧
      ∀ u, u < G.ptr_groups.n_elements → G2.completeview.get_nbd_at u = .ok [] := by
  have hsz : coherent_size G.ptr_groups
      = (List.replicate (n_stored G.ptr_groups) 0).length := by
    rw [coherent_size_eq_n_stored G.ptr_groups hv.1 hM, List.length_replicate]
  have hlink : ∀ (H : BlockGraphAdjCRTP), H.ptr_groups = G.ptr_groups →
      H.data = List.replicate (n_stored G.ptr_groups) 0 →
      ∀ i j, i < G.ptr_groups.n_groups → j < G.ptr_groups.n_groups →
        H.link i j = emptyLink G.ptr_groups i j := by
    intro H hH hD i j hi hj
    rw [adj_link_cell H (by rw [hH]; exact hv.1) i j (by rw [hH]; exact hi)
      (by rw [hH]; exact hj), hH, hD]
    unfold emptyLink
    by_cases hs : i = j ∧ i ∈ G.ptr_groups.pos_singleton
    · rw [if_pos hs, if_pos hs]
    · rw [if_neg hs, if_neg hs]
      have hst := storedCell_min_max G.ptr_groups i j hi hj hs
      have hlt := cellIndex_lt G.ptr_groups hv.1 hne _ _ hst
      have hk : cellIndex G.ptr_groups i j
          < (List.replicate (n_stored G.ptr_groups) 0).length := by
        rw [List.length_replicate]; exact hlt
      rw [Adj_read_ok _ _ hk]
      congr 1
      simp
  obtain ⟨G2, h2⟩ := adj_loops_ok
    ({ G with data := List.replicate (n_stored G.ptr_groups) 0,
              neighbours := [] } : BlockGraphAdjCRTP) hv
    (fun i j hi hj => ⟨_, hlink
      ({ G with data := List.replicate (n_stored G.ptr_groups) 0,
                neighbours := [] } : BlockGraphAdjCRTP) rfl rfl i j hi hj⟩)
  obtain ⟨hp, hdat, hf1, hf2⟩ := adj_loops_fresh
    ({ G with data := List.replicate (n_stored G.ptr_groups) 0,
              neighbours := [] } : BlockGraphAdjCRTP) G2 rfl h2
  have hp2 : G2.ptr_groups = G.ptr_groups := hp
  have hl := hlink G2 hp2 hdat
  rw [hp2] at hf1 hf2
  obtain ⟨e1, e2, e3⟩ := empty_caches G.ptr_groups hv G2.link hl _ _ _ hf1 hf2
  refine ⟨G2, ?_, hp2, ?_, e1, e2, e3⟩
  · unfold BlockGraphAdjCRTP.set_empty_graph BlockGraphAdjCRTP.set_graph
    rw [if_neg (not_not.mpr hsz)]
    exact h2
  · intro i j hi hj hs
    rw [hl i j hi hj]
    unfold emptyLink
    rw [if_neg hs]

theorem adj_set_graph_error (G : BlockGraphAdjCRTP) (A : List Nat) (e : Err)
    (h : BlockGraphAdjCRTP.mk_from_adj A G.ptr_groups = .error e) :
    G.set_graph A = .error e := by
  unfold BlockGraphAdjCRTP.mk_from_adj at h
  unfold BlockGraphAdjCRTP.set_graph
  by_cases hsz : coherent_size G.ptr_groups ≠ A.length
  · rw [if_pos hsz] at h ⊢
    exact h
  · rw [if_neg hsz] at h ⊢
    unfold BlockGraphAdjCRTP.find_neighbours BlockGraphAdjCRTP.compute_nlinks_nblocks at h ⊢
    simp only [bind, Except.bind, pure, Except.pure] at h ⊢
    have e1 : BlockGraphAdjCRTP.link
        { ptr_groups := G.ptr_groups, n_links := G.n_links, n_blocks := G.n_blocks,
          data := A, neighbours := [] }
        = BlockGraphAdjCRTP.link
        { ptr_groups := G.ptr_groups, n_links := 0, n_blocks := 0, data := A,
          neighbours := [] } := rfl
    rw [e1]
    cases hl : find_neighbours_loop G.ptr_groups
        (BlockGraphAdjCRTP.link
          { ptr_groups := G.ptr_groups, n_links := 0, n_blocks := 0, data := A,
            neighbours := [] }) [] with
    | error e2 =>
      rw [hl] at h
      exact h
    | ok nb =>
      rw [hl] at h
      dsimp only at h ⊢
      have e2 : BlockGraphAdjCRTP.link
          { ptr_groups := G.ptr_groups, n_links := G.n_links, n_blocks := G.n_blocks,
            data := A, neighbours := nb }
          = BlockGraphAdjCRTP.link
          { ptr_groups := G.ptr_groups, n_links := 0, n_blocks := 0, data := A,
            neighbours := nb } := rfl
      rw [e2]
      cases hn : nlinks_nblocks_loop G.ptr_groups
          (BlockGraphAdjCRTP.link
            { ptr_groups := G.ptr_groups, n_links := 0, n_blocks := 0, data := A,
              neighbours := nb }) with
      | error e3 =>
        rw [hn] at h
        exact h
      | ok r =>
        rw [hn] at h
        cases h

theorem two_singletons_empty_fails (G : BlockGraphAdjCRTP)
    (hG : G.ptr_groups = partTwoSingletons) :
    G.set_empty_graph = .error .undefined_behaviour := by
  unfold BlockGraphAdjCRTP.set_empty_graph
  apply adj_set_graph_error
  rw [hG]
  rfl

/-- C34: `set_empty_graph()` gives the empty graph for every partition but one.  For the
partition `{0}, {1}` into two singletons the vector-backed `set_empty_graph()` does not
return: `find_neighbours` looks the pair `(0,1)` up at `data[1]` in the vector of length
`1`.  For every valid partition the matrix-backed `set_empty_graph()` returns, and so does
the vector-backed one when `M <= 65536` and the partition is not the one into two
singletons; after the call every link between distinct groups and every diagonal link of a
group that is not a singleton reads `0`, `get_n_links()` and `get_n_block_links()` are `0`,
and the neighbour list of every node is empty. -/
theorem set_empty_graph_two_singletons :
    (partTwoSingletons.Valid ∧
      ∀ G : BlockGraphAdjCRTP, G.ptr_groups = partTwoSingletons →
        G.set_empty_graph = .error .undefined_behaviour) ∧
    (∀ G : BlockGraphCRTP, G.ptr_groups.Valid →
      ∃ G2, G.set_empty_graph = .ok G2 ∧ G2.ptr_groups = G.ptr_groups ∧
        (∀ i j, i < G.ptr_groups.n_groups → j < G.ptr_groups.n_groups →
          ¬ (i = j ∧ i ∈ G.ptr_groups.pos_singleton) → G2.link i j = .ok 0) ∧
        G2.get_n_links = 0 ∧ G2.get_n_block_links = 0 ∧
        ∀ u, u < G.ptr_groups.n_elements → G2.completeview.get_nbd_at u = .ok []) ∧
    (∀ G : BlockGraphAdjCRTP, G.ptr_groups.Valid → G.ptr_groups.n_groups ≤ 65536 →
      ¬ (G.ptr_groups.n_groups = 2 ∧ G.ptr_groups.n_singleton = 2) →
      ∃ G2, G.set_empty_graph = .ok G2 ∧ G2.ptr_groups = G.ptr_groups ∧
        (∀ i j, i < G.ptr_groups.n_groups → j < G.ptr_groups.n_groups →
          ¬ (i = j ∧ i ∈ G.ptr_groups.pos_singleton) → G2.link i j = .ok 0) ∧
        G2.get_n_links = 0 ∧ G2.get_n_block_links = 0 ∧
        ∀ u, u < G.ptr_groups.n_elements → G2.completeview.get_nbd_at u = .ok []) := by
  exact ⟨⟨by decide, two_singletons_empty_fails⟩, matrix_set_empty_graph_spec,
    adj_set_empty_graph_spec⟩

namespace utils

/-! ## The structure check -/

theorem check_structure_row_cons {R : Type} [LinearOrderedField R]
    (G : Nat → Nat → Except Err Nat) (data : MatD R) (threshold : R) (i j : Nat)
    (js : List Nat) :
    check_structure_row G data threshold i (j :: js) = .ok true ↔
      (∃ v, G i j = .ok v ∧
        (v = 0 → ∃ d, data.read i j = .ok d ∧ |d| ≤ threshold) ∧
        (v = 1 → ∃ d, data.read i j = .ok d ∧ threshold ≤ |d|)) ∧
      check_structure_row G data threshold i js = .ok true := by
  unfold check_structure_row
  cases hg : G i j with
  | error e =>
    simp only [bind, Except.bind]
    constructor
    · intro h; cases h
    · intro ⟨⟨v, hv, _⟩, _⟩; cases hv
  | ok v =>
    simp only [bind, Except.bind]
    by_cases h0 : v = 0
    · subst h0
      rw [if_pos rfl]
      cases hd : data.read i j with
      | error e =>
        simp only []
        constructor
        · intro h; cases h
        · intro ⟨⟨v, hv, h0, _⟩, _⟩
          injection hv with hv
          obtain ⟨d, hd2, _⟩ := h0 hv.symm
          cases hd2
      | ok d =>
        simp only []
        by_cases hc : |d| > threshold
        · rw [if_pos hc]
          constructor
          · intro h; cases h
          · intro ⟨⟨v, hv, h0, _⟩, _⟩
            injection hv with hv
            obtain ⟨d2, hd2, hle⟩ := h0 hv.symm
            injection hd2 with hd2
            rw [← hd2] at hle
            exact absurd hle (not_le.mpr hc)
        · rw [if_neg hc]
          constructor
          · intro h
            refine ⟨⟨0, rfl, fun _ => ⟨d, rfl, not_lt.mp hc⟩, fun h1 => absurd h1 (by omega)⟩, ?_⟩
            unfold check_structure_row at h
            exact h
          · intro ⟨_, h⟩
            unfold check_structure_row
            exact h
    · rw [if_neg h0]
      by_cases h1 : v = 1
      · subst h1
        rw [if_pos rfl]
        cases hd : data.read i j with
        | error e =>
          simp only []
          constructor
          · intro h; cases h
          · intro ⟨⟨v, hv, _, h1⟩, _⟩
            injection hv with hv
            obtain ⟨d, hd2, _⟩ := h1 hv.symm
            cases hd2
        | ok d =>
          simp only []
          by_cases hc : |d| < threshold
          · rw [if_pos hc]
            constructor
            · intro h; cases h
            · intro ⟨⟨v, hv, _, h1⟩, _⟩
              injection hv with hv
              obtain ⟨d2, hd2, hle⟩ := h1 hv.symm
              injection hd2 with hd2
              rw [← hd2] at hle
              exact absurd hle (not_le.mpr hc)
          · rw [if_neg hc]
            constructor
            · intro h
              refine ⟨⟨1, rfl, fun h1 => absurd h1 (by omega), fun _ => ⟨d, rfl, not_lt.mp hc⟩⟩, ?_⟩
              unfold check_structure_row at h
              exact h
            · intro ⟨_, h⟩
              unfold check_structure_row
              exact h
      · rw [if_neg h1]
        constructor
        · intro h
          refine ⟨⟨v, rfl, fun h => absurd h h0, fun h => absurd h h1⟩, ?_⟩
          unfold check_structure_row at h
          exact h
        · intro ⟨_, h⟩
          unfold check_structure_row
          exact h

theorem check_structure_row_true {R : Type} [LinearOrderedField R]
    (G : Nat → Nat → Except Err Nat) (data : MatD R) (threshold : R) (i : Nat) :
    ∀ js : List Nat,
      check_structure_row G data threshold i js = .ok true ↔
        ∀ j ∈ js, ∃ v, G i j = .ok v ∧
          (v = 0 → ∃ d, data.read i j = .ok d ∧ |d| ≤ threshold) ∧
          (v = 1 → ∃ d, data.read i j = .ok d ∧ threshold ≤ |d|) := by
  intro js
  induction js with
  | nil => simp [check_structure_row]
  | cons j js ih =>
    rw [List.forall_mem_cons, ← ih]
    exact check_structure_row_cons G data threshold i j js

theorem check_structure_rows_true {R : Type} [LinearOrderedField R]
    (G : Nat → Nat → Except Err Nat) (data : MatD R) (threshold : R) :
    ∀ is : List Nat,
      check_structure_rows G data threshold is = .ok true ↔
        ∀ i ∈ is, check_structure_row G data threshold i
          (List.range' (i + 1) (data.cols - (i + 1))) = .ok true := by
  intro is
  induction is with
  | nil => simp [check_structure_rows]
  | cons i is ih =>
    rw [List.forall_mem_cons, ← ih]
    cases hr : check_structure_row G data threshold i
        (List.range' (i + 1) (data.cols - (i + 1))) with
    | error e =>
      constructor
      · intro h
        unfold check_structure_rows at h
        rw [hr] at h
        cases h
      · intro ⟨h, _⟩; cases h
    | ok r =>
      cases r with
      | true =>
        constructor
        · intro h
          unfold check_structure_rows at h
          rw [hr] at h
          exact ⟨rfl, h⟩
        · intro ⟨_, h⟩
          unfold check_structure_rows
          rw [hr]
          exact h
      | false =>
        constructor
        · intro h
          unfold check_structure_rows at h
          rw [hr] at h
          cases h
        · intro ⟨h, _⟩; cases h

theorem check_structure_spec {R : Type} [LinearOrderedField R]
    (G : Nat → Nat → Except Err Nat) (data : MatD R) (threshold : R) (N : Nat)
    (hN : 1 ≤ N) (hN2 : N ≤ 9223372036854775807) (hr : data.rows = N) (hc : data.cols = N) :
    check_structure G data threshold = .ok true ↔
      ∀ i j, 1 ≤ i → i < j → j < N → ∃ v, G i j = .ok v ∧
        (v = 0 → |data.coeff i j| ≤ threshold) ∧
        (v = 1 → threshold ≤ |data.coeff i j|) := by
  unfold check_structure
  have hb : u64 (data.rows + 18446744073709551615) - 1 = N - 2 := by
    unfold u64; rw [hr]; omega
  rw [hb, check_structure_rows_true]
  constructor
  · intro h i j hi hij hj
    have h1 := h i (List.mem_range'_1.mpr ⟨hi, by omega⟩)
    rw [check_structure_row_true] at h1
    obtain ⟨v, hv, h0, h1'⟩ := h1 j (List.mem_range'_1.mpr ⟨by omega, by rw [hc]; omega⟩)
    have hread : data.read i j = .ok (data.coeff i j) := by
      unfold MatD.read
      rw [if_pos ⟨by omega, by omega⟩]
    refine ⟨v, hv, ?_, ?_⟩
    · intro hv0
      obtain ⟨d, hd, hle⟩ := h0 hv0
      rw [hread] at hd
      injection hd with hd
      rw [hd]; exact hle
    · intro hv1
      obtain ⟨d, hd, hle⟩ := h1' hv1
      rw [hread] at hd
      injection hd with hd
      rw [hd]; exact hle
  · intro h i hi
    have hi2 := List.mem_range'_1.mp hi
    rw [check_structure_row_true]
    intro j hj
    have hj2 := List.mem_range'_1.mp hj
    rw [hc] at hj2
    obtain ⟨v, hv, h0, h1⟩ := h i j hi2.1 (by omega) (by omega)
    have hread : data.read i j = .ok (data.coeff i j) := by
      unfold MatD.read
      rw [if_pos ⟨by omega, by omega⟩]
    exact ⟨v, hv, fun hv0 => ⟨_, hread, h0 hv0⟩, fun hv1 => ⟨_, hread, h1 hv1⟩⟩

/-- C39: `check_structure` does not look at the row `0`.  Its outer loop starts at `i = 1`,
so for an `N × N` matrix it returns `true` if and only if the pattern agrees with the graph
on the pairs `1 <= i < j < N`: `G(i,j) = 0` implies `|data(i,j)| <= t` and `G(i,j) = 1`
implies `|data(i,j)| >= t`.  With the empty graph and threshold `1/2`, the `2 × 2` matrix
with `data(0,1) = 1` and the `3 × 3` matrix with `data(0,1) = data(0,2) = 1` are accepted,
although the pair `(0,1)` has no link and an entry larger than the threshold. -/
theorem check_structure_skips_row_zero :
    (check_structure (fun _ _ => .ok 0) matUpperOneRat (1 / 2) = .ok true ∧
      check_structure (fun _ _ => .ok 0) matFirstRowRat (1 / 2) = .ok true ∧
      (1 / 2 : Rat) < |matUpperOneRat.coeff 0 1| ∧
      (1 / 2 : Rat) < |matFirstRowRat.coeff 0 1|) ∧
    (∀ (R : Type) [LinearOrderedField R] (G : Nat → Nat → Except Err Nat) (data : MatD R)
      (threshold : R) (N : Nat), 1 ≤ N → N ≤ 9223372036854775807 → data.rows = N →
      data.cols = N →
      (check_structure G data threshold = .ok true ↔
        ∀ i j, 1 ≤ i → i < j → j < N → ∃ v, G i j = .ok v ∧
          (v = 0 → |data.coeff i j| ≤ threshold) ∧
          (v = 1 → threshold ≤ |data.coeff i j|))) := by
  refine ⟨⟨?_, ?_, ?_, ?_⟩, ?_⟩
  · rw [check_structure_spec _ _ _ 2 (by omega) (by omega) rfl rfl]
    intro i j hi hij hj
    omega
  · rw [check_structure_spec _ _ _ 3 (by omega) (by omega) rfl rfl]
    intro i j hi hij hj
    refine ⟨0, rfl, fun _ => ?_, fun h => absurd h (by omega)⟩
    have : matFirstRowRat.coeff i j = 0 := by
      unfold matFirstRowRat
      simp only []
      rw [if_neg (by omega)]
    rw [this]
    norm_num
  · have : matUpperOneRat.coeff 0 1 = 1 := rfl
    rw [this]; norm_num
  · have : matFirstRowRat.coeff 0 1 = 1 := rfl
    rw [this]; norm_num
  · intro R _ G data threshold N h1 h2 hr hc
    exact check_structure_spec G data threshold N h1 h2 hr hc

end utils

namespace utils

/-! ## The enumeration of all graphs -/

theorem build_adjs_spec :
    ∀ (k fuel : Nat) (all_G : List (List Nat)) (g : List Nat) (n_el : Nat),
      g.length + k = n_el → k < fuel →
      build_adjs fuel all_G g n_el = some (all_G ++ (boolVectors k).map (fun t => g ++ t)) := by
  intro k
  induction k with
  | zero =>
    intro fuel all_G g n_el hlen hf
    obtain ⟨f, rfl⟩ : ∃ f, fuel = f + 1 := ⟨fuel - 1, by omega⟩
    unfold build_adjs
    rw [if_pos (by omega)]
    simp [boolVectors]
  | succ k ih =>
    intro fuel all_G g n_el hlen hf
    obtain ⟨f, rfl⟩ : ∃ f, fuel = f + 1 := ⟨fuel - 1, by omega⟩
    unfold build_adjs
    rw [if_neg (by omega)]
    rw [ih f all_G (g ++ [1]) n_el (by rw [List.length_append]; simp; omega) (by omega)]
    simp only []
    rw [ih f _ (g ++ [0]) n_el (by rw [List.length_append]; simp; omega) (by omega)]
    simp [boolVectors, List.map_append, List.map_map, Function.comp_def]

theorem boolVectors_length : ∀ k, (boolVectors k).length = 2 ^ k
  | 0 => rfl
  | k + 1 => by
    simp only [boolVectors, List.length_append, List.length_map, boolVectors_length k]
    rw [Nat.pow_succ]
    omega

theorem mem_boolVectors : ∀ (k : Nat) (t : List Nat),
    t ∈ boolVectors k ↔ t.length = k ∧ ∀ x ∈ t, x = 0 ∨ x = 1
  | 0, t => by
    simp only [boolVectors, List.mem_singleton]
    constructor
    · intro h; subst h; simp
    · intro ⟨h, _⟩; exact List.eq_nil_of_length_eq_zero h
  | k + 1, t => by
    simp only [boolVectors, List.mem_append, List.mem_map]
    constructor
    · rintro (⟨s, hs, rfl⟩ | ⟨s, hs, rfl⟩)
      · obtain ⟨h1, h2⟩ := (mem_boolVectors k s).mp hs
        refine ⟨by simp [h1], ?_⟩
        intro x hx
        rcases List.mem_cons.mp hx with rfl | hx
        · exact Or.inr rfl
        · exact h2 x hx
      · obtain ⟨h1, h2⟩ := (mem_boolVectors k s).mp hs
        refine ⟨by simp [h1], ?_⟩
        intro x hx
        rcases List.mem_cons.mp hx with rfl | hx
        · exact Or.inl rfl
        · exact h2 x hx
    · intro ⟨h1, h2⟩
      cases t with
      | nil => simp at h1
      | cons a s =>
        have hs : s ∈ boolVectors k :=
          (mem_boolVectors k s).mpr
            ⟨by simpa using h1, fun x hx => h2 x (List.mem_cons_of_mem _ hx)⟩
        rcases h2 a (List.mem_cons_self _ _) with rfl | rfl
        · exact Or.inr ⟨s, hs, rfl⟩
        · exact Or.inl ⟨s, hs, rfl⟩

theorem boolVectors_nodup : ∀ k, (boolVectors k).Nodup
  | 0 => by simp [boolVectors]
  | k + 1 => by
    have ih := boolVectors_nodup k
    simp only [boolVectors]
    rw [List.nodup_append]
    refine ⟨?_, ?_, ?_⟩
    · exact ih.map (fun a b h => by injection h)
    · exact ih.map (fun a b h => by injection h)
    · intro t h1 h2
      obtain ⟨s1, _, rfl⟩ := List.mem_map.mp h1
      obtain ⟨s2, _, h⟩ := List.mem_map.mp h2
      injection h with h _
      omega

theorem mapM_ok_length {α β : Type} (f : α → Except Err β) :
    ∀ l : List α, (∀ a ∈ l, ∃ b, f a = .ok b) →
      ∃ bs, l.mapM f = .ok bs ∧ bs.length = l.length := by
  intro l
  induction l with
  | nil => intro _; exact ⟨[], rfl, rfl⟩
  | cons a t ih =>
    intro h
    obtain ⟨b, hb⟩ := h a (List.mem_cons_self _ _)
    obtain ⟨bs, hbs, hlen⟩ := ih (fun x hx => h x (List.mem_cons_of_mem _ hx))
    refine ⟨b :: bs, ?_, by simp [hlen]⟩
    rw [List.mapM_cons, hb, hbs]
    rfl

theorem complete_n_el (p : Nat) (h1 : 1 ≤ p) (h2 : p ≤ 65536) :
    u32 (u32 (p * p) + 4294967296 - p) / 2 = p * (p - 1) / 2 := by
  have e : p * (p - 1) = p * p - p := by
    rw [Nat.mul_sub, Nat.mul_one]
  have hge : p ≤ p * p := Nat.le_mul_of_pos_left p h1
  rw [e]
  unfold u32
  rcases Nat.lt_or_ge p 65536 with h | h
  · have hX : p * p ≤ 65535 * 65535 := Nat.mul_le_mul (by omega) (by omega)
    generalize p * p = X at hX hge ⊢
    omega
  · have : p = 65536 := by omega
    subst this
    norm_num

/-- C33: started with an empty prefix and a recursion bound larger than `n_el`,
`build_adjs` returns, and `all_G` then holds exactly `2^n_el` vectors, each of length
`n_el`, without repetition: a vector is in `all_G` if and only if it has length `n_el` and
entries `0` or `1`.  For a complete graph type and `1 <= p <= 65536` (where `p*p - p` does
not wrap in `unsigned int`), `list_all_graphs(p)` returns `2^(p(p-1)/2)` graphs, whenever
the constructor of the graph type returns for every vector of length `p(p-1)/2`; for
`p = 0` without groups it throws. -/
theorem build_adjs_enumerates (n_el fuel : Nat) (hf : n_el < fuel) :
    (∃ all_G, build_adjs fuel [] [] n_el = some all_G ∧ all_G.length = 2 ^ n_el ∧
      (∀ g ∈ all_G, g.length = n_el) ∧ all_G.Nodup ∧
      ∀ g : List Nat, g ∈ all_G ↔ g.length = n_el ∧ ∀ x ∈ g, x = 0 ∨ x = 1) ∧
    (∀ (Γ : Type) (mk_complete : List Nat → Except Err Γ)
      (mk_block : List Nat → Groups → Except Err Γ) (p : Nat) (ptr_groups : Option Groups),
      1 ≤ p → p ≤ 65536 → p * (p - 1) / 2 = n_el →
      (∀ g : List Nat, g.length = n_el → ∃ G, mk_complete g = .ok G) →
      ∃ Gs, list_all_graphs .Complete mk_complete mk_block fuel p ptr_groups
          = some (.ok Gs) ∧
        Gs.length = 2 ^ (p * (p - 1) / 2)) ∧
    (∀ (Γ : Type) (kind : GraphKind) (mk_complete : List Nat → Except Err Γ)
      (mk_block : List Nat → Groups → Except Err Γ),
      list_all_graphs kind mk_complete mk_block fuel 0 none
        = some (.error .runtime_error)) := by
  have hb := build_adjs_spec n_el fuel [] [] n_el (by simp) hf
  have hmap : (boolVectors n_el).map (fun t => ([] : List Nat) ++ t) = boolVectors n_el := by
    simp
  rw [List.nil_append, hmap] at hb
  refine ⟨⟨boolVectors n_el, hb, boolVectors_length n_el, ?_, boolVectors_nodup n_el,
    mem_boolVectors n_el⟩, ?_, fun Γ kind mk_complete mk_block => rfl⟩
  · intro g hg
    exact ((mem_boolVectors n_el g).mp hg).1
  · intro Γ mk_complete mk_block p ptr_groups h1 h2 hp hmk
    obtain ⟨Gs, hGs, hlen⟩ := mapM_ok_length mk_complete (boolVectors n_el)
      (fun g hg => hmk g ((mem_boolVectors n_el g).mp hg).1)
    refine ⟨Gs, ?_, by rw [hlen, boolVectors_length, hp]⟩
    unfold list_all_graphs
    rw [if_neg (by omega)]
    simp only []
    rw [complete_n_el p h1 h2, hp, hb]
    simp only [Option.map_some']
    rw [hGs]

/-- Witness of C33 for `n_el = 1` and `p = 2`, with the identity as constructor. -/
theorem build_adjs_enumerates_witness :
    1 < 2 ∧
    (∃ all_G, build_adjs 2 [] [] 1 = some all_G ∧ all_G.length = 2 ^ 1 ∧
      (∀ g ∈ all_G, g.length = 1) ∧ all_G.Nodup ∧
      ∀ g : List Nat, g ∈ all_G ↔ g.length = 1 ∧ ∀ x ∈ g, x = 0 ∨ x = 1) ∧
    ∃ Gs, list_all_graphs .Complete (fun g => .ok g) (fun g _ => .ok g) 2 2 none
        = some (.ok Gs) ∧
      Gs.length = 2 ^ (2 * (2 - 1) / 2) :=
  ⟨by decide, (build_adjs_enumerates 1 2 (by decide)).1,
    (build_adjs_enumerates 1 2 (by decide)).2.1 (List Nat) (fun g => .ok g) (fun g _ => .ok g)
      2 none (by decide) (by decide) (by decide) (fun g _ => ⟨g, rfl⟩)⟩

end utils
namespace utils

/-! ## Log-sum-exp -/

theorem foldl_add_map (f : Real → Real) (v : List Real) :
    ∀ a : Real, v.foldl (fun res x => res + f x) a = a + (v.map f).sum := by
  induction v with
  | nil => intro a; simp
  | cons x t ih =>
    intro a
    rw [List.foldl_cons, ih, List.map_cons, List.sum_cons]
    ring

theorem sum_exp_pos : ∀ v : List Real, v ≠ [] → 0 < (v.map Real.exp).sum
  | [], h => absurd rfl h
  | [x], _ => by simp [Real.exp_pos]
  | x :: y :: t, _ => by
    have ih := sum_exp_pos (y :: t) (by simp)
    rw [List.map_cons, List.sum_cons]
    have := Real.exp_pos x
    linarith

theorem sum_exp_shift (m : Real) (v : List Real) :
    (v.map (fun x => Real.exp (x - m))).sum = Real.exp (-m) * (v.map Real.exp).sum := by
  induction v with
  | nil => simp
  | cons x t ih =>
    rw [List.map_cons, List.sum_cons, ih, List.map_cons, List.sum_cons, mul_add,
      ← Real.exp_add]
    congr 2
    ring

theorem max_element_some {R : Type} (lt : R → R → Bool) (v : List R) (hv : v ≠ []) :
    ∃ m, max_element lt v = some m := by
  cases v with
  | nil => exact absurd rfl hv
  | cons x t => exact ⟨_, rfl⟩

theorem log1p_exp (a b : Real) :
    a + Real.log (1 + Real.exp (b - a)) = Real.log (Real.exp a + Real.exp b) := by
  have h1 : 0 < 1 + Real.exp (b - a) := by
    have := Real.exp_pos (b - a)
    linarith
  have h2 : Real.exp a + Real.exp b = Real.exp a * (1 + Real.exp (b - a)) := by
    rw [mul_add, mul_one, ← Real.exp_add]
    congr 2
    ring
  rw [h2, Real.log_mul (Real.exp_pos a).ne' h1.ne', Real.log_exp]

/-- C32: in exact real arithmetic, with `gsl_sf_log_1plusx(x) = log(1 + x)`: for every
non-empty vector `v`, `logSumExp(v)` returns `log(Σ_i exp(v_i))`, and for all `x`, `y`,
`logSumExp(x, y)` is `log(exp(x) + exp(y))` and equals `logSumExp(y, x)`. -/
theorem logSumExp_exact (v : List Real) (hv : v ≠ []) (x y : Real) :
    logSumExp realLogSumExpOps v = .ok (Real.log (v.map Real.exp).sum) ∧
    logSumExp2 realLogSumExpOps x y = Real.log (Real.exp x + Real.exp y) ∧
    logSumExp2 realLogSumExpOps x y = logSumExp2 realLogSumExpOps y x := by
  have h2 : ∀ a b : Real,
      logSumExp2 realLogSumExpOps a b = Real.log (Real.exp a + Real.exp b) := by
    intro a b
    unfold logSumExp2 realLogSumExpOps
    simp only []
    split
    · rw [log1p_exp, add_comm]
    · rw [log1p_exp]
  refine ⟨?_, h2 x y, ?_⟩
  · obtain ⟨m, hm⟩ := max_element_some realLogSumExpOps.lt v hv
    unfold logSumExp
    rw [hm]
    simp only [realLogSumExpOps]
    congr 1
    rw [foldl_add_map (fun x => Real.exp (x - m)) v 0, zero_add, sum_exp_shift,
      Real.log_mul (Real.exp_pos _).ne' (sum_exp_pos v hv).ne', Real.log_exp]
    ring
  · rw [h2 x y, h2 y x, add_comm]

/-- Witness of C32 for the vector `[0, 1]` and the pair `(0, 1)`. -/
theorem logSumExp_exact_witness :
    ([0, 1] : List Real) ≠ [] ∧
    logSumExp realLogSumExpOps [0, 1] = .ok (Real.log (([0, 1] : List Real).map Real.exp).sum) ∧
    logSumExp2 realLogSumExpOps 0 1 = Real.log (Real.exp 0 + Real.exp 1) ∧
    logSumExp2 realLogSumExpOps 0 1 = logSumExp2 realLogSumExpOps 1 0 :=
  ⟨by simp, logSumExp_exact [0, 1] (by simp) 0 1⟩

end utils

namespace utils

/-! ## The free elements of the Monte Carlo branch -/

theorem free_elements_row (nu : List Nat) (k : Nat) (hk : k < 4294967295) :
    ∀ (d : Nat) (l : List Nat) (acc : List FreeElement) (t pos : Nat),
      l.length = d + 1 → nu[pos]? = some k → t + d = k →
      l.foldlM (fun st _ => free_elements_step nu st) (acc, t, pos)
        = .ok (acc ++ (if t = 0 then FreeElement.chisq k else FreeElement.normal)
            :: List.replicate d FreeElement.normal, 0, pos + 1) := by
  intro d
  induction d with
  | zero =>
    intro l acc t pos hl hpos ht
    obtain ⟨a, rfl⟩ := List.length_eq_one.mp hl
    have htk : t = k := by omega
    have hstep : (fun (st : List FreeElement × Nat × Nat) (_ : Nat) =>
        free_elements_step nu st) (acc, t, pos) a
        = .ok (acc ++ [if t = 0 then FreeElement.chisq k else FreeElement.normal], 0,
            pos + 1) := by
      show free_elements_step nu (acc, t, pos) = _
      unfold free_elements_step
      dsimp only
      rw [hpos]
      dsimp only
      rw [if_pos htk]
    rw [foldlM_cons_ok _ _ _ _ _ hstep]
    rfl
  | succ d ih =>
    intro l acc t pos hl hpos ht
    cases l with
    | nil => simp at hl
    | cons a l2 =>
      have hl2 : l2.length = d + 1 := by simpa using hl
      have hne : t ≠ k := by omega
      have hu : u32 (t + 1) = t + 1 := by unfold u32; omega
      have hstep : (fun (st : List FreeElement × Nat × Nat) (_ : Nat) =>
          free_elements_step nu st) (acc, t, pos) a
          = .ok (acc ++ [if t = 0 then FreeElement.chisq k else FreeElement.normal], t + 1,
              pos) := by
        show free_elements_step nu (acc, t, pos) = _
        unfold free_elements_step
        dsimp only
        rw [hpos]
        dsimp only
        rw [if_neg hne, hu]
      rw [foldlM_cons_ok _ _ _ _ _ hstep, ih l2 _ (t + 1) pos hl2 hpos (by omega),
        if_neg (show ¬ (t + 1 = 0) by omega)]
      simp [List.replicate_succ]

theorem free_elements_rows (nu : List Nat) :
    ∀ (rest pre : List Nat) (acc : List FreeElement) (l : List Nat),
      nu = pre ++ rest → l.length = rest.sum + rest.length →
      (∀ k ∈ rest, k < 4294967295) →
      l.foldlM (fun st _ => free_elements_step nu st) (acc, 0, pre.length)
        = .ok (acc ++ freeLayout rest, 0, nu.length) := by
  intro rest
  induction rest with
  | nil =>
    intro pre acc l hnu hl _
    have : l = [] := List.eq_nil_of_length_eq_zero (by simpa using hl)
    subst this
    rw [hnu]
    simp [freeLayout, pure, Except.pure]
  | cons k rest ih =>
    intro pre acc l hnu hl hb
    have hk := hb k (List.mem_cons_self _ _)
    have hsplit : l = l.take (k + 1) ++ l.drop (k + 1) := (List.take_append_drop _ _).symm
    have hlen : l.length = (k + 1) + (rest.sum + rest.length) := by
      rw [hl]; simp only [List.sum_cons, List.length_cons]; omega
    have ht : (l.take (k + 1)).length = k + 1 := by
      rw [List.length_take]; omega
    have hd : (l.drop (k + 1)).length = rest.sum + rest.length := by
      rw [List.length_drop]; omega
    have hpos : nu[pre.length]? = some k := by
      rw [hnu, List.getElem?_append_right (Nat.le_refl _), Nat.sub_self]
      simp
    rw [hsplit, List.foldlM_append,
      free_elements_row nu k hk k (l.take (k + 1)) acc 0 pre.length ht hpos (by omega)]
    simp only [bind, Except.bind, if_true]
    have hnu2 : nu = (pre ++ [k]) ++ rest := by rw [hnu]; simp
    have := ih (pre ++ [k]) (acc ++ FreeElement.chisq k :: List.replicate k FreeElement.normal)
      (l.drop (k + 1)) hnu2 hd (fun x hx => hb x (List.mem_cons_of_mem _ hx))
    rw [List.length_append, List.length_singleton] at this
    rw [this]
    simp [freeLayout, List.flatMap_cons]

theorem free_elements_fill_spec (nu : List Nat) (hb : ∀ k ∈ nu, k < 4294967295) :
    free_elements_fill nu (nu.sum + nu.length) = .ok (freeLayout nu) := by
  unfold free_elements_fill
  have h := free_elements_rows nu nu [] [] (List.range (nu.sum + nu.length)) (by simp)
    (by simp) hb
  simp only [List.length_nil, List.nil_append] at h
  rw [h]
  rfl

theorem countP_eq_sum_ite (p : Nat → Bool) (l : List Nat) :
    l.countP p = (l.map (fun j => if p j then 1 else 0)).sum := by
  induction l with
  | nil => rfl
  | cons a t ih =>
    rw [List.countP_cons, ih, List.map_cons, List.sum_cons]
    split <;> omega

theorem nuCount_eq_sum (n : Nat) (cv : Nat → Nat → Except Err Nat) (i : Nat) :
    nuCount n cv i = ∑ j ∈ Finset.range n, if i < j ∧ cv i j = .ok 1 then 1 else 0 := by
  unfold nuCount
  rw [countP_eq_sum_ite, list_sum_range'_ite]
  apply Finset.sum_congr rfl
  intro j _
  by_cases h1 : i + 1 ≤ j
  · have h1' : i < j := by omega
    by_cases h2 : cv i j = .ok 1
    · simp [h1, h1', h2]
    · simp [h1, h1', h2]
  · have h1' : ¬ i < j := by omega
    simp [h1, h1']

theorem nuCount_sum (n : Nat) (cv : Nat → Nat → Except Err Nat) :
    ((List.range n).map (nuCount n cv)).sum = linkedPairs n cv := by
  rw [list_sum_range_eq, linkedPairs_eq_sum]
  apply Finset.sum_congr rfl
  intro i _
  exact nuCount_eq_sum n cv i


theorem countP_gt_eq_nuCount (n i : Nat) (cv : Nat → Nat → Except Err Nat) (l : List Nat)
    (hs : l.Pairwise (· < ·)) (hr : ∀ x ∈ l, x < n)
    (hm : ∀ j, j < n → (j ∈ l ↔ j ≠ i ∧ cv i j = .ok 1)) :
    l.countP (fun idx => decide (idx > i)) = nuCount n cv i := by
  unfold nuCount
  rw [List.countP_eq_length_filter, List.countP_eq_length_filter]
  apply List.Perm.length_eq
  rw [List.perm_ext_iff_of_nodup ((hs.imp (fun h => Nat.ne_of_lt h)).filter _)
    ((List.nodup_range' _ _).filter _)]
  intro x
  simp only [List.mem_filter, List.mem_range'_1, decide_eq_true_eq]
  constructor
  · intro ⟨hx, hgt⟩
    have hxn := hr x hx
    exact ⟨⟨by omega, by omega⟩, ((hm x hxn).mp hx).2⟩
  · intro ⟨⟨h1, h2⟩, hc⟩
    have hxn : x < n := by omega
    exact ⟨(hm x hxn).mpr ⟨by omega, hc⟩, by omega⟩

theorem mapM_ok_map {α β : Type} (f : α → Except Err β) (h : α → β) :
    ∀ l : List α, (∀ a ∈ l, f a = .ok (h a)) → l.mapM f = .ok (l.map h) := by
  intro l
  induction l with
  | nil => intro _; rfl
  | cons a t ih =>
    intro hl
    rw [List.mapM_cons, hl a (List.mem_cons_self _ _),
      ih (fun x hx => hl x (List.mem_cons_of_mem _ hx))]
    rfl

theorem compute_nu_spec (V : GraphView) (n : Nat) (cv : Nat → Nat → Except Err Nat)
    (hnbd : ∀ i, i < n → ∃ l, V.get_nbd_at i = .ok l ∧ l.Pairwise (· < ·) ∧
      (∀ x ∈ l, x < n) ∧ ∀ j, j < n → (j ∈ l ↔ j ≠ i ∧ cv i j = .ok 1)) :
    compute_nu V n = .ok ((List.range n).map (nuCount n cv)) := by
  unfold compute_nu
  apply mapM_ok_map
  intro i hi
  obtain ⟨l, hl, hs, hr, hm⟩ := hnbd i (by simpa using hi)
  rw [hl]
  simp only [bind, Except.bind, pure, Except.pure]
  congr 1
  exact countP_gt_eq_nuCount n i cv l hs hr hm

theorem nuCount_le (n : Nat) (cv : Nat → Nat → Except Err Nat) (i : Nat) :
    nuCount n cv i ≤ n - (i + 1) := by
  unfold nuCount
  have := List.countP_le_length (fun j => decide (cv i j = .ok 1))
    (l := List.range' (i + 1) (n - (i + 1)))
  simpa using this

/-! ## The reads of the completion step -/

theorem read_free_element_ok {α : Type} (fe : List α) (N i j : Nat)
    (st : Nat × List (Nat × Nat × α)) (hi : i < N) (hj : j < N) (hp : st.1 < fe.length) :
    ∃ cells, read_free_element fe N i j st = .ok (st.1 + 1, cells) := by
  unfold read_free_element
  rw [if_pos ⟨hi, hj⟩, List.getElem?_eq_getElem hp]
  exact ⟨_, rfl⟩

theorem complete_psi_fold {α : Type} (cv : Nat → Nat → Except Err Nat) (fe : List α)
    (N i : Nat) (on_true : Bool) (hi : i < N) :
    ∀ (js : List Nat) (st : Nat × List (Nat × Nat × α)),
      (∀ j ∈ js, j < N ∧ (cv i j = .ok 0 ∨ cv i j = .ok 1)) →
      st.1 + js.countP (fun j => decide (cv i j = .ok 1)) ≤ fe.length →
      ∃ cells, js.foldlM
        (fun st j => do
          let g ← cv i j
          if (if on_true then g = 1 else g ≠ 0) then read_free_element fe N i j st
          else pure st)
        st = .ok (st.1 + js.countP (fun j => decide (cv i j = .ok 1)), cells) := by
  intro js
  induction js with
  | nil => intro st _ _; exact ⟨st.2, rfl⟩
  | cons j js ih =>
    intro st hjs hlen
    obtain ⟨hjN, hb⟩ := hjs j (List.mem_cons_self _ _)
    have hrest := fun x hx => hjs x (List.mem_cons_of_mem _ hx)
    rw [List.countP_cons] at hlen ⊢
    rcases hb with h0 | h1
    · have hc : decide (cv i j = .ok 1) = false := by rw [h0]; decide
      rw [hc] at hlen ⊢
      have hstep : (fun (st : Nat × List (Nat × Nat × α)) j => do
            let g ← cv i j
            if (if on_true then g = 1 else g ≠ 0) then read_free_element fe N i j st
            else pure st) st j = .ok st := by
        dsimp only
        rw [h0]
        cases on_true <;> simp [bind, Except.bind, pure, Except.pure]
      rw [foldlM_cons_ok _ _ _ _ _ hstep]
      obtain ⟨cells, hcells⟩ := ih st hrest (by simpa using hlen)
      exact ⟨cells, by simpa using hcells⟩
    · have hc : decide (cv i j = .ok 1) = true := by rw [h1]; decide
      rw [hc] at hlen ⊢
      simp only [if_true] at hlen ⊢
      obtain ⟨c1, hc1⟩ := read_free_element_ok fe N i j st hi hjN (by omega)
      have hstep : (fun (st : Nat × List (Nat × Nat × α)) j => do
            let g ← cv i j
            if (if on_true then g = 1 else g ≠ 0) then read_free_element fe N i j st
            else pure st) st j = .ok (st.1 + 1, c1) := by
        dsimp only
        rw [h1]
        cases on_true <;> simp [bind, Except.bind, hc1]
      rw [foldlM_cons_ok _ _ _ _ _ hstep]
      obtain ⟨cells, hcells⟩ := ih (st.1 + 1, c1) hrest (by simp only []; omega)
      refine ⟨cells, ?_⟩
      rw [hcells]
      simp only []
      congr 2
      omega

theorem complete_psi_row_spec {α : Type} (cv : Nat → Nat → Except Err Nat) (fe : List α)
    (N i : Nat) (on_true : Bool) (hi : i < N)
    (hb : ∀ j, j < N → cv i j = .ok 0 ∨ cv i j = .ok 1)
    (st : Nat × List (Nat × Nat × α)) (hlen : st.1 + nuCount N cv i ≤ fe.length) :
    ∃ cells, complete_psi_row cv fe N i (i + 1) on_true st
      = .ok (st.1 + nuCount N cv i, cells) := by
  unfold complete_psi_row
  exact complete_psi_fold cv fe N i on_true hi _ st
    (fun j hj => by
      have := List.mem_range'_1.mp hj
      exact ⟨by omega, hb j (by omega)⟩)
    hlen

theorem complete_psi_row_diag {α : Type} (cv : Nat → Nat → Except Err Nat) (fe : List α)
    (N i : Nat) (hi : i < N) (hd : cv i i = .ok 1)
    (hb : ∀ j, j < N → cv i j = .ok 0 ∨ cv i j = .ok 1)
    (st : Nat × List (Nat × Nat × α)) (hlen : st.1 + 1 + nuCount N cv i ≤ fe.length) :
    ∃ cells, complete_psi_row cv fe N i i false st
      = .ok (st.1 + 1 + nuCount N cv i, cells) := by
  unfold complete_psi_row
  have hl : List.range' i (N - i) = i :: List.range' (i + 1) (N - (i + 1)) := by
    rw [show N - i = (N - (i + 1)) + 1 by omega, List.range'_succ]
  have hcount : (List.range' i (N - i)).countP (fun j => decide (cv i j = .ok 1))
      = 1 + nuCount N cv i := by
    rw [hl, List.countP_cons, hd]
    unfold nuCount
    simp
    omega
  obtain ⟨cells, hcells⟩ := complete_psi_fold cv fe N i false hi (List.range' i (N - i)) st
    (fun j hj => by
      have := List.mem_range'_1.mp hj
      exact ⟨by omega, hb j (by omega)⟩)
    (by rw [hcount]; omega)
  refine ⟨cells, ?_⟩
  rw [hcells, hcount]
  congr 2
  omega


theorem nuSum_succ (N : Nat) (cv : Nat → Nat → Except Err Nat) (k : Nat) :
    ((List.range (k + 1)).map (nuCount N cv)).sum
      = ((List.range k).map (nuCount N cv)).sum + nuCount N cv k := by
  rw [List.range_succ, List.map_append, List.sum_append]
  simp

theorem nuSum_mono (N : Nat) (cv : Nat → Nat → Except Err Nat) (a : Nat) :
    ∀ d, ((List.range a).map (nuCount N cv)).sum
      ≤ ((List.range (a + d)).map (nuCount N cv)).sum
  | 0 => Nat.le_refl _
  | d + 1 => by
    have := nuSum_mono N cv a d
    rw [← Nat.add_assoc, nuSum_succ]
    omega

theorem ok_bind {α β : Type} (a : α) (f : α → Except Err β) :
    (Except.ok a >>= f) = f a := rfl

theorem complete_psi_reads_spec {α : Type} (cv : Nat → Nat → Except Err Nat) (fe : List α)
    (N : Nat) (H_isIdentity : Bool) (hN : 3 ≤ N) (hN32 : N ≤ 4294967295)
    (hd : ∀ i, i < N → cv i i = .ok 1)
    (hb : ∀ i j, i < N → j < N → cv i j = .ok 0 ∨ cv i j = .ok 1)
    (hlen : N - 1 + ((List.range (N - 1)).map (nuCount N cv)).sum ≤ fe.length) :
    ∃ cells, complete_psi_reads cv N H_isIdentity fe
      = .ok (N - 1 + ((List.range (N - 1)).map (nuCount N cv)).sum, cells) := by
  have hS : ∀ i, i ≤ N - 1 →
      i + ((List.range i).map (nuCount N cv)).sum ≤ fe.length := by
    intro i hi
    have := nuSum_mono N cv i (N - 1 - i)
    rw [show i + (N - 1 - i) = N - 1 by omega] at this
    omega
  have hS1 := hS 1 (by omega)
  have hS2 := hS 2 (by omega)
  rw [nuSum_succ] at hS2
  have hS1' := hS1
  rw [nuSum_succ] at hS1 hS2
  simp only [List.range_zero, List.map_nil, List.sum_nil, Nat.zero_add] at hS1 hS2
  unfold complete_psi_reads
  obtain ⟨c1, h1⟩ := read_free_element_ok fe N 0 0 (0, []) (by omega) (by omega)
    (by simp only []; omega)
  obtain ⟨c2, h2⟩ := complete_psi_row_spec cv fe N 0 H_isIdentity (by omega)
    (fun j hj => hb 0 j (by omega) hj) (0 + 1, c1) (by simp only []; omega)
  obtain ⟨c3, h3⟩ := read_free_element_ok fe N 1 1 (0 + 1 + nuCount N cv 0, c2) (by omega)
    (by omega) (by simp only []; omega)
  obtain ⟨c4, h4⟩ := complete_psi_row_spec cv fe N 1 false (by omega)
    (fun j hj => hb 1 j (by omega) hj) (0 + 1 + nuCount N cv 0 + 1, c3)
    (by simp only []; omega)
  dsimp only at h1 h2 h3 h4
  rw [h1, ok_bind, h2, ok_bind, h3, ok_bind, h4, ok_bind]
  have hu : u32 (N + 4294967295) - 2 = N - 3 := by unfold u32; omega
  rw [hu]
  obtain ⟨st, hst, hP⟩ := foldlM_range'_inv
    (fun (st : Nat × List (Nat × Nat × α)) i =>
      if H_isIdentity then complete_psi_row cv fe N i i false st
      else do
        let st ← read_free_element fe N i i st
        complete_psi_row cv fe N i (i + 1) false st)
    (fun i (st : Nat × List (Nat × Nat × α)) =>
      st.1 = i + ((List.range i).map (nuCount N cv)).sum)
    (N - 3) 2
    (by
      intro i st hi1 hi2 hP
      have hbound := hS (i + 1) (by omega)
      rw [nuSum_succ] at hbound
      cases H_isIdentity with
      | true =>
        obtain ⟨c, hc⟩ := complete_psi_row_diag cv fe N i (by omega) (hd i (by omega))
          (fun j hj => hb i j (by omega) hj) st (by omega)
        refine ⟨(st.1 + 1 + nuCount N cv i, c), by simpa using hc, ?_⟩
        dsimp only
        rw [nuSum_succ]
        omega
      | false =>
        obtain ⟨c5, h5⟩ := read_free_element_ok fe N i i st (by omega) (by omega) (by omega)
        obtain ⟨c6, h6⟩ := complete_psi_row_spec cv fe N i false (by omega)
          (fun j hj => hb i j (by omega) hj) (st.1 + 1, c5) (by simp only []; omega)
        refine ⟨(st.1 + 1 + nuCount N cv i, c6), ?_, ?_⟩
        · dsimp only at h6 ⊢
          rw [if_neg (by simp), h5, ok_bind, h6]
        · dsimp only
          rw [nuSum_succ]
          omega)
    (0 + 1 + nuCount N cv 0 + 1 + nuCount N cv 1, c4)
    (by
      dsimp only
      rw [nuSum_succ, nuSum_succ]
      simp only [List.range_zero, List.map_nil, List.sum_nil]
      omega)
  rw [show 2 + (N - 3) = N - 1 by omega] at hP
  rw [hst]
  refine ⟨st.2, ?_⟩
  rw [← hP]

theorem freeLayout_length (nu : List Nat) : (freeLayout nu).length = nu.sum + nu.length := by
  unfold freeLayout
  induction nu with
  | nil => rfl
  | cons k t ih =>
    rw [List.flatMap_cons, List.length_append, ih]
    simp
    omega

theorem free_elements_core (V : GraphView) (n : Nat) (cv : Nat → Nat → Except Err Nat)
    (hn : n ≤ 92681) (hsize : V.get_size = n)
    (hnbd : ∀ i, i < n → ∃ l, V.get_nbd_at i = .ok l ∧ l.Pairwise (· < ·) ∧
      (∀ x ∈ l, x < n) ∧ ∀ j, j < n → (j ∈ l ↔ j ≠ i ∧ cv i j = .ok 1))
    (hnl : V.get_n_links = linkedPairs n cv)
    (hd : ∀ i, i < n → cv i i = .ok 1)
    (hb : ∀ i j, i < n → j < n → cv i j = .ok 0 ∨ cv i j = .ok 1) :
    FreeElementsOK V n cv := by
  have hsum : ((List.range n).map (nuCount n cv)).sum = V.get_n_links := by
    rw [hnl]; exact nuCount_sum n cv
  have hle := linkedPairs_le n cv
  have hX : n * (n - 1) ≤ 92681 * 92680 := Nat.mul_le_mul hn (by omega)
  have hhalf : n * (n - 1) / 2 ≤ 4294837540 := by omega
  have hu : u32 (V.get_n_links + V.get_size) = V.get_n_links + n := by
    rw [hsize, hnl]
    unfold u32
    omega
  refine ⟨(List.range n).map (nuCount n cv), ?_, by simp, hsum, ?_, ?_, ?_, ?_⟩
  · rw [hsize]
    exact compute_nu_spec V n cv hnbd
  · intro i hi
    simp [hi]
  · rw [hu, ← hsum]
    have := free_elements_fill_spec ((List.range n).map (nuCount n cv))
      (by
        intro k hk
        obtain ⟨i, _, rfl⟩ := List.mem_map.mp hk
        have := nuCount_le n cv i
        omega)
    simpa using this
  · rw [freeLayout_length, hsum, hsize]
    simp
  · intro h0 hmax H_isIdentity fe hfe
    rw [hu] at hfe
    have hn3 : 3 ≤ n := by
      rw [hnl] at h0 hmax
      rcases Nat.lt_or_ge n 3 with h | h
      · exfalso
        interval_cases n
        · simp at hle; omega
        · simp at hle; omega
        · simp at hle hmax; omega
      · exact h
    have hlast : nuCount n cv (n - 1) = 0 := by
      have := nuCount_le n cv (n - 1)
      omega
    have hS : ((List.range (n - 1)).map (nuCount n cv)).sum = V.get_n_links := by
      have := nuSum_succ n cv (n - 1)
      rw [show n - 1 + 1 = n by omega, hsum, hlast] at this
      omega
    obtain ⟨cells, hc⟩ := complete_psi_reads_spec cv fe n H_isIdentity hn3 (by omega) hd hb
      (by rw [hS, hfe]; omega)
    refine ⟨cells, ?_⟩
    rw [hsize, hc, hS]
    congr 2
    omega


theorem view_link_diag_adj (G : BlockGraphAdjCRTP) (i : Nat) :
    G.completeview.link i i = .ok 1 := by
  unfold CompleteViewAdjCRTP.link
  rw [if_pos rfl]

theorem view_link_diag_matrix (G : BlockGraphCRTP) (i : Nat) :
    G.completeview.link i i = .ok 1 := by
  unfold CompleteViewCRTP.link
  rw [if_pos rfl]

theorem small_graph_bound (n : Nat) (hn : n ≤ 92681) : n * (n - 1) / 2 < 4294967296 := by
  have hX : n * (n - 1) ≤ 92681 * 92680 := Nat.mul_le_mul hn (by omega)
  omega

theorem free_elements_adj (G : BlockGraphAdjCRTP) (hv : G.ptr_groups.Valid)
    (hf : G.CachesFresh) (hn : G.ptr_groups.n_elements ≤ 92681)
    (hb : ∀ i j, i < G.ptr_groups.n_elements → j < G.ptr_groups.n_elements →
      G.completeview.link i j = .ok 0 ∨ G.completeview.link i j = .ok 1) :
    FreeElementsOK G.completeview.view G.ptr_groups.n_elements G.completeview.link :=
  free_elements_core G.completeview.view G.ptr_groups.n_elements G.completeview.link hn rfl
    (fun i hi => adj_nbd_fresh G hv hf i hi)
    (adj_n_links_spec G hv hf (small_graph_bound _ hn)).1
    (fun i _ => view_link_diag_adj G i) hb

theorem free_elements_matrix (G : BlockGraphCRTP) (hv : G.ptr_groups.Valid)
    (hf : G.CachesFresh) (hn : G.ptr_groups.n_elements ≤ 92681)
    (hb : ∀ i j, i < G.ptr_groups.n_elements → j < G.ptr_groups.n_elements →
      G.completeview.link i j = .ok 0 ∨ G.completeview.link i j = .ok 1) :
    FreeElementsOK G.completeview.view G.ptr_groups.n_elements G.completeview.link :=
  free_elements_core G.completeview.view G.ptr_groups.n_elements G.completeview.link hn rfl
    (fun i hi => matrix_nbd_fresh G hv hf i hi)
    (matrix_n_links_spec G hv hf (small_graph_bound _ hn)).1
    (fun i _ => view_link_diag_matrix G i) hb

end utils

/-- C31 (as stated, refuted): the sum of `nu` is not `get_n_links()` when the link counter
has wrapped.  Over two groups of `65536` nodes, the vector-backed graph built from
`[0, 1, 0]` links each node of the first group to each node of the second one:
`compute_nu` returns a vector of sum `4294967296`, and `get_n_links()` is `0`. -/
theorem nu_sum_exceeds_wrapped_n_links :
    partTwoBlocks.Valid ∧
    ∃ G nu, BlockGraphAdjCRTP.mk_from_adj [0, 1, 0] partTwoBlocks = .ok G ∧
      utils.compute_nu G.completeview.view G.completeview.view.get_size = .ok nu ∧
      nu.sum = 4294967296 ∧ G.completeview.view.get_n_links = 0 := by
  refine ⟨partTwoBlocks_valid, ?_⟩
  obtain ⟨G, hG⟩ := adj_mk_from_adj_ok [0, 1, 0] partTwoBlocks partTwoBlocks_valid
    (by decide)
    (by
      intro i j hi hj
      have hi2 : i < 2 := hi
      have hj2 : j < 2 := hj
      interval_cases i <;> interval_cases j <;> exact ⟨_, rfl⟩)
  obtain ⟨hg, hd, hf⟩ := adj_mk_from_adj_fresh _ _ G hG
  have hv : G.ptr_groups.Valid := by rw [hg]; exact partTwoBlocks_valid
  have hall := allLinks_two_blocks G hg hd
  have hlp : linkedPairs G.ptr_groups.n_elements G.completeview.link = 4294967296 := by
    rw [linkedPairs_eq_allLinks _ hv G.link G.completeview.link (adj_link_symm G)
      (fun u v gu gv hne hu hv2 => adj_view_link G u v gu gv (fun h => hne h.symm) hu hv2)]
    exact hall
  refine ⟨G, _, hG,
    utils.compute_nu_spec G.completeview.view G.ptr_groups.n_elements G.completeview.link
      (fun i hi => adj_nbd_fresh G hv hf i hi), ?_, ?_⟩
  · rw [utils.nuCount_sum, hlp]
  · show G.n_links = 0
    rw [adj_n_links_fresh G hv hf, hlp]

/-- C31 (amended): for a block graph freshly constructed over a valid partition of
`n <= 92681` nodes (either class from a compressed vector, or the matrix-backed class from
a matrix) whose complete-view links are all `0` or `1`: `compute_nu` returns the vector
with `nu[i] = #{j : i < j < n, link(i,j) = 1}`, its sum is `get_n_links()`; the vector of
free elements of length `n_links + N` holds, row by row, one chi-square entry followed by
`nu[i]` normal entries; and in the Monte Carlo branch the completion step returns with
`it_fe` at the offset `n_links + N - 1`, so it never reads past the end.  (For
`n <= 92681` neither `n_links` nor `n_links + N` wraps in `unsigned int`.) -/
theorem free_elements_layout (Gr : Groups) (hv : Gr.Valid) (hn : Gr.n_elements ≤ 92681) :
    (∀ (A : List Nat) (G : BlockGraphAdjCRTP), BlockGraphAdjCRTP.mk_from_adj A Gr = .ok G →
      (∀ i, i < Gr.n_elements → ∀ j, j < Gr.n_elements →
        G.completeview.link i j = .ok 0 ∨ G.completeview.link i j = .ok 1) →
      FreeElementsOK G.completeview.view Gr.n_elements G.completeview.link) ∧
    (∀ (A : List Nat) (G : BlockGraphCRTP), BlockGraphCRTP.mk_from_adj A Gr = .ok G →
      (∀ i, i < Gr.n_elements → ∀ j, j < Gr.n_elements →
        G.completeview.link i j = .ok 0 ∨ G.completeview.link i j = .ok 1) →
      FreeElementsOK G.completeview.view Gr.n_elements G.completeview.link) ∧
    (∀ (Mat : InnerData) (G : BlockGraphCRTP), BlockGraphCRTP.mk_from_matrix Mat Gr = .ok G →
      (∀ i, i < Gr.n_elements → ∀ j, j < Gr.n_elements →
        G.completeview.link i j = .ok 0 ∨ G.completeview.link i j = .ok 1) →
      FreeElementsOK G.completeview.view Gr.n_elements G.completeview.link) := by
  refine ⟨?_, ?_, ?_⟩
  · intro A G hG hb
    obtain ⟨hg, _, hf⟩ := adj_mk_from_adj_fresh A Gr G hG
    subst hg
    exact utils.free_elements_adj G hv hf hn (fun i j hi hj => hb i hi j hj)
  · intro A G hG hb
    obtain ⟨hg, hf⟩ := matrix_mk_from_adj_fresh A Gr G hG
    subst hg
    exact utils.free_elements_matrix G hv hf hn (fun i j hi hj => hb i hi j hj)
  · intro Mat G hG hb
    obtain ⟨hg, hf⟩ := matrix_mk_from_matrix_fresh Mat Gr G hG
    subst hg
    exact utils.free_elements_matrix G hv hf hn (fun i j hi hj => hb i hi j hj)

/-- Witness of C31 (amended) on the graph over `{0,1}, {2}, {3,4}` built from
`[1, 0, 1, 1, 0]`: `nu = [3, 2, 2, 0, 0]`, seven links, twelve free elements. -/
theorem free_elements_layout_witness :
    partMidSingleton.Valid ∧ partMidSingleton.n_elements ≤ 92681 ∧
    BlockGraphAdjCRTP.mk_from_adj [1, 0, 1, 1, 0] partMidSingleton = .ok graphMidSingleton ∧
    (∀ i, i < partMidSingleton.n_elements → ∀ j, j < partMidSingleton.n_elements →
      graphMidSingleton.completeview.link i j = .ok 0 ∨
      graphMidSingleton.completeview.link i j = .ok 1) ∧
    utils.compute_nu graphMidSingleton.completeview.view 5 = .ok [3, 2, 2, 0, 0] ∧
    graphMidSingleton.completeview.view.get_n_links = 7 ∧
    FreeElementsOK graphMidSingleton.completeview.view partMidSingleton.n_elements
      graphMidSingleton.completeview.link :=
  ⟨by decide, by decide, by rfl, by decide, by decide, by decide,
    (free_elements_layout partMidSingleton (by decide) (by decide)).1 [1, 0, 1, 1, 0]
      graphMidSingleton (by rfl) (by decide)⟩


/-! ## Positive definiteness of the result of `rgwish_core` -/

namespace utils

theorem bilForm_lin {R : Type} [CommRing R] (N : Nat) (W : Nat → Nat → R) (u v : Nat → R)
    (a : R) :
    bilForm N W (fun r => u r + a * v r) (fun r => u r + a * v r)
      = bilForm N W u u + a * bilForm N W u v + a * bilForm N W v u
        + a * a * bilForm N W v v := by
  unfold bilForm
  simp only [Finset.mul_sum, ← Finset.sum_add_distrib]
  apply Finset.sum_congr rfl
  intro r _
  apply Finset.sum_congr rfl
  intro c _
  ring

theorem bilForm_comm {R : Type} [CommRing R] (N : Nat) (W : Nat → Nat → R) (u v : Nat → R)
    (hW : ∀ r c, W r c = W c r) : bilForm N W u v = bilForm N W v u := by
  unfold bilForm
  rw [Finset.sum_comm]
  apply Finset.sum_congr rfl
  intro r _
  apply Finset.sum_congr rfl
  intro c _
  rw [hW c r]
  ring

theorem bilForm_congr {R : Type} [CommRing R] (N : Nat) (W W2 : Nat → Nat → R)
    (u v : Nat → R)
    (h : ∀ r c, r < N → c < N → u r ≠ 0 → v c ≠ 0 → W r c = W2 r c) :
    bilForm N W u v = bilForm N W2 u v := by
  unfold bilForm
  apply Finset.sum_congr rfl
  intro r hr
  apply Finset.sum_congr rfl
  intro c hc
  by_cases hu : u r = 0
  · rw [hu, zero_mul, zero_mul, zero_mul, zero_mul]
  · by_cases hv : v c = 0
    · rw [hv, mul_zero, mul_zero]
    · rw [h r c (Finset.mem_range.mp hr) (Finset.mem_range.mp hc) hu hv]

theorem bilForm_congr_vec {R : Type} [CommRing R] (N : Nat) (W : Nat → Nat → R)
    (u v u2 v2 : Nat → R) (hu : ∀ r, r < N → u r = u2 r) (hv : ∀ r, r < N → v r = v2 r) :
    bilForm N W u v = bilForm N W u2 v2 := by
  unfold bilForm
  apply Finset.sum_congr rfl
  intro r hr
  apply Finset.sum_congr rfl
  intro c hc
  rw [hu r (Finset.mem_range.mp hr), hv c (Finset.mem_range.mp hc)]

theorem bilForm_mulVec {R : Type} [CommRing R] (N : Nat) (W : Nat → Nat → R)
    (u v : Nat → R) :
    bilForm N W u v
      = (Finset.range N).sum (fun r => u r * (Finset.range N).sum (fun c => W r c * v c)) := by
  unfold bilForm
  apply Finset.sum_congr rfl
  intro r _
  rw [Finset.mul_sum]
  apply Finset.sum_congr rfl
  intro c _
  ring

theorem bilForm_indicator_left {R : Type} [CommRing R] (N i : Nat) (hi : i < N)
    (W : Nat → Nat → R) (v : Nat → R) :
    bilForm N W (fun r => if r = i then 1 else 0) v
      = (Finset.range N).sum (fun c => W i c * v c) := by
  rw [bilForm_mulVec, Finset.sum_eq_single i]
  · rw [if_pos rfl, one_mul]
  · intro r _ hr
    rw [if_neg hr, zero_mul]
  · intro h
    exact absurd (Finset.mem_range.mpr hi) h

theorem IsPosDef.nonneg {R : Type} [LinearOrderedField R] (N : Nat) (W : Nat → Nat → R)
    (h : IsPosDef N W) (x : Nat → R) : 0 ≤ bilForm N W x x := by
  by_cases hx : ∃ r, r < N ∧ x r ≠ 0
  · exact le_of_lt (h x hx)
  · push_neg at hx
    have : bilForm N W x x = 0 := by
      unfold bilForm
      apply Finset.sum_eq_zero
      intro r hr
      apply Finset.sum_eq_zero
      intro c _
      rw [hx r (Finset.mem_range.mp hr), zero_mul, zero_mul]
    rw [this]

theorem IsPosDef.diag_pos {R : Type} [LinearOrderedField R] (N : Nat) (W : Nat → Nat → R)
    (h : IsPosDef N W) (i : Nat) (hi : i < N) : 0 < W i i := by
  have := h (fun r => if r = i then 1 else 0) ⟨i, hi, by simp⟩
  rw [bilForm_indicator_left N i hi, Finset.sum_eq_single i] at this
  · simpa using this
  · intro c _ hc
    rw [if_neg hc, mul_zero]
  · intro h2
    exact absurd (Finset.mem_range.mpr hi) h2

/-- The algebra of one node update: the matrix `W2` that takes from `W` everything but row
and column `i`, and the column `i` from `W γ`, is positive definite when `W` is and `γ`
solves the normal equations at its support. -/
theorem posDef_update {R : Type} [LinearOrderedField R] (N i : Nat) (hi : i < N)
    (W W2 : Nat → Nat → R) (γ : Nat → R)
    (hW : ∀ r c, W r c = W c r) (hW2 : ∀ r c, W2 r c = W2 c r)
    (hpd : IsPosDef N W)
    (hframe : ∀ r c, r ≠ i → c ≠ i → W2 r c = W r c) (hdiag : W2 i i = W i i)
    (hγ : γ i = 0)
    (hcol : ∀ r, r < N → r ≠ i → W2 r i = (Finset.range N).sum (fun c => W r c * γ c))
    (hnormal : ∀ r, r < N → γ r ≠ 0 →
      (Finset.range N).sum (fun c => W r c * γ c) = W r i) :
    IsPosDef N W2 := by
  intro x hx
  let e : Nat → R := fun r => if r = i then 1 else 0
  let y : Nat → R := fun r => if r = i then 0 else x r
  have hxy : bilForm N W2 x x
      = bilForm N W2 (fun r => y r + x i * e r) (fun r => y r + x i * e r) := by
    apply bilForm_congr_vec
    · intro r _
      by_cases h : r = i
      · simp [y, e, h]
      · simp [y, e, h]
    · intro r _
      by_cases h : r = i
      · simp [y, e, h]
      · simp [y, e, h]
  have hyy : bilForm N W2 y y = bilForm N W y y := by
    apply bilForm_congr
    intro r c _ _ hr hc
    apply hframe
    · intro h; exact hr (by simp [y, h])
    · intro h; exact hc (by simp [y, h])
  have hey : bilForm N W2 e y = bilForm N W y γ := by
    rw [bilForm_indicator_left N i hi, bilForm_mulVec]
    apply Finset.sum_congr rfl
    intro r hr
    by_cases h : r = i
    · simp [y, h]
    · rw [hW2 i r, hcol r (Finset.mem_range.mp hr) h, mul_comm]
  have hye : bilForm N W2 y e = bilForm N W y γ := by
    rw [bilForm_comm N W2 y e hW2, hey]
  have hee : bilForm N W2 e e = W i i := by
    rw [bilForm_indicator_left N i hi, Finset.sum_eq_single i]
    · simp [e, hdiag]
    · intro c _ hc
      simp [e, hc]
    · intro h2
      exact absurd (Finset.mem_range.mpr hi) h2
  have hgg : bilForm N W γ γ = bilForm N W e γ := by
    rw [bilForm_indicator_left N i hi, bilForm_mulVec]
    apply Finset.sum_congr rfl
    intro r hr
    by_cases h : γ r = 0
    · rw [h, zero_mul, mul_zero]
    · rw [hnormal r (Finset.mem_range.mp hr) h, hW r i, mul_comm]
  have h1 := IsPosDef.nonneg N W hpd (fun r => y r + x i * γ r)
  rw [bilForm_lin, bilForm_comm N W γ y hW] at h1
  have h2 := hpd (fun r => e r + (-1) * γ r) ⟨i, hi, by simp [e, hγ]⟩
  rw [bilForm_lin, bilForm_comm N W γ e hW, ← hgg] at h2
  have hee2 : bilForm N W e e = W i i := by
    rw [bilForm_indicator_left N i hi, Finset.sum_eq_single i]
    · simp [e]
    · intro c _ hc
      simp [e, hc]
    · intro h3
      exact absurd (Finset.mem_range.mpr hi) h3
  rw [hee2] at h2
  rw [hxy, bilForm_lin, hyy, hey, hye, hee]
  by_cases ha : x i = 0
  · rw [ha]
    simp only [zero_mul, add_zero]
    apply hpd
    obtain ⟨r, hr, hxr⟩ := hx
    refine ⟨r, hr, ?_⟩
    have : r ≠ i := by
      intro h
      rw [h] at hxr
      exact hxr ha
    simp [y, this, hxr]
  · have hsq : 0 < x i * x i := mul_self_pos.mpr ha
    nlinarith [mul_pos hsq (show 0 < W i i - bilForm N W γ γ by linarith)]

theorem bilForm_eq_dotProduct {R : Type} [CommRing R] (N : Nat) (W : Nat → Nat → R)
    (u v : Nat → R) :
    bilForm N W u v
      = Matrix.dotProduct (fun r : Fin N => u r)
          (Matrix.mulVec (Matrix.of (fun r c : Fin N => W r c)) (fun c : Fin N => v c)) := by
  unfold bilForm Matrix.dotProduct Matrix.mulVec Matrix.dotProduct
  rw [Finset.sum_range]
  apply Finset.sum_congr rfl
  intro r _
  rw [Finset.sum_range, Finset.mul_sum]
  apply Finset.sum_congr rfl
  intro c _
  simp only [Matrix.of_apply]
  ring

/-- A left inverse of a symmetric positive definite matrix is symmetric and positive
definite. -/
theorem left_inverse_posDef {R : Type} [LinearOrderedField R] (N : Nat)
    (K W : Nat → Nat → R) (hW : ∀ r, r < N → ∀ c, c < N → W r c = W c r)
    (hpd : IsPosDef N W)
    (hinv : ∀ r, r < N → ∀ c, c < N →
      (Finset.range N).sum (fun k => K r k * W k c) = if r = c then 1 else 0) :
    (∀ r, r < N → ∀ c, c < N → K r c = K c r) ∧ IsPosDef N K := by
  let A : Matrix (Fin N) (Fin N) R := Matrix.of (fun r c : Fin N => W r c)
  let B : Matrix (Fin N) (Fin N) R := Matrix.of (fun r c : Fin N => K r c)
  have hBA : B * A = 1 := by
    ext r c
    rw [Matrix.mul_apply, Matrix.one_apply]
    have := hinv r r.2 c c.2
    rw [Finset.sum_range] at this
    simp only [A, B, Matrix.of_apply]
    rw [this]
    simp only [Fin.ext_iff]
  have hAB : A * B = 1 := Matrix.mul_eq_one_comm.mp hBA
  have hAt : A.transpose = A := by
    ext r c
    simp only [A, Matrix.transpose_apply, Matrix.of_apply]
    exact hW c c.2 r r.2
  have hBt : B.transpose = B := by
    have h1 : A * B.transpose = 1 := by
      have := congrArg Matrix.transpose hBA
      rw [Matrix.transpose_mul, hAt, Matrix.transpose_one] at this
      exact this
    calc B.transpose = (B * A) * B.transpose := by rw [hBA, Matrix.one_mul]
      _ = B * (A * B.transpose) := by rw [Matrix.mul_assoc]
      _ = B := by rw [h1, Matrix.mul_one]
  have hsym : ∀ r, r < N → ∀ c, c < N → K r c = K c r := by
    intro r hr c hc
    have := congrFun (congrFun hBt ⟨r, hr⟩) ⟨c, hc⟩
    simp only [B, Matrix.transpose_apply, Matrix.of_apply] at this
    exact this.symm
  refine ⟨hsym, ?_⟩
  intro x hx
  let xv : Fin N → R := fun r => x r
  let zv : Fin N → R := Matrix.mulVec B xv
  let z : Nat → R := fun r => if h : r < N then zv ⟨r, h⟩ else 0
  have hz : (fun r : Fin N => z r) = zv := by
    funext r
    simp only [z, r.2, dif_pos]
  have hAz : Matrix.mulVec A zv = xv := by
    simp only [zv]
    rw [Matrix.mulVec_mulVec, hAB, Matrix.one_mulVec]
  have hzne : ∃ r, r < N ∧ z r ≠ 0 := by
    by_contra hall
    push_neg at hall
    have hzv : zv = 0 := by
      funext r
      have := hall r r.2
      simp only [z, r.2, dif_pos] at this
      exact this
    have hx0 : xv = 0 := by
      rw [← hAz, hzv, Matrix.mulVec_zero]
    obtain ⟨r, hr, hxr⟩ := hx
    have := congrFun hx0 ⟨r, hr⟩
    exact hxr this
  have hpos := hpd z hzne
  rw [bilForm_eq_dotProduct, hz, hAz] at hpos
  rw [bilForm_eq_dotProduct]
  have : Matrix.dotProduct (fun r : Fin N => x r)
      (Matrix.mulVec (Matrix.of (fun r c : Fin N => K r c)) (fun c : Fin N => x c))
      = Matrix.dotProduct zv xv := by
    rw [Matrix.dotProduct_comm]
  rw [this]
  exact hpos

theorem beta_hat_fold_values {R : Type} [AddCommMonoid R] (N i : Nat) (hi : i < N)
    (bstar : MatD R) :
    ∀ (l : List Nat) (s : Nat) (bh : MatD R),
      (∀ n ∈ l, n < N ∧ n ≠ i) → l.Nodup → s + l.length ≤ bstar.rows → 1 ≤ bstar.cols →
      bh.rows = N - 1 → bh.cols = 1 →
      (∀ n ∈ l, bh.coeff (if n < i then n else n - 1) 0 = 0) →
      ∃ bh2, (l.enumFrom s).foldlM
        (fun (beta_hat_i : MatD R) (e : Nat × Nat) =>
          if e.2 < i then do
            let v ← bstar.read e.1 0
            beta_hat_i.write e.2 0 v
          else if e.2 > i then do
            let v ← bstar.read e.1 0
            beta_hat_i.write (e.2 - 1) 0 v
          else pure beta_hat_i) bh = .ok bh2 ∧ bh2.rows = N - 1 ∧ bh2.cols = 1 ∧
        ∀ r, bh2.coeff r 0 = bh.coeff r 0 + (Finset.range l.length).sum
          (fun m => if l.getD m 0 = skipIndex i r then bstar.coeff (s + m) 0 else 0) := by
  intro l
  induction l with
  | nil =>
    intro s bh _ _ _ _ h1 h2 _
    exact ⟨bh, rfl, h1, h2, fun r => by simp⟩
  | cons n t ih =>
    intro s bh hn hnd hlen hc h1 h2 hz
    have hnN := hn n (List.mem_cons_self _ _)
    have hnt : n ∉ t := (List.nodup_cons.mp hnd).1
    have hlen2 : s + 1 + t.length ≤ bstar.rows := by
      simp only [List.length_cons] at hlen
      omega
    have hs : s < bstar.rows := by
      simp only [List.length_cons] at hlen
      omega
    have hstep : (if n < i then do
            let v ← bstar.read s 0
            bh.write n 0 v
          else if n > i then do
            let v ← bstar.read s 0
            bh.write (n - 1) 0 v
          else pure bh)
        = .ok ⟨N - 1, 1, fun r c =>
            if r = (if n < i then n else n - 1) ∧ c = 0 then bstar.coeff s 0
            else bh.coeff r c⟩ := by
      simp only [MatD.read, MatD.write, bind, Except.bind, h1, h2]
      by_cases hlt : n < i
      · rw [if_pos hlt, if_pos ⟨hs, by omega⟩]
        dsimp only
        rw [if_pos ⟨by omega, by omega⟩, if_pos hlt]
      · rw [if_neg hlt, if_pos (by omega), if_pos ⟨hs, by omega⟩]
        dsimp only
        rw [if_pos ⟨by omega, by omega⟩, if_neg hlt]
    obtain ⟨bh2, hf, hr2, hc2, hv⟩ := ih (s + 1)
      ⟨N - 1, 1, fun r c =>
        if r = (if n < i then n else n - 1) ∧ c = 0 then bstar.coeff s 0 else bh.coeff r c⟩
      (fun m hm => hn m (List.mem_cons_of_mem _ hm)) (List.nodup_cons.mp hnd).2 hlen2 hc
      rfl rfl
      (by
        intro m hm
        have hmN := hn m (List.mem_cons_of_mem _ hm)
        have hne : m ≠ n := fun h => hnt (h ▸ hm)
        dsimp only
        rw [if_neg (by
          intro h
          have := h.1
          split_ifs at this <;> omega)]
        exact hz m (List.mem_cons_of_mem _ hm))
    refine ⟨bh2, ?_, hr2, hc2, ?_⟩
    · rw [List.enumFrom_cons, List.foldlM_cons]
      dsimp only
      rw [hstep]
      exact hf
    · intro r
      rw [hv r]
      dsimp only
      rw [List.length_cons, Finset.sum_range_succ']
      simp only [List.getD_cons_succ, List.getD_cons_zero, Nat.add_zero]
      have hsum : (Finset.range t.length).sum
            (fun m => if t.getD m 0 = skipIndex i r then bstar.coeff (s + 1 + m) 0 else 0)
          = (Finset.range t.length).sum
            (fun m => if t.getD m 0 = skipIndex i r then bstar.coeff (s + (m + 1)) 0
              else 0) := by
        apply Finset.sum_congr rfl
        intro m _
        have : s + 1 + m = s + (m + 1) := by omega
        rw [this]
      rw [hsum]
      by_cases hr : r = (if n < i then n else n - 1)
      · have hsk : n = skipIndex i r := by
          rw [hr]
          unfold skipIndex
          split_ifs <;> omega
        rw [if_pos ⟨hr, trivial⟩, if_pos hsk]
        have h0 := hz n (List.mem_cons_self _ _)
        rw [← hr] at h0
        rw [h0, zero_add, add_comm]
      · have hsk : ¬ n = skipIndex i r := by
          intro h
          apply hr
          rw [h]
          unfold skipIndex
          split_ifs <;> omega
        rw [if_neg (by simp [hr]), if_neg hsk, add_zero]

theorem beta_hat_values {R : Type} [AddCommMonoid R] (N i : Nat) (hi : i < N)
    (nbd : List Nat) (bstar : MatD R) (hn : ∀ n ∈ nbd, n < N ∧ n ≠ i) (hnd : nbd.Nodup)
    (hb : nbd.length ≤ bstar.rows ∧ 1 ≤ bstar.cols) :
    ∃ bh, beta_hat N i nbd bstar = .ok bh ∧ bh.rows = N - 1 ∧ bh.cols = 1 ∧
      ∀ r, bh.coeff r 0 = (Finset.range nbd.length).sum
        (fun m => if nbd.getD m 0 = skipIndex i r then bstar.coeff m 0 else 0) := by
  obtain ⟨bh, h, h1, h2, hv⟩ := beta_hat_fold_values N i hi bstar nbd 0 (MatD.zero (N - 1) 1) hn
    hnd (by omega) hb.2 rfl rfl (fun _ _ => rfl)
  refine ⟨bh, h, h1, h2, ?_⟩
  intro r
  rw [hv r]
  simp only [MatD.zero, zero_add, Nat.zero_add]

theorem sum_gather {R : Type} [CommRing R] (N : Nat) (l : List Nat)
    (hl : ∀ n ∈ l, n < N) (f : Nat → R) (x : Nat → R) :
    (Finset.range N).sum (fun c => f c *
        (Finset.range l.length).sum (fun m => if l.getD m 0 = c then x m else 0))
      = (Finset.range l.length).sum (fun m => f (l.getD m 0) * x m) := by
  simp only [Finset.mul_sum]
  rw [Finset.sum_comm]
  apply Finset.sum_congr rfl
  intro m hm
  have hm2 := Finset.mem_range.mp hm
  have hmem : l.getD m 0 ∈ l := by
    rw [List.getD_eq_getElem l 0 hm2]
    exact List.getElem_mem hm2
  rw [Finset.sum_eq_single (l.getD m 0)]
  · rw [if_pos rfl]
  · intro c _ hc
    rw [if_neg (Ne.symm hc), mul_zero]
  · intro h
    exact absurd (Finset.mem_range.mpr (hl _ hmem)) h

theorem IsPosDef.congr {R : Type} [LinearOrderedField R] (N : Nat) (W W2 : Nat → Nat → R)
    (h : ∀ r c, r < N → c < N → W r c = W2 r c) (hpd : IsPosDef N W) : IsPosDef N W2 := by
  intro x hx
  rw [← bilForm_congr N W W2 x x (fun r c hr hc _ _ => h r c hr hc)]
  exact hpd x hx

theorem getD_lt_of_pairwise (l : List Nat) (hs : l.Pairwise (· < ·)) (a b : Nat)
    (hab : a < b) (hb : b < l.length) : l.getD a 0 < l.getD b 0 := by
  rw [List.getD_eq_getElem l 0 hb, List.getD_eq_getElem l 0 (by omega)]
  exact List.pairwise_iff_getElem.mp hs a b (by omega) hb hab

theorem getD_injective_of_pairwise (l : List Nat) (hs : l.Pairwise (· < ·)) (a b : Nat)
    (ha : a < l.length) (hb : b < l.length) (h : l.getD a 0 = l.getD b 0) : a = b := by
  rcases Nat.lt_trichotomy a b with h1 | h1 | h1
  · have := getD_lt_of_pairwise l hs a b h1 hb
    omega
  · exact h1
  · have := getD_lt_of_pairwise l hs b a h1 ha
    omega

/-- A principal submatrix of a positive definite matrix is positive definite. -/
theorem posDef_submatrix {R : Type} [LinearOrderedField R] (N : Nat) (W : Nat → Nat → R)
    (hpd : IsPosDef N W) (l : List Nat) (hl : ∀ n ∈ l, n < N) (hs : l.Pairwise (· < ·)) :
    IsPosDef l.length (fun r c => W (l.getD r 0) (l.getD c 0)) := by
  intro x hx
  obtain ⟨m0, hm0, hx0⟩ := hx
  let x2 : Nat → R := fun c =>
    (Finset.range l.length).sum (fun m => if l.getD m 0 = c then x m else 0)
  have hne : ∃ r, r < N ∧ x2 r ≠ 0 := by
    refine ⟨l.getD m0 0, hl _ ?_, ?_⟩
    · rw [List.getD_eq_getElem l 0 hm0]
      exact List.getElem_mem hm0
    · have : x2 (l.getD m0 0) = x m0 := by
        simp only [x2]
        rw [Finset.sum_eq_single m0]
        · rw [if_pos rfl]
        · intro m hm hne
          rw [if_neg]
          intro h
          exact hne (getD_injective_of_pairwise l hs m m0 (Finset.mem_range.mp hm) hm0 h)
        · intro h
          exact absurd (Finset.mem_range.mpr hm0) h
      rw [this]
      exact hx0
  have hpos := hpd x2 hne
  have heq : bilForm N W x2 x2
      = bilForm l.length (fun r c => W (l.getD r 0) (l.getD c 0)) x x := by
    rw [bilForm_mulVec, bilForm_mulVec]
    have h1 : ∀ r, (Finset.range N).sum (fun c => W r c * x2 c)
        = (Finset.range l.length).sum (fun m => W r (l.getD m 0) * x m) := by
      intro r
      exact sum_gather N l hl (W r) x
    simp only [h1]
    have h2 := sum_gather N l hl
      (fun r => (Finset.range l.length).sum (fun m => W r (l.getD m 0) * x m)) x
    simp only [x2]
    have h3 : (Finset.range l.length).sum (fun r => x r *
          (Finset.range l.length).sum (fun c => W (l.getD r 0) (l.getD c 0) * x c))
        = (Finset.range l.length).sum (fun m =>
          (Finset.range l.length).sum (fun m_1 => W (l.getD m 0) (l.getD m_1 0) * x m_1)
            * x m) := by
      apply Finset.sum_congr rfl
      intro r _
      ring
    rw [h3, ← h2]
    apply Finset.sum_congr rfl
    intro r _
    ring
  rw [← heq]
  exact hpos

theorem excMult_spec_gather {R : Type} [CommRing R] (N i : Nat) (hi : i < N)
    (l : List Nat) (hl : ∀ n ∈ l, n < N ∧ n ≠ i) (Omega bh : MatD R) (x : Nat → R)
    (hb : bh.rows = N - 1)
    (hv : ∀ r, bh.coeff r 0 = (Finset.range l.length).sum
      (fun m => if l.getD m 0 = skipIndex i r then x m else 0))
    (r2 : Nat) :
    excMult_spec i Omega bh r2
      = (Finset.range l.length).sum
          (fun m => symUpper Omega (skipIndex i r2) (l.getD m 0) * x m) := by
  unfold excMult_spec
  rw [hb]
  have h1 := sum_skipIndex N i hi (fun c => symUpper Omega (skipIndex i r2) c *
    (Finset.range l.length).sum (fun m => if l.getD m 0 = c then x m else 0))
  have h2 : (Finset.range (N - 1)).sum
        (fun c => symUpper Omega (skipIndex i r2) (skipIndex i c) * bh.coeff c 0)
      = (Finset.range (N - 1)).sum (fun c => symUpper Omega (skipIndex i r2) (skipIndex i c) *
          (Finset.range l.length).sum
            (fun m => if l.getD m 0 = skipIndex i c then x m else 0)) := by
    apply Finset.sum_congr rfl
    intro c _
    rw [hv c]
  rw [h2, h1, ← sum_gather N l (fun n hn => (hl n hn).1) (symUpper Omega (skipIndex i r2)) x]
  apply Finset.sum_congr rfl
  intro c _
  by_cases hc : c = i
  · rw [if_pos hc]
    have : (Finset.range l.length).sum (fun m => if l.getD m 0 = c then x m else 0) = 0 := by
      apply Finset.sum_eq_zero
      intro m hm
      rw [if_neg]
      intro h
      have hmem : l.getD m 0 ∈ l := by
        rw [List.getD_eq_getElem l 0 (Finset.mem_range.mp hm)]
        exact List.getElem_mem (Finset.mem_range.mp hm)
      exact (hl _ hmem).2 (h.trans hc)
    rw [this, mul_zero]
  · rw [if_neg hc]

theorem plug_beta_sym {R : Type} (N i : Nat) (beta_i Omega : MatD R) (hi : i < N)
    (hO : Omega.rows = N ∧ Omega.cols = N) (hb : beta_i.rows = N - 1 ∧ beta_i.cols = 1) :
    ∃ Omega2, plug_beta N i beta_i Omega = .ok Omega2 ∧
      ∀ r, r < N → r ≠ i →
        symUpper Omega2 r i = beta_i.coeff (if r < i then r else r - 1) 0 := by
  obtain ⟨O2, h, _, _, h3, h4⟩ := plug_beta_spec N i beta_i Omega hi hO hb
  refine ⟨O2, h, ?_⟩
  intro r hr hri
  unfold symUpper
  by_cases hlt : r < i
  · rw [if_pos (by omega), if_pos hlt, h3 r hlt]
  · rw [if_neg (by omega), if_neg hlt, h4 r (by omega) hr]

theorem node_update_solution {R : Type} [LinearOrderedField R]
    (llt_solve : MatD R → MatD R → MatD R) (N i : Nat) (nbd : List Nat)
    (Sigma Omega : MatD R) (hN : N ≤ 4294967296) (hi : i < N)
    (hn : ∀ n ∈ nbd, n < N ∧ n ≠ i) (hs : nbd.Pairwise (· < ·))
    (hO : Omega.rows = N ∧ Omega.cols = N) (hS : Sigma.rows = N ∧ Sigma.cols = N)
    (hpd : IsPosDef N (symUpper Omega))
    (hsolve : ∀ M rhs : MatD R,
      (llt_solve M rhs).rows = M.cols ∧ (llt_solve M rhs).cols = rhs.cols)
    (hexact : ∀ M rhs : MatD R, M.rows = nbd.length → M.cols = nbd.length →
      (∀ r c, M.coeff r c = M.coeff c r) → IsPosDef nbd.length M.coeff →
      ∀ r, r < nbd.length →
        (Finset.range nbd.length).sum (fun c => M.coeff r c * (llt_solve M rhs).coeff c 0)
          = rhs.coeff r 0) :
    ∃ (x : Nat → R) (Omega2 : MatD R),
      node_update llt_solve N i nbd Sigma Omega = .ok Omega2 ∧
      (∀ m, m < nbd.length →
        (Finset.range nbd.length).sum
            (fun m2 => symUpper Omega (nbd.getD m 0) (nbd.getD m2 0) * x m2)
          = Sigma.coeff (nbd.getD m 0) i) ∧
      (∀ r, r < N → r ≠ i →
        symUpper Omega2 r i = (Finset.range nbd.length).sum
          (fun m => symUpper Omega r (nbd.getD m 0) * x m)) := by
  have hn1 : ∀ n ∈ nbd, n < N := fun n h => (hn n h).1
  have hsk : ∀ r, r ≠ i → skipIndex i (if r < i then r else r - 1) = r := by
    intro r hr
    unfold skipIndex
    split_ifs <;> omega
  unfold node_update
  match nbd, hn, hn1, hs, hexact with
  | [], _, _, _, _ =>
    obtain ⟨O2, h, hsym⟩ := plug_beta_sym N i (MatD.zero (N - 1) 1) Omega hi hO ⟨rfl, rfl⟩
    refine ⟨fun _ => 0, O2, by simpa [bind, Except.bind, pure, Except.pure] using h, ?_, ?_⟩
    · intro m hm
      simp at hm
    · intro r hr hri
      rw [hsym r hr hri]
      simp [MatD.zero]
  | [k], hn, _, _, _ =>
    have hk := hn k (List.mem_singleton_self k)
    obtain ⟨w, hw, hw1, hw2, hwc⟩ := beta_single_spec N i k Sigma Omega hi hk.1 hO hS
    obtain ⟨O2, h, hsym⟩ := plug_beta_sym N i w Omega hi hO ⟨hw1, hw2⟩
    have hkk : 0 < Omega.coeff k k := by
      have := IsPosDef.diag_pos N (symUpper Omega) hpd k hk.1
      unfold symUpper at this
      rw [if_pos le_rfl] at this
      exact this
    refine ⟨fun _ => Sigma.coeff k i / Omega.coeff k k, O2,
      by simpa [bind, Except.bind, hw] using h, ?_, ?_⟩
    · intro m hm
      simp only [List.length_singleton, Finset.sum_range_one, List.getD_cons_zero]
      have hm0 : m = 0 := by
        simp only [List.length_singleton] at hm
        omega
      subst hm0
      simp only [List.getD_cons_zero]
      unfold symUpper
      rw [if_pos le_rfl]
      field_simp
    · intro r hr hri
      rw [hsym r hr hri, hwc _ (by split_ifs <;> omega), hsk r hri]
      simp only [List.length_singleton, Finset.sum_range_one, List.getD_cons_zero]
  | k1 :: k2 :: t, hn, hn1, hs, hexact =>
    have hne : (k1 :: k2 :: t) ≠ [] := by simp
    have h1 := SubMatrix_sym_ok (k1 :: k2 :: t) Omega hne (by rw [hO.1, hO.2])
      (by rw [hO.1]; exact hn1)
    have h2 := SubMatrix_col_ok (k1 :: k2 :: t) i Sigma hne (by rw [hS.2]; exact hi)
      (by rw [hS.1]; exact hn1)
    obtain ⟨hs1, hs2⟩ := hsolve
      (MatD.selfadjointViewUpper
        ⟨(k1 :: k2 :: t).length, (k1 :: k2 :: t).length,
          fun r c => Omega.coeff ((k1 :: k2 :: t).getD r 0) ((k1 :: k2 :: t).getD c 0)⟩)
      ⟨(k1 :: k2 :: t).length, 1, fun r _ => Sigma.coeff ((k1 :: k2 :: t).getD r 0) i⟩
    obtain ⟨bh, hbh, hb1, hb2, hbv⟩ := beta_hat_values N i hi (k1 :: k2 :: t)
      (llt_solve
        (MatD.selfadjointViewUpper
          ⟨(k1 :: k2 :: t).length, (k1 :: k2 :: t).length,
            fun r c => Omega.coeff ((k1 :: k2 :: t).getD r 0) ((k1 :: k2 :: t).getD c 0)⟩)
        ⟨(k1 :: k2 :: t).length, 1, fun r _ => Sigma.coeff ((k1 :: k2 :: t).getD r 0) i⟩)
      hn hs.nodup ⟨by rw [hs1]; exact le_rfl, by rw [hs2]⟩
    obtain ⟨v, hv, hv1, hv2, hvc⟩ := View_ExcMult_entries (N - 1) i Omega bh (by omega)
      (by omega) ⟨by omega, by omega⟩ ⟨hb1, hb2⟩
    obtain ⟨O2, h, hsym⟩ := plug_beta_sym N i v Omega hi hO ⟨hv1, hv2⟩
    have hMeq : ∀ r c, r < (k1 :: k2 :: t).length → c < (k1 :: k2 :: t).length →
        (MatD.selfadjointViewUpper
          (⟨(k1 :: k2 :: t).length, (k1 :: k2 :: t).length,
            fun r c => Omega.coeff ((k1 :: k2 :: t).getD r 0) ((k1 :: k2 :: t).getD c 0)⟩
            : MatD R)).coeff r c
          = symUpper Omega ((k1 :: k2 :: t).getD r 0) ((k1 :: k2 :: t).getD c 0) := by
      intro r c hr hc
      unfold MatD.selfadjointViewUpper symUpper
      dsimp only
      rcases Nat.lt_trichotomy r c with hlt | heq | hgt
      · have := getD_lt_of_pairwise _ hs r c hlt hc
        rw [if_pos (by omega), if_pos (by omega)]
      · subst heq
        rw [if_pos le_rfl, if_pos le_rfl]
      · have := getD_lt_of_pairwise _ hs c r hgt hr
        rw [if_neg (by omega), if_neg (by omega)]
    have hex := hexact _
      ⟨(k1 :: k2 :: t).length, 1, fun r _ => Sigma.coeff ((k1 :: k2 :: t).getD r 0) i⟩
      (rfl : (MatD.selfadjointViewUpper
          (⟨(k1 :: k2 :: t).length, (k1 :: k2 :: t).length,
            fun r c => Omega.coeff ((k1 :: k2 :: t).getD r 0) ((k1 :: k2 :: t).getD c 0)⟩
            : MatD R)).rows = (k1 :: k2 :: t).length) rfl
      (by
        intro r c
        unfold MatD.selfadjointViewUpper
        dsimp only
        rcases Nat.lt_trichotomy r c with hlt | heq | hgt
        · rw [if_pos (by omega), if_neg (by omega)]
        · subst heq; rfl
        · rw [if_neg (by omega), if_pos (by omega)])
      (IsPosDef.congr _ _ _ (fun r c hr hc => (hMeq r c hr hc).symm)
        (posDef_submatrix N (symUpper Omega) hpd (k1 :: k2 :: t) hn1 hs))
    refine ⟨fun m => (llt_solve
        (MatD.selfadjointViewUpper
          ⟨(k1 :: k2 :: t).length, (k1 :: k2 :: t).length,
            fun r c => Omega.coeff ((k1 :: k2 :: t).getD r 0) ((k1 :: k2 :: t).getD c 0)⟩)
        ⟨(k1 :: k2 :: t).length, 1,
          fun r _ => Sigma.coeff ((k1 :: k2 :: t).getD r 0) i⟩).coeff m 0, O2, ?_, ?_, ?_⟩
    · unfold beta_general
      simp only [h1, h2, bind, Except.bind, hbh, hv]
      exact h
    · intro m hm
      rw [← hex m hm]
      apply Finset.sum_congr rfl
      intro m2 hm2
      rw [hMeq m m2 hm (Finset.mem_range.mp hm2)]
    · intro r hr hri
      rw [hsym r hr hri, hvc _ (by split_ifs <;> omega),
        excMult_spec_gather N i hi (k1 :: k2 :: t) hn Omega bh _ hb1 hbv, hsk r hri]

theorem symUpper_symm {R : Type} (A : MatD R) (r c : Nat) :
    symUpper A r c = symUpper A c r := by
  unfold symUpper
  rcases Nat.lt_trichotomy r c with h | h | h
  · rw [if_pos (by omega), if_neg (by omega)]
  · subst h; rfl
  · rw [if_neg (by omega), if_pos (by omega)]

theorem exists_getD_of_mem (l : List Nat) (n : Nat) (h : n ∈ l) :
    ∃ m, m < l.length ∧ l.getD m 0 = n := by
  obtain ⟨m, hm, he⟩ := List.getElem_of_mem h
  exact ⟨m, hm, by rw [List.getD_eq_getElem l 0 hm]; exact he⟩

theorem node_update_invariant {R : Type} [LinearOrderedField R]
    (llt_solve : MatD R → MatD R → MatD R) (N i : Nat) (nbd : Neighbourhood)
    (Sigma Omega : MatD R) (hN : N ≤ 4294967296) (hi : i < N)
    (hS : Sigma.rows = N ∧ Sigma.cols = N)
    (hSs : ∀ r, r < N → ∀ c, c < N → Sigma.coeff r c = Sigma.coeff c r)
    (hG : IsGraphNbd N nbd)
    (hsolve : ∀ M rhs : MatD R,
      (llt_solve M rhs).rows = M.cols ∧ (llt_solve M rhs).cols = rhs.cols)
    (hexact : ∀ j, j < N → ∀ l, Neighbourhood.find nbd j = some l →
      ExactOnPosDef llt_solve l.length)
    (hinv : SweepInvariant N nbd Sigma Omega) :
    ∃ l Omega2, Neighbourhood.find nbd i = some l ∧
      node_update llt_solve N i l Sigma Omega = .ok Omega2 ∧
      SweepInvariant N nbd Sigma Omega2 := by
  obtain ⟨hO1, hO2, hpd, hdiag, hedge⟩ := hinv
  obtain ⟨l, hfind, hsorted, hl⟩ := hG i hi
  have hn : ∀ n ∈ l, n < N ∧ n ≠ i := fun n h => ⟨(hl n h).1, (hl n h).2.1⟩
  have hn1 : ∀ n ∈ l, n < N := fun n h => (hl n h).1
  obtain ⟨x, O2, hup, hnormal, hcol⟩ := node_update_solution llt_solve N i l Sigma Omega hN hi
    hn hsorted ⟨hO1, hO2⟩ hS hpd hsolve (hexact i hi l hfind)
  obtain ⟨hd1, hd2, hframe⟩ := node_update_frame llt_solve N i l Sigma Omega O2 hup
  have hframe2 : ∀ r c, r ≠ i → c ≠ i → symUpper O2 r c = symUpper Omega r c := by
    intro r c hr hc
    unfold symUpper
    split_ifs
    · exact hframe r c (by omega) (by omega)
    · exact hframe c r (by omega) (by omega)
  have hii : symUpper O2 i i = symUpper Omega i i := by
    unfold symUpper
    rw [if_pos le_rfl, if_pos le_rfl]
    exact hframe i i (by omega) (by omega)
  have hcolS : ∀ n ∈ l, symUpper O2 n i = Sigma.coeff n i := by
    intro n hnl
    obtain ⟨m, hm, hmn⟩ := exists_getD_of_mem l n hnl
    rw [hcol n (hn n hnl).1 (hn n hnl).2, ← hmn]
    exact hnormal m hm
  have hpd2 : IsPosDef N (symUpper O2) := by
    apply posDef_update N i hi (symUpper Omega) (symUpper O2)
      (fun c => (Finset.range l.length).sum (fun m => if l.getD m 0 = c then x m else 0))
      (symUpper_symm Omega) (symUpper_symm O2) hpd hframe2 hii
    · apply Finset.sum_eq_zero
      intro m hm
      rw [if_neg]
      intro h
      have hmem : l.getD m 0 ∈ l := by
        rw [List.getD_eq_getElem l 0 (Finset.mem_range.mp hm)]
        exact List.getElem_mem (Finset.mem_range.mp hm)
      exact (hn _ hmem).2 h
    · intro r hr hri
      rw [hcol r hr hri, sum_gather N l hn1 (symUpper Omega r) x]
    · intro r hr hgr
      rw [sum_gather N l hn1 (symUpper Omega r) x]
      have hrl : r ∈ l := by
        by_contra hnot
        apply hgr
        apply Finset.sum_eq_zero
        intro m hm
        rw [if_neg]
        intro h
        apply hnot
        rw [← h, List.getD_eq_getElem l 0 (Finset.mem_range.mp hm)]
        exact List.getElem_mem (Finset.mem_range.mp hm)
      obtain ⟨m, hm, hmn⟩ := exists_getD_of_mem l r hrl
      rw [hedge i hi l hfind r hrl, ← hmn]
      exact hnormal m hm
  refine ⟨l, O2, hfind, hup, by rw [hd1, hO1], by rw [hd2, hO2], hpd2, ?_, ?_⟩
  · intro r hr
    rw [hframe r r (by omega) (by omega)]
    exact hdiag r hr
  · intro j hj l2 hf2 n hn2
    obtain ⟨l3, hf3, _, hl3⟩ := hG j hj
    rw [hf2] at hf3
    injection hf3 with hf3
    subst hf3
    obtain ⟨hnN, hnj, l4, hf4, hj4⟩ := hl3 n hn2
    by_cases hji : j = i
    · subst hji
      rw [hfind] at hf2
      injection hf2 with hf2
      subst hf2
      exact hcolS n hn2
    · by_cases hni : n = i
      · subst hni
        rw [hfind] at hf4
        injection hf4 with hf4
        subst hf4
        rw [symUpper_symm, hcolS j hj4]
        exact hSs j hj n hi
      · rw [hframe2 n j hni hji]
        exact hedge j hj l2 hf2 n hn2

theorem rgwish_sweep_invariant {R E : Type} [LinearOrderedField R]
    (rwish : isChol → E → R → MatD R → MatD R × E) (inv fin : MatD R → Nat → MatD R)
    (llt_solve : MatD R → MatD R → MatD R) (N : Nat) (nbd : Neighbourhood)
    (Sigma Omega : MatD R) (hN : N ≤ 4294967296)
    (hS : Sigma.rows = N ∧ Sigma.cols = N)
    (hSs : ∀ r, r < N → ∀ c, c < N → Sigma.coeff r c = Sigma.coeff c r)
    (hG : IsGraphNbd N nbd)
    (hsolve : ∀ M rhs : MatD R,
      (llt_solve M rhs).rows = M.cols ∧ (llt_solve M rhs).cols = rhs.cols)
    (hexact : ∀ j, j < N → ∀ l, Neighbourhood.find nbd j = some l →
      ExactOnPosDef llt_solve l.length)
    (hinv : SweepInvariant N nbd Sigma Omega) :
    ∃ O1, rgwish_sweep (eigenKernel rwish inv llt_solve fin) N nbd Sigma Omega = .ok O1 ∧
      SweepInvariant N nbd Sigma (MatD.copyUpperToLower O1) := by
  have hfold : ∃ O1, rgwish_sweep (eigenKernel rwish inv llt_solve fin) N nbd Sigma Omega
      = .ok O1 ∧ SweepInvariant N nbd Sigma O1 := by
    unfold rgwish_sweep
    apply foldlM_inv _ (fun O : MatD R => SweepInvariant N nbd Sigma O) _ _ Omega hinv
    intro O i hO hi
    have hi2 : i < N := List.mem_range.mp hi
    obtain ⟨l, O2, hf, hup, hinv2⟩ := node_update_invariant llt_solve N i nbd Sigma O hN hi2 hS
      hSs hG hsolve hexact hO
    refine ⟨O2, ?_, hinv2⟩
    simp only [hf]
    exact hup
  obtain ⟨O1, h1, h2, h3, h4, h5, h6⟩ := hfold
  refine ⟨O1, h1, h2, h3, ?_, ?_, ?_⟩
  · exact IsPosDef.congr N _ _ (fun r c _ _ => (symUpper_copyUpperToLower O1 r c).symm) h4
  · intro r hr
    rw [← h5 r hr]
    unfold MatD.copyUpperToLower
    dsimp only
    rw [if_pos le_rfl]
  · intro j hj l hl n hn
    rw [symUpper_copyUpperToLower]
    exact h6 j hj l hl n hn

theorem rgwish_loop_invariant {R E : Type} [LinearOrderedField R]
    (rwish : isChol → E → R → MatD R → MatD R × E) (inv fin : MatD R → Nat → MatD R)
    (llt_solve : MatD R → MatD R → MatD R) (N : Nat) (nbd : Neighbourhood)
    (Sigma : MatD R) (threshold : R) (hN : N ≤ 4294967296)
    (hS : Sigma.rows = N ∧ Sigma.cols = N)
    (hSs : ∀ r, r < N → ∀ c, c < N → Sigma.coeff r c = Sigma.coeff c r)
    (hG : IsGraphNbd N nbd)
    (hsolve : ∀ M rhs : MatD R,
      (llt_solve M rhs).rows = M.cols ∧ (llt_solve M rhs).cols = rhs.cols)
    (hexact : ∀ j, j < N → ∀ l, Neighbourhood.find nbd j = some l →
      ExactOnPosDef llt_solve l.length) :
    ∀ (fuel : Nat) (Omega : MatD R) (it : Nat), SweepInvariant N nbd Sigma Omega →
      ∃ Omega2 converged it2,
        rgwish_loop (eigenKernel rwish inv llt_solve fin) N nbd Sigma threshold fuel
          (Omega, false, it) = .ok (Omega2, converged, it2) ∧
        SweepInvariant N nbd Sigma Omega2 ∧ (converged = true → it < it2) := by
  intro fuel
  induction fuel with
  | zero =>
    intro Omega it hinv
    exact ⟨Omega, false, it, rfl, hinv, fun h => by cases h⟩
  | succ fuel ih =>
    intro Omega it hinv
    obtain ⟨O1, hs, hinv1⟩ := rgwish_sweep_invariant rwish inv fin llt_solve N nbd Sigma Omega
      hN hS hSs hG hsolve hexact hinv
    simp only [rgwish_loop, Bool.false_eq_true, if_false, hs]
    cases hc : (eigenKernel rwish inv llt_solve fin).lt
        ((eigenKernel rwish inv llt_solve fin).norm O1) threshold with
    | true =>
      rw [rgwish_loop_converged]
      exact ⟨_, true, it + 1, rfl, hinv1, fun _ => by omega⟩
    | false =>
      obtain ⟨O2, c2, it2, h2, hinv2, hlt⟩ := ih (MatD.copyUpperToLower O1) (it + 1) hinv1
      exact ⟨O2, c2, it2, h2, hinv2, fun h => by have := hlt h; omega⟩

theorem drawFourRat_posDef : IsPosDef 4 drawFourRat.coeff := by
  intro x hx
  have hq : bilForm 4 drawFourRat.coeff x x
      = (x 0 + x 1 + x 3) ^ 2 + (x 1 + x 2) ^ 2 + (x 2 + x 3) ^ 2 + x 3 ^ 2 := by
    unfold bilForm
    simp only [Finset.sum_range_succ, Finset.sum_range_zero, drawFourRat]
    norm_num
    ring
  rw [hq]
  obtain ⟨r, hr, hxr⟩ := hx
  by_contra hneg
  have h0 : 0 ≤ (x 0 + x 1 + x 3) ^ 2 := sq_nonneg _
  have h1 : 0 ≤ (x 1 + x 2) ^ 2 := sq_nonneg _
  have h2 : 0 ≤ (x 2 + x 3) ^ 2 := sq_nonneg _
  have h3 : 0 ≤ x 3 ^ 2 := sq_nonneg _
  have e3 : x 3 ^ 2 = 0 := by linarith
  have e2 : (x 2 + x 3) ^ 2 = 0 := by linarith
  have e1 : (x 1 + x 2) ^ 2 = 0 := by linarith
  have e0 : (x 0 + x 1 + x 3) ^ 2 = 0 := by linarith
  have a3 : x 3 = 0 := pow_eq_zero_iff (by norm_num) |>.mp e3
  have a2 : x 2 + x 3 = 0 := pow_eq_zero_iff (by norm_num) |>.mp e2
  have a1 : x 1 + x 2 = 0 := pow_eq_zero_iff (by norm_num) |>.mp e1
  have a0 : x 0 + x 1 + x 3 = 0 := pow_eq_zero_iff (by norm_num) |>.mp e0
  have b2 : x 2 = 0 := by linarith
  have b1 : x 1 = 0 := by linarith
  have b0 : x 0 = 0 := by linarith
  interval_cases r
  · exact hxr b0
  · exact hxr b1
  · exact hxr b2
  · exact hxr a3

theorem cramerSolve_exactOnPosDef : ExactOnPosDef cramerSolve 2 := by
  intro M rhs _ hc hsym hpd r hr
  have h11 : 0 < M.coeff 1 1 := IsPosDef.diag_pos 2 M.coeff hpd 1 (by omega)
  have hq := hpd (fun r => if r = 0 then M.coeff 1 1 else if r = 1 then - M.coeff 0 1 else 0)
    ⟨0, by omega, by simpa using ne_of_gt h11⟩
  unfold bilForm at hq
  simp only [Finset.sum_range_succ, Finset.sum_range_zero] at hq
  norm_num at hq
  have h10 : M.coeff 1 0 = M.coeff 0 1 := hsym 1 0
  rw [h10] at hq
  have hdet : M.coeff 0 0 * M.coeff 1 1 - M.coeff 0 1 * M.coeff 1 0 ≠ 0 := by
    rw [h10]
    have : 0 < M.coeff 1 1 * (M.coeff 0 0 * M.coeff 1 1 - M.coeff 0 1 * M.coeff 0 1) := by
      nlinarith
    exact ne_of_gt ((mul_pos_iff_of_pos_left h11).mp this)
  obtain ⟨e0, e1⟩ := cramerSolve_exact M rhs hdet hc
  simp only [Finset.sum_range_succ, Finset.sum_range_zero, zero_add]
  interval_cases r
  · exact e0
  · exact e1

theorem graphFourCycle_nbd : IsGraphNbd 4 graphFourCycle.completeview.view.get_nbd := by
  intro j hj
  interval_cases j
  · exact ⟨[2, 3], by rfl, by decide, by decide⟩
  · exact ⟨[2, 3], by rfl, by decide, by decide⟩
  · exact ⟨[0, 1], by rfl, by decide, by decide⟩
  · exact ⟨[0, 1], by rfl, by decide, by decide⟩

/-- C24: the matrix that `rgwish_core` returns is symmetric positive definite, and its
zeros in the last column are exact.  Exact arithmetic: the scalars are an ordered field, the
draw `K0` of step 1 is symmetric positive definite, `Sigma`, the solve of the draw against
the identity, is the `N × N` inverse of the draw, and the solver of the node updates is
exact on the symmetric positive definite systems of the sizes of the neighbour lists.  The
graph has `N` nodes (an `unsigned int`) and the neighbour lists of an undirected graph.
For a complete graph `rgwish_core` returns the draw itself with `converged = true`.
Otherwise, for every threshold and every `max_iter`, the loop ends without an invalid
operation with a state `(Omega, converged, it)`, `rgwish_core` returns the solve `K` of the
symmetric matrix of `Omega` against the identity with `converged` and `it`, and
(1) the symmetric matrix of `Omega` is positive definite and has the entries of `Sigma` on
the diagonal and at the links of the graph;
(2) `converged = true` only after at least one sweep;
(3) when the last solve is exact too (`K` is the inverse of the symmetric matrix of
`Omega`), `K` is symmetric and positive definite, and after at least one sweep
`K(j, N-1) = 0` for every node `j` that is not a neighbour of the last node `N-1`,
whatever the threshold. -/
theorem rgwish_core_output_posDef {R E : Type} [LinearOrderedField R]
    (rwish : isChol → E → R → MatD R → MatD R × E) (inv fin : MatD R → Nat → MatD R)
    (llt_solve : MatD R → MatD R → MatD R) (form : ScaleForm) (G : GraphView) (b : R)
    (D : MatD R) (threshold : R) (engine : E) (max_iter : Nat) (draw : MatD R × E)
    (Sigma : MatD R)
    (hD : D.rows = D.cols) (hGD : G.get_size = D.rows) (hN : G.get_size ≤ 4294967296)
    (hG : IsGraphNbd G.get_size G.get_nbd)
    (hdraw : rgwish_core_draw (eigenKernel rwish inv llt_solve fin) form G.get_size engine b D
      = draw)
    (hKs : ∀ r, r < G.get_size → ∀ c, c < G.get_size → draw.1.coeff r c = draw.1.coeff c r)
    (hKpd : IsPosDef G.get_size draw.1.coeff)
    (hSigma : inv draw.1 G.get_size = Sigma)
    (hS : Sigma.rows = G.get_size ∧ Sigma.cols = G.get_size)
    (hSinv : ∀ r, r < G.get_size → ∀ c, c < G.get_size →
      (Finset.range G.get_size).sum (fun k => Sigma.coeff r k * draw.1.coeff k c)
        = if r = c then 1 else 0)
    (hsolve : ∀ M rhs : MatD R,
      (llt_solve M rhs).rows = M.cols ∧ (llt_solve M rhs).cols = rhs.cols)
    (hexact : ∀ j, j < G.get_size → ∀ l, Neighbourhood.find G.get_nbd j = some l →
      ExactOnPosDef llt_solve l.length) :
    (G.get_n_links = G.get_possible_links →
      rgwish_core (eigenKernel rwish inv llt_solve fin) form G b D threshold engine max_iter
        = (.ok (draw.1, true, 0), draw.2)) ∧
    (G.get_n_links ≠ G.get_possible_links →
      ∃ Omega converged it,
        rgwish_loop (eigenKernel rwish inv llt_solve fin) G.get_size G.get_nbd Sigma threshold
          max_iter (Sigma, false, 0) = .ok (Omega, converged, it) ∧
        rgwish_core (eigenKernel rwish inv llt_solve fin) form G b D threshold engine
          max_iter = (.ok (fin Omega G.get_size, converged, it), draw.2) ∧
        SweepInvariant G.get_size G.get_nbd Sigma Omega ∧
        (converged = true → 1 ≤ it) ∧
        (IsLeftInverseSym G.get_size (fin Omega G.get_size) Omega →
          (∀ r, r < G.get_size → ∀ c, c < G.get_size →
            (fin Omega G.get_size).coeff r c = (fin Omega G.get_size).coeff c r) ∧
          IsPosDef G.get_size (fin Omega G.get_size).coeff ∧
          (1 ≤ it → ∀ nbd_last,
            Neighbourhood.find G.get_nbd (G.get_size - 1) = some nbd_last →
            ∀ j, j < G.get_size - 1 → j ∉ nbd_last →
              (fin Omega G.get_size).coeff j (G.get_size - 1) = 0))) := by
  constructor
  · intro hlinks
    unfold rgwish_core
    rw [if_neg (not_not.mpr hD), if_neg (not_not.mpr hGD)]
    simp only []
    rw [if_pos hlinks, hdraw]
  intro hlinks
  obtain ⟨hSs, hSpd⟩ := left_inverse_posDef G.get_size Sigma.coeff draw.1.coeff hKs hKpd hSinv
  have hinv0 : SweepInvariant G.get_size G.get_nbd Sigma Sigma := by
    refine ⟨hS.1, hS.2, ?_, fun _ _ => rfl, ?_⟩
    · apply IsPosDef.congr G.get_size Sigma.coeff (symUpper Sigma) _ hSpd
      intro r c hr hc
      unfold symUpper
      split_ifs
      · rfl
      · exact hSs r hr c hc
    · intro j hj l hl n hn
      obtain ⟨l2, hf2, _, hl2⟩ := hG j hj
      rw [hl] at hf2
      injection hf2 with hf2
      subst hf2
      unfold symUpper
      split_ifs
      · rfl
      · exact hSs j hj n (hl2 n hn).1
  obtain ⟨Omega, converged, it, hloop, hinv, hconv⟩ := rgwish_loop_invariant rwish inv fin
    llt_solve G.get_size G.get_nbd Sigma threshold hN hS hSs hG hsolve hexact max_iter Sigma 0
    hinv0
  refine ⟨Omega, converged, it, hloop, ?_, hinv, fun h => by have := hconv h; omega, ?_⟩
  · unfold rgwish_core
    rw [if_neg (not_not.mpr hD), if_neg (not_not.mpr hGD)]
    simp only []
    rw [if_neg hlinks, hdraw]
    have e1 : (eigenKernel rwish inv llt_solve fin).llt_solve_identity = inv := rfl
    rw [e1, hSigma, hloop]
    rfl
  · intro hK
    obtain ⟨hsym, hpdK⟩ := left_inverse_posDef G.get_size (fin Omega G.get_size).coeff
      (symUpper Omega) (fun r _ c _ => symUpper_symm Omega r c) hinv.2.2.1 hK
    refine ⟨hsym, hpdK, ?_⟩
    intro hit nbd_last hfind j hj hjn
    have hN1 : 1 ≤ G.get_size := by omega
    obtain ⟨l2, hf2, _, hl2⟩ := hG (G.get_size - 1) (by omega)
    rw [hfind] at hf2
    injection hf2 with hf2
    subst hf2
    rcases rgwish_loop_last_sweep (eigenKernel rwish inv llt_solve fin) G.get_size G.get_nbd
      Sigma threshold (fun O : MatD R => O.rows = G.get_size ∧ O.cols = G.get_size)
      (fun Om O1 hP hs => rgwish_sweep_dims rwish inv fin llt_solve G.get_size G.get_nbd
        Sigma Om O1 hP hs)
      max_iter Sigma 0 (Omega, converged, it) hS hloop with h | ⟨Oprev, O1, hP, hs, hres⟩
    · injection h with _ h
      injection h with _ h
      omega
    · simp only at hres
      subst hres
      exact last_node_zero_pattern rwish inv fin llt_solve G.get_size G.get_nbd Sigma Oprev O1
        (fin (MatD.copyUpperToLower O1) G.get_size) nbd_last hN1 hN hP hS hsolve hfind
        (fun n hn => ⟨(hl2 n hn).1, (hl2 n hn).2.1⟩) hs hK j hj hjn

set_option maxRecDepth 100000 in
/-- Witness of C24: the run on the four-cycle `0 - 2 - 1 - 3 - 0` with the draw
`drawFourRat`, exact rational arithmetic and the threshold `1/10`.  The matrix
`precisionFourRat` that the run returns is symmetric and positive definite, and its entry
`(2,3)` is zero: the node `2` is not a neighbour of the last node `3`. -/
theorem rgwish_core_output_posDef_witness :
    (∀ r, r < 4 → ∀ c, c < 4 → precisionFourRat.coeff r c = precisionFourRat.coeff c r) ∧
    IsPosDef 4 precisionFourRat.coeff ∧ precisionFourRat.coeff 2 (4 - 1) = 0 := by
  obtain ⟨Omega, converged, it, hloop, _, _, _, himp⟩ := (rgwish_core_output_posDef
    (fun _ engine _ _ => (drawFourRat, engine + 1)) (fun _ _ => sigmaFourRat)
    (fun _ _ => precisionFourRat) cramerSolve ScaleForm.Scale
    graphFourCycle.completeview.view 3 identityFourRat (1 / 10) (0 : Nat) 500
    (drawFourRat, 1) sigmaFourRat
    rfl rfl (by decide) graphFourCycle_nbd (by rfl) (by with_unfolding_all decide)
    drawFourRat_posDef rfl ⟨rfl, rfl⟩ (by with_unfolding_all decide)
    (fun _ _ => ⟨rfl, rfl⟩)
    (by
      intro j hj l hl
      have hj4 : j < 4 := hj
      have h2 : l.length = 2 := by
        clear hj
        interval_cases j
        · have e : Neighbourhood.find graphFourCycle.completeview.view.get_nbd 0
              = some [2, 3] := by rfl
          rw [e] at hl
          injection hl with hl
          rw [← hl]
          rfl
        · have e : Neighbourhood.find graphFourCycle.completeview.view.get_nbd 1
              = some [2, 3] := by rfl
          rw [e] at hl
          injection hl with hl
          rw [← hl]
          rfl
        · have e : Neighbourhood.find graphFourCycle.completeview.view.get_nbd 2
              = some [0, 1] := by rfl
          rw [e] at hl
          injection hl with hl
          rw [← hl]
          rfl
        · have e : Neighbourhood.find graphFourCycle.completeview.view.get_nbd 3
              = some [0, 1] := by rfl
          rw [e] at hl
          injection hl with hl
          rw [← hl]
          rfl
      rw [h2]
      exact cramerSolve_exactOnPosDef)).2 (by decide)
  have hmap : (rgwish_loop exampleCycleKernel 4 graphFourCycle.completeview.view.get_nbd
      sigmaFourRat (1 / 10) 500 (sigmaFourRat, false, 0)).map
      (fun st : MatD Rat × Bool × Nat => st.2) = .ok (true, 1) := by
    with_unfolding_all decide
  have hchk : (rgwish_loop exampleCycleKernel 4 graphFourCycle.completeview.view.get_nbd
      sigmaFourRat (1 / 10) 500 (sigmaFourRat, false, 0)).map
      (fun st : MatD Rat × Bool × Nat =>
        decide (IsLeftInverseSym 4 precisionFourRat st.1)) = .ok true := by
    with_unfolding_all decide
  have hloop2 : rgwish_loop exampleCycleKernel 4 graphFourCycle.completeview.view.get_nbd
      sigmaFourRat (1 / 10) 500 (sigmaFourRat, false, 0) = .ok (Omega, converged, it) := hloop
  rw [hloop2] at hmap hchk
  simp only [Except.map, Except.ok.injEq, Prod.mk.injEq, decide_eq_true_eq] at hmap hchk
  obtain ⟨hs, hp, hz⟩ := himp hchk
  refine ⟨hs, hp, ?_⟩
  exact hz (by omega) [0, 1] (by rfl) 2 (by decide) (by decide)

end utils

end BGSL
